import Mathlib

/-!
# go-study-plan

Shallow embedding of programs of the repository.

The goroutine programs (09-goroutines-basics, 10-concurrency-patterns,
17-context-timeout) are interleaving transition systems: every goroutine is a program
counter, every channel is its buffer (plus a closed flag), and one scheduler action runs
one statement of one goroutine.  `step` returns `none` when the chosen goroutine is
blocked or has finished; a schedule is a list of actions.

The sequential programs (07-sorting-searching, 08-recursion-dp, 12-unit-testing,
13-benchmarks, 15-linked-lists, 16-trees-graphs) are functions; a loop whose number of
iterations is not structural takes fuel and returns `none` when it runs out, as it does
for a panic.  A slice or a nil-terminated chain of nodes is the list of its values, a
string is the list of its bytes, and a map is an association list or the function that a
read of the map computes.

Go `int` is taken as 64-bit two's complement: arithmetic on values that depend on an
`int` argument wraps around; indices and counters bounded by the length of a slice are
exact.  A `make` whose length depends on an `int` argument returns only within the limit
of the runtime on one allocation and the memory of the machine, which is a parameter.
-/

namespace GoStudyPlan

/-- Wrap an exact integer into the range of a 64-bit Go `int`. -/
def wrapInt (x : Int) : Int := (x + 2 ^ 63) % 2 ^ 64 - 2 ^ 63

/-- Go `a * b` on `int`. -/
def mulInt (a b : Int) : Int := wrapInt (a * b)

/-- The limit of the Go runtime on the size of one allocation (`maxAlloc`): `2 ^ 48` bytes
on a 64-bit platform with 48 address bits, such as linux/amd64. -/
def maxAlloc : Int := 2 ^ 48

/-- Whether `make([]T, len)` returns a slice, for elements of `size` bytes on a machine
that can allocate `avail` bytes: the runtime panics ("len out of range") when `len` is
negative or `len * size` exceeds `maxAlloc`, and the allocation fails when the memory is
not there. -/
def makeReturns (avail size len : Int) : Bool :=
  decide (0 ≤ len ∧ len * size ≤ maxAlloc ∧ len * size ≤ avail)

/-! ## boundedParallelism (main.go lines 112-154) -/

namespace BoundedParallelism

/-- The local type `jobResult` of `boundedParallelism`. -/
structure JobResult where
  index : Nat
  value : Int
deriving DecidableEq, Repr

/-- Program points of one worker goroutine (lines 126-138). -/
inductive WorkerPc where
  /-- line 130: about to send on `semaphore` -/
  | acquire
  /-- lines 134-137: slot held; computes `value * value`, then sends on `jobCh` -/
  | process
  /-- line 131, deferred second so run first: receive from `semaphore` -/
  | release
  /-- line 127, deferred first so run last: `wg.Done()` -/
  | wgDone
  | exited
deriving DecidableEq, Repr

/-- One worker goroutine: the closure arguments `(index, value)` and its program point. -/
structure Worker where
  index : Nat
  value : Int
  pc : WorkerPc
deriving DecidableEq, Repr

/-- Program points of the calling goroutine. -/
inductive MainPc where
  /-- line 124: head of `for i, job := range jobs` with `i = k` -/
  | spawn (k : Nat)
  /-- line 142: `go func() { wg.Wait(); close(jobCh) }()` -/
  | startCloser
  /-- line 148: `results := make([]int, len(jobs))` -/
  | alloc
  /-- line 149: `for result := range jobCh` -/
  | collect
  /-- line 153 -/
  | returned
deriving DecidableEq, Repr

/-- Program points of the goroutine of lines 142-145. -/
inductive CloserPc where
  | notStarted
  /-- line 143: `wg.Wait()` -/
  | wait
  /-- line 144: `close(jobCh)` -/
  | close
  | exited
deriving DecidableEq, Repr

/-- Global state of one call of `boundedParallelism`.
`held` is `len(semaphore)`, `jobCh` the buffer of the result channel,
`received` the log of the values the collector loop has received. -/
structure State where
  main : MainPc
  workers : List Worker
  closer : CloserPc
  wg : Nat
  held : Nat
  jobCh : List JobResult
  jobChClosed : Bool
  results : List Int
  received : List JobResult
deriving DecidableEq, Repr

/-- Scheduler choice: which goroutine runs its next statement. -/
inductive Action where
  | main
  | closer
  | worker (i : Nat)
deriving DecidableEq, Repr

/-- State at entry, after lines 119-123 (both channels empty, counter zero). -/
def init : State :=
  { main := .spawn 0, workers := [], closer := .notStarted, wg := 0, held := 0,
    jobCh := [], jobChClosed := false, results := [], received := [] }

/-- One step of the calling goroutine.  An iteration of the loop of lines 124-139 is one
step: `wg.Add(1)` and the `go` statement run back to back, and nothing reads the counter
before the goroutine of line 142 exists.  A receive from `jobCh` stores the value at
`results[result.index]` (line 150). -/
def stepMain (jobs : List Int) (s : State) : Option State :=
  match s.main with
  | .spawn k =>
    match jobs[k]? with
    | some job =>
      some { s with wg := s.wg + 1, workers := s.workers ++ [⟨k, job, .acquire⟩],
                    main := .spawn (k + 1) }
    | none => some { s with main := .startCloser }
  | .startCloser => some { s with closer := .wait, main := .alloc }
  | .alloc => some { s with results := List.replicate jobs.length 0, main := .collect }
  | .collect =>
    match s.jobCh with
    | r :: rest =>
      some { s with jobCh := rest, results := s.results.set r.index r.value,
                    received := s.received ++ [r] }
    | [] => if s.jobChClosed then some { s with main := .returned } else none
  | .returned => none

/-- One statement of the closing goroutine. -/
def stepCloser (s : State) : Option State :=
  match s.closer with
  | .wait => if s.wg = 0 then some { s with closer := .close } else none
  | .close => some { s with jobChClosed := true, closer := .exited }
  | .notStarted => none
  | .exited => none

/-- One statement of worker `i`.  The send on `semaphore` (capacity `maxWorkers`)
is enabled while `held < maxWorkers`; the send on `jobCh` (capacity `len(jobs)`)
while the buffer is not full; the receive from `semaphore` while it holds a value;
`wg.Done()` while the counter is positive. -/
def stepWorker (jobs : List Int) (maxWorkers : Nat) (s : State) (i : Nat) : Option State :=
  match s.workers[i]? with
  | none => none
  | some w =>
    match w.pc with
    | .acquire =>
      if s.held < maxWorkers then
        some { s with held := s.held + 1, workers := s.workers.set i { w with pc := .process } }
      else none
    | .process =>
      if s.jobCh.length < jobs.length then
        some { s with jobCh := s.jobCh ++ [⟨w.index, mulInt w.value w.value⟩],
                      workers := s.workers.set i { w with pc := .release } }
      else none
    | .release =>
      if 0 < s.held then
        some { s with held := s.held - 1, workers := s.workers.set i { w with pc := .wgDone } }
      else none
    | .wgDone =>
      if 0 < s.wg then
        some { s with wg := s.wg - 1, workers := s.workers.set i { w with pc := .exited } }
      else none
    | .exited => none

/-- One scheduler step. -/
def step (jobs : List Int) (maxWorkers : Nat) (s : State) : Action → Option State
  | .main => stepMain jobs s
  | .closer => stepCloser s
  | .worker i => stepWorker jobs maxWorkers s i

/-- Run a schedule; `none` when some chosen goroutine could not move. -/
def run (jobs : List Int) (maxWorkers : Nat) : State → List Action → Option State
  | s, [] => some s
  | s, a :: rest => (step jobs maxWorkers s a).bind (fun t => run jobs maxWorkers t rest)

/-- Program points at which a worker holds a semaphore slot (lines 131-137). -/
def WorkerPc.holdsSlot : WorkerPc → Bool
  | .process => true
  | .release => true
  | _ => false

/-- Program points at which a worker executes the job body (lines 134-137). -/
def WorkerPc.inBody : WorkerPc → Bool
  | .process => true
  | _ => false

/-- Program points after the send on `jobCh` (line 137). -/
def WorkerPc.delivered : WorkerPc → Bool
  | .release => true
  | .wgDone => true
  | .exited => true
  | _ => false

/-- Program points before `wg.Done()` has run. -/
def WorkerPc.live : WorkerPc → Bool
  | .exited => false
  | _ => true

/-- Number of workers that hold a semaphore slot. -/
def holding (s : State) : Nat := (s.workers.filter (fun w => w.pc.holdsSlot)).length

/-- Number of workers executing the job body. -/
def inBody (s : State) : Nat := (s.workers.filter (fun w => w.pc.inBody)).length

/-- Number of started workers that have not yet called `wg.Done()`. -/
def live (s : State) : Nat := (s.workers.filter (fun w => w.pc.live)).length

/-- Progress rank of a worker program point. -/
def WorkerPc.rank : WorkerPc → Nat
  | .acquire => 8
  | .process => 6
  | .release => 4
  | .wgDone => 2
  | .exited => 0

/-- Progress rank of the calling goroutine. -/
def MainPc.rank (n : Nat) : MainPc → Nat
  | .spawn k => 10 * (n - k) + 7
  | .startCloser => 6
  | .alloc => 2
  | .collect => 1
  | .returned => 0

/-- Progress rank of the closing goroutine. -/
def CloserPc.rank : CloserPc → Nat
  | .notStarted => 3
  | .wait => 2
  | .close => 1
  | .exited => 0

/-- Termination measure: strictly decreases on every step. -/
def measure (jobs : List Int) (s : State) : Nat :=
  s.main.rank jobs.length + s.closer.rank + (s.workers.map (fun w => w.pc.rank)).sum
    + s.jobCh.length

/-- Inductive invariant of `boundedParallelism`. -/
structure Inv (jobs : List Int) (maxWorkers : Nat) (s : State) : Prop where
  len_le : s.workers.length ≤ jobs.length
  main_spawn : ∀ k, s.main = .spawn k → s.workers.length = k
  main_rest : (∀ k, s.main ≠ .spawn k) → s.workers.length = jobs.length
  args : ∀ (i : Nat) (w : Worker), s.workers[i]? = some w → w.index = i ∧ jobs[i]? = some w.value
  wg_eq : s.wg = live s
  held_eq : s.held = holding s
  held_le : s.held ≤ maxWorkers
  closer_ns : s.closer = .notStarted ↔ (s.main = .startCloser ∨ ∃ k, s.main = .spawn k)
  closer_done : (s.closer = .close ∨ s.closer = .exited) → ∀ w ∈ s.workers, w.pc = .exited
  closed_iff : s.jobChClosed = true ↔ s.closer = .exited
  res_len : (s.main = .collect ∨ s.main = .returned) → s.results.length = jobs.length
  recv_nil : s.main ≠ .collect → s.main ≠ .returned → s.received = []
  sent_nodup : ((s.received ++ s.jobCh).map JobResult.index).Nodup
  sent_sound : ∀ r ∈ s.received ++ s.jobCh, ∃ w, s.workers[r.index]? = some w ∧
    w.pc.delivered = true ∧ r.value = mulInt w.value w.value
  sent_complete : ∀ (i : Nat) (w : Worker), s.workers[i]? = some w → w.pc.delivered = true →
    ∃ r ∈ s.received ++ s.jobCh, r.index = i
  res_val : ∀ r ∈ s.received, s.results[r.index]? = some r.value
  ret : s.main = .returned → s.jobCh = [] ∧ s.jobChClosed = true

/-- A schedule of `boundedParallelism([10,20,30,40,50], 2)` in which the workers finish in
the order 1, 4, 0, 3, 2. -/
def demoSchedule : List Action :=
  [.main, .main, .main, .worker 1, .worker 0, .main, .main, .main, .main, .main,
   .worker 1, .worker 1, .worker 4, .main, .worker 4, .worker 0, .worker 1, .worker 0,
   .worker 3, .worker 4, .worker 0, .worker 2, .worker 3, .worker 2, .main, .main,
   .worker 3, .worker 4, .worker 3, .worker 2, .main, .worker 2, .closer, .closer,
   .main, .main]

/-- The state `demoSchedule` ends in. -/
def demoFinal : State :=
  { main := .returned,
    workers := [⟨0, 10, .exited⟩, ⟨1, 20, .exited⟩, ⟨2, 30, .exited⟩, ⟨3, 40, .exited⟩,
      ⟨4, 50, .exited⟩],
    closer := .exited, wg := 0, held := 0, jobCh := [], jobChClosed := true,
    results := [100, 400, 900, 1600, 2500],
    received := [⟨1, 400⟩, ⟨4, 2500⟩, ⟨0, 100⟩, ⟨3, 1600⟩, ⟨2, 900⟩] }

/-- A schedule of three jobs with two slots: workers 2 and 0 acquire, worker 1 must wait. -/
def fullSchedule : List Action := [.main, .main, .main, .worker 2, .worker 0]

/-- The state `fullSchedule` ends in. -/
def fullState : State :=
  { main := .spawn 3,
    workers := [⟨0, 10, .process⟩, ⟨1, 20, .acquire⟩, ⟨2, 30, .process⟩],
    closer := .notStarted, wg := 3, held := 2, jobCh := [], jobChClosed := false,
    results := [], received := [] }

/-- A schedule of one job in which the worker finishes and the channel is closed before
the caller has reached its collector loop. -/
def closeFirstSchedule : List Action :=
  [.main, .main, .main, .worker 0, .worker 0, .worker 0, .worker 0, .closer, .closer]

/-- The state `closeFirstSchedule` ends in. -/
def closeFirstState : State :=
  { main := .alloc, workers := [⟨0, 10, .exited⟩], closer := .exited, wg := 0, held := 0,
    jobCh := [⟨0, 100⟩], jobChClosed := true, results := [], received := [] }

end BoundedParallelism

/-! ## fanIn (main.go lines 57-80) -/

namespace FanIn

/-- Program points of the goroutine started for one input channel (lines 65-70). -/
inductive FwdPc where
  /-- the loop at line 63 has not reached this channel yet -/
  | notStarted
  /-- line 67: `for value := range c`, waiting to receive -/
  | recv
  /-- line 68: `out <- value` -/
  | send (value : Int)
  /-- line 66, deferred: `wg.Done()` -/
  | wgDone
  | exited
deriving DecidableEq, Repr

/-- One input channel together with its producer and the goroutine `fanIn` starts for it.
`pending` are the items the producer has still to send, `buf` the items sent on the channel
and not yet received (a rendezvous on an unbuffered channel is a `produce` followed at once
by the receive), `closed` whether the producer has closed the channel. -/
structure Lane where
  pending : List Int
  buf : List Int
  closed : Bool
  fwd : FwdPc
deriving DecidableEq, Repr

/-- Program points of the goroutine that calls `fanIn`. -/
inductive MainPc where
  /-- line 63: head of `for _, ch := range channels`, at channel `k`; the body is
  `wg.Add(1)` followed by the `go` statement -/
  | spawn (k : Nat)
  /-- line 74: `go func() { wg.Wait(); close(out) }()` followed by `return out` -/
  | startCloser
  | returned
deriving DecidableEq, Repr

/-- Program points of the goroutine of lines 74-77. -/
inductive CloserPc where
  | notStarted
  /-- line 75: `wg.Wait()` -/
  | wait
  /-- line 76: `close(out)` -/
  | close
  | exited
deriving DecidableEq, Repr

/-- Global state of one call of `fanIn`.  `out` is unbuffered, so a send on it completes
together with the receive of the reader of the merged stream: `emitted` is the log of the
values so delivered, each tagged with the index of the input channel it came from. -/
structure State where
  main : MainPc
  lanes : List Lane
  closer : CloserPc
  wg : Nat
  emitted : List (Nat × Int)
  outClosed : Bool
deriving DecidableEq, Repr

/-- Scheduler choice: a goroutine of `fanIn`, or the producer of input channel `i`
sending its next item or closing the channel. -/
inductive Action where
  | main
  | closer
  | fwd (i : Nat)
  | produce (i : Nat)
  | closeInput (i : Nat)
deriving DecidableEq, Repr

/-- State at entry: input channel `i` will deliver `chans[i]` and then be closed. -/
def init (chans : List (List Int)) : State :=
  { main := .spawn 0,
    lanes := chans.map (fun xs => { pending := xs, buf := [], closed := false,
                                    fwd := .notStarted }),
    closer := .notStarted, wg := 0, emitted := [], outClosed := false }

/-- One iteration of the loop of lines 63-71, or lines 74-79 after it. -/
def stepMain (s : State) : Option State :=
  match s.main with
  | .spawn k =>
    match s.lanes[k]? with
    | some ln =>
      some { s with wg := s.wg + 1, lanes := s.lanes.set k { ln with fwd := .recv },
                    main := .spawn (k + 1) }
    | none => some { s with main := .startCloser }
  | .startCloser => some { s with closer := .wait, main := .returned }
  | .returned => none

/-- One statement of the closing goroutine. -/
def stepCloser (s : State) : Option State :=
  match s.closer with
  | .wait => if s.wg = 0 then some { s with closer := .close } else none
  | .close => some { s with outClosed := true, closer := .exited }
  | .notStarted => none
  | .exited => none

/-- One statement of the goroutine of input channel `i`. -/
def stepFwd (s : State) (i : Nat) : Option State :=
  match s.lanes[i]? with
  | none => none
  | some ln =>
    match ln.fwd with
    | .notStarted => none
    | .recv =>
      match ln.buf with
      | v :: rest => some { s with lanes := s.lanes.set i { ln with buf := rest, fwd := .send v } }
      | [] =>
        if ln.closed then some { s with lanes := s.lanes.set i { ln with fwd := .wgDone } }
        else none
    | .send v =>
      some { s with emitted := s.emitted ++ [(i, v)],
                    lanes := s.lanes.set i { ln with fwd := .recv } }
    | .wgDone =>
      if 0 < s.wg then
        some { s with wg := s.wg - 1, lanes := s.lanes.set i { ln with fwd := .exited } }
      else none
    | .exited => none

/-- The producer of input channel `i` sends its next item. -/
def stepProduce (s : State) (i : Nat) : Option State :=
  match s.lanes[i]? with
  | none => none
  | some ln =>
    if ln.closed then none
    else
      match ln.pending with
      | v :: rest =>
        some { s with lanes := s.lanes.set i { ln with pending := rest, buf := ln.buf ++ [v] } }
      | [] => none

/-- The producer of input channel `i` closes it after its last item. -/
def stepCloseInput (s : State) (i : Nat) : Option State :=
  match s.lanes[i]? with
  | none => none
  | some ln =>
    if ln.closed then none
    else
      match ln.pending with
      | [] => some { s with lanes := s.lanes.set i { ln with closed := true } }
      | _ :: _ => none

/-- One scheduler step. -/
def step (s : State) : Action → Option State
  | .main => stepMain s
  | .closer => stepCloser s
  | .fwd i => stepFwd s i
  | .produce i => stepProduce s i
  | .closeInput i => stepCloseInput s i

/-- Run a schedule; `none` when some chosen action was not enabled. -/
def run : State → List Action → Option State
  | s, [] => some s
  | s, a :: rest => (step s a).bind (fun t => run t rest)

/-- Values delivered on `out` that came from input channel `i`, in delivery order. -/
def emittedFrom (s : State) (i : Nat) : List Int :=
  (s.emitted.filter (fun e => e.1 == i)).map (fun e => e.2)

/-- The value a goroutine has received and not yet sent on. -/
def FwdPc.inflight : FwdPc → List Int
  | .send v => [v]
  | _ => []

/-- Program points before `wg.Done()` has run. -/
def FwdPc.live : FwdPc → Bool
  | .notStarted => false
  | .exited => false
  | _ => true

/-- Program points after the `range` loop. -/
def FwdPc.finished : FwdPc → Bool
  | .wgDone => true
  | .exited => true
  | _ => false

/-- Progress rank of a goroutine program point. -/
def FwdPc.rank : FwdPc → Nat
  | .notStarted => 2
  | .recv => 2
  | .send _ => 3
  | .wgDone => 1
  | .exited => 0

/-- Progress rank of a lane. -/
def Lane.rank (ln : Lane) : Nat :=
  3 * ln.pending.length + 2 * ln.buf.length + (if ln.closed then 0 else 1) + ln.fwd.rank

/-- Progress rank of the calling goroutine over `n` channels. -/
def MainPc.rank (n : Nat) : MainPc → Nat
  | .spawn k => 3 * (n - k) + 4
  | .startCloser => 3
  | .returned => 0

/-- Progress rank of the closing goroutine. -/
def CloserPc.rank : CloserPc → Nat
  | .notStarted => 0
  | .wait => 2
  | .close => 1
  | .exited => 0

/-- Termination measure: strictly decreases on every step. -/
def measure (s : State) : Nat :=
  s.main.rank s.lanes.length + s.closer.rank + (s.lanes.map Lane.rank).sum

/-- What one lane must satisfy: input `chan` is split, in order, into the part already
delivered on `out`, the item in flight, the channel buffer and the part not yet sent. -/
structure LaneOk (chan : List Int) (delivered : List Int) (ln : Lane) : Prop where
  content : chan = delivered ++ ln.fwd.inflight ++ ln.buf ++ ln.pending
  closed_pending : ln.closed = true → ln.pending = []
  finished_drained : ln.fwd.finished = true → ln.closed = true ∧ ln.buf = []

/-- Inductive invariant of `fanIn`. -/
structure Inv (chans : List (List Int)) (s : State) : Prop where
  len : s.lanes.length = chans.length
  lane_ok : ∀ (i : Nat) (ln : Lane), s.lanes[i]? = some ln →
    ∃ c, chans[i]? = some c ∧ LaneOk c (emittedFrom s i) ln
  started : ∀ (i : Nat) (ln : Lane), s.lanes[i]? = some ln →
    (ln.fwd = .notStarted ↔ ∃ k, s.main = .spawn k ∧ k ≤ i)
  wg_eq : s.wg = (s.lanes.filter (fun ln => ln.fwd.live)).length
  closer_ns : s.closer = .notStarted ↔ s.main ≠ .returned
  closer_done : (s.closer = .close ∨ s.closer = .exited) →
    ∀ (i : Nat) (ln : Lane), s.lanes[i]? = some ln → ln.fwd = .exited
  closed_iff : s.outClosed = true ↔ s.closer = .exited
  tags : ∀ e ∈ s.emitted, e.1 < s.lanes.length

/-- A schedule over the inputs `[[1,2],[3]]`: input 1 is closed and drained first, then
input 0 delivers its items and is closed, then `out` is closed. -/
def staggeredSchedule : List Action :=
  [.main, .main, .main, .main, .produce 1, .fwd 1, .closeInput 1, .fwd 1, .fwd 1, .fwd 1,
   .produce 0, .fwd 0, .fwd 0, .produce 0, .closeInput 0, .fwd 0, .fwd 0, .fwd 0, .fwd 0,
   .closer, .closer]

/-- The first ten actions of `staggeredSchedule`: input 1 is closed and drained, its
goroutine has exited, input 0 has delivered nothing yet. -/
def staggeredPrefix : List Action := staggeredSchedule.take 10

/-- The state `staggeredPrefix` ends in. -/
def staggeredMid : State :=
  { main := .returned,
    lanes := [⟨[1, 2], [], false, .recv⟩, ⟨[], [], true, .exited⟩],
    closer := .wait, wg := 1, emitted := [(1, 3)], outClosed := false }

/-- The state `staggeredSchedule` ends in. -/
def staggeredFinal : State :=
  { main := .returned,
    lanes := [⟨[], [], true, .exited⟩, ⟨[], [], true, .exited⟩],
    closer := .exited, wg := 0, emitted := [(1, 3), (0, 1), (0, 2)], outClosed := true }

end FanIn

/-! ## generator, worker, fanOut (main.go lines 10-20, 35-55) -/

namespace FanOut

/-- Program points of one `worker` goroutine (lines 46-53). -/
inductive WorkerPc where
  /-- line 48: `for job := range in`, waiting to receive -/
  | recv
  /-- lines 49-51: has `job`, about to send `job * 2` on `out` -/
  | send (job : Int)
  /-- line 47, deferred: `close(out)` -/
  | closeOut
  | exited
deriving DecidableEq, Repr

/-- One `worker` goroutine with its own output channel.  The channel is unbuffered, so
a send completes together with the receive of its reader: `out` is the log of values so
delivered on it. -/
structure Worker where
  pc : WorkerPc
  out : List Int
  outClosed : Bool
deriving DecidableEq, Repr

/-- Program points of the goroutine that calls `fanOut`. -/
inductive MainPc where
  /-- line 38: head of `for i := 0; i < numWorkers; i++` with `i = k` -/
  | spawn (k : Nat)
  /-- line 41 -/
  | returned
deriving DecidableEq, Repr

/-- Global state of `fanOut(generator(xs...), numWorkers)`.  `gen` are the values the
generator goroutine has still to send on the unbuffered channel `in`, `inClosed` whether
it has closed `in` (line 14). -/
structure State where
  main : MainPc
  gen : List Int
  inClosed : Bool
  workers : List Worker
deriving DecidableEq, Repr

/-- Scheduler choice.  `deliver i` is the rendezvous on the unbuffered channel `in`
between the generator's send (line 16) and the receive of worker `i` (line 48). -/
inductive Action where
  | main
  | genClose
  | deliver (i : Nat)
  | worker (i : Nat)
deriving DecidableEq, Repr

/-- State after `generator(xs...)` has been called and `fanOut` entered. -/
def init (xs : List Int) : State :=
  { main := .spawn 0, gen := xs, inClosed := false, workers := [] }

/-- One iteration of the loop of lines 38-40 (`outs[i] = worker(i, in)` starts a
goroutine), or the return. -/
def stepMain (numWorkers : Nat) (s : State) : Option State :=
  match s.main with
  | .spawn k =>
    if k < numWorkers then
      some { s with workers := s.workers ++ [⟨.recv, [], false⟩], main := .spawn (k + 1) }
    else some { s with main := .returned }
  | .returned => none

/-- The generator leaves its loop and closes `in` (line 14, deferred). -/
def stepGenClose (s : State) : Option State :=
  match s.gen with
  | [] => if s.inClosed then none else some { s with inClosed := true }
  | _ :: _ => none

/-- The generator hands its next value to worker `i`, which is waiting at line 48. -/
def stepDeliver (s : State) (i : Nat) : Option State :=
  match s.gen with
  | [] => none
  | x :: rest =>
    match s.workers[i]? with
    | none => none
    | some w =>
      match w.pc with
      | .recv => some { s with gen := rest, workers := s.workers.set i { w with pc := .send x } }
      | _ => none

/-- One statement of worker `i` other than a receive of a value. -/
def stepWorker (s : State) (i : Nat) : Option State :=
  match s.workers[i]? with
  | none => none
  | some w =>
    match w.pc with
    | .recv =>
      if s.inClosed then some { s with workers := s.workers.set i { w with pc := .closeOut } }
      else none
    | .send job =>
      some { s with workers := s.workers.set i { w with pc := .recv, out := w.out ++ [mulInt job 2] } }
    | .closeOut =>
      some { s with workers := s.workers.set i { w with pc := .exited, outClosed := true } }
    | .exited => none

/-- One scheduler step. -/
def step (numWorkers : Nat) (s : State) : Action → Option State
  | .main => stepMain numWorkers s
  | .genClose => stepGenClose s
  | .deliver i => stepDeliver s i
  | .worker i => stepWorker s i

/-- Run a schedule; `none` when some chosen action was not enabled. -/
def run (numWorkers : Nat) : State → List Action → Option State
  | s, [] => some s
  | s, a :: rest => (step numWorkers s a).bind (fun t => run numWorkers t rest)

/-- The job a worker holds and has not yet sent on. -/
def WorkerPc.inflight : WorkerPc → List Int
  | .send job => [job]
  | _ => []

/-- Program points after the `range` loop. -/
def WorkerPc.finished : WorkerPc → Bool
  | .closeOut => true
  | .exited => true
  | _ => false

/-- Everything worker `w` has sent or is about to send on its `out`. -/
def Worker.items (w : Worker) : List Int :=
  w.out ++ w.pc.inflight.map (fun job => mulInt job 2)

/-- Progress rank of a worker program point. -/
def WorkerPc.rank : WorkerPc → Nat
  | .recv => 3
  | .send _ => 4
  | .closeOut => 1
  | .exited => 0

/-- Progress rank of a worker. -/
def Worker.rank (w : Worker) : Nat := w.pc.rank

/-- Progress rank of the calling goroutine. -/
def MainPc.rank (numWorkers : Nat) : MainPc → Nat
  | .spawn k => 4 * (numWorkers - k) + 1
  | .returned => 0

/-- Termination measure: strictly decreases on every step. -/
def measure (numWorkers : Nat) (s : State) : Nat :=
  s.main.rank numWorkers + 4 * s.gen.length + (if s.inClosed then 0 else 1)
    + (s.workers.map Worker.rank).sum

/-- Inductive invariant of `fanOut(generator(xs...), numWorkers)`. -/
structure Inv (xs : List Int) (numWorkers : Nat) (s : State) : Prop where
  len_le : s.workers.length ≤ numWorkers
  main_spawn : ∀ k, s.main = .spawn k → s.workers.length = k
  main_ret : s.main = .returned → s.workers.length = numWorkers
  closed_gen : s.inClosed = true → s.gen = []
  finished_closed : ∀ w ∈ s.workers, w.pc.finished = true → s.inClosed = true
  out_closed : ∀ w ∈ s.workers, (w.outClosed = true ↔ w.pc = .exited)
  content : ∃ pre, xs = pre ++ s.gen ∧
    ∀ v : Int, (s.workers.map (fun w => w.items.count v)).sum
      = (pre.map (fun x => mulInt x 2)).count v

/-- A schedule of `fanOut(generator(1, 2, 3), 2)`: worker 1 takes the first value,
worker 0 the other two. -/
def demoSchedule : List Action :=
  [.main, .main, .main, .deliver 1, .deliver 0, .worker 0, .deliver 0, .worker 1, .worker 0,
   .genClose, .worker 0, .worker 0, .worker 1, .worker 1]

/-- The state `demoSchedule` ends in. -/
def demoFinal : State :=
  { main := .returned, gen := [], inClosed := true,
    workers := [⟨.exited, [4, 6], true⟩, ⟨.exited, [2], true⟩] }

end FanOut

/-! ## square(generator(xs...)) read until closed (main.go lines 10-33, 82-92) -/

namespace Pipeline

/-- Program points of the goroutine of `square` (lines 25-31). -/
inductive SquarePc where
  /-- line 27: `for n := range in`, waiting to receive -/
  | recv
  /-- lines 28-29: has `n`, about to send `n * n` on `out` -/
  | send (n : Int)
  /-- line 26, deferred: `close(out)` -/
  | closeOut
  | exited
deriving DecidableEq, Repr

/-- Global state of the pipeline of `pipelineDemo`.  `gen` are the values the generator
has still to send on its unbuffered channel, `inClosed` whether it has closed it;
`received` are the values the reader loop of line 89 has received from `squared`,
`outClosed` whether `squared` is closed and `readerDone` whether the reader loop has
ended. -/
structure State where
  gen : List Int
  inClosed : Bool
  sq : SquarePc
  received : List Int
  outClosed : Bool
  readerDone : Bool
deriving DecidableEq, Repr

/-- Scheduler choice.  `deliver` is the rendezvous between the generator's send (line 16)
and the receive of `square` (line 27); the step of `square` at `send` is the rendezvous
between line 29 and the reader's receive. -/
inductive Action where
  | genClose
  | deliver
  | square
  | reader
deriving DecidableEq, Repr

/-- State after `square(generator(xs...))` has been built. -/
def init (xs : List Int) : State :=
  { gen := xs, inClosed := false, sq := .recv, received := [], outClosed := false,
    readerDone := false }

/-- One scheduler step. -/
def step (s : State) : Action → Option State
  | .genClose =>
    match s.gen with
    | [] => if s.inClosed then none else some { s with inClosed := true }
    | _ :: _ => none
  | .deliver =>
    match s.gen, s.sq with
    | x :: rest, .recv => some { s with gen := rest, sq := .send x }
    | _, _ => none
  | .square =>
    match s.sq with
    | .recv => if s.inClosed then some { s with sq := .closeOut } else none
    | .send n =>
      if s.readerDone then none
      else some { s with received := s.received ++ [mulInt n n], sq := .recv }
    | .closeOut => some { s with outClosed := true, sq := .exited }
    | .exited => none
  | .reader =>
    if s.outClosed && !s.readerDone then some { s with readerDone := true } else none

/-- Run a schedule; `none` when some chosen action was not enabled. -/
def run : State → List Action → Option State
  | s, [] => some s
  | s, a :: rest => (step s a).bind (fun t => run t rest)

/-- The value `square` holds and has not yet sent on. -/
def SquarePc.inflight : SquarePc → List Int
  | .send n => [n]
  | _ => []

/-- Progress rank of `square`. -/
def SquarePc.rank : SquarePc → Nat
  | .recv => 3
  | .send _ => 4
  | .closeOut => 2
  | .exited => 0

/-- Termination measure: strictly decreases on every step. -/
def measure (s : State) : Nat :=
  4 * s.gen.length + (if s.inClosed then 0 else 1) + s.sq.rank
    + (if s.readerDone then 0 else 1)

/-- Inductive invariant of the pipeline. -/
structure Inv (xs : List Int) (s : State) : Prop where
  content : xs.map (fun x => mulInt x x)
    = s.received ++ (s.sq.inflight ++ s.gen).map (fun x => mulInt x x)
  closed_gen : s.inClosed = true → s.gen = []
  finished_closed : (s.sq = .closeOut ∨ s.sq = .exited) → s.inClosed = true
  out_closed : s.outClosed = true ↔ s.sq = .exited
  reader : s.readerDone = true → s.outClosed = true

/-- A schedule of `square(generator(1, 2, 3))` read to the end. -/
def demoSchedule : List Action :=
  [.deliver, .square, .deliver, .square, .deliver, .genClose, .square, .square, .square,
   .reader]

/-- The state `demoSchedule` ends in. -/
def demoFinal : State :=
  { gen := [], inClosed := true, sq := .exited, received := [1, 4, 9], outClosed := true,
    readerDone := true }

end Pipeline

/-! ## workerWithError (main.go lines 210-220) -/

namespace ErrorHandling

/-- One send of `workerWithError`: on `errors` (line 214) or on `results` (line 218). -/
inductive Outcome where
  | error (msg : String)
  | result (value : Int)
deriving DecidableEq, Repr

/-- The message of `fmt.Errorf("worker %d: negative job %d", id, job)`. -/
def errorMessage (id job : Int) : String :=
  "worker " ++ toString id ++ ": negative job " ++ toString job

/-- The loop of lines 212-219 over the jobs the worker receives from `jobs`, in the order
it receives them, until the channel is closed: the sends it performs, in program order.
Every send is taken to complete (the channel has room or a reader). -/
def workerWithError (id : Int) : List Int → List Outcome
  | [] => []
  | job :: rest =>
    if job < 0 then
      .error (errorMessage id job) :: workerWithError id rest
    else
      .result (mulInt job job) :: workerWithError id rest

/-- The values sent on `results`, in order. -/
def resultsSent : List Outcome → List Int
  | [] => []
  | .result v :: rest => v :: resultsSent rest
  | .error _ :: rest => resultsSent rest

/-- The messages of the errors sent on `errors`, in order. -/
def errorsSent : List Outcome → List String
  | [] => []
  | .error m :: rest => m :: errorsSent rest
  | .result _ :: rest => errorsSent rest

end ErrorHandling

/-! ## Future, asyncTask (main.go lines 288-319) -/

namespace Future

/-- Program points of the goroutine of `asyncTask` (lines 309-316). -/
inductive TaskPc where
  /-- before the send of line 312 or 314 -/
  | running
  | done
deriving DecidableEq, Repr

/-- A `Future` with its resolving goroutine.  `result` and `error` are the buffers of the
two channels (capacity 1 each, an error is its message); `gets` is what the calls of
`Get` that have returned so far returned, in order (`none` is a `nil` error). -/
structure State where
  task : TaskPc
  result : List Int
  error : List String
  gets : List (Int × Option String)
deriving DecidableEq, Repr

/-- Scheduler choice: the resolving goroutine, or a call of `Get` whose `select` takes the
case of line 296 or of line 298. -/
inductive Action where
  | task
  | getResult
  | getError
deriving DecidableEq, Repr

/-- The future as `asyncTask` returns it (lines 304-307, 318). -/
def init : State := { task := .running, result := [], error := [], gets := [] }

/-- The message of `fmt.Errorf("negative value: %d", value)`. -/
def errorMessage (value : Int) : String := "negative value: " ++ toString value

/-- One scheduler step of `asyncTask(value)` and its callers of `Get`. -/
def step (value : Int) (s : State) : Action → Option State
  | .task =>
    match s.task with
    | .running =>
      if value < 0 then
        if s.error.length < 1 then
          some { s with error := s.error ++ [errorMessage value], task := .done }
        else none
      else
        if s.result.length < 1 then
          some { s with result := s.result ++ [mulInt value value], task := .done }
        else none
    | .done => none
  | .getResult =>
    match s.result with
    | r :: rest => some { s with result := rest, gets := s.gets ++ [(r, none)] }
    | [] => none
  | .getError =>
    match s.error with
    | e :: rest => some { s with error := rest, gets := s.gets ++ [(0, some e)] }
    | [] => none

/-- Run a schedule; `none` when some chosen action was not enabled. -/
def run (value : Int) : State → List Action → Option State
  | s, [] => some s
  | s, a :: rest => (step value s a).bind (fun t => run value t rest)

/-- What `Get` is to return for `asyncTask(value)`. -/
def outcome (value : Int) : Int × Option String :=
  if value < 0 then (0, some (errorMessage value)) else (mulInt value value, none)

/-- The three states `asyncTask(value)` can be in: unresolved, resolved with the value
buffered, and resolved with the value taken by a `Get`. -/
def Inv (value : Int) (s : State) : Prop :=
  s = init ∨
  s = { task := .done, result := if value < 0 then [] else [mulInt value value],
        error := if value < 0 then [errorMessage value] else [], gets := [] } ∨
  s = { task := .done, result := [], error := [], gets := [outcome value] }

/-- The state of `asyncTask(5)` after its goroutine has resolved and one `Get` has
returned. -/
def gotState : State := { task := .done, result := [], error := [], gets := [(25, none)] }

/-- The state of `asyncTask(-1)` after its goroutine has resolved and one `Get` has
returned. -/
def failedState : State :=
  { task := .done, result := [], error := [], gets := [(0, some "negative value: -1")] }

end Future

/-! ## cancellableWorker (main.go lines 156-172) -/

namespace Cancellation

/-- Program points of `cancellableWorker`. -/
inductive WorkerPc where
  /-- line 159: at the `select` -/
  | select
  /-- lines 164-166: has `job`, about to send `job * 3` on `results` -/
  | send (job : Int)
  /-- lines 162 and 169 -/
  | returned
deriving DecidableEq, Repr

/-- One `cancellableWorker` with its three channels: the buffers of `jobs` and `results`,
and whether `jobs` and `done` have been closed. -/
structure State where
  pc : WorkerPc
  jobs : List Int
  jobsClosed : Bool
  results : List Int
  doneClosed : Bool
deriving DecidableEq, Repr

/-- Scheduler choice.  At the `select` the worker takes the `jobs` case (line 160) or the
`done` case (line 167); Go picks among the ready cases at random, so both are offered
whenever both are ready.  The other actions belong to the environment: the caller closes
`done` or `jobs`, or a reader takes a value from `results`. -/
inductive Action where
  | selectJobs
  | selectDone
  | send
  | closeDone
  | closeJobs
  | takeResult
deriving DecidableEq, Repr

/-- A worker at its `select` with `xs` buffered in `jobs`. -/
def init (xs : List Int) : State :=
  { pc := .select, jobs := xs, jobsClosed := false, results := [], doneClosed := false }

/-- One scheduler step; `resultsCap` is the capacity of `results`. -/
def step (resultsCap : Nat) (s : State) : Action → Option State
  | .selectJobs =>
    match s.pc with
    | .select =>
      match s.jobs with
      | job :: rest => some { s with jobs := rest, pc := .send job }
      | [] => if s.jobsClosed then some { s with pc := .returned } else none
    | _ => none
  | .selectDone =>
    match s.pc with
    | .select => if s.doneClosed then some { s with pc := .returned } else none
    | _ => none
  | .send =>
    match s.pc with
    | .send job =>
      if s.results.length < resultsCap then
        some { s with results := s.results ++ [mulInt job 3], pc := .select }
      else none
    | _ => none
  | .closeDone => if s.doneClosed then none else some { s with doneClosed := true }
  | .closeJobs => if s.jobsClosed then none else some { s with jobsClosed := true }
  | .takeResult =>
    match s.results with
    | _ :: rest => some { s with results := rest }
    | [] => none

/-- Run a schedule; `none` when some chosen action was not enabled. -/
def run (resultsCap : Nat) : State → List Action → Option State
  | s, [] => some s
  | s, a :: rest => (step resultsCap s a).bind (fun t => run resultsCap t rest)

/-- A worker at its `select` with two jobs buffered, after the caller has closed `done`. -/
def cancelledState : State :=
  { pc := .select, jobs := [1, 2], jobsClosed := false, results := [], doneClosed := true }

/-- The state after the `select` of `cancelledState` has taken the `jobs` case. -/
def pulledState : State :=
  { pc := .send 1, jobs := [2], jobsClosed := false, results := [], doneClosed := true }

end Cancellation

namespace Cancellation

/-- A worker that holds job 2 while `results` (capacity 1) is full and `done` has been
closed: the state after the schedule `blockedSchedule` from two buffered jobs. -/
def blockedState : State :=
  { pc := .send 2, jobs := [], jobsClosed := false, results := [3], doneClosed := true }

/-- The worker takes job 1, sends its result, takes job 2; then the caller closes `done`. -/
def blockedSchedule : List Action := [.selectJobs, .send, .selectJobs, .closeDone]

/-- The three actions of the worker goroutine itself. -/
def workerActions : List Action := [.selectJobs, .selectDone, .send]

end Cancellation

/-! ## Calculator (12-unit-testing/main.go) -/

namespace Calculator

/-- Go `a % b` on `int`: the remainder of the division truncated towards zero. -/
def remInt (a b : Int) : Int := Int.tmod a b

/-- Go `a + b` on `int`. -/
def addInt (a b : Int) : Int := wrapInt (a + b)

/-- The largest Go `int`. -/
def maxInt : Int := 2 ^ 63 - 1

/-- The operations of `float64` that `Divide` uses: the constant `0`, the comparison
`b == 0` and the division `a / b`. -/
structure Float64Ops (F : Type) where
  zero : F
  isZero : F → Bool
  div : F → F → F

/-- `Calculator.Divide` (lines 28-33); an error is its message, `none` is `nil`. -/
def Divide {F : Type} (ops : Float64Ops F) (a b : F) : F × Option String :=
  if ops.isZero b then (ops.zero, some "division by zero")
  else (ops.div a b, none)

/-- Exact rational arithmetic as one instance of the operations. -/
def ratOps : Float64Ops Rat :=
  { zero := 0, isZero := fun b => decide (b = 0), div := fun a b => a / b }

/-- `Calculator.IsEven` (lines 36-38). -/
def IsEven (n : Int) : Bool := remInt n 2 == 0

/-- The loop of lines 50-52 of `Factorial`, at its head with counter `i`; `none` when the
fuel runs out before the loop ends. -/
def factorialLoop (n : Int) : Nat → Int → Int → Option Int
  | 0, _, _ => none
  | fuel + 1, i, result =>
    if i ≤ n then factorialLoop n fuel (addInt i 1) (mulInt result i)
    else some result

/-- `Calculator.Factorial` (lines 42-54) with `fuel` loop iterations allowed. -/
def Factorial (fuel : Nat) (n : Int) : Option (Int × Option String) :=
  if n < 0 then some (0, some "factorial not defined for negative numbers")
  else if n = 0 ∨ n = 1 then some (1, none)
  else (factorialLoop n fuel 2 1).map (fun result => (result, none))

/-- The loop of lines 67-71 of `IsPrime`, at its head with counter `i`: `i*i`, `i+2` and
`i += 6` are the operations of `int` and wrap around; `none` when the fuel runs out before
the loop ends, and for the panic of `%` on a zero divisor. -/
def isPrimeLoop (n : Int) : Nat → Int → Option Bool
  | 0, _ => none
  | fuel + 1, i =>
    if mulInt i i ≤ n then
      if i = 0 then none
      else if remInt n i = 0 then some false
      else if addInt i 2 = 0 then none
      else if remInt n (addInt i 2) = 0 then some false
      else isPrimeLoop n fuel (addInt i 6)
    else some true

/-- `Calculator.IsPrime` (lines 57-73) with `fuel` loop iterations allowed. -/
def IsPrime (fuel : Nat) (n : Int) : Option Bool :=
  if n ≤ 1 then some false
  else if n ≤ 3 then some true
  else if remInt n 2 = 0 ∨ remInt n 3 = 0 then some false
  else isPrimeLoop n fuel 5

/-- The claim's definition of a prime number. -/
def IsPrimeNumber (n : Int) : Prop := 2 ≤ n ∧ ∀ d : Int, 1 < d → d < n → ¬ d ∣ n

end Calculator

/-! ## Context trees of chainedContexts and contextHierarchy (17-context-timeout/main.go) -/

namespace ContextTree

/-- How a context was made: `context.Background()`, `context.WithCancel(parent)` or
`context.WithTimeout(parent, d)`. -/
inductive Kind where
  | background
  | withCancel
  | withTimeout
deriving DecidableEq, Repr

/-- Modelled from the spec: the Cancellation Token of sections 3 and 4.1, which the source
takes from Go's `context` package (not under src/).  A token has a parent (none for the
root), and records whether its own cancel function has been called and whether its own
deadline has elapsed. -/
structure Token where
  parent : Option Nat
  kind : Kind
  cancelled : Bool
  expired : Bool
deriving DecidableEq, Repr

/-- Modelled from the spec: "A token is done iff it, or any ancestor, has been cancelled
or has exceeded its deadline" (section 4.1), following at most `fuel` parent links of
the tree, a list of tokens in creation order. -/
def isDone (tree : List Token) : Nat → Nat → Bool
  | 0, _ => false
  | fuel + 1, i =>
    match tree[i]? with
    | none => false
    | some t =>
      t.cancelled || t.expired ||
        (match t.parent with
         | none => false
         | some p => isDone tree fuel p)

/-- Whether context `i` of the tree is done (`ctx.Done()` is closed); a context is created
after its parent, so `i + 1` links reach the root. -/
def done (tree : List Token) (i : Nat) : Bool := isDone tree (i + 1) i

/-- What can happen to a tree: the cancel function of context `i` is called, or the
deadline of context `i` elapses. -/
inductive Event where
  | cancel (i : Nat)
  | expire (i : Nat)
deriving DecidableEq, Repr

/-- Modelled from the spec: `cancel(token)` and deadline expiry (section 4.1) mark the
token itself; the root has no cancel function and only a `WithTimeout` context has a
deadline. -/
def apply (tree : List Token) : Event → List Token
  | .cancel i =>
    match tree[i]? with
    | some t => if t.kind = .background then tree else tree.set i { t with cancelled := true }
    | none => tree
  | .expire i =>
    match tree[i]? with
    | some t => if t.kind = .withTimeout then tree.set i { t with expired := true } else tree
    | none => tree

/-- Apply a sequence of events. -/
def applyAll (tree : List Token) : List Event → List Token
  | [] => tree
  | e :: rest => applyAll (apply tree e) rest

/-- The tree of `chainedContexts` (lines 121-129): `rootCtx`, `parentCtx` with a timeout
under it, `childCtx` with a cancel function under `parentCtx`. -/
def chainedContexts : List Token :=
  [ ⟨none, .background, false, false⟩,
    ⟨some 0, .withTimeout, false, false⟩,
    ⟨some 1, .withCancel, false, false⟩ ]

/-- The tree of `contextHierarchy` (lines 203-215): `rootCtx`, `serviceCtx` with a timeout,
`requestCtx` with a cancel function under it, `dbCtx` with a timeout under `requestCtx`. -/
def contextHierarchy : List Token :=
  [ ⟨none, .background, false, false⟩,
    ⟨some 0, .withTimeout, false, false⟩,
    ⟨some 1, .withCancel, false, false⟩,
    ⟨some 2, .withTimeout, false, false⟩ ]

/-- The trees both functions build are chains: context 0 is the root, never cancelled
nor expired, and context `i + 1` is derived from context `i`. -/
def Chain (tree : List Token) : Prop :=
  ∀ (i : Nat) (t : Token), tree[i]? = some t →
    t.parent = (if i = 0 then none else some (i - 1)) ∧
    (i = 0 → t.kind = .background ∧ t.cancelled = false ∧ t.expired = false) ∧
    (i ≠ 0 → t.kind ≠ .background)

end ContextTree

/-! ## rateLimiter (10-concurrency-patterns/main.go lines 251-265) -/

namespace RateLimiter

/-- Program points of the goroutine of `rateLimiter` (lines 254-263). -/
inductive Pc where
  /-- line 259: `for req := range requests`, waiting to receive -/
  | recv
  /-- line 260: `<-ticker.C` -/
  | waitTick (req : Int)
  /-- line 261: `out <- req` -/
  | send (req : Int)
  /-- lines 257 and 255, deferred: `ticker.Stop()`, then `close(out)` -/
  | closeOut
  | exited
deriving DecidableEq, Repr

/-- Global state of `rateLimiter(requests, rate)` and its environment.  `requests` is the
buffer of the input channel, `tickReady` whether the ticker channel (capacity 1) holds a
tick, `out` the log of the values delivered on the unbuffered output channel.  The
function has no cancellation parameter (line 252); `cancelled` records that the caller has
cancelled, which no step of the goroutine reads. -/
structure State where
  pc : Pc
  requests : List Int
  requestsClosed : Bool
  tickReady : Bool
  out : List Int
  outClosed : Bool
  cancelled : Bool
deriving DecidableEq, Repr

/-- Scheduler choice: the goroutine of `rateLimiter`, or the environment: the ticker
fires, the caller closes `requests`, the caller cancels. -/
inductive Action where
  | limiter
  | tick
  | closeRequests
  | cancel
deriving DecidableEq, Repr

/-- The limiter at the head of its loop with `reqs` buffered in `requests`. -/
def init (reqs : List Int) : State :=
  { pc := .recv, requests := reqs, requestsClosed := false, tickReady := false, out := [],
    outClosed := false, cancelled := false }

/-- One scheduler step. -/
def step (s : State) : Action → Option State
  | .limiter =>
    match s.pc with
    | .recv =>
      match s.requests with
      | req :: rest => some { s with requests := rest, pc := .waitTick req }
      | [] => if s.requestsClosed then some { s with pc := .closeOut } else none
    | .waitTick req =>
      if s.tickReady then some { s with tickReady := false, pc := .send req } else none
    | .send req => some { s with out := s.out ++ [req], pc := .recv }
    | .closeOut => some { s with outClosed := true, pc := .exited }
    | .exited => none
  | .tick => if s.tickReady then none else some { s with tickReady := true }
  | .closeRequests => if s.requestsClosed then none else some { s with requestsClosed := true }
  | .cancel => if s.cancelled then none else some { s with cancelled := true }

/-- Run a schedule; `none` when some chosen action was not enabled. -/
def run : State → List Action → Option State
  | s, [] => some s
  | s, a :: rest => (step s a).bind (fun t => run t rest)

/-- The request the limiter holds and has not yet sent on. -/
def Pc.inflight : Pc → List Int
  | .waitTick req => [req]
  | .send req => [req]
  | _ => []

/-- Progress rank of a program point. -/
def Pc.rank : Pc → Nat
  | .recv => 2
  | .waitTick _ => 5
  | .send _ => 3
  | .closeOut => 1
  | .exited => 0

/-- Termination measure: strictly decreases on every step. -/
def measure (s : State) : Nat :=
  4 * s.requests.length + s.pc.rank + (if s.requestsClosed then 0 else 1)
    + (if s.tickReady then 0 else 1) + (if s.cancelled then 0 else 1)

/-- Inductive invariant of `rateLimiter`. -/
structure Inv (reqs : List Int) (s : State) : Prop where
  content : reqs = s.out ++ s.pc.inflight ++ s.requests
  finished : (s.pc = .closeOut ∨ s.pc = .exited) → s.requestsClosed = true ∧ s.requests = []
  out_closed : s.outClosed = true ↔ s.pc = .exited

end RateLimiter
namespace RateLimiter

end RateLimiter

/-! ## fanIn (09-goroutines-basics/main.go lines 94-124) -/

namespace SelectFanIn

/-- One input channel as the merging goroutine sees it.  `pending` are the messages the
producer has still to send, `buf` the messages in the channel, `closed` whether it has been
closed; `isNil` whether the goroutine has set its variable (`ch1`, `ch2`) to `nil`
(lines 104, 110). -/
structure Input where
  pending : List String
  buf : List String
  closed : Bool
  isNil : Bool
deriving DecidableEq, Repr

/-- Program points of the merging goroutine (lines 98-121). -/
inductive Pc where
  /-- line 101: at the `select` -/
  | select
  /-- lines 107 and 113: `out <- msg` -/
  | send (msg : String)
  /-- line 117: `if ch1 == nil && ch2 == nil` -/
  | check
  /-- line 99, deferred: `close(out)`, reached through the `break` of line 118 -/
  | closeOut
  | exited
deriving DecidableEq, Repr

/-- Global state of `fanIn(ch1, ch2)`; `out` is the log of the messages delivered on the
unbuffered output channel to its reader. -/
structure State where
  pc : Pc
  ch1 : Input
  ch2 : Input
  out : List String
  outClosed : Bool
deriving DecidableEq, Repr

/-- Scheduler choice.  `select1` and `select2` are the `select` taking the case of line 102
or of line 108; `goroutine` is any other statement of the merging goroutine; the rest is
the environment: a producer sends its next message or closes its channel. -/
inductive Action where
  | select1
  | select2
  | goroutine
  | produce1
  | produce2
  | close1
  | close2
deriving DecidableEq, Repr

/-- A receive case of the `select` on input `c`: not ready on a `nil` channel or on an
open empty one; with a message it yields the message; on a closed drained channel it sets
the variable to `nil` and continues the loop (lines 103-106), skipping line 117. -/
def selectCase (c : Input) : Option (Input × Pc) :=
  if c.isNil then none
  else
    match c.buf with
    | msg :: rest => some ({ c with buf := rest }, .send msg)
    | [] => if c.closed then some ({ c with isNil := true }, .select) else none

/-- The producer of an input sends its next message. -/
def produce (c : Input) : Option Input :=
  if c.closed then none
  else
    match c.pending with
    | msg :: rest => some { c with pending := rest, buf := c.buf ++ [msg] }
    | [] => none

/-- The producer of an input closes it after its last message. -/
def closeInput (c : Input) : Option Input :=
  if c.closed then none
  else
    match c.pending with
    | [] => some { c with closed := true }
    | _ :: _ => none

/-- One scheduler step. -/
def step (s : State) : Action → Option State
  | .select1 =>
    match s.pc with
    | .select => (selectCase s.ch1).map (fun r => { s with ch1 := r.1, pc := r.2 })
    | _ => none
  | .select2 =>
    match s.pc with
    | .select => (selectCase s.ch2).map (fun r => { s with ch2 := r.1, pc := r.2 })
    | _ => none
  | .goroutine =>
    match s.pc with
    | .send msg => some { s with out := s.out ++ [msg], pc := .check }
    | .check =>
      if s.ch1.isNil && s.ch2.isNil then some { s with pc := .closeOut }
      else some { s with pc := .select }
    | .closeOut => some { s with outClosed := true, pc := .exited }
    | _ => none
  | .produce1 => (produce s.ch1).map (fun c => { s with ch1 := c })
  | .produce2 => (produce s.ch2).map (fun c => { s with ch2 := c })
  | .close1 => (closeInput s.ch1).map (fun c => { s with ch1 := c })
  | .close2 => (closeInput s.ch2).map (fun c => { s with ch2 := c })

/-- Run a schedule; `none` when some chosen action was not enabled. -/
def run : State → List Action → Option State
  | s, [] => some s
  | s, a :: rest => (step s a).bind (fun t => run t rest)

/-- The goroutine at its first `select`, for any state of the two inputs. -/
def init (c1 c2 : Input) : State :=
  { pc := .select, ch1 := { c1 with isNil := false }, ch2 := { c2 with isNil := false },
    out := [], outClosed := false }

/-- What holds in every reachable state: the output is open, the goroutine is inside its
loop, and whenever it is past a receive of a message one of the two variables is not
`nil`. -/
def Inv (s : State) : Prop :=
  s.outClosed = false ∧ s.pc ≠ .closeOut ∧ s.pc ≠ .exited ∧
  (s.pc ≠ .select → s.ch1.isNil = false ∨ s.ch2.isNil = false)

/-- The inputs of `main` (lines 293-301): two buffered channels, filled and closed before
`fanIn` is called. -/
def mainInit : State :=
  init ⟨[], ["Hello from ch1", "Another from ch1"], true, false⟩
    ⟨[], ["Hello from ch2"], true, false⟩

/-- A schedule that forwards every message of both inputs and finds both closed. -/
def mainSchedule : List Action :=
  [.select1, .goroutine, .goroutine, .select2, .goroutine, .goroutine, .select2,
   .select1, .goroutine, .goroutine, .select1]

/-- The state `mainSchedule` ends in: back at the `select`, both variables `nil`. -/
def stuckState : State :=
  { pc := .select, ch1 := ⟨[], [], true, true⟩, ch2 := ⟨[], [], true, true⟩,
    out := ["Hello from ch1", "Hello from ch2", "Another from ch1"], outClosed := false }

/-- Every action of the scheduler. -/
def allActions : List Action :=
  [.select1, .select2, .goroutine, .produce1, .produce2, .close1, .close2]

end SelectFanIn

/-! ## Graph, AddEdge, TopologicalSort (16-trees-graphs/main.go) -/

namespace TreesGraphs

/-- The struct `Graph`; the map `AdjList` is an association list, a missing key reads as
the empty slice. -/
structure Graph where
  Vertices : Int
  AdjList : List (Int × List Int)
deriving DecidableEq, Repr

/-- `NewGraph` (lines 20-25). -/
def NewGraph (vertices : Int) : Graph := { Vertices := vertices, AdjList := [] }

/-- A map read `m[k]`. -/
def lookup (m : List (Int × List Int)) (k : Int) : List Int :=
  match m with
  | [] => []
  | (k2, v) :: rest => if k2 = k then v else lookup rest k

/-- A map write `m[k] = v`. -/
def insert (m : List (Int × List Int)) (k : Int) (v : List Int) : List (Int × List Int) :=
  match m with
  | [] => [(k, v)]
  | (k2, v2) :: rest => if k2 = k then (k, v) :: rest else (k2, v2) :: insert rest k v

/-- `Graph.AddEdge` (lines 28-32): appends `v2` to the list of `v1` and `v1` to the list
of `v2`. -/
def AddEdge (g : Graph) (v1 v2 : Int) : Graph :=
  let g1 := { g with AdjList := insert g.AdjList v1 (lookup g.AdjList v1 ++ [v2]) }
  { g1 with AdjList := insert g1.AdjList v2 (lookup g1.AdjList v2 ++ [v1]) }

/-- The variables `visited` (the keys set to true) and `stack` of `TopologicalSort`. -/
structure SortState where
  visited : List Int
  stack : List Int
deriving DecidableEq, Repr

/-- The closure `dfs` of `TopologicalSort` (lines 462-472), with recursion depth bounded by
the fuel; `none` when the fuel runs out. -/
def dfs (g : Graph) : Nat → Int → SortState → Option SortState
  | 0, _, _ => none
  | fuel + 1, vertex, st =>
    let marked : SortState := { st with visited := vertex :: st.visited }
    let after := (lookup g.AdjList vertex).foldlM
      (fun (acc : SortState) neighbor =>
        if acc.visited.contains neighbor then some acc else dfs g fuel neighbor acc)
      marked
    after.map (fun st2 => { st2 with stack := vertex :: st2.stack })

/-- `Graph.TopologicalSort` (lines 457-481): the loop of lines 474-478 over the vertices
`0 .. Vertices-1`. -/
def TopologicalSort (fuel : Nat) (g : Graph) : Option (List Int) :=
  ((List.range g.Vertices.toNat).foldlM
    (fun (acc : SortState) (vertex : Nat) =>
      if acc.visited.contains (vertex : Int) then some acc else dfs g fuel vertex acc)
    { visited := [], stack := [] }).map (fun st => st.stack)

/-- The graph `dag` of `main` (lines 557-563). -/
def mainDag : Graph :=
  AddEdge (AddEdge (AddEdge (AddEdge (AddEdge (AddEdge (NewGraph 6) 5 2) 5 0) 4 0) 4 1) 2 3) 3 1

/-- The edges added to `mainDag`, as `(u, v)` for `AddEdge(u, v)`. -/
def mainEdges : List (Int × Int) := [(5, 2), (5, 0), (4, 0), (4, 1), (2, 3), (3, 1)]

/-- Whether `u` appears before `v` in `order`. -/
def appearsBefore (order : List Int) (u v : Int) : Bool :=
  order.indexOf u < order.indexOf v

end TreesGraphs

/-! ## QuickSort (13-benchmarks/main.go lines 75-99), quickSort and isSorted
(07-sorting-searching/main.go lines 138-163, 228-236) -/

namespace Sorting

/-- A slice read `arr[i]`; `none` is the index-out-of-range panic. -/
def getAt (arr : List Int) (i : Int) : Option Int :=
  if 0 ≤ i then arr[i.toNat]? else none

/-- The loop `for arr[left] < pivot { left++ }`, at most `fuel` tests of its condition;
the value of `left` after it. -/
def scanLeft (arr : List Int) (pivot : Int) : Nat → Int → Option Int
  | 0, _ => none
  | fuel + 1, left =>
    match getAt arr left with
    | none => none
    | some x => if x < pivot then scanLeft arr pivot fuel (left + 1) else some left

/-- The loop `for arr[right] > pivot { right-- }`, at most `fuel` tests of its condition;
the value of `right` after it. -/
def scanRight (arr : List Int) (pivot : Int) : Nat → Int → Option Int
  | 0, _ => none
  | fuel + 1, right =>
    match getAt arr right with
    | none => none
    | some x => if x > pivot then scanRight arr pivot fuel (right - 1) else some right

/-- The assignment `arr[left], arr[right] = arr[right], arr[left]`. -/
def swap (arr : List Int) (left right : Int) : Option (List Int) :=
  match getAt arr left, getAt arr right with
  | some x, some y => some ((arr.set left.toNat y).set right.toNat x)
  | _, _ => none

/-- The loop `for left <= right { ... }` of both quicksorts, at most `fuel` tests of its
condition: the slice and the values of `left` and `right` after it.  An inner loop tests
its condition at most `len(arr) + 1` times before it stops or runs off the slice. -/
def partitionLoop (pivot : Int) : Nat → List Int → Int → Int → Option (List Int × Int × Int)
  | 0, _, _, _ => none
  | fuel + 1, arr, left, right =>
    if left ≤ right then
      match scanLeft arr pivot (arr.length + 1) left with
      | none => none
      | some left1 =>
        match scanRight arr pivot (arr.length + 1) right with
        | none => none
        | some right1 =>
          if left1 ≤ right1 then
            match swap arr left1 right1 with
            | none => none
            | some arr1 => partitionLoop pivot fuel arr1 (left1 + 1) (right1 - 1)
          else partitionLoop pivot fuel arr left1 right1
    else some (arr, left, right)

/-- The two recursive calls `QuickSort(arr[:right+1])` and `QuickSort(arr[left:])` on the
slice the loop has left, `sort` being the recursive call: each sorts its part of the
slice in place; `none` when a slice bound is out of range. -/
def sortParts (sort : List Int → Option (List Int)) (arr : List Int) (left right : Int) :
    Option (List Int) :=
  if right + 1 < 0 ∨ (arr.length : Int) < right + 1 then none
  else
    match sort (arr.take (right + 1).toNat) with
    | none => none
    | some first =>
      let arr2 := first ++ arr.drop (right + 1).toNat
      if left < 0 ∨ (arr2.length : Int) < left then none
      else
        match sort (arr2.drop left.toNat) with
        | none => none
        | some second => some (arr2.take left.toNat ++ second)

/-- `QuickSort` of 13-benchmarks with recursion depth at most `fuel`: the slice after the
call. -/
def QuickSortAux : Nat → List Int → Option (List Int)
  | 0, arr => if arr.length < 2 then some arr else none
  | fuel + 1, arr =>
    if arr.length < 2 then some arr
    else
      match getAt arr ((arr.length : Int) / 2) with
      | none => none
      | some pivot =>
        match partitionLoop pivot (arr.length + 2) arr 0 ((arr.length : Int) - 1) with
        | none => none
        | some (arr1, left, right) => sortParts (QuickSortAux fuel) arr1 left right

/-- `QuickSort(arr)` of 13-benchmarks: the slice after the call; every recursive call is on
a shorter slice, so `len(arr)` bounds the depth. -/
def QuickSort (arr : List Int) : Option (List Int) := QuickSortAux arr.length arr

/-- `quickSort` of 07-sorting-searching with recursion depth at most `fuel`; it differs
from `QuickSort` in the test `len(arr) <= 1` only. -/
def quickSortAux : Nat → List Int → Option (List Int)
  | 0, arr => if arr.length ≤ 1 then some arr else none
  | fuel + 1, arr =>
    if arr.length ≤ 1 then some arr
    else
      match getAt arr ((arr.length : Int) / 2) with
      | none => none
      | some pivot =>
        match partitionLoop pivot (arr.length + 2) arr 0 ((arr.length : Int) - 1) with
        | none => none
        | some (arr1, left, right) => sortParts (quickSortAux fuel) arr1 left right

/-- `quickSort(arr)` of 07-sorting-searching: the slice after the call. -/
def quickSort (arr : List Int) : Option (List Int) := quickSortAux arr.length arr

/-- `isSorted` of 07-sorting-searching: the loop compares `arr[i-1]` with `arr[i]` for
`i = 1, 2, ...` and returns false at the first descent. -/
def isSorted : List Int → Bool
  | a :: b :: rest => if a > b then false else isSorted (b :: rest)
  | _ => true

/-- Every element at an index below `left` is at most `pivot`. -/
def AllLE (arr : List Int) (pivot left : Int) : Prop :=
  ∀ (k x : Int), k < left → getAt arr k = some x → x ≤ pivot

/-- Every element at an index above `right` is at least `pivot`. -/
def AllGE (arr : List Int) (pivot right : Int) : Prop :=
  ∀ (k x : Int), right < k → getAt arr k = some x → pivot ≤ x

/-- Invariant of the partition loop at its head, for the slice `arr0` the call started
with: the slice is a permutation of `arr0`, everything left of `left` is at most the
pivot and everything right of `right` at least the pivot, and either nothing has been
exchanged yet and the pivot is still in the slice, or both indices have moved. -/
structure PartInv (arr0 : List Int) (pivot : Int) (arr : List Int) (left right : Int) :
    Prop where
  perm : arr.Perm arr0
  le : AllLE arr pivot left
  ge : AllGE arr pivot right
  left_nonneg : 0 ≤ left
  left_le : left ≤ arr.length
  right_ge : -1 ≤ right
  right_lt : right < arr.length
  moved : (left = 0 ∧ right = (arr.length : Int) - 1 ∧ ∃ m, getAt arr m = some pivot) ∨
    (1 ≤ left ∧ right ≤ (arr.length : Int) - 2)

end Sorting

/-! ## mergeSort, merge and binarySearch (07-sorting-searching/main.go lines 43-60,
165-197), BinarySearch (13-benchmarks/main.go lines 111-125) -/

namespace Sorting

/-- The loop of `merge` (lines 184-192) at its head with the indices `i`, `j` and the slice
`result`, followed by the two appends of lines 195-196; `none` when the fuel runs out or a
read is out of range. -/
def mergeLoop (left right : List Int) : Nat → Nat → Nat → List Int → Option (List Int)
  | 0, _, _, _ => none
  | fuel + 1, i, j, result =>
    if i < left.length ∧ j < right.length then
      match left[i]?, right[j]? with
      | some a, some b =>
        if a ≤ b then mergeLoop left right fuel (i + 1) j (result ++ [a])
        else mergeLoop left right fuel i (j + 1) (result ++ [b])
      | _, _ => none
    else some (result ++ left.drop i ++ right.drop j)

/-- `merge(left, right)` (lines 180-197); every iteration advances `i` or `j`, so
`len(left) + len(right) + 1` tests of the loop condition are enough. -/
def merge (left right : List Int) : Option (List Int) :=
  mergeLoop left right (left.length + right.length + 1) 0 0 []

/-- `mergeSort` (lines 166-178) with recursion depth at most `fuel`. -/
def mergeSortAux : Nat → List Int → Option (List Int)
  | 0, arr => if arr.length ≤ 1 then some arr else none
  | fuel + 1, arr =>
    if arr.length ≤ 1 then some arr
    else
      let mid := arr.length / 2
      match mergeSortAux fuel (arr.take mid), mergeSortAux fuel (arr.drop mid) with
      | some left, some right => merge left right
      | _, _ => none

/-- `mergeSort(arr)`: every recursive call is on a shorter slice, so `len(arr)` bounds the
depth. -/
def mergeSort (arr : List Int) : Option (List Int) := mergeSortAux arr.length arr

/-- The merge of the claim: the smaller head goes first, the head of `left` on a tie. -/
def stableMerge : List Int → List Int → List Int
  | [], right => right
  | a :: left, [] => a :: left
  | a :: left, b :: right =>
    if a ≤ b then a :: stableMerge left (b :: right)
    else b :: stableMerge (a :: left) right

end Sorting
namespace Sorting

/-- The loop of `BinarySearch` (13-benchmarks lines 113-123) at its head with the bounds
`left`, `right`; `none` when the fuel runs out or `arr[mid]` is out of range.  The bounds
stay within `-1 .. len(arr)`, where `int` arithmetic is exact and `/` is the division of
non-negative operands. -/
def binarySearchLoop (arr : List Int) (target : Int) : Nat → Int → Int → Option Int
  | 0, _, _ => none
  | fuel + 1, left, right =>
    if left ≤ right then
      let mid := left + (right - left) / 2
      match getAt arr mid with
      | none => none
      | some v =>
        if v = target then some mid
        else if v < target then binarySearchLoop arr target fuel (mid + 1) right
        else binarySearchLoop arr target fuel left (mid - 1)
    else some (-1)

/-- `BinarySearch(arr, target)` of 13-benchmarks (lines 111-125); every iteration shrinks
`right - left`, so `len(arr) + 1` tests of the loop condition are enough. -/
def BinarySearch (arr : List Int) (target : Int) : Option Int :=
  binarySearchLoop arr target (arr.length + 1) 0 ((arr.length : Int) - 1)

/-- `binarySearch(arr, target)` of 07-sorting-searching (lines 44-60): the same statements
with `low`, `high` for `left`, `right`. -/
def binarySearch (arr : List Int) (target : Int) : Option Int :=
  let low : Int := 0
  let high : Int := (arr.length : Int) - 1
  binarySearchLoop arr target (arr.length + 1) low high

end Sorting

/-! ## TreeNode.Insert, InOrderTraversal (16-trees-graphs/main.go lines 36-49, 68-81) -/

namespace TreesGraphs

/-- The struct `TreeNode` behind a `*TreeNode`; `nil` is the nil pointer. -/
inductive TreeNode where
  | nil : TreeNode
  | node (Val : Int) (Left Right : TreeNode) : TreeNode
deriving DecidableEq, Repr

/-- `TreeNode.Insert` (lines 36-49): the tree the returned pointer leads to. -/
def TreeNode.Insert : TreeNode → Int → TreeNode
  | .nil, val => .node val .nil .nil
  | .node v left right, val =>
    if val < v then .node v (left.Insert val) right
    else .node v left (right.Insert val)

/-- The closure `inorder` of `InOrderTraversal` (lines 71-77): the variable `result` after
the call on `node`. -/
def inorder : TreeNode → List Int → List Int
  | .nil, result => result
  | .node v left right, result => inorder right (inorder left result ++ [v])

/-- `InOrderTraversal` (lines 68-81). -/
def InOrderTraversal (root : TreeNode) : List Int := inorder root []

/-- The loop of `main` (lines 513-515): `bst = bst.Insert(val)` for every value in turn,
starting from `bst`. -/
def insertAll (bst : TreeNode) (values : List Int) : TreeNode :=
  values.foldl TreeNode.Insert bst

/-- The values stored in a tree, the root first. -/
def TreeNode.values : TreeNode → List Int
  | .nil => []
  | .node v left right => v :: (left.values ++ right.values)

/-- The ordering of the claim: in every node, every value of the left subtree is below the
value of the node and every value of the right subtree is at least it. -/
def IsBST : TreeNode → Prop
  | .nil => True
  | .node v left right =>
    (∀ x ∈ left.values, x < v) ∧ (∀ x ∈ right.values, v ≤ x) ∧ IsBST left ∧ IsBST right

end TreesGraphs
/-! ## AddTwoNumbers, RemoveNthFromEnd (15-linked-lists/main.go lines 303-352)

A `*ListNode` that heads a nil-terminated chain is the list of the values of the chain;
the nil pointer is the empty list. -/

namespace LinkedLists

/-- Go `a / b` on `int`: the quotient truncated towards zero. -/
def quoInt (a b : Int) : Int := Int.tdiv a b

/-- The loop of `AddTwoNumbers` (lines 334-349) at its head: `l1` and `l2` are the chains
still to read, `result` the chain built after `dummy`; `none` when the fuel runs out. -/
def addLoop : Nat → List Int → List Int → Int → List Int → Option (List Int)
  | 0, _, _, _, _ => none
  | fuel + 1, l1, l2, carry, result =>
    if l1 ≠ [] ∨ l2 ≠ [] ∨ carry > 0 then
      let sum := carry
      let (sum, l1) :=
        match l1 with
        | v :: next => (Calculator.addInt sum v, next)
        | [] => (sum, [])
      let (sum, l2) :=
        match l2 with
        | v :: next => (Calculator.addInt sum v, next)
        | [] => (sum, [])
      addLoop fuel l1 l2 (quoInt sum 10) (result ++ [Calculator.remInt sum 10])
    else some result

/-- `AddTwoNumbers(l1, l2)` (lines 328-352) with `fuel` loop iterations allowed. -/
def AddTwoNumbers (fuel : Nat) (l1 l2 : List Int) : Option (List Int) :=
  addLoop fuel l1 l2 0 []

/-- The number a chain of digits stands for, least-significant digit first: the sum of
`d_i * 10^i`. -/
def digitsValue : List Int → Int
  | [] => 0
  | d :: rest => d + 10 * digitsValue rest

/-- Every value of the chain is a decimal digit. -/
def AllDigits (l : List Int) : Prop := ∀ d ∈ l, 0 ≤ d ∧ d ≤ 9

instance (l : List Int) : Decidable (AllDigits l) := by
  unfold AllDigits
  infer_instance

/-- The first loop of `RemoveNthFromEnd` (lines 308-313) at its head.  A pointer into the
chain `dummy -> head -> ...` of `len + 1` nodes is the number of `Next` steps that lead to
it from `dummy`; `len + 1` steps lead to nil.  The result is `some none` for the early
`return head`, `some (some fast)` when the loop ends, `none` when the fuel runs out.  The
counter `i` stays within `0 .. len + 2`, where `int` arithmetic is exact. -/
def advanceFast (len : Nat) (n : Int) : Nat → Int → Nat → Option (Option Nat)
  | 0, _, _ => none
  | fuel + 1, i, fast =>
    if i ≤ n then
      if fast = len + 1 then some none
      else advanceFast len n fuel (i + 1) (fast + 1)
    else some (some fast)

/-- The second loop of `RemoveNthFromEnd` (lines 316-319) at its head: the value of `slow`
when `fast` is nil; `none` when the fuel runs out or `slow.Next` is read on nil. -/
def advanceBoth (len : Nat) : Nat → Nat → Nat → Option Nat
  | 0, _, _ => none
  | fuel + 1, fast, slow =>
    if fast ≠ len + 1 then
      if slow = len + 1 then none
      else advanceBoth len fuel (fast + 1) (slow + 1)
    else some slow

/-- `RemoveNthFromEnd(head, n)` (lines 303-326): the chain behind the returned pointer;
`none` for a nil-pointer panic.  `slow.Next = slow.Next.Next` needs the node `slow` and
the node after it, and unlinks the latter; the result is the chain after `dummy`.  Both
loops move `fast` forward along the chain, so `len + 3` iterations are enough. -/
def RemoveNthFromEnd (head : List Int) (n : Int) : Option (List Int) :=
  match advanceFast head.length n (head.length + 3) 0 0 with
  | none => none
  | some none => some head
  | some (some fast) =>
    match advanceBoth head.length (head.length + 3) fast 0 with
    | none => none
    | some slow =>
      if slow + 1 < head.length + 1 then some (((0 :: head).eraseIdx (slow + 1)).tail)
      else none

end LinkedLists

/-! ## Fibonacci, primes and palindromes (13-benchmarks/main.go) -/

namespace Benchmarks

/-- `FibonacciRecursive` (lines 9-14) with recursion depth at most `fuel`; `n - 1` and
`n - 2` are exact, since `n >= 2` there. -/
def FibonacciRecursive : Nat → Int → Option Int
  | 0, _ => none
  | fuel + 1, n =>
    if n ≤ 1 then some n
    else
      match FibonacciRecursive fuel (n - 1), FibonacciRecursive fuel (n - 2) with
      | some x, some y => some (Calculator.addInt x y)
      | _, _ => none

/-- The loop of `FibonacciIterative` (lines 21-23) at its head with the counter `i`; `none`
when the fuel runs out. -/
def fibLoop (n : Int) : Nat → Int → Int → Int → Option Int
  | 0, _, _, _ => none
  | fuel + 1, i, a, b =>
    if i ≤ n then fibLoop n fuel (Calculator.addInt i 1) b (Calculator.addInt a b)
    else some b

/-- `FibonacciIterative` (lines 17-25) with `fuel` loop iterations allowed. -/
def FibonacciIterative (fuel : Nat) (n : Int) : Option Int :=
  if n ≤ 1 then some n else fibLoop n fuel 2 0 1

/-- The closure `fib` of `FibonacciMemoized` (lines 31-41) with recursion depth at most
`fuel`: the returned value and the map `memo` after the call.  The map is the list of its
writes, the latest first; the operands of `fib(x-1) + fib(x-2)` are called left to right. -/
def fib : Nat → Int → List (Int × Int) → Option (Int × List (Int × Int))
  | 0, _, _ => none
  | fuel + 1, x, memo =>
    if x ≤ 1 then some (x, memo)
    else
      match memo.lookup x with
      | some val => some (val, memo)
      | none =>
        match fib fuel (x - 1) memo with
        | none => none
        | some (v1, memo1) =>
          match fib fuel (x - 2) memo1 with
          | none => none
          | some (v2, memo2) => some (Calculator.addInt v1 v2, (x, Calculator.addInt v1 v2) :: memo2)

/-- `FibonacciMemoized` (lines 28-43) with recursion depth at most `fuel`. -/
def FibonacciMemoized (fuel : Nat) (n : Int) : Option Int :=
  (fib fuel n []).map Prod.fst

/-- The Fibonacci numbers of the claim under `int` arithmetic: `F(0) = 0`, `F(1) = 1`,
`F(k) = F(k-1) + F(k-2)` with the addition of `int`. -/
def fibInt : Nat → Int
  | 0 => 0
  | 1 => 1
  | k + 2 => Calculator.addInt (fibInt (k + 1)) (fibInt k)

/-- The value the claim gives for `n`. -/
def fibValue (n : Int) : Int := if n ≤ 1 then n else fibInt n.toNat

/-- Every entry of `memo` holds the value of the claim for its key. -/
def MemoOk (memo : List (Int × Int)) : Prop :=
  ∀ k v, memo.lookup k = some v → v = fibValue k

end Benchmarks
namespace Benchmarks

/-- A read `s[i]` of a `[]bool`; `none` is the index-out-of-range panic. -/
def readAt (s : List Bool) (i : Int) : Option Bool :=
  if 0 ≤ i then s[i.toNat]? else none

/-- A write `s[i] = v` of a `[]bool`; `none` is the index-out-of-range panic. -/
def writeAt (s : List Bool) (i : Int) (v : Bool) : Option (List Bool) :=
  if 0 ≤ i ∧ i < s.length then some (s.set i.toNat v) else none

/-- The inner loop of `SieveOfEratosthenes` (lines 137-139) at its head with the counter
`j`; `none` when the fuel runs out or a write is out of range. -/
def crossOff (n i : Int) : Nat → Int → List Bool → Option (List Bool)
  | 0, _, _ => none
  | fuel + 1, j, primes =>
    if j ≤ n then
      match writeAt primes j false with
      | none => none
      | some primes2 => crossOff n i fuel (Calculator.addInt j i) primes2
    else some primes

/-- The outer loop of `SieveOfEratosthenes` (lines 135-141) at its head with the counter
`i`; `inner` is the fuel of each run of the inner loop. -/
def sieveLoop (n : Int) (inner : Nat) : Nat → Int → List Bool → Option (List Bool)
  | 0, _, _ => none
  | fuel + 1, i, primes =>
    if mulInt i i ≤ n then
      match readAt primes i with
      | none => none
      | some true =>
        match crossOff n i inner (mulInt i i) primes with
        | none => none
        | some primes2 => sieveLoop n inner fuel (Calculator.addInt i 1) primes2
      | some false => sieveLoop n inner fuel (Calculator.addInt i 1) primes
    else some primes

/-- The last loop of `SieveOfEratosthenes` (lines 143-148) over the rest of `primes`, with
the index `i` of its first element. -/
def collectFrom : List Bool → Int → List Int → List Int
  | [], _, result => result
  | isPrime :: rest, i, result =>
    collectFrom rest (i + 1) (if isPrime then result ++ [i] else result)

/-- `SieveOfEratosthenes(n)` (lines 128-150) with `fuel` iterations allowed to each loop,
on a machine that can allocate `avail` bytes; `none` when `make([]bool, n+1)` does not
return the table (an element takes one byte), and the nil slice is the empty list. -/
def SieveOfEratosthenes (avail : Int) (fuel : Nat) (n : Int) : Option (List Int) :=
  let len := Calculator.addInt n 1
  if makeReturns avail 1 len then
    match writeAt (List.replicate len.toNat true) 0 false with
    | none => none
    | some primes0 =>
      match writeAt primes0 1 false with
      | none => none
      | some primes1 => (sieveLoop n fuel fuel 2 primes1).map (fun primes => collectFrom primes 0 [])
  else none

/-- The inner loop of `TrialDivision` (lines 157-162) at its head with the counter `j`: the
value of `isPrime` after it; `none` when the fuel runs out or `i % j` divides by zero. -/
def trialInner (i : Int) : Nat → Int → Option Bool
  | 0, _ => none
  | fuel + 1, j =>
    if mulInt j j ≤ i then
      if j = 0 then none
      else if Calculator.remInt i j = 0 then some false
      else trialInner i fuel (Calculator.addInt j 1)
    else some true

/-- The outer loop of `TrialDivision` (lines 155-166) at its head with the counter `i`;
`inner` is the fuel of each run of the inner loop. -/
def trialLoop (n : Int) (inner : Nat) : Nat → Int → List Int → Option (List Int)
  | 0, _, _ => none
  | fuel + 1, i, primes =>
    if i ≤ n then
      match trialInner i inner 2 with
      | none => none
      | some isPrime =>
        trialLoop n inner fuel (Calculator.addInt i 1) (if isPrime then primes ++ [i] else primes)
    else some primes

/-- `TrialDivision(n)` (lines 153-168) with `fuel` iterations allowed to each loop. -/
def TrialDivision (fuel : Nat) (n : Int) : Option (List Int) :=
  trialLoop n fuel fuel 2 []

/-- The slice of the claim: all prime numbers `p` with `2 <= p <= n` in ascending order. -/
def primesUpTo (n : Nat) : List Int :=
  ((List.range (n + 1)).filter Nat.Prime).map Int.ofNat

/-- The first `n` for which `i * i` leaves the range of `int` in the loops:
`3037000499 * 3037000499`. -/
def squareLimit : Int := 9223372030926249001

/-- The number `k` has survived the crossing-off by every counter below `i`: it is at
least 2 and is prime or has no prime factor below `i`. -/
def Unmarked (i k : Nat) : Prop := 2 ≤ k ∧ (k.Prime ∨ i ≤ k.minFac)

instance (i k : Nat) : Decidable (Unmarked i k) := by
  unfold Unmarked
  infer_instance

/-- The table of the sieve while the multiples of `i` are crossed off, the counter at
`j`. -/
def CrossInv (n i j : Nat) (primes : List Bool) : Prop :=
  primes.length = n + 1 ∧
  ∀ k, k ≤ n → primes[k]? = some (decide (Unmarked i k ∧ ¬ (i ∣ k ∧ i * i ≤ k ∧ k < j)))

/-- The table of the sieve at the head of the outer loop, the counter at `i`. -/
def SieveInv (n i : Nat) (primes : List Bool) : Prop :=
  primes.length = n + 1 ∧ ∀ k, k ≤ n → primes[k]? = some (decide (Unmarked i k))

end Benchmarks

/-! ## coinChange (08-recursion-dp/main.go lines 127-152, 214-219) -/

namespace RecursionDP

/-- Go `a - b` on `int`. -/
def subInt (a b : Int) : Int := wrapInt (a - b)

/-- The helper `min` (lines 214-219). -/
def min (a b : Int) : Int := if a < b then a else b

/-- A write `s[i] = v` of a `[]int`; `none` is the index-out-of-range panic. -/
def setAt (s : List Int) (i : Int) (v : Int) : Option (List Int) :=
  if 0 ≤ i ∧ i < s.length then some (s.set i.toNat v) else none

/-- The loop over `coins` of `coinChange` (lines 139-143) for the amount `i`, over the
coins still to come; `none` when a read or write is out of range. -/
def coinLoop (i : Int) : List Int → List Int → Option (List Int)
  | [], dp => some dp
  | coin :: rest, dp =>
    if coin ≤ i then
      match Sorting.getAt dp i, Sorting.getAt dp (subInt i coin) with
      | some cur, some prev =>
        match setAt dp i (min cur (Calculator.addInt prev 1)) with
        | some dp2 => coinLoop i rest dp2
        | none => none
      | _, _ => none
    else coinLoop i rest dp

/-- The loop over the amounts of `coinChange` (lines 138-144) at its head with the counter
`i`; `none` when the fuel runs out. -/
def amountLoop (coins : List Int) (amount : Int) : Nat → Int → List Int → Option (List Int)
  | 0, _, _ => none
  | fuel + 1, i, dp =>
    if i ≤ amount then
      match coinLoop i coins dp with
      | none => none
      | some dp2 => amountLoop coins amount fuel (Calculator.addInt i 1) dp2
    else some dp

/-- `coinChange(coins, amount)` (lines 129-152) with `fuel` iterations allowed to the loop
over the amounts, on a machine that can allocate `avail` bytes; `none` when
`make([]int, amount+1)` does not return the table (an element takes 8 bytes). -/
def coinChange (avail : Int) (fuel : Nat) (coins : List Int) (amount : Int) : Option Int :=
  if amount = 0 then some 0
  else
    let len := Calculator.addInt amount 1
    if makeReturns avail 8 len then
      match setAt (List.replicate len.toNat (Calculator.addInt amount 1)) 0 0 with
      | none => none
      | some dp0 =>
        match amountLoop coins amount fuel 1 dp0 with
        | none => none
        | some dp =>
          match Sorting.getAt dp amount with
          | none => none
          | some v => if v > amount then some (-1) else some v
    else none

/-- Some `k` coins, each of a denomination in `coins` and each denomination usable any
number of times, have the values that sum to `a`. -/
def CanMake (coins : List Int) (a : Int) (k : Nat) : Prop :=
  ∃ chosen : List Int, (∀ c ∈ chosen, c ∈ coins) ∧ chosen.sum = a ∧ chosen.length = k

/-- The value `v` is the entry of the table for the amount `a`: the minimum number of
coins that make `a`, or the impossible value `amount + 1` when no coins make `a`. -/
def Best (coins : List Int) (amount a v : Int) : Prop :=
  (v = amount + 1 ∧ ∀ k, ¬ CanMake coins a k) ∨
  (0 ≤ v ∧ v ≤ a ∧ CanMake coins a v.toNat ∧ ∀ k, CanMake coins a k → v ≤ k)

/-- The entry of the table for the amount `i` after the coins `done`. -/
def EntryInv (coins done : List Int) (amount i cur : Int) : Prop :=
  (cur = amount + 1 ∨ (0 ≤ cur ∧ cur ≤ i ∧ CanMake coins i cur.toNat)) ∧
  ∀ c ∈ done, c ≤ i → ∀ k, CanMake coins (i - c) k → cur ≤ k + 1

/-- The table at the head of the loop over the amounts, the counter at `i`: final below
`i`, untouched from `i` on. -/
def TableInv (coins : List Int) (amount : Nat) (i : Nat) (dp : List Int) : Prop :=
  dp.length = amount + 1 ∧
  (∀ a, a < i → a ≤ amount → ∃ v, dp[a]? = some v ∧ Best coins amount a v) ∧
  (∀ a, i ≤ a → a ≤ amount → dp[a]? = some ((amount : Int) + 1))

end RecursionDP

/-! ## IsPalindromeSlow, IsPalindromeFast (13-benchmarks/main.go lines 205-223)

A Go string is the list of its bytes; a rune is its code point. -/

namespace Benchmarks

/-- Go `byte(x)`: the low eight bits. -/
def byte (x : Nat) : Fin 256 := ⟨x % 256, Nat.mod_lt _ (by decide)⟩

/-- A continuation byte, `0x80 .. 0xBF`. -/
def isCont (b : Fin 256) : Bool := 0x80 ≤ b.val && b.val ≤ 0xBF

/-- The first rune of a string and its width in bytes, as the conversion `[]rune(s)`
decodes UTF-8: a byte below `0x80` is its own rune; a lead byte with the right number of
continuation bytes gives the rune of their payload bits (`x & 0x3F` is `x % 64`, `<< 6`
is `* 64`, `|` of separate bit fields is `+`) unless that rune is overlong, a surrogate
or above `0x10FFFF`; everything else is one byte wide and gives `0xFFFD`. -/
def decoderune : List (Fin 256) → Nat × Nat
  | [] => (0xFFFD, 1)
  | b0 :: rest =>
    if b0.val < 0x80 then (b0.val, 1)
    else if 0xC0 ≤ b0.val ∧ b0.val < 0xE0 then
      match rest with
      | b1 :: _ =>
        if isCont b1 then
          let r := b0.val % 32 * 64 + b1.val % 64
          if 0x7F < r then (r, 2) else (0xFFFD, 1)
        else (0xFFFD, 1)
      | _ => (0xFFFD, 1)
    else if 0xE0 ≤ b0.val ∧ b0.val < 0xF0 then
      match rest with
      | b1 :: b2 :: _ =>
        if isCont b1 ∧ isCont b2 then
          let r := b0.val % 16 * 4096 + b1.val % 64 * 64 + b2.val % 64
          if 0x7FF < r ∧ ¬ (0xD800 ≤ r ∧ r ≤ 0xDFFF) then (r, 3) else (0xFFFD, 1)
        else (0xFFFD, 1)
      | _ => (0xFFFD, 1)
    else if 0xF0 ≤ b0.val ∧ b0.val < 0xF8 then
      match rest with
      | b1 :: b2 :: b3 :: _ =>
        if isCont b1 ∧ isCont b2 ∧ isCont b3 then
          let r := b0.val % 8 * 262144 + b1.val % 64 * 4096 + b2.val % 64 * 64 + b3.val % 64
          if 0xFFFF < r ∧ r ≤ 0x10FFFF then (r, 4) else (0xFFFD, 1)
        else (0xFFFD, 1)
      | _ => (0xFFFD, 1)
    else (0xFFFD, 1)

/-- The conversion `[]rune(s)` on at most `fuel` runes. -/
def toRunes : Nat → List (Fin 256) → List Nat
  | 0, _ => []
  | _, [] => []
  | fuel + 1, b0 :: rest =>
    (decoderune (b0 :: rest)).1 :: toRunes fuel ((b0 :: rest).drop (decoderune (b0 :: rest)).2)

/-- The conversion `[]rune(s)`; every rune takes at least one byte. -/
def runesOf (s : List (Fin 256)) : List Nat := toRunes s.length s

/-- The UTF-8 bytes of a rune, as the conversion `string(runes)` encodes it: a surrogate
and a rune above `0x10FFFF` are encoded as `0xFFFD`. -/
def encoderune (r : Nat) : List (Fin 256) :=
  if r ≤ 0x7F then [byte r]
  else if r ≤ 0x7FF then [byte (0xC0 + r / 64), byte (0x80 + r % 64)]
  else if 0x10FFFF < r ∨ (0xD800 ≤ r ∧ r ≤ 0xDFFF) then [0xEF, 0xBF, 0xBD]
  else if r ≤ 0xFFFF then
    [byte (0xE0 + r / 4096), byte (0x80 + r / 64 % 64), byte (0x80 + r % 64)]
  else
    [byte (0xF0 + r / 262144), byte (0x80 + r / 4096 % 64), byte (0x80 + r / 64 % 64),
      byte (0x80 + r % 64)]

/-- The conversion `string(runes)`. -/
def stringOf (runes : List Nat) : List (Fin 256) := (runes.map encoderune).flatten

/-- A read `runes[i]`; `none` is the index-out-of-range panic. -/
def runeAt (runes : List Nat) (i : Int) : Option Nat :=
  if 0 ≤ i then runes[i.toNat]? else none

/-- The loop of `IsPalindromeSlow` (lines 207-209) at its head: `runes[i]` and `runes[j]`
are exchanged while `i < j`; `none` when the fuel runs out. -/
def reverseLoop : Nat → List Nat → Int → Int → Option (List Nat)
  | 0, _, _, _ => none
  | fuel + 1, runes, i, j =>
    if i < j then
      match runeAt runes i, runeAt runes j with
      | some a, some b => reverseLoop fuel ((runes.set i.toNat b).set j.toNat a) (i + 1) (j - 1)
      | _, _ => none
    else some runes

/-- `IsPalindromeSlow(s)` (lines 205-211); the loop runs at most `len(runes)` times. -/
def IsPalindromeSlow (s : List (Fin 256)) : Option Bool :=
  (reverseLoop ((runesOf s).length + 1) (runesOf s) 0 (((runesOf s).length : Int) - 1)).map
    (fun runes => decide (stringOf runes = s))

/-- The loop of `IsPalindromeFast` (lines 216-220) at its head; `none` when the fuel runs
out. -/
def compareLoop (runes : List Nat) : Nat → Int → Int → Option Bool
  | 0, _, _ => none
  | fuel + 1, i, j =>
    if i < j then
      match runeAt runes i, runeAt runes j with
      | some a, some b => if a ≠ b then some false else compareLoop runes fuel (i + 1) (j - 1)
      | _, _ => none
    else some true

/-- `IsPalindromeFast(s)` (lines 213-223); the loop runs at most `len(runes)` times. -/
def IsPalindromeFast (s : List (Fin 256)) : Option Bool :=
  compareLoop (runesOf s) ((runesOf s).length + 1) 0 (((runesOf s).length : Int) - 1)

/-- The bytes of an ASCII text. -/
def ascii (text : String) : List (Fin 256) := text.toList.map (fun c => byte c.toNat)

/-- A Unicode scalar value: a code point up to `0x10FFFF` that is no surrogate. -/
def IsScalar (r : Nat) : Prop := r ≤ 0x10FFFF ∧ ¬ (0xD800 ≤ r ∧ r ≤ 0xDFFF)

end Benchmarks

/-! ## Graph.ShortestPath (16-trees-graphs/main.go lines 385-425) -/

namespace TreesGraphs

/-- The variables of the search loop of `ShortestPath`.  The maps `visited` and `parent`
are the functions that a read of the map computes: a missing key reads as `false` and as
`0`. -/
structure BfsState where
  visited : Int → Bool
  parent : Int → Int
  queue : List Int
  found : Bool

/-- The loop over the neighbours of `vertex` (lines 398-409), over the neighbours still to
come; the `break` ends it. -/
def scan (finish vertex : Int) : List Int → BfsState → BfsState
  | [], st => st
  | neighbor :: rest, st =>
    if st.visited neighbor = false then
      let st2 : BfsState :=
        { visited := Function.update st.visited neighbor true
          parent := Function.update st.parent neighbor vertex
          queue := st.queue ++ [neighbor]
          found := st.found }
      if neighbor = finish then { st2 with found := true }
      else scan finish vertex rest st2
    else scan finish vertex rest st

/-- The search loop (lines 394-410) at its head; `none` when the fuel runs out. -/
def bfsLoop (g : Graph) (finish : Int) : Nat → BfsState → Option BfsState
  | 0, _ => none
  | fuel + 1, st =>
    match st.queue with
    | [] => some st
    | vertex :: rest =>
      if st.found = false then
        bfsLoop g finish fuel
          (scan finish vertex (lookup g.AdjList vertex) { st with queue := rest })
      else some st

/-- The loop that rebuilds the path (lines 418-422) at its head; `none` when the fuel runs
out. -/
def buildPath (parent : Int → Int) : Nat → Int → List Int → Option (List Int)
  | 0, _, _ => none
  | fuel + 1, current, path =>
    if current ≠ -1 then buildPath parent fuel (parent current) (current :: path)
    else some path

/-- The state before the search loop (lines 387-393). -/
def bfsInit (start : Int) : BfsState :=
  { visited := Function.update (fun _ => false) start true
    parent := Function.update (fun _ => 0) start (-1)
    queue := [start]
    found := false }

/-- `Graph.ShortestPath(start, end)` (lines 386-425) with `fuel` iterations allowed to each
of its two loops; the nil slice is the empty list. -/
def ShortestPath (fuel : Nat) (g : Graph) (start finish : Int) : Option (List Int) :=
  match bfsLoop g finish fuel (bfsInit start) with
  | none => none
  | some st =>
    if st.found = false then some []
    else buildPath st.parent fuel finish []

/-- The graph of `main` (lines 542-549). -/
def mainGraph : Graph :=
  AddEdge (AddEdge (AddEdge (AddEdge (AddEdge (AddEdge (AddEdge (NewGraph 6) 0 1) 0 2) 1 3)
    1 4) 2 4) 3 5) 4 5

/-- A graph with the vertex `-1` between the vertices 0 and 2. -/
def minusOneGraph : Graph := AddEdge (AddEdge (NewGraph 3) 0 (-1)) (-1) 2

/-- The vertex `v` is adjacent to `u` in `AdjList`. -/
def Adj (g : Graph) (u v : Int) : Prop := v ∈ lookup g.AdjList u

instance (g : Graph) (u v : Int) : Decidable (Adj g u v) :=
  inferInstanceAs (Decidable (v ∈ lookup g.AdjList u))

/-- A path of the graph from `start` to `finish`: a non-empty list of vertices that begins
with `start`, ends with `finish` and has every consecutive pair adjacent. -/
def IsPath (g : Graph) (start finish : Int) (path : List Int) : Prop :=
  path.head? = some start ∧ path.getLast? = some finish ∧ path.Chain' (Adj g)

/-- All entries of all adjacency lists. -/
def allNeighbours (g : Graph) : List Int := (g.AdjList.map Prod.snd).flatten

/-- The number of entries of the adjacency lists that are not yet visited. -/
def unvisited (g : Graph) (st : BfsState) : Nat :=
  ((allNeighbours g).toFinset.filter (fun v => st.visited v = false)).card

/-- The state after the statements of lines 400-407 for an unvisited `neighbor` of
`vertex`. -/
def visit (finish vertex neighbor : Int) (st : BfsState) : BfsState :=
  { visited := Function.update st.visited neighbor true
    parent := Function.update st.parent neighbor vertex
    queue := st.queue ++ [neighbor]
    found := if neighbor = finish then true else st.found }

/-- The invariant of the search while the neighbours of `u` are visited, with the number
`d v` of edges of the path that `parent` records for a visited vertex `v`, and the bound
`C` on the number of vertices that can still be visited. -/
structure ScanInv (g : Graph) (start finish u : Int) (C : Nat) (d : Int → Nat)
    (st : BfsState) : Prop where
  start_vis : st.visited start = true
  start_d : d start = 0
  start_parent : st.parent start = -1
  no_neg : st.visited (-1) = false
  par : ∀ v, st.visited v = true → v ≠ start →
    st.visited (st.parent v) = true ∧ Adj g (st.parent v) v ∧ d v = d (st.parent v) + 1
  queue_vis : ∀ v ∈ st.queue, st.visited v = true
  queue_lo : ∀ v ∈ st.queue, d u ≤ d v
  all_hi : ∀ v, st.visited v = true → d v ≤ d u + 1
  sorted : st.queue.Pairwise (fun a b => d a ≤ d b)
  u_vis : st.visited u = true
  proc : ∀ v, st.visited v = true → v ∉ st.queue → v ≠ u →
    ∀ w, Adj g v w → st.visited w = true ∧ d w ≤ d v + 1
  found_iff : st.found = true ↔ st.visited finish = true
  budget : ∀ v, st.visited v = true → d v + unvisited g st ≤ C

end TreesGraphs


/-! ## The statements run by the workers of boundedParallelism (main.go lines 126-138) -/

namespace BoundedParallelism

/-- What a scheduler step logs: for a step of worker `i`, the worker and the program point
whose statement it runs (`acquire` is the send on `semaphore` of line 130, `release` the
deferred receive of line 131, `wgDone` the deferred `wg.Done()` of line 127); nothing for
the other goroutines. -/
def eventOf (s : State) : Action → List (Nat × WorkerPc)
  | .worker i =>
    match s.workers[i]? with
    | some w => [(i, w.pc)]
    | none => []
  | _ => []

/-- Run a schedule as `run` does and append to `log` the worker statements that ran. -/
def runLog (jobs : List Int) (maxWorkers : Nat) :
    State → List (Nat × WorkerPc) → List Action → Option (State × List (Nat × WorkerPc))
  | s, log, [] => some (s, log)
  | s, log, a :: rest =>
    (step jobs maxWorkers s a).bind (fun t => runLog jobs maxWorkers t (log ++ eventOf s a) rest)

/-- Number of sends on `semaphore` in a log. -/
def acquires (log : List (Nat × WorkerPc)) : Nat :=
  (log.filter (fun e => decide (e.2 = .acquire))).length

/-- Number of receives from `semaphore` in a log. -/
def releases (log : List (Nat × WorkerPc)) : Nat :=
  (log.filter (fun e => decide (e.2 = .release))).length

/-- The statements of worker `i` in a log, in the order in which they ran. -/
def eventsOf (log : List (Nat × WorkerPc)) (i : Nat) : List WorkerPc :=
  (log.filter (fun e => decide (e.1 = i))).map Prod.snd

/-- The statements a worker has run when it is at a program point. -/
def WorkerPc.history : WorkerPc → List WorkerPc
  | .acquire => []
  | .process => [.acquire]
  | .release => [.acquire, .process]
  | .wgDone => [.acquire, .process, .release]
  | .exited => [.acquire, .process, .release, .wgDone]

/-- Program points after the send on `semaphore`. -/
def WorkerPc.acquired : WorkerPc → Bool
  | .acquire => false
  | _ => true

/-- Program points after the receive from `semaphore`. -/
def WorkerPc.released : WorkerPc → Bool
  | .wgDone => true
  | .exited => true
  | _ => false

/-- The log of a run agrees with the program points of the workers. -/
structure LogInv (s : State) (log : List (Nat × WorkerPc)) : Prop where
  hist : ∀ i : Nat, eventsOf log i = ((s.workers[i]?).map (fun w => w.pc.history)).getD []
  acq : acquires log = (s.workers.filter (fun w => w.pc.acquired)).length
  rel : releases log = (s.workers.filter (fun w => w.pc.released)).length

/-- The log of `demoSchedule`. -/
def demoLog : List (Nat × WorkerPc) :=
  [(1, .acquire), (0, .acquire), (1, .process), (1, .release), (4, .acquire), (4, .process),
   (0, .process), (1, .wgDone), (0, .release), (3, .acquire), (4, .release), (0, .wgDone),
   (2, .acquire), (3, .process), (2, .process), (3, .release), (4, .wgDone), (3, .wgDone),
   (2, .release), (2, .wgDone)]

end BoundedParallelism

/-! # Theorems -/

theorem wrapInt_of_range {x : Int} (hlo : -(2 ^ 63) ≤ x) (hhi : x < 2 ^ 63) : wrapInt x = x := by
  unfold wrapInt
  rw [Int.emod_eq_of_lt (by omega) (by omega)]
  omega

theorem filter_length_set {α : Type} (p : α → Bool) (l : List α) (i : Nat) (a b : α)
    (h : l[i]? = some a) :
    ((l.set i b).filter p).length + (if p a then 1 else 0)
      = (l.filter p).length + (if p b then 1 else 0) := by
  induction l generalizing i with
  | nil => simp at h
  | cons x xs ih =>
    cases i with
    | zero =>
      simp at h
      subst h
      simp only [List.set_cons_zero, List.filter_cons]
      cases hx : p x <;> cases hb : p b <;> simp
    | succ j =>
      simp at h
      have := ih j h
      simp only [List.set_cons_succ, List.filter_cons]
      cases hx : p x <;> simp <;> omega

theorem map_sum_set {α : Type} (f : α → Nat) (l : List α) (i : Nat) (a b : α)
    (h : l[i]? = some a) :
    ((l.set i b).map f).sum + f a = (l.map f).sum + f b := by
  induction l generalizing i with
  | nil => simp at h
  | cons x xs ih =>
    cases i with
    | zero =>
      simp at h
      subst h
      simp
      omega
    | succ j =>
      simp at h
      have := ih j h
      simp only [List.set_cons_succ, List.map_cons, List.sum_cons]
      omega

namespace BoundedParallelism

theorem bp_inv_init (jobs : List Int) (maxWorkers : Nat) : Inv jobs maxWorkers init := by
  constructor <;> simp [init, live, holding]

theorem bp_inv_stepMain {jobs : List Int} {maxWorkers : Nat} {s t : State}
    (h : Inv jobs maxWorkers s) (hs : stepMain jobs s = some t) : Inv jobs maxWorkers t := by
  unfold stepMain at hs
  split at hs
  · rename_i k hk
    have hlen := h.main_spawn k hk
    split at hs
    · rename_i job hjob
      simp only [Option.some.injEq] at hs
      subst hs
      have hk' : k < jobs.length := by
        rcases List.getElem?_eq_some.1 hjob with ⟨hlt, _⟩
        exact hlt
      constructor
      · simp; omega
      · intro k' hk'; simp at hk'; simp; omega
      · intro hne; exact absurd rfl (hne (k + 1))
      · intro i w hw
        simp only [List.getElem?_append] at hw
        split at hw
        · exact h.args i w hw
        · rename_i hge
          have : i = k := by
            by_contra hne
            have : 0 < i - s.workers.length := by omega
            rcases Nat.exists_eq_succ_of_ne_zero (Nat.pos_iff_ne_zero.1 this) with ⟨m, hm⟩
            rw [hm] at hw
            simp at hw
          subst this
          simp [hlen] at hw
          subst hw
          exact ⟨rfl, hjob⟩
      · simp [live, List.filter_append, WorkerPc.live]; exact h.wg_eq
      · simp [holding, List.filter_append, WorkerPc.holdsSlot]; exact h.held_eq
      · exact h.held_le
      · have := h.closer_ns; simp [hk] at this; simp [this]
      · intro hc
        have := h.closer_ns; simp [hk] at this
        rcases hc with hc | hc <;> simp [this] at hc
      · exact h.closed_iff
      · simp
      · intro _ _; exact h.recv_nil (by simp [hk]) (by simp [hk])
      · exact h.sent_nodup
      · intro r hr
        obtain ⟨w, hw, hd, hv⟩ := h.sent_sound r hr
        refine ⟨w, ?_, hd, hv⟩
        have hlt : r.index < s.workers.length := (List.getElem?_eq_some.1 hw).1
        simp [List.getElem?_append, hlt, hw]
      · intro i w hw hd
        simp only [List.getElem?_append] at hw
        split at hw
        · exact h.sent_complete i w hw hd
        · rename_i hge
          cases hi : i - s.workers.length with
          | zero => rw [hi] at hw; simp at hw; subst hw; simp [WorkerPc.delivered] at hd
          | succ m => rw [hi] at hw; simp at hw
      · exact h.res_val
      · simp
    · simp only [Option.some.injEq] at hs
      subst hs
      rename_i hnone
      have hge : jobs.length ≤ k := List.getElem?_eq_none_iff.1 hnone
      constructor
      · exact h.len_le
      · simp
      · intro _; have := h.len_le; simp; omega
      · exact h.args
      · exact h.wg_eq
      · exact h.held_eq
      · exact h.held_le
      · have := h.closer_ns; simp [hk] at this; simp [this]
      · exact h.closer_done
      · exact h.closed_iff
      · simp
      · intro _ _; exact h.recv_nil (by simp [hk]) (by simp [hk])
      · exact h.sent_nodup
      · exact h.sent_sound
      · exact h.sent_complete
      · exact h.res_val
      · simp
  · rename_i hm
    simp only [Option.some.injEq] at hs
    subst hs
    constructor
    · exact h.len_le
    · simp
    · intro _; exact h.main_rest (by simp [hm])
    · exact h.args
    · exact h.wg_eq
    · exact h.held_eq
    · exact h.held_le
    · simp
    · simp
    · have h1 := h.closed_iff
      have h2 := h.closer_ns
      simp [hm] at h2
      simp [h2] at h1
      simp [h1]
    · simp
    · intro _ _; exact h.recv_nil (by simp [hm]) (by simp [hm])
    · exact h.sent_nodup
    · exact h.sent_sound
    · exact h.sent_complete
    · exact h.res_val
    · simp
  · rename_i hm
    simp only [Option.some.injEq] at hs
    subst hs
    have hclo := h.closer_ns
    simp [hm] at hclo
    constructor
    · exact h.len_le
    · simp
    · intro _; exact h.main_rest (by simp [hm])
    · exact h.args
    · exact h.wg_eq
    · exact h.held_eq
    · exact h.held_le
    · simp [hclo]
    · exact h.closer_done
    · exact h.closed_iff
    · simp
    · intro hc; simp at hc
    · exact h.sent_nodup
    · exact h.sent_sound
    · exact h.sent_complete
    · have := h.recv_nil (by simp [hm]) (by simp [hm])
      simp [this]
    · simp
  · rename_i hm
    have hclo := h.closer_ns
    simp [hm] at hclo
    have hrl := h.res_len (Or.inl hm)
    split at hs
    · rename_i r rest hch
      simp only [Option.some.injEq] at hs
      subst hs
      have hnd := h.sent_nodup
      rw [hch] at hnd
      constructor
      · exact h.len_le
      · simp [hm]
      · intro _; exact h.main_rest (by simp [hm])
      · exact h.args
      · exact h.wg_eq
      · exact h.held_eq
      · exact h.held_le
      · simp [hm, hclo]
      · exact h.closer_done
      · exact h.closed_iff
      · simp [hrl]
      · simp [hm]
      · simpa using hnd
      · intro r' hr'
        apply h.sent_sound
        rw [hch]
        simpa using hr'
      · intro i w hw hd
        obtain ⟨r', hr', hi⟩ := h.sent_complete i w hw hd
        refine ⟨r', ?_, hi⟩
        rw [hch] at hr'
        simpa using hr'
      · intro r' hr'
        simp only [List.mem_append, List.mem_singleton] at hr'
        obtain ⟨w, hw, _, _⟩ := h.sent_sound r (by rw [hch]; simp)
        have hlt : r.index < s.workers.length := (List.getElem?_eq_some.1 hw).1
        have hle := h.len_le
        rcases hr' with hr' | hr'
        · have hne : r.index ≠ r'.index := by
            intro heq
            simp only [List.map_append, List.map_cons, List.nodup_append,
              List.nodup_cons] at hnd
            have hdis := hnd.2.2
            exact hdis (List.mem_map_of_mem _ hr') (by simp [heq])
          simp only [List.getElem?_set, hne, if_false]
          exact h.res_val r' hr'
        · subst hr'
          simp [List.getElem?_set]
          omega
      · simp [hm]
    · split at hs
      · simp only [Option.some.injEq] at hs
        subst hs
        rename_i hch hcl
        constructor
        · exact h.len_le
        · simp
        · intro _; exact h.main_rest (by simp [hm])
        · exact h.args
        · exact h.wg_eq
        · exact h.held_eq
        · exact h.held_le
        · simp [hclo]
        · exact h.closer_done
        · exact h.closed_iff
        · simp [hrl]
        · simp
        · exact h.sent_nodup
        · exact h.sent_sound
        · exact h.sent_complete
        · exact h.res_val
        · intro _; exact ⟨hch, hcl⟩
      · simp at hs
  · simp at hs

theorem bp_inv_stepCloser {jobs : List Int} {maxWorkers : Nat} {s t : State}
    (h : Inv jobs maxWorkers s) (hs : stepCloser s = some t) : Inv jobs maxWorkers t := by
  unfold stepCloser at hs
  split at hs
  · rename_i hc
    split at hs
    · rename_i hwg
      simp only [Option.some.injEq] at hs
      subst hs
      have hns := h.closer_ns
      have hcl := h.closed_iff
      simp [hc] at hns hcl
      constructor
      · exact h.len_le
      · exact h.main_spawn
      · exact h.main_rest
      · exact h.args
      · exact h.wg_eq
      · exact h.held_eq
      · exact h.held_le
      · simpa using hns
      · intro _ w hw
        have hl := h.wg_eq
        rw [hwg] at hl
        have hnil : s.workers.filter (fun w => w.pc.live) = [] :=
          List.length_eq_zero.1 hl.symm
        have := List.filter_eq_nil_iff.1 hnil w hw
        cases hp : w.pc <;> simp [hp, WorkerPc.live] at this ⊢
      · simpa using hcl
      · exact h.res_len
      · exact h.recv_nil
      · exact h.sent_nodup
      · exact h.sent_sound
      · exact h.sent_complete
      · exact h.res_val
      · intro hm
        have := (h.ret hm).2
        simp [hcl] at this
    · simp at hs
  · rename_i hc
    simp only [Option.some.injEq] at hs
    subst hs
    have hns := h.closer_ns
    simp [hc] at hns
    constructor
    · exact h.len_le
    · exact h.main_spawn
    · exact h.main_rest
    · exact h.args
    · exact h.wg_eq
    · exact h.held_eq
    · exact h.held_le
    · simpa using hns
    · intro _; exact h.closer_done (Or.inl hc)
    · simp
    · exact h.res_len
    · exact h.recv_nil
    · exact h.sent_nodup
    · exact h.sent_sound
    · exact h.sent_complete
    · exact h.res_val
    · intro hm; exact ⟨(h.ret hm).1, rfl⟩
  · simp at hs
  · simp at hs

theorem bp_sent_index_lt {jobs : List Int} {maxWorkers : Nat} {s : State}
    (h : Inv jobs maxWorkers s) {r : JobResult} (hr : r ∈ s.received ++ s.jobCh) :
    r.index < s.workers.length := by
  obtain ⟨w, hw, _, _⟩ := h.sent_sound r hr
  exact (List.getElem?_eq_some.1 hw).1

/-- A worker that moves between two program points with the same closure arguments and
the same `delivered` status keeps every part of the invariant that does not mention the
counters. -/
theorem bp_inv_setPc {jobs : List Int} {maxWorkers : Nat} {s t : State}
    (h : Inv jobs maxWorkers s) {i : Nat} {w : Worker} (hw : s.workers[i]? = some w)
    (pc : WorkerPc) (hne : w.pc ≠ .exited)
    (hwk : t.workers = s.workers.set i { w with pc := pc })
    (hmain : t.main = s.main) (hcloser : t.closer = s.closer)
    (hclosed : t.jobChClosed = s.jobChClosed) (hres : t.results = s.results)
    (hrecv : t.received = s.received)
    (hwg : t.wg + (if w.pc.live then 1 else 0) = s.wg + (if pc.live then 1 else 0))
    (hheld : t.held + (if w.pc.holdsSlot then 1 else 0)
      = s.held + (if pc.holdsSlot then 1 else 0))
    (hle : t.held ≤ maxWorkers)
    (hch : (t.jobCh = s.jobCh ∧ pc.delivered = w.pc.delivered) ∨
      (t.jobCh = s.jobCh ++ [⟨w.index, mulInt w.value w.value⟩] ∧ w.pc.delivered = false ∧
        pc.delivered = true)) :
    Inv jobs maxWorkers t := by
  have hi : i < s.workers.length := (List.getElem?_eq_some.1 hw).1
  have hmem : w ∈ s.workers := List.mem_iff_getElem?.2 ⟨i, hw⟩
  have hcl : ¬ (s.closer = .close ∨ s.closer = .exited) :=
    fun hc => hne (h.closer_done hc w hmem)
  have hidx : w.index = i := (h.args i w hw).1
  have hget : ∀ j : Nat, t.workers[j]? =
      if i = j then some { w with pc := pc } else s.workers[j]? := by
    intro j
    rw [hwk, List.getElem?_set]
    by_cases hij : i = j
    · subst hij; simp [hi]
    · simp [hij]
  constructor
  · rw [hwk, List.length_set]; exact h.len_le
  · rw [hwk, List.length_set, hmain]; exact h.main_spawn
  · rw [hwk, List.length_set, hmain]; exact h.main_rest
  · intro j w' hw'
    rw [hget] at hw'
    split at hw'
    · rename_i hij
      subst hij
      simp only [Option.some.injEq] at hw'
      subst hw'
      exact h.args i w hw
    · exact h.args j w' hw'
  · have h1 := filter_length_set (fun w : Worker => w.pc.live) s.workers i w
      { w with pc := pc } hw
    have h2 := h.wg_eq
    simp only [live] at h2 ⊢
    rw [hwk]
    simp only at h1
    omega
  · have h1 := filter_length_set (fun w : Worker => w.pc.holdsSlot) s.workers i w
      { w with pc := pc } hw
    have h2 := h.held_eq
    simp only [holding] at h2 ⊢
    rw [hwk]
    simp only at h1
    omega
  · exact hle
  · rw [hcloser, hmain]; exact h.closer_ns
  · rw [hcloser]; intro hc; exact absurd hc hcl
  · rw [hcloser, hclosed]; exact h.closed_iff
  · rw [hmain, hres]; exact h.res_len
  · rw [hmain, hrecv]; exact h.recv_nil
  · rw [hrecv]
    rcases hch with ⟨hj, _⟩ | ⟨hj, hd, _⟩
    · rw [hj]; exact h.sent_nodup
    · rw [hj, ← List.append_assoc, List.map_append, List.nodup_append]
      refine ⟨h.sent_nodup, by simp, ?_⟩
      intro x hx hx'
      simp only [List.map_cons, List.map_nil, List.mem_singleton] at hx'
      subst hx'
      obtain ⟨r, hr, hri⟩ := List.mem_map.1 hx
      obtain ⟨w', hw', hd', _⟩ := h.sent_sound r hr
      rw [hri, hidx, hw] at hw'
      simp only [Option.some.injEq] at hw'
      subst hw'
      rw [hd] at hd'
      exact absurd hd' (by simp)
  · intro r hr
    rw [hrecv] at hr
    rcases hch with ⟨hj, hd⟩ | ⟨hj, hd, hd2⟩
    · rw [hj] at hr
      obtain ⟨w', hw', hd', hv⟩ := h.sent_sound r hr
      rw [hget]
      by_cases hij : i = r.index
      · rw [← hij, hw] at hw'
        simp only [Option.some.injEq] at hw'
        subst hw'
        exact ⟨{ w with pc := pc }, by simp [hij], by simpa [hd] using hd', hv⟩
      · exact ⟨w', by simp [hij, hw'], hd', hv⟩
    · rw [hj, ← List.append_assoc, List.mem_append] at hr
      rcases hr with hr | hr
      · obtain ⟨w', hw', hd', hv⟩ := h.sent_sound r hr
        rw [hget]
        by_cases hij : i = r.index
        · rw [← hij, hw] at hw'
          simp only [Option.some.injEq] at hw'
          subst hw'
          rw [hd] at hd'
          exact absurd hd' (by simp)
        · exact ⟨w', by simp [hij, hw'], hd', hv⟩
      · simp only [List.mem_singleton] at hr
        subst hr
        rw [hget]
        exact ⟨{ w with pc := pc }, by simp [hidx], hd2, rfl⟩
  · intro j w' hw' hd'
    rw [hget] at hw'
    rw [hrecv]
    by_cases hij : i = j
    · subst hij
      simp only [if_true, Option.some.injEq] at hw'
      subst hw'
      simp only at hd'
      rcases hch with ⟨hj, hd⟩ | ⟨hj, hd, hd2⟩
      · rw [hj]
        exact h.sent_complete i w hw (by rw [← hd]; exact hd')
      · rw [hj]
        exact ⟨⟨w.index, mulInt w.value w.value⟩, by simp, hidx⟩
    · simp only [hij, if_false] at hw'
      obtain ⟨r, hr, hri⟩ := h.sent_complete j w' hw' hd'
      rcases hch with ⟨hj, _⟩ | ⟨hj, _, _⟩
      · rw [hj]; exact ⟨r, hr, hri⟩
      · rw [hj, ← List.append_assoc]
        exact ⟨r, List.mem_append_left _ hr, hri⟩
  · rw [hrecv, hres]; exact h.res_val
  · rw [hmain, hclosed]
    intro hm
    have hr := h.ret hm
    exact absurd (Or.inr (h.closed_iff.1 hr.2)) hcl

theorem bp_inv_stepWorker {jobs : List Int} {maxWorkers : Nat} {s t : State} {i : Nat}
    (h : Inv jobs maxWorkers s) (hs : stepWorker jobs maxWorkers s i = some t) :
    Inv jobs maxWorkers t := by
  unfold stepWorker at hs
  split at hs
  · simp at hs
  · rename_i w hw
    have hmem : w ∈ s.workers := List.mem_iff_getElem?.2 ⟨i, hw⟩
    have hheld := h.held_le
    split at hs
    · rename_i hpc
      split at hs
      · simp only [Option.some.injEq] at hs
        subst hs
        refine bp_inv_setPc h hw .process (by simp [hpc]) rfl rfl rfl rfl rfl rfl ?_ ?_ ?_ ?_
        · simp [hpc, WorkerPc.live]
        · simp [hpc, WorkerPc.holdsSlot]
        · simp only; omega
        · left; simp [hpc, WorkerPc.delivered]
      · simp at hs
    · rename_i hpc
      split at hs
      · simp only [Option.some.injEq] at hs
        subst hs
        refine bp_inv_setPc h hw .release (by simp [hpc]) rfl rfl rfl rfl rfl rfl ?_ ?_ ?_ ?_
        · simp [hpc, WorkerPc.live]
        · simp [hpc, WorkerPc.holdsSlot]
        · exact hheld
        · right; simp [hpc, WorkerPc.delivered]
      · simp at hs
    · rename_i hpc
      split at hs
      · simp only [Option.some.injEq] at hs
        subst hs
        refine bp_inv_setPc h hw .wgDone (by simp [hpc]) rfl rfl rfl rfl rfl rfl ?_ ?_ ?_ ?_
        · simp [hpc, WorkerPc.live]
        · simp [hpc, WorkerPc.holdsSlot]; omega
        · simp only; omega
        · left; simp [hpc, WorkerPc.delivered]
      · simp at hs
    · rename_i hpc
      split at hs
      · simp only [Option.some.injEq] at hs
        subst hs
        refine bp_inv_setPc h hw .exited (by simp [hpc]) rfl rfl rfl rfl rfl rfl ?_ ?_ ?_ ?_
        · simp [hpc, WorkerPc.live]; omega
        · simp [hpc, WorkerPc.holdsSlot]
        · exact hheld
        · left; simp [hpc, WorkerPc.delivered]
      · simp at hs
    · simp at hs

theorem bp_inv_step {jobs : List Int} {maxWorkers : Nat} {s t : State} {a : Action}
    (h : Inv jobs maxWorkers s) (hs : step jobs maxWorkers s a = some t) :
    Inv jobs maxWorkers t := by
  cases a with
  | main => exact bp_inv_stepMain h hs
  | closer => exact bp_inv_stepCloser h hs
  | worker i => exact bp_inv_stepWorker h hs

theorem bp_inv_run {jobs : List Int} {maxWorkers : Nat} (sched : List Action) {s t : State}
    (h : Inv jobs maxWorkers s) (hs : run jobs maxWorkers s sched = some t) :
    Inv jobs maxWorkers t := by
  induction sched generalizing s with
  | nil => simp [run] at hs; subst hs; exact h
  | cons a rest ih =>
    simp only [run] at hs
    cases hst : step jobs maxWorkers s a with
    | none => simp [hst] at hs
    | some u =>
      simp only [hst, Option.some_bind] at hs
      exact ih (bp_inv_step h hst) hs

theorem bp_rank_set {l : List Worker} (i : Nat) (w : Worker) (pc : WorkerPc)
    (hw : l[i]? = some w) :
    ((l.set i { w with pc := pc }).map (fun w => w.pc.rank)).sum + w.pc.rank
      = (l.map (fun w => w.pc.rank)).sum + pc.rank :=
  map_sum_set (fun w : Worker => w.pc.rank) l i w { w with pc := pc } hw

theorem bp_measure_step {jobs : List Int} {maxWorkers : Nat} {s t : State} {a : Action}
    (hs : step jobs maxWorkers s a = some t) : measure jobs t < measure jobs s := by
  cases a with
  | main =>
    simp only [step, stepMain] at hs
    split at hs
    · rename_i k hk
      split at hs
      · rename_i job hjob
        have hlt : k < jobs.length := (List.getElem?_eq_some.1 hjob).1
        simp only [Option.some.injEq] at hs
        subst hs
        simp [measure, hk, MainPc.rank, WorkerPc.rank]
        omega
      · simp only [Option.some.injEq] at hs
        subst hs
        simp only [measure, hk, MainPc.rank]
        omega
    · rename_i hm
      simp only [Option.some.injEq] at hs
      subst hs
      simp only [measure, hm, MainPc.rank, CloserPc.rank]
      omega
    · rename_i hm
      simp only [Option.some.injEq] at hs
      subst hs
      simp [measure, hm, MainPc.rank]
    · rename_i hm
      split at hs
      · rename_i r rest hch
        simp only [Option.some.injEq] at hs
        subst hs
        simp [measure, hm, MainPc.rank, hch]
      · split at hs
        · simp only [Option.some.injEq] at hs
          subst hs
          simp [measure, hm, MainPc.rank]
        · simp at hs
    · simp at hs
  | closer =>
    simp only [step, stepCloser] at hs
    split at hs
    · rename_i hc
      split at hs
      · simp only [Option.some.injEq] at hs
        subst hs
        simp [measure, hc, CloserPc.rank]
      · simp at hs
    · rename_i hc
      simp only [Option.some.injEq] at hs
      subst hs
      simp [measure, hc, CloserPc.rank]
    · simp at hs
    · simp at hs
  | worker i =>
    simp only [step, stepWorker] at hs
    split at hs
    · simp at hs
    · rename_i w hw
      split at hs <;> rename_i hpc
      · split at hs
        · simp only [Option.some.injEq] at hs
          subst hs
          have := bp_rank_set i w .process hw
          have e1 : WorkerPc.acquire.rank = 8 := rfl
          have e2 : WorkerPc.process.rank = 6 := rfl
          rw [hpc, e1, e2] at this
          simp only [measure]
          omega
        · simp at hs
      · split at hs
        · simp only [Option.some.injEq] at hs
          subst hs
          have := bp_rank_set i w .release hw
          have e1 : WorkerPc.process.rank = 6 := rfl
          have e2 : WorkerPc.release.rank = 4 := rfl
          rw [hpc, e1, e2] at this
          simp only [measure, List.length_append, List.length_singleton]
          omega
        · simp at hs
      · split at hs
        · simp only [Option.some.injEq] at hs
          subst hs
          have := bp_rank_set i w .wgDone hw
          have e1 : WorkerPc.release.rank = 4 := rfl
          have e2 : WorkerPc.wgDone.rank = 2 := rfl
          rw [hpc, e1, e2] at this
          simp only [measure]
          omega
        · simp at hs
      · split at hs
        · simp only [Option.some.injEq] at hs
          subst hs
          have := bp_rank_set i w .exited hw
          have e1 : WorkerPc.wgDone.rank = 2 := rfl
          have e2 : WorkerPc.exited.rank = 0 := rfl
          rw [hpc, e1, e2] at this
          simp only [measure]
          omega
        · simp at hs
      · simp at hs

theorem filter_pos_of_mem {α : Type} (p : α → Bool) {l : List α} {a : α} (ha : a ∈ l)
    (hp : p a = true) : 0 < (l.filter p).length :=
  List.length_pos_of_mem (List.mem_filter.2 ⟨ha, hp⟩)

theorem bp_progress_isSome {jobs : List Int} {maxWorkers : Nat} {s : State}
    (h : Inv jobs maxWorkers s) (hK : 1 ≤ maxWorkers) (hm : s.main ≠ .returned) :
    ∃ a, (step jobs maxWorkers s a).isSome = true := by
  cases hmain : s.main with
  | spawn k =>
    cases hj : jobs[k]? <;> exact ⟨.main, by simp [step, stepMain, hmain, hj]⟩
  | startCloser => exact ⟨.main, by simp [step, stepMain, hmain]⟩
  | alloc => exact ⟨.main, by simp [step, stepMain, hmain]⟩
  | returned => exact absurd hmain hm
  | collect =>
    cases hch : s.jobCh with
    | cons r rest => exact ⟨.main, by simp [step, stepMain, hmain, hch]⟩
    | nil =>
      cases hcl : s.jobChClosed with
      | true => exact ⟨.main, by simp [step, stepMain, hmain, hch, hcl]⟩
      | false =>
        have hns := h.closer_ns
        have hci := h.closed_iff
        simp [hmain] at hns
        simp [hcl] at hci
        cases hc : s.closer with
        | notStarted => exact absurd hc hns
        | exited => exact absurd hc hci
        | close => exact ⟨.closer, by simp [step, stepCloser, hc]⟩
        | wait =>
          by_cases hwg : s.wg = 0
          · exact ⟨.closer, by simp [step, stepCloser, hc, hwg]⟩
          · by_cases hex : ∃ w ∈ s.workers,
                w.pc = .process ∨ w.pc = .release ∨ w.pc = .wgDone
            · obtain ⟨w, hmem, hpc⟩ := hex
              obtain ⟨i, hw⟩ := List.mem_iff_getElem?.1 hmem
              have hi : i < s.workers.length := (List.getElem?_eq_some.1 hw).1
              have hlen := h.len_le
              rcases hpc with hpc | hpc | hpc
              · refine ⟨.worker i, ?_⟩
                have : 0 < jobs.length := by omega
                simp [step, stepWorker, hw, hpc, hch, this]
              · have hpos : 0 < s.held := by
                  rw [h.held_eq]
                  exact filter_pos_of_mem _ hmem (by simp [hpc, WorkerPc.holdsSlot])
                refine ⟨.worker i, ?_⟩
                simp [step, stepWorker, hw, hpc, hpos]
              · refine ⟨.worker i, ?_⟩
                have : 0 < s.wg := by omega
                simp [step, stepWorker, hw, hpc, this]
            · have hall : ∀ w ∈ s.workers, w.pc = .acquire ∨ w.pc = .exited := by
                intro w hmem
                cases hpc : w.pc
                · simp
                · exact absurd ⟨w, hmem, Or.inl hpc⟩ hex
                · exact absurd ⟨w, hmem, Or.inr (Or.inl hpc)⟩ hex
                · exact absurd ⟨w, hmem, Or.inr (Or.inr hpc)⟩ hex
                · simp
              have hheld : s.held = 0 := by
                rw [h.held_eq, holding, List.length_eq_zero, List.filter_eq_nil_iff]
                intro w hmem
                rcases hall w hmem with hpc | hpc <;> simp [hpc, WorkerPc.holdsSlot]
              have hlive : 0 < (s.workers.filter (fun w => w.pc.live)).length := by
                have := h.wg_eq
                simp only [live] at this
                omega
              obtain ⟨w, hwf⟩ := List.exists_mem_of_length_pos hlive
              obtain ⟨hmem, hl⟩ := List.mem_filter.1 hwf
              have hpc : w.pc = .acquire := by
                rcases hall w hmem with hpc | hpc
                · exact hpc
                · simp [hpc, WorkerPc.live] at hl
              obtain ⟨i, hw⟩ := List.mem_iff_getElem?.1 hmem
              refine ⟨.worker i, ?_⟩
              have : s.held < maxWorkers := by omega
              simp [step, stepWorker, hw, hpc, this]

/-- Deadlock freedom: before the return some goroutine can always move. -/
theorem bp_progress {jobs : List Int} {maxWorkers : Nat} {s : State}
    (h : Inv jobs maxWorkers s) (hK : 1 ≤ maxWorkers) (hm : s.main ≠ .returned) :
    ∃ a t, step jobs maxWorkers s a = some t := by
  obtain ⟨a, ha⟩ := bp_progress_isSome h hK hm
  exact ⟨a, Option.isSome_iff_exists.1 ha⟩

/-- From every state that satisfies the invariant some schedule leads to the return. -/
theorem bp_exists_return {jobs : List Int} {maxWorkers : Nat} (hK : 1 ≤ maxWorkers) :
    ∀ (n : Nat) (s : State), measure jobs s ≤ n → Inv jobs maxWorkers s →
      ∃ rest t, run jobs maxWorkers s rest = some t ∧ t.main = .returned := by
  intro n
  induction n with
  | zero =>
    intro s hn h
    by_cases hm : s.main = .returned
    · exact ⟨[], s, rfl, hm⟩
    · obtain ⟨a, t, ht⟩ := bp_progress h hK hm
      have := bp_measure_step ht
      omega
  | succ n ih =>
    intro s hn h
    by_cases hm : s.main = .returned
    · exact ⟨[], s, rfl, hm⟩
    · obtain ⟨a, t, ht⟩ := bp_progress h hK hm
      have hlt := bp_measure_step ht
      obtain ⟨rest, u, hu, hret⟩ := ih t (by omega) (bp_inv_step h ht)
      exact ⟨a :: rest, u, by simp [run, ht, hu], hret⟩

theorem bp_results_of_returned {jobs : List Int} {maxWorkers : Nat} {s : State}
    (h : Inv jobs maxWorkers s) (hm : s.main = .returned) :
    s.results = jobs.map (fun v => mulInt v v) := by
  obtain ⟨hch, hcl⟩ := h.ret hm
  have hex := h.closed_iff.1 hcl
  have hall := h.closer_done (Or.inr hex)
  have hlen := h.main_rest (by simp [hm])
  have hrl := h.res_len (Or.inr hm)
  apply List.ext_getElem?
  intro i
  by_cases hi : i < jobs.length
  · have hiw : i < s.workers.length := by omega
    have hw : s.workers[i]? = some s.workers[i] := List.getElem?_eq_getElem hiw
    have hpc := hall _ (List.getElem_mem hiw)
    obtain ⟨r, hr, hri⟩ := h.sent_complete i _ hw (by simp [hpc, WorkerPc.delivered])
    obtain ⟨w, hw', _, hv⟩ := h.sent_sound r hr
    rw [hri, hw] at hw'
    simp only [Option.some.injEq] at hw'
    have hj := (h.args i _ hw).2
    rw [hch, List.append_nil] at hr
    have hres := h.res_val r hr
    rw [hri] at hres
    rw [hres, List.getElem?_map, hj, hv, ← hw']
    rfl
  · rw [List.getElem?_eq_none (by omega), List.getElem?_eq_none (by simp; omega)]

theorem bp_inv_reachable {jobs : List Int} {maxWorkers : Nat} {sched : List Action} {s : State}
    (hrun : run jobs maxWorkers init sched = some s) : Inv jobs maxWorkers s :=
  bp_inv_run sched (bp_inv_init jobs maxWorkers) hrun

theorem bp_sent_perm_of_all_exited {jobs : List Int} {maxWorkers : Nat} {s : State}
    (h : Inv jobs maxWorkers s) (hlen : s.workers.length = jobs.length)
    (hall : ∀ w ∈ s.workers, w.pc = .exited) :
    ((s.received ++ s.jobCh).map JobResult.index).Perm (List.range jobs.length) := by
  rw [List.perm_ext_iff_of_nodup h.sent_nodup (List.nodup_range _)]
  intro i
  constructor
  · intro hi
    obtain ⟨r, hr, hri⟩ := List.mem_map.1 hi
    have := bp_sent_index_lt h hr
    rw [List.mem_range]
    omega
  · intro hi
    rw [List.mem_range] at hi
    have hiw : i < s.workers.length := by omega
    have hpc := hall _ (List.getElem_mem hiw)
    obtain ⟨r, hr, hri⟩ := h.sent_complete i _ (List.getElem?_eq_getElem hiw)
      (by simp [hpc, WorkerPc.delivered])
    exact List.mem_map.2 ⟨r, hr, hri⟩

theorem bp_sent_value {jobs : List Int} {maxWorkers : Nat} {s : State}
    (h : Inv jobs maxWorkers s) {r : JobResult} (hr : r ∈ s.received ++ s.jobCh) :
    ∃ v, jobs[r.index]? = some v ∧ r.value = mulInt v v := by
  obtain ⟨w, hw, _, hv⟩ := h.sent_sound r hr
  exact ⟨w.value, (h.args _ w hw).2, hv⟩

/-- C1: for every job slice, every `maxWorkers >= 1` and every schedule (hence every
order in which the workers complete), a call of `boundedParallelism` that has returned
holds a result slice of length `len(jobs)` with `r[i] = jobs[i] * jobs[i]` (Go `int`
multiplication, the exact square whenever that fits 64 bits) at every index; from every reachable state some schedule reaches the
return, and every step decreases `measure`, so no schedule runs forever. -/
theorem boundedParallelism_results (jobs : List Int) (maxWorkers : Nat)
    (hK : 1 ≤ maxWorkers) (sched : List Action) (s : State)
    (hrun : run jobs maxWorkers init sched = some s) :
    (s.main = .returned →
      s.results.length = jobs.length ∧
      ∀ (i : Nat) (hi : i < jobs.length), s.results[i]? = some (mulInt jobs[i] jobs[i]) ∧
        (jobs[i] * jobs[i] < 2 ^ 63 → s.results[i]? = some (jobs[i] * jobs[i]))) ∧
    (∃ rest t, run jobs maxWorkers s rest = some t ∧ t.main = .returned) ∧
    (∀ a t, step jobs maxWorkers s a = some t → measure jobs t < measure jobs s) := by
  have h := bp_inv_reachable hrun
  refine ⟨?_, bp_exists_return hK _ s (Nat.le_refl _) h, fun a t ht => bp_measure_step ht⟩
  intro hm
  have hres := bp_results_of_returned h hm
  refine ⟨by rw [hres, List.length_map], ?_⟩
  intro i hi
  have hget : s.results[i]? = some (mulInt jobs[i] jobs[i]) := by
    rw [hres, List.getElem?_map, List.getElem?_eq_getElem hi]
    rfl
  refine ⟨hget, fun hlt => ?_⟩
  rw [hget, mulInt, wrapInt_of_range (by nlinarith [mul_self_nonneg jobs[i]]) hlt]

/-- Witness of C1: `boundedParallelism([10,20,30,40,50], 2) = [100,400,900,1600,2500]`
on a schedule where the workers complete in the order 1, 4, 0, 3, 2. -/
theorem boundedParallelism_results_witness :
    run [10, 20, 30, 40, 50] 2 init demoSchedule = some demoFinal ∧
    demoFinal.results = [100, 400, 900, 1600, 2500] ∧
    demoFinal.results.length = 5 ∧ demoFinal.results[3]? = some (mulInt 40 40) :=
  have hrun : run [10, 20, 30, 40, 50] 2 init demoSchedule = some demoFinal := by decide
  have h := (boundedParallelism_results [10, 20, 30, 40, 50] 2 (by decide) demoSchedule
    demoFinal hrun).1 rfl
  ⟨hrun, rfl, h.1, (h.2 3 (by decide)).1⟩

/-- C2: in every reachable state of `boundedParallelism`, for every number of jobs and
every `maxWorkers`, the semaphore counter satisfies `0 <= held <= maxWorkers`, it equals the
number of workers between acquire and release, and the number of workers executing the
job body is at most `maxWorkers`. -/
theorem semaphore_bound (jobs : List Int) (maxWorkers : Nat) (sched : List Action)
    (s : State) (hrun : run jobs maxWorkers init sched = some s) :
    0 ≤ s.held ∧ s.held ≤ maxWorkers ∧ s.held = holding s ∧ inBody s ≤ maxWorkers := by
  have h := bp_inv_reachable hrun
  refine ⟨Nat.zero_le _, h.held_le, h.held_eq, ?_⟩
  have hsub : inBody s ≤ holding s := by
    apply List.Sublist.length_le
    apply List.monotone_filter_right
    intro w hw
    cases hpc : w.pc <;> simp [hpc, WorkerPc.inBody, WorkerPc.holdsSlot] at hw ⊢
  have := h.held_eq
  have := h.held_le
  omega

/-- Witness of C2: three jobs, two slots; two workers are in the job body and the
third cannot acquire. -/
theorem semaphore_bound_witness :
    run [10, 20, 30] 2 init fullSchedule = some fullState ∧
    fullState.held ≤ 2 ∧ inBody fullState ≤ 2 ∧
    step [10, 20, 30] 2 fullState (.worker 1) = none :=
  have hrun : run [10, 20, 30] 2 init fullSchedule = some fullState := by decide
  have h := semaphore_bound [10, 20, 30] 2 fullSchedule fullState hrun
  ⟨hrun, h.2.1, h.2.2.2, by decide⟩

/-- C3, as stated, fails: with one job the worker can finish and `close(jobCh)` can run
while the caller has not yet entered its collector loop, so the channel is closed
before any of the `len(jobs)` values has been received. -/
theorem close_precedes_receives :
    run [10] 1 init closeFirstSchedule = some closeFirstState ∧
    closeFirstState.jobChClosed = true ∧ closeFirstState.received = [] ∧
    closeFirstState.jobCh = [⟨0, 100⟩] ∧ closeFirstState.main = .alloc := by
  decide

/-- C3, amended: for every jobs and `maxWorkers >= 1`, when `boundedParallelism` has
returned its collector loop has received exactly `len(jobs)` values, exactly one for each
index `0..len(jobs)-1`, each the square of that job; when `jobCh` is closed every job has
sent its result (received or still buffered, one per index); and from every reachable
state some schedule reaches the return. -/
theorem boundedParallelism_join (jobs : List Int) (maxWorkers : Nat)
    (hK : 1 ≤ maxWorkers) (sched : List Action) (s : State)
    (hrun : run jobs maxWorkers init sched = some s) :
    (s.main = .returned →
      s.received.length = jobs.length ∧
      (s.received.map JobResult.index).Perm (List.range jobs.length)) ∧
    (∀ r ∈ s.received, ∃ v, jobs[r.index]? = some v ∧ r.value = mulInt v v) ∧
    (s.jobChClosed = true →
      ((s.received ++ s.jobCh).map JobResult.index).Perm (List.range jobs.length)) ∧
    (∃ rest t, run jobs maxWorkers s rest = some t ∧ t.main = .returned) := by
  have h := bp_inv_reachable hrun
  have hclosed : s.jobChClosed = true →
      ((s.received ++ s.jobCh).map JobResult.index).Perm (List.range jobs.length) := by
    intro hcl
    have hex := h.closed_iff.1 hcl
    have hns := h.closer_ns
    have hlen : s.workers.length = jobs.length := by
      apply h.main_rest
      intro k hk
      have : s.closer = .notStarted := hns.2 (Or.inr ⟨k, hk⟩)
      rw [hex] at this
      exact absurd this (by simp)
    exact bp_sent_perm_of_all_exited h hlen (h.closer_done (Or.inr hex))
  refine ⟨?_, ?_, hclosed, bp_exists_return hK _ s (Nat.le_refl _) h⟩
  · intro hm
    obtain ⟨hch, hcl⟩ := h.ret hm
    have hp := hclosed hcl
    rw [hch, List.append_nil] at hp
    refine ⟨?_, hp⟩
    have := hp.length_eq
    simpa using this
  · intro r hr
    exact bp_sent_value h (List.mem_append_left _ hr)

/-- Witness of C3 (amended) on the run of `[10,20,30,40,50]` with two slots. -/
theorem boundedParallelism_join_witness :
    run [10, 20, 30, 40, 50] 2 init demoSchedule = some demoFinal ∧
    demoFinal.received.length = 5 ∧
    (demoFinal.received.map JobResult.index).Perm (List.range 5) :=
  have hrun : run [10, 20, 30, 40, 50] 2 init demoSchedule = some demoFinal := by decide
  have h := (boundedParallelism_join [10, 20, 30, 40, 50] 2 (by decide) demoSchedule
    demoFinal hrun).1 rfl
  ⟨hrun, h.1, h.2⟩

end BoundedParallelism

namespace FanIn

theorem fanIn_inv_init (chans : List (List Int)) : Inv chans (init chans) := by
  constructor
  · simp [init]
  · intro i ln hln
    simp only [init, List.getElem?_map] at hln
    cases hc : chans[i]? with
    | none => simp [hc] at hln
    | some c =>
      simp only [hc, Option.map_some', Option.some.injEq] at hln
      subst hln
      exact ⟨c, rfl, by simp [emittedFrom, init, FwdPc.inflight], by simp, by simp [FwdPc.finished]⟩
  · intro i ln hln
    simp only [init, List.getElem?_map] at hln
    cases hc : chans[i]? with
    | none => simp [hc] at hln
    | some c =>
      simp only [hc, Option.map_some', Option.some.injEq] at hln
      subst hln
      simp [init]
  · simp only [init, List.filter_map]
    simp [Function.comp_def, FwdPc.live]
  · simp [init]
  · simp [init]
  · simp [init]
  · simp [init]

theorem emittedFrom_append (s t : State) (i : Nat) (vs : List Int)
    (h : t.emitted = s.emitted ++ vs.map (fun v => (i, v))) (j : Nat) :
    emittedFrom t j = emittedFrom s j ++ (if j = i then vs else []) := by
  simp only [emittedFrom, h, List.filter_append, List.map_append, List.append_cancel_left_eq]
  by_cases hji : j = i
  · subst hji
    simp [List.filter_map, Function.comp_def]
  · have : i ≠ j := fun e => hji e.symm
    simp [List.filter_map, Function.comp_def, hji, this]

/-- A step that changes only lane `i` (and appends values of lane `i` to the log)
preserves the invariant, given what it does to that lane. -/
theorem fanIn_inv_setLane {chans : List (List Int)} {s t : State}
    (h : Inv chans s) {i : Nat} {ln : Lane} (hln : s.lanes[i]? = some ln) (ln2 : Lane)
    (vs : List Int)
    (hlanes : t.lanes = s.lanes.set i ln2)
    (hmain : t.main = s.main) (hcloser : t.closer = s.closer)
    (hclosed : t.outClosed = s.outClosed)
    (hem : t.emitted = s.emitted ++ vs.map (fun v => (i, v)))
    (hwg : t.wg + (if ln.fwd.live then 1 else 0) = s.wg + (if ln2.fwd.live then 1 else 0))
    (hns : ln2.fwd = .notStarted ↔ ln.fwd = .notStarted)
    (hex : ln.fwd = .exited → ln2.fwd = .exited)
    (hok : ∀ c, LaneOk c (emittedFrom s i) ln → LaneOk c (emittedFrom s i ++ vs) ln2) :
    Inv chans t := by
  have hi : i < s.lanes.length := (List.getElem?_eq_some.1 hln).1
  have hget : ∀ j : Nat, t.lanes[j]? = if i = j then some ln2 else s.lanes[j]? := by
    intro j
    rw [hlanes, List.getElem?_set]
    by_cases hij : i = j
    · subst hij; simp [hi]
    · simp [hij]
  constructor
  · rw [hlanes, List.length_set]; exact h.len
  · intro j l hl
    rw [hget] at hl
    rw [emittedFrom_append s t i vs hem j]
    by_cases hij : i = j
    · subst hij
      simp only [if_true, Option.some.injEq] at hl
      subst hl
      obtain ⟨c, hc, hlo⟩ := h.lane_ok i ln hln
      exact ⟨c, hc, by simpa using hok c hlo⟩
    · simp only [hij, if_false] at hl
      have : ¬ j = i := fun e => hij e.symm
      simpa [this] using h.lane_ok j l hl
  · intro j l hl
    rw [hget] at hl
    rw [hmain]
    by_cases hij : i = j
    · subst hij
      simp only [if_true, Option.some.injEq] at hl
      subst hl
      rw [hns]
      exact h.started i ln hln
    · simp only [hij, if_false] at hl
      exact h.started j l hl
  · have h1 := filter_length_set (fun l : Lane => l.fwd.live) s.lanes i ln ln2 hln
    have h2 := h.wg_eq
    rw [hlanes]
    simp only at h1
    omega
  · rw [hcloser, hmain]; exact h.closer_ns
  · rw [hcloser]
    intro hc j l hl
    rw [hget] at hl
    by_cases hij : i = j
    · subst hij
      simp only [if_true, Option.some.injEq] at hl
      subst hl
      exact hex (h.closer_done hc i ln hln)
    · simp only [hij, if_false] at hl
      exact h.closer_done hc j l hl
  · rw [hcloser, hclosed]; exact h.closed_iff
  · intro e he
    rw [hlanes, List.length_set]
    rw [hem, List.mem_append] at he
    rcases he with he | he
    · exact h.tags e he
    · obtain ⟨v, _, hv⟩ := List.mem_map.1 he
      rw [← hv]
      exact hi

theorem fanIn_inv_stepMain {chans : List (List Int)} {s t : State}
    (h : Inv chans s) (hs : stepMain s = some t) : Inv chans t := by
  unfold stepMain at hs
  split at hs
  · rename_i k hk
    split at hs
    · rename_i ln hln
      simp only [Option.some.injEq] at hs
      subst hs
      have hi : k < s.lanes.length := (List.getElem?_eq_some.1 hln).1
      have hnot : ln.fwd = .notStarted := (h.started k ln hln).2 ⟨k, hk, Nat.le_refl _⟩
      have hget : ∀ j : Nat, (s.lanes.set k { ln with fwd := .recv })[j]? =
          if k = j then some { ln with fwd := .recv } else s.lanes[j]? := by
        intro j
        rw [List.getElem?_set]
        by_cases hij : k = j
        · subst hij; simp [hi]
        · simp [hij]
      have hns := h.closer_ns
      simp [hk] at hns
      constructor
      · simp only [List.length_set]; exact h.len
      · intro j l hl
        simp only [hget] at hl
        by_cases hij : k = j
        · subst hij
          simp only [if_true, Option.some.injEq] at hl
          subst hl
          obtain ⟨c, hc, hlo⟩ := h.lane_ok k ln hln
          refine ⟨c, hc, ?_, hlo.closed_pending, by simp [FwdPc.finished]⟩
          have := hlo.content
          simpa [hnot, FwdPc.inflight, emittedFrom] using this
        · simp only [hij, if_false] at hl
          exact h.lane_ok j l hl
      · intro j l hl
        simp only [hget] at hl
        by_cases hij : k = j
        · subst hij
          simp only [if_true, Option.some.injEq] at hl
          subst hl
          simp
        · simp only [hij, if_false] at hl
          have := h.started j l hl
          simp only [hk, MainPc.spawn.injEq, exists_eq_left'] at this ⊢
          rw [this]
          omega
      · have h1 := filter_length_set (fun l : Lane => l.fwd.live) s.lanes k ln
          { ln with fwd := .recv } hln
        have h2 := h.wg_eq
        have e1 : ln.fwd.live = false := by rw [hnot]; rfl
        have e2 : FwdPc.recv.live = true := rfl
        simp only [e1, e2, if_true, Bool.false_eq_true, if_false] at h1
        simp only at h1 ⊢
        omega
      · simpa using hns
      · intro hc
        rcases hc with hc | hc <;> simp [hns] at hc
      · exact h.closed_iff
      · simp only [List.length_set]; exact h.tags
    · rename_i hnone
      simp only [Option.some.injEq] at hs
      subst hs
      have hge : s.lanes.length ≤ k := List.getElem?_eq_none_iff.1 hnone
      have hns := h.closer_ns
      simp [hk] at hns
      constructor
      · exact h.len
      · exact h.lane_ok
      · intro j l hl
        have hj : j < s.lanes.length := (List.getElem?_eq_some.1 hl).1
        have := h.started j l hl
        constructor
        · intro hf
          obtain ⟨k2, hk2, hle⟩ := this.1 hf
          rw [hk] at hk2
          injection hk2 with hk2
          omega
        · rintro ⟨k2, hk2, _⟩
          cases hk2
      · exact h.wg_eq
      · simpa using hns
      · exact h.closer_done
      · exact h.closed_iff
      · exact h.tags
  · rename_i hm
    simp only [Option.some.injEq] at hs
    subst hs
    have hns := h.closer_ns
    simp [hm] at hns
    have hcl := h.closed_iff
    simp [hns] at hcl
    constructor
    · exact h.len
    · exact h.lane_ok
    · intro j l hl
      have := h.started j l hl
      simpa [hm] using this
    · exact h.wg_eq
    · simp
    · simp
    · simpa using hcl
    · exact h.tags
  · simp at hs

theorem fanIn_inv_stepCloser {chans : List (List Int)} {s t : State}
    (h : Inv chans s) (hs : stepCloser s = some t) : Inv chans t := by
  unfold stepCloser at hs
  split at hs
  · rename_i hc
    split at hs
    · rename_i hwg
      simp only [Option.some.injEq] at hs
      subst hs
      have hns := h.closer_ns
      have hcl := h.closed_iff
      simp [hc] at hns hcl
      constructor
      · exact h.len
      · exact h.lane_ok
      · exact h.started
      · exact h.wg_eq
      · simpa using hns
      · intro _ i ln hln
        have hl := h.wg_eq
        rw [hwg] at hl
        have hnil : s.lanes.filter (fun l => l.fwd.live) = [] :=
          List.length_eq_zero.1 hl.symm
        have hmem : ln ∈ s.lanes := List.mem_iff_getElem?.2 ⟨i, hln⟩
        have hnl := List.filter_eq_nil_iff.1 hnil ln hmem
        have hst := h.started i ln hln
        simp only [hns, MainPc.returned, false_and, exists_false, iff_false] at hst
        cases hp : ln.fwd <;> simp [hp, FwdPc.live] at hnl hst ⊢
      · simpa using hcl
      · exact h.tags
    · simp at hs
  · rename_i hc
    simp only [Option.some.injEq] at hs
    subst hs
    have hns := h.closer_ns
    simp [hc] at hns
    constructor
    · exact h.len
    · exact h.lane_ok
    · exact h.started
    · exact h.wg_eq
    · simpa using hns
    · intro _; exact h.closer_done (Or.inl hc)
    · simp
    · exact h.tags
  · simp at hs
  · simp at hs

theorem fanIn_inv_stepFwd {chans : List (List Int)} {s t : State} {i : Nat}
    (h : Inv chans s) (hs : stepFwd s i = some t) : Inv chans t := by
  unfold stepFwd at hs
  split at hs
  · simp at hs
  · rename_i ln hln
    split at hs
    · simp at hs
    · rename_i hpc
      split at hs
      · rename_i v rest hbuf
        simp only [Option.some.injEq] at hs
        subst hs
        refine fanIn_inv_setLane h hln { ln with buf := rest, fwd := .send v } [] rfl rfl rfl
          rfl (by simp) ?_ ?_ ?_ ?_
        · simp [hpc, FwdPc.live]
        · simp [hpc]
        · simp [hpc]
        · intro c hc
          refine ⟨?_, hc.closed_pending, by simp [FwdPc.finished]⟩
          have := hc.content
          simpa [hpc, hbuf, FwdPc.inflight] using this
      · rename_i hbuf
        split at hs
        · rename_i hcl
          simp only [Option.some.injEq] at hs
          subst hs
          refine fanIn_inv_setLane h hln { ln with fwd := .wgDone } [] rfl rfl rfl
            rfl (by simp) ?_ ?_ ?_ ?_
          · simp [hpc, FwdPc.live]
          · simp [hpc]
          · simp [hpc]
          · intro c hc
            refine ⟨?_, hc.closed_pending, fun _ => ⟨hcl, hbuf⟩⟩
            have := hc.content
            simpa [hpc, FwdPc.inflight] using this
        · simp at hs
    · rename_i v hpc
      simp only [Option.some.injEq] at hs
      subst hs
      refine fanIn_inv_setLane h hln { ln with fwd := .recv } [v] rfl rfl rfl
        rfl (by simp) ?_ ?_ ?_ ?_
      · simp [hpc, FwdPc.live]
      · simp [hpc]
      · simp [hpc]
      · intro c hc
        refine ⟨?_, hc.closed_pending, by simp [FwdPc.finished]⟩
        have := hc.content
        simpa [hpc, FwdPc.inflight] using this
    · rename_i hpc
      split at hs
      · rename_i hwg
        simp only [Option.some.injEq] at hs
        subst hs
        refine fanIn_inv_setLane h hln { ln with fwd := .exited } [] rfl rfl rfl
          rfl (by simp) ?_ ?_ ?_ ?_
        · simp [hpc, FwdPc.live]; omega
        · simp [hpc]
        · simp [hpc]
        · intro c hc
          refine ⟨?_, hc.closed_pending, fun _ => hc.finished_drained (by simp [hpc, FwdPc.finished])⟩
          have := hc.content
          simpa [hpc, FwdPc.inflight] using this
      · simp at hs
    · simp at hs

theorem fanIn_inv_stepProduce {chans : List (List Int)} {s t : State} {i : Nat}
    (h : Inv chans s) (hs : stepProduce s i = some t) : Inv chans t := by
  unfold stepProduce at hs
  split at hs
  · simp at hs
  · rename_i ln hln
    split at hs
    · simp at hs
    · rename_i hcl
      split at hs
      · rename_i v rest hp
        simp only [Option.some.injEq] at hs
        subst hs
        refine fanIn_inv_setLane h hln { ln with pending := rest, buf := ln.buf ++ [v] } []
          rfl rfl rfl rfl (by simp) ?_ ?_ ?_ ?_
        · simp
        · simp
        · simp
        · intro c hc
          refine ⟨?_, fun hc2 => absurd hc2 hcl, fun hf => ?_⟩
          · have := hc.content
            simpa [hp] using this
          · exact absurd (hc.finished_drained hf).1 hcl
      · simp at hs

theorem fanIn_inv_stepCloseInput {chans : List (List Int)} {s t : State} {i : Nat}
    (h : Inv chans s) (hs : stepCloseInput s i = some t) : Inv chans t := by
  unfold stepCloseInput at hs
  split at hs
  · simp at hs
  · rename_i ln hln
    split at hs
    · simp at hs
    · rename_i hcl
      split at hs
      · rename_i hp
        simp only [Option.some.injEq] at hs
        subst hs
        refine fanIn_inv_setLane h hln { ln with closed := true } []
          rfl rfl rfl rfl (by simp) ?_ ?_ ?_ ?_
        · simp
        · simp
        · simp
        · intro c hc
          refine ⟨?_, fun _ => hp, fun hf => ?_⟩
          · have := hc.content
            simpa using this
          · exact absurd (hc.finished_drained hf).1 hcl
      · simp at hs

theorem fanIn_inv_step {chans : List (List Int)} {s t : State} {a : Action}
    (h : Inv chans s) (hs : step s a = some t) : Inv chans t := by
  cases a with
  | main => exact fanIn_inv_stepMain h hs
  | closer => exact fanIn_inv_stepCloser h hs
  | fwd i => exact fanIn_inv_stepFwd h hs
  | produce i => exact fanIn_inv_stepProduce h hs
  | closeInput i => exact fanIn_inv_stepCloseInput h hs

theorem fanIn_inv_run {chans : List (List Int)} (sched : List Action) {s t : State}
    (h : Inv chans s) (hs : run s sched = some t) : Inv chans t := by
  induction sched generalizing s with
  | nil => simp [run] at hs; subst hs; exact h
  | cons a rest ih =>
    simp only [run] at hs
    cases hst : step s a with
    | none => simp [hst] at hs
    | some u =>
      simp only [hst, Option.some_bind] at hs
      exact ih (fanIn_inv_step h hst) hs

theorem fanIn_rank_set {l : List Lane} (i : Nat) (ln ln2 : Lane) (hln : l[i]? = some ln) :
    ((l.set i ln2).map Lane.rank).sum + ln.rank = (l.map Lane.rank).sum + ln2.rank :=
  map_sum_set Lane.rank l i ln ln2 hln

theorem fanIn_measure_step {s t : State} {a : Action} (hs : step s a = some t) :
    measure t < measure s := by
  cases a with
  | main =>
    simp only [step, stepMain] at hs
    split at hs
    · rename_i k hk
      split at hs
      · rename_i ln hln
        have hlt : k < s.lanes.length := (List.getElem?_eq_some.1 hln).1
        simp only [Option.some.injEq] at hs
        subst hs
        have := fanIn_rank_set k ln { ln with fwd := .recv } hln
        have e1 : FwdPc.recv.rank = 2 := rfl
        simp only [Lane.rank, e1] at this
        simp only [measure, hk, MainPc.rank, List.length_set]
        omega
      · simp only [Option.some.injEq] at hs
        subst hs
        simp only [measure, hk, MainPc.rank]
        omega
    · rename_i hm
      simp only [Option.some.injEq] at hs
      subst hs
      simp only [measure, hm, MainPc.rank, CloserPc.rank]
      omega
    · simp at hs
  | closer =>
    simp only [step, stepCloser] at hs
    split at hs
    · rename_i hc
      split at hs
      · simp only [Option.some.injEq] at hs
        subst hs
        simp [measure, hc, CloserPc.rank]
      · simp at hs
    · rename_i hc
      simp only [Option.some.injEq] at hs
      subst hs
      simp [measure, hc, CloserPc.rank]
    · simp at hs
    · simp at hs
  | fwd i =>
    simp only [step, stepFwd] at hs
    split at hs
    · simp at hs
    · rename_i ln hln
      split at hs
      · simp at hs
      · rename_i hpc
        split at hs
        · rename_i v rest hbuf
          simp only [Option.some.injEq] at hs
          subst hs
          have := fanIn_rank_set i ln { ln with buf := rest, fwd := .send v } hln
          simp only [Lane.rank, FwdPc.rank, hpc, hbuf, List.length_cons] at this
          simp only [measure, List.length_set]
          omega
        · split at hs
          · simp only [Option.some.injEq] at hs
            subst hs
            have := fanIn_rank_set i ln { ln with fwd := .wgDone } hln
            simp only [Lane.rank, FwdPc.rank, hpc] at this
            simp only [measure, List.length_set]
            omega
          · simp at hs
      · rename_i v hpc
        simp only [Option.some.injEq] at hs
        subst hs
        have := fanIn_rank_set i ln { ln with fwd := .recv } hln
        simp only [Lane.rank, FwdPc.rank, hpc] at this
        simp only [measure, List.length_set]
        omega
      · rename_i hpc
        split at hs
        · simp only [Option.some.injEq] at hs
          subst hs
          have := fanIn_rank_set i ln { ln with fwd := .exited } hln
          simp only [Lane.rank, FwdPc.rank, hpc] at this
          simp only [measure, List.length_set]
          omega
        · simp at hs
      · simp at hs
  | produce i =>
    simp only [step, stepProduce] at hs
    split at hs
    · simp at hs
    · rename_i ln hln
      split at hs
      · simp at hs
      · split at hs
        · rename_i v rest hp
          simp only [Option.some.injEq] at hs
          subst hs
          have := fanIn_rank_set i ln { ln with pending := rest, buf := ln.buf ++ [v] } hln
          simp only [Lane.rank, hp, List.length_cons, List.length_append,
            List.length_nil] at this
          simp only [measure, List.length_set]
          omega
        · simp at hs
  | closeInput i =>
    simp only [step, stepCloseInput] at hs
    split at hs
    · simp at hs
    · rename_i ln hln
      split at hs
      · simp at hs
      · rename_i hcl
        split at hs
        · simp only [Option.some.injEq] at hs
          subst hs
          have := fanIn_rank_set i ln { ln with closed := true } hln
          simp only [Lane.rank, hcl, if_true, Bool.false_eq_true, if_false] at this
          simp only [measure, List.length_set]
          omega
        · simp at hs

theorem fanIn_progress {chans : List (List Int)} {s : State}
    (h : Inv chans s) (hopen : s.outClosed = false) :
    ∃ a, (step s a).isSome = true := by
  cases hmain : s.main with
  | spawn k =>
    cases hj : s.lanes[k]? <;> exact ⟨.main, by simp [step, stepMain, hmain, hj]⟩
  | startCloser => exact ⟨.main, by simp [step, stepMain, hmain]⟩
  | returned =>
    have hns := h.closer_ns
    have hci := h.closed_iff
    simp [hmain] at hns
    simp [hopen] at hci
    cases hc : s.closer with
    | notStarted => exact absurd hc hns
    | exited => exact absurd hc hci
    | close => exact ⟨.closer, by simp [step, stepCloser, hc]⟩
    | wait =>
      by_cases hwg : s.wg = 0
      · exact ⟨.closer, by simp [step, stepCloser, hc, hwg]⟩
      · have hlive : 0 < (s.lanes.filter (fun ln => ln.fwd.live)).length := by
          have := h.wg_eq
          omega
        obtain ⟨ln, hlf⟩ := List.exists_mem_of_length_pos hlive
        obtain ⟨hmem, hl⟩ := List.mem_filter.1 hlf
        obtain ⟨i, hln⟩ := List.mem_iff_getElem?.1 hmem
        have hpos : 0 < s.wg := by omega
        cases hpc : ln.fwd with
        | notStarted => simp [hpc, FwdPc.live] at hl
        | exited => simp [hpc, FwdPc.live] at hl
        | send v => exact ⟨.fwd i, by simp [step, stepFwd, hln, hpc]⟩
        | wgDone => exact ⟨.fwd i, by simp [step, stepFwd, hln, hpc, hpos]⟩
        | recv =>
          cases hbuf : ln.buf with
          | cons v rest => exact ⟨.fwd i, by simp [step, stepFwd, hln, hpc, hbuf]⟩
          | nil =>
            cases hcl : ln.closed with
            | true => exact ⟨.fwd i, by simp [step, stepFwd, hln, hpc, hbuf, hcl]⟩
            | false =>
              cases hp : ln.pending with
              | nil => exact ⟨.closeInput i, by simp [step, stepCloseInput, hln, hcl, hp]⟩
              | cons v rest => exact ⟨.produce i, by simp [step, stepProduce, hln, hcl, hp]⟩

/-- From every state that satisfies the invariant some schedule closes `out`. -/
theorem fanIn_exists_closed {chans : List (List Int)} :
    ∀ (n : Nat) (s : State), measure s ≤ n → Inv chans s →
      ∃ rest t, run s rest = some t ∧ t.outClosed = true := by
  intro n
  induction n with
  | zero =>
    intro s hn h
    cases hcl : s.outClosed with
    | true => exact ⟨[], s, rfl, hcl⟩
    | false =>
      obtain ⟨a, ha⟩ := fanIn_progress h hcl
      obtain ⟨t, ht⟩ := Option.isSome_iff_exists.1 ha
      have := fanIn_measure_step ht
      omega
  | succ n ih =>
    intro s hn h
    cases hcl : s.outClosed with
    | true => exact ⟨[], s, rfl, hcl⟩
    | false =>
      obtain ⟨a, ha⟩ := fanIn_progress h hcl
      obtain ⟨t, ht⟩ := Option.isSome_iff_exists.1 ha
      have hlt := fanIn_measure_step ht
      obtain ⟨rest, u, hu, hret⟩ := ih t (by omega) (fanIn_inv_step h ht)
      exact ⟨a :: rest, u, by simp [run, ht, hu], hret⟩

/-- A tagged log whose part tagged `i` is `chans[i]`, for every `i`, is as a multiset the
union of the `chans`. -/
theorem perm_join_of_tagged (chans : List (List Int)) :
    ∀ l : List (Nat × Int), (∀ e ∈ l, e.1 < chans.length) →
      (∀ (i : Nat) (c : List Int), chans[i]? = some c →
        (l.filter (fun e => e.1 == i)).map (fun e => e.2) = c) →
      (l.map (fun e => e.2)).Perm chans.flatten := by
  induction chans using List.reverseRecOn with
  | nil =>
    intro l hl _
    cases l with
    | nil => simp
    | cons e es => exact absurd (hl e (by simp)) (by simp)
  | append_singleton cs c ih =>
    intro l hl hc
    have hlast := hc cs.length c (by simp)
    have hrest : ((l.filter (fun e => !(e.1 == cs.length))).map (fun e => e.2)).Perm cs.flatten := by
      apply ih
      · intro e he
        obtain ⟨hm, hne⟩ := List.mem_filter.1 he
        have := hl e hm
        simp at hne this
        omega
      · intro i c2 hi
        have hlt : i < cs.length := (List.getElem?_eq_some.1 hi).1
        have := hc i c2 (by rw [List.getElem?_append_left hlt]; exact hi)
        rw [← this, List.filter_filter]
        congr 1
        apply List.filter_congr
        intro e _
        by_cases hei : e.1 = i
        · simp [hei]; omega
        · simp [hei]
    have hsplit := List.filter_append_perm (fun e : Nat × Int => e.1 == cs.length) l
    have h1 := (hsplit.map (fun e => e.2)).symm
    rw [List.map_append, hlast] at h1
    simp only [List.flatten_append, List.flatten_cons, List.flatten_nil, List.append_nil]
    exact h1.trans (List.perm_append_comm.trans (List.Perm.append_right c hrest))

theorem fanIn_lane_done {chans : List (List Int)} {s : State} (h : Inv chans s)
    (hcl : s.outClosed = true) {i : Nat} {ln : Lane} (hln : s.lanes[i]? = some ln) :
    ln.closed = true ∧ ln.buf = [] ∧ ln.pending = [] ∧ chans[i]? = some (emittedFrom s i) := by
  have hex := h.closer_done (Or.inr (h.closed_iff.1 hcl)) i ln hln
  obtain ⟨c, hc, hlo⟩ := h.lane_ok i ln hln
  obtain ⟨hc1, hc2⟩ := hlo.finished_drained (by simp [hex, FwdPc.finished])
  have hp := hlo.closed_pending hc1
  refine ⟨hc1, hc2, hp, ?_⟩
  have := hlo.content
  simp [hex, FwdPc.inflight, hc2, hp] at this
  rw [hc, this]

/-- C4: for every list of input channels that each deliver a finite sequence and are then
closed, and every schedule: once `fanIn` has closed `out`, the values delivered on `out`
are as a multiset the union of the inputs, the values that came from input `i` are exactly
the sequence of input `i` in its order, and every input channel is closed and drained;
at any time the values delivered from input `i` are a prefix of its sequence; from every
reachable state some schedule closes `out`, and every step decreases `measure`. -/
theorem fanIn_merges (chans : List (List Int)) (sched : List Action) (s : State)
    (hrun : run (init chans) sched = some s) :
    (s.outClosed = true →
      (s.emitted.map (fun e => e.2)).Perm chans.flatten ∧
      (∀ (i : Nat) (c : List Int), chans[i]? = some c → emittedFrom s i = c) ∧
      (∀ ln ∈ s.lanes, ln.closed = true ∧ ln.buf = [] ∧ ln.pending = [])) ∧
    (∀ (i : Nat) (c : List Int), chans[i]? = some c → emittedFrom s i <+: c) ∧
    s.lanes.length = chans.length ∧
    (∃ rest t, run s rest = some t ∧ t.outClosed = true) ∧
    (∀ a t, step s a = some t → measure t < measure s) := by
  have h := fanIn_inv_run sched (fanIn_inv_init chans) hrun
  refine ⟨?_, ?_, h.len, fanIn_exists_closed _ s (Nat.le_refl _) h,
    fun a t ht => fanIn_measure_step ht⟩
  · intro hcl
    have hfrom : ∀ (i : Nat) (c : List Int), chans[i]? = some c → emittedFrom s i = c := by
      intro i c hc
      have hi : i < s.lanes.length := by
        rw [h.len]; exact (List.getElem?_eq_some.1 hc).1
      have := (fanIn_lane_done h hcl (List.getElem?_eq_getElem hi)).2.2.2
      rw [hc] at this
      simpa using this.symm
    refine ⟨?_, hfrom, ?_⟩
    · apply perm_join_of_tagged
      · intro e he
        rw [← h.len]
        exact h.tags e he
      · exact hfrom
    · intro ln hmem
      obtain ⟨i, hln⟩ := List.mem_iff_getElem?.1 hmem
      have := fanIn_lane_done h hcl hln
      exact ⟨this.1, this.2.1, this.2.2.1⟩
  · intro i c hc
    have hi : i < s.lanes.length := by
      rw [h.len]; exact (List.getElem?_eq_some.1 hc).1
    obtain ⟨c2, hc2, hlo⟩ := h.lane_ok i _ (List.getElem?_eq_getElem hi)
    rw [hc] at hc2
    simp only [Option.some.injEq] at hc2
    subst hc2
    refine ⟨(s.lanes[i]).fwd.inflight ++ (s.lanes[i]).buf ++ (s.lanes[i]).pending, ?_⟩
    rw [hlo.content]
    simp [List.append_assoc]

/-- Witness of C4 on the inputs `[[1,2],[3]]` closed at staggered times. -/
theorem fanIn_merges_witness :
    run (init [[1, 2], [3]]) staggeredSchedule = some staggeredFinal ∧
    (staggeredFinal.emitted.map (fun e => e.2)).Perm [1, 2, 3] ∧
    emittedFrom staggeredFinal 0 = [1, 2] ∧ emittedFrom staggeredFinal 1 = [3] :=
  have hrun : run (init [[1, 2], [3]]) staggeredSchedule = some staggeredFinal := by decide
  have h := (fanIn_merges [[1, 2], [3]] staggeredSchedule staggeredFinal hrun).1 rfl
  ⟨hrun, h.1, h.2.1 0 [1, 2] rfl, h.2.1 1 [3] rfl⟩

/-- When the first input is closed and drained while another is still open, the closing
goroutine stays blocked in `wg.Wait()`: `out` is not closed on the first closed input. -/
theorem fanIn_waits_for_all :
    run (init [[1, 2], [3]]) staggeredPrefix = some staggeredMid ∧
    step staggeredMid .closer = none ∧ staggeredMid.outClosed = false := by
  decide

end FanIn

namespace FanOut

end FanOut

namespace Pipeline

theorem pipeline_inv_init (xs : List Int) : Inv xs (init xs) := by
  constructor <;> simp [init, SquarePc.inflight]

theorem pipeline_inv_step {xs : List Int} {s t : State} {a : Action}
    (h : Inv xs s) (hs : step s a = some t) : Inv xs t := by
  obtain ⟨hc, hg, hf, ho, hr⟩ := h
  cases a with
  | genClose =>
    simp only [step] at hs
    split at hs
    · rename_i hgen
      split at hs
      · simp at hs
      · simp only [Option.some.injEq] at hs
        subst hs
        exact ⟨hc, fun _ => hgen, fun _ => rfl, ho, hr⟩
    · simp at hs
  | deliver =>
    simp only [step] at hs
    split at hs
    · rename_i x rest hgen hsq
      simp only [Option.some.injEq] at hs
      subst hs
      refine ⟨?_, ?_, ?_, ?_, hr⟩
      · simpa [hgen, hsq, SquarePc.inflight] using hc
      · intro hcl
        have := hg hcl
        simp [hgen] at this
      · simp
      · simpa [hsq] using ho
    · simp at hs
  | square =>
    simp only [step] at hs
    split at hs
    · rename_i hsq
      split at hs
      · rename_i hcl
        simp only [Option.some.injEq] at hs
        subst hs
        refine ⟨?_, hg, fun _ => hcl, ?_, hr⟩
        · simpa [hsq, SquarePc.inflight] using hc
        · simpa [hsq] using ho
      · simp at hs
    · rename_i n hsq
      split at hs
      · simp at hs
      · simp only [Option.some.injEq] at hs
        subst hs
        refine ⟨?_, hg, ?_, ?_, hr⟩
        · simpa [hsq, SquarePc.inflight] using hc
        · simp
        · simpa [hsq] using ho
    · rename_i hsq
      simp only [Option.some.injEq] at hs
      subst hs
      refine ⟨?_, hg, fun _ => hf (Or.inl hsq), by simp, fun _ => rfl⟩
      simpa [hsq, SquarePc.inflight] using hc
    · simp at hs
  | reader =>
    simp only [step] at hs
    split at hs
    · rename_i hcond
      simp only [Option.some.injEq] at hs
      subst hs
      simp only [Bool.and_eq_true] at hcond
      exact ⟨hc, hg, hf, ho, fun _ => hcond.1⟩
    · simp at hs

theorem pipeline_inv_run {xs : List Int} (sched : List Action) {s t : State}
    (h : Inv xs s) (hs : run s sched = some t) : Inv xs t := by
  induction sched generalizing s with
  | nil => simp [run] at hs; subst hs; exact h
  | cons a rest ih =>
    simp only [run] at hs
    cases hst : step s a with
    | none => simp [hst] at hs
    | some u =>
      simp only [hst, Option.some_bind] at hs
      exact ih (pipeline_inv_step h hst) hs

theorem pipeline_measure_step {s t : State} {a : Action} (hs : step s a = some t) :
    measure t < measure s := by
  cases a with
  | genClose =>
    simp only [step] at hs
    split at hs
    · split at hs
      · simp at hs
      · rename_i hcl
        simp only [Option.some.injEq] at hs
        subst hs
        simp only [measure, hcl, if_true, Bool.false_eq_true, if_false]
        omega
    · simp at hs
  | deliver =>
    simp only [step] at hs
    split at hs
    · rename_i x rest hgen hsq
      simp only [Option.some.injEq] at hs
      subst hs
      simp only [measure, hgen, hsq, SquarePc.rank, List.length_cons]
      omega
    · simp at hs
  | square =>
    simp only [step] at hs
    split at hs
    · rename_i hsq
      split at hs
      · simp only [Option.some.injEq] at hs
        subst hs
        simp only [measure, hsq, SquarePc.rank]
        omega
      · simp at hs
    · rename_i n hsq
      split at hs
      · simp at hs
      · simp only [Option.some.injEq] at hs
        subst hs
        simp only [measure, hsq, SquarePc.rank]
        omega
    · rename_i hsq
      simp only [Option.some.injEq] at hs
      subst hs
      simp only [measure, hsq, SquarePc.rank]
      omega
    · simp at hs
  | reader =>
    simp only [step] at hs
    split at hs
    · rename_i hcond
      simp only [Option.some.injEq] at hs
      subst hs
      simp only [Bool.and_eq_true, Bool.not_eq_true'] at hcond
      simp only [measure, hcond.2, if_true, Bool.false_eq_true, if_false]
      omega
    · simp at hs

theorem pipeline_progress {xs : List Int} {s : State} (h : Inv xs s)
    (hnd : s.readerDone = false) : ∃ a, (step s a).isSome = true := by
  cases hsq : s.sq with
  | send n => exact ⟨.square, by simp [step, hsq, hnd]⟩
  | closeOut => exact ⟨.square, by simp [step, hsq]⟩
  | exited => exact ⟨.reader, by simp [step, hnd, h.out_closed.2 hsq]⟩
  | recv =>
    cases hcl : s.inClosed with
    | true => exact ⟨.square, by simp [step, hsq, hcl]⟩
    | false =>
      cases hgen : s.gen with
      | nil => exact ⟨.genClose, by simp [step, hgen, hcl]⟩
      | cons x rest => exact ⟨.deliver, by simp [step, hgen, hsq]⟩

/-- From every state that satisfies the invariant some schedule ends the reader loop. -/
theorem pipeline_exists_done {xs : List Int} :
    ∀ (n : Nat) (s : State), measure s ≤ n → Inv xs s →
      ∃ rest t, run s rest = some t ∧ t.readerDone = true := by
  intro n
  induction n with
  | zero =>
    intro s hn h
    cases hd : s.readerDone with
    | true => exact ⟨[], s, rfl, hd⟩
    | false =>
      obtain ⟨a, ha⟩ := pipeline_progress h hd
      obtain ⟨t, ht⟩ := Option.isSome_iff_exists.1 ha
      have := pipeline_measure_step ht
      omega
  | succ n ih =>
    intro s hn h
    cases hd : s.readerDone with
    | true => exact ⟨[], s, rfl, hd⟩
    | false =>
      obtain ⟨a, ha⟩ := pipeline_progress h hd
      obtain ⟨t, ht⟩ := Option.isSome_iff_exists.1 ha
      have hlt := pipeline_measure_step ht
      obtain ⟨rest, u, hu, hret⟩ := ih t (by omega) (pipeline_inv_step h ht)
      exact ⟨a :: rest, u, by simp [run, ht, hu], hret⟩

/-- C7: for every finite input sequence `xs` and every schedule of
`square(generator(xs...))` with a reader that ranges over the output: the values received
are at any time a prefix of `[x*x for x in xs]` (Go `int` multiplication), in input
order; the output channel is closed only when the generator has sent everything and
closed its channel and every square has been delivered; when the reader loop ends it has
received exactly `[x*x for x in xs]`; from every reachable state some schedule ends the
reader loop, and every step decreases `measure`. -/
theorem pipeline_squares (xs : List Int) (sched : List Action) (s : State)
    (hrun : run (init xs) sched = some s) :
    s.received <+: xs.map (fun x => mulInt x x) ∧
    (s.outClosed = true →
      s.gen = [] ∧ s.inClosed = true ∧ s.received = xs.map (fun x => mulInt x x)) ∧
    (s.readerDone = true → s.received = xs.map (fun x => mulInt x x)) ∧
    (∃ rest t, run s rest = some t ∧ t.readerDone = true) ∧
    (∀ a t, step s a = some t → measure t < measure s) := by
  have h := pipeline_inv_run sched (pipeline_inv_init xs) hrun
  have hclosed : s.outClosed = true →
      s.gen = [] ∧ s.inClosed = true ∧ s.received = xs.map (fun x => mulInt x x) := by
    intro hcl
    have hex := h.out_closed.1 hcl
    have hin := h.finished_closed (Or.inr hex)
    have hg := h.closed_gen hin
    refine ⟨hg, hin, ?_⟩
    have := h.content
    simpa [hex, hg, SquarePc.inflight] using this.symm
  refine ⟨⟨_, h.content.symm⟩, hclosed, fun hd => (hclosed (h.reader hd)).2.2,
    pipeline_exists_done _ s (Nat.le_refl _) h, fun a t ht => pipeline_measure_step ht⟩

/-- Witness of C7: `square(generator(1, 2, 3))` yields `[1, 4, 9]`. -/
theorem pipeline_squares_witness :
    run (init [1, 2, 3]) demoSchedule = some demoFinal ∧ demoFinal.received = [1, 4, 9] :=
  have hrun : run (init [1, 2, 3]) demoSchedule = some demoFinal := by decide
  have h := (pipeline_squares [1, 2, 3] demoSchedule demoFinal hrun).2.2.1 rfl
  ⟨hrun, h⟩

end Pipeline

namespace ErrorHandling

theorem workerWithError_append (id : Int) (pre post : List Int) :
    workerWithError id (pre ++ post) = workerWithError id pre ++ workerWithError id post := by
  induction pre with
  | nil => rfl
  | cons job rest ih =>
    by_cases hj : job < 0 <;> simp [workerWithError, hj, ih]

theorem workerWithError_getElem (id : Int) (jobs : List Int) (i : Nat) (hi : i < jobs.length) :
    (workerWithError id jobs)[i]? =
      some (if jobs[i] < 0 then Outcome.error (errorMessage id jobs[i])
            else Outcome.result (mulInt jobs[i] jobs[i])) := by
  induction jobs generalizing i with
  | nil => simp at hi
  | cons job rest ih =>
    cases i with
    | zero => by_cases hj : job < 0 <;> simp [workerWithError, hj]
    | succ k =>
      have hk : k < rest.length := by simpa using hi
      have := ih k hk
      by_cases hj : job < 0 <;> simpa [workerWithError, hj] using this

/-- C6: for every sequence of jobs one `workerWithError` consumes, the worker performs
exactly one send per job, in the order of the jobs: an error on `errors` when `job < 0`
and `job * job` on `results` otherwise, which is the product wrapped to 64 bits and the
exact integer `job * job` whenever that is below `2 ^ 63`; a negative job does not end the
loop, the jobs after it are processed as if the worker had started with them. -/
theorem workerWithError_outcomes (id : Int) (jobs : List Int) :
    (workerWithError id jobs).length = jobs.length ∧
    (∀ (i : Nat) (hi : i < jobs.length),
      (workerWithError id jobs)[i]? =
        some (if jobs[i] < 0 then Outcome.error (errorMessage id jobs[i])
              else Outcome.result ((jobs[i] * jobs[i] + 2 ^ 63) % 2 ^ 64 - 2 ^ 63))) ∧
    (∀ (i : Nat) (hi : i < jobs.length), 0 ≤ jobs[i] → jobs[i] * jobs[i] < 2 ^ 63 →
      (workerWithError id jobs)[i]? = some (Outcome.result (jobs[i] * jobs[i]))) ∧
    (∀ (i : Nat) (hi : i < jobs.length), jobs[i] < 0 →
      (workerWithError id jobs)[i]? = some (Outcome.error (errorMessage id jobs[i]))) ∧
    resultsSent (workerWithError id jobs)
      = (jobs.filter (fun j => decide (0 ≤ j))).map
          (fun j => (j * j + 2 ^ 63) % 2 ^ 64 - 2 ^ 63) ∧
    errorsSent (workerWithError id jobs)
      = (jobs.filter (fun j => decide (j < 0))).map (errorMessage id) ∧
    (∀ pre job post, jobs = pre ++ job :: post →
      workerWithError id jobs
        = workerWithError id pre ++ workerWithError id [job] ++ workerWithError id post) := by
  refine ⟨?_, ?_, ?_, ?_, ?_, ?_, ?_⟩
  · induction jobs with
    | nil => rfl
    | cons job rest ih => by_cases hj : job < 0 <;> simp [workerWithError, hj, ih]
  · intro i hi
    rw [workerWithError_getElem id jobs i hi]
    rfl
  · intro i hi h0 hlt
    rw [workerWithError_getElem id jobs i hi, if_neg (by omega)]
    have hsq : 0 ≤ jobs[i] * jobs[i] := mul_nonneg h0 h0
    rw [mulInt, wrapInt_of_range (by omega) hlt]
  · intro i hi hneg
    rw [workerWithError_getElem id jobs i hi, if_pos hneg]
  · induction jobs with
    | nil => rfl
    | cons job rest ih =>
      by_cases hj : job < 0
      · have : ¬ 0 ≤ job := by omega
        simp [workerWithError, hj, resultsSent, ih, this]
      · have : 0 ≤ job := by omega
        simp [workerWithError, hj, resultsSent, ih, this, mulInt, wrapInt]
  · induction jobs with
    | nil => rfl
    | cons job rest ih =>
      by_cases hj : job < 0 <;> simp [workerWithError, hj, errorsSent, ih]
  · intro pre job post hjobs
    rw [hjobs, workerWithError_append, List.append_assoc]
    congr 1
    exact workerWithError_append id [job] post

/-- The jobs of `errorHandlingDemo` on one worker: the theorem gives the squares 1, 4 and
16 and the error of the job -1, and the loop goes on after it. -/
theorem workerWithError_outcomes_witness :
    (workerWithError 1 [1, 2, -1, 4])[1]? = some (Outcome.result 4) ∧
    (workerWithError 1 [1, 2, -1, 4])[2]?
      = some (Outcome.error "worker 1: negative job -1") ∧
    (workerWithError 1 [1, 2, -1, 4])[3]? = some (Outcome.result 16) ∧
    (workerWithError 7 [3037000500])[0]? = some (Outcome.result (-9223372036709301616)) ∧
    resultsSent (workerWithError 1 [1, 2, -1, 4]) = [1, 4, 16] ∧
    (workerWithError 1 [1, 2, -1, 4]).length = 4 :=
  ⟨(workerWithError_outcomes 1 [1, 2, -1, 4]).2.2.1 1 (by decide) (by decide) (by decide),
   (workerWithError_outcomes 1 [1, 2, -1, 4]).2.2.2.1 2 (by decide) (by decide),
   (workerWithError_outcomes 1 [1, 2, -1, 4]).2.2.1 3 (by decide) (by decide) (by decide),
   (workerWithError_outcomes 7 [3037000500]).2.1 0 (by decide),
   (workerWithError_outcomes 1 [1, 2, -1, 4]).2.2.2.2.1,
   (workerWithError_outcomes 1 [1, 2, -1, 4]).1⟩

/-- The jobs of `errorHandlingDemo` on one worker. -/
theorem workerWithError_demo :
    workerWithError 1 [1, 2, -1, 4]
      = [.result 1, .result 4, .error "worker 1: negative job -1", .result 16] := by
  decide

end ErrorHandling

namespace Future

theorem future_inv_step {value : Int} {s t : State} {a : Action}
    (h : Inv value s) (hs : step value s a = some t) : Inv value t := by
  rcases h with rfl | rfl | rfl
  · cases a with
    | task =>
      by_cases hv : value < 0
      · simp [step, init, hv] at hs
        subst hs
        exact Or.inr (Or.inl (by simp [hv]))
      · simp [step, init, hv] at hs
        subst hs
        exact Or.inr (Or.inl (by simp [hv]))
    | getResult => simp [step, init] at hs
    | getError => simp [step, init] at hs
  · cases a with
    | task => simp [step] at hs
    | getResult =>
      by_cases hv : value < 0
      · simp [step, hv] at hs
      · simp [step, hv] at hs
        subst hs
        exact Or.inr (Or.inr (by simp [outcome, hv]))
    | getError =>
      by_cases hv : value < 0
      · simp [step, hv] at hs
        subst hs
        exact Or.inr (Or.inr (by simp [outcome, hv]))
      · simp [step, hv] at hs
  · cases a with
    | task => simp [step] at hs
    | getResult => simp [step] at hs
    | getError => simp [step] at hs

theorem future_inv_run {value : Int} (sched : List Action) {s t : State}
    (h : Inv value s) (hs : run value s sched = some t) : Inv value t := by
  induction sched generalizing s with
  | nil => simp [run] at hs; subst hs; exact h
  | cons a rest ih =>
    simp only [run] at hs
    cases hst : step value s a with
    | none => simp [hst] at hs
    | some u =>
      simp only [hst, Option.some_bind] at hs
      exact ih (future_inv_step h hst) hs

/-- An `asyncTask(-1)` gives `(0, err)` to the first `Get`. -/
theorem asyncTask_negative :
    run (-1) init [.task, .getError] = some failedState := by
  decide

/-- C9, as stated, fails: after the first `Get` on the future of `asyncTask(5)` has
returned `(25, nil)` both channels are empty and the goroutine is done, so no action is
enabled: a second `Get` never returns. -/
theorem second_get_blocks :
    run 5 init [.task, .getResult] = some gotState ∧ gotState.gets = [(25, none)] ∧
    step 5 gotState .getResult = none ∧ step 5 gotState .getError = none ∧
    step 5 gotState .task = none := by
  decide

/-- C9, amended: for every `value` and every schedule at most one `Get` on the future of
`asyncTask(value)` returns, it returns the outcome of the task, and once it has returned
no action is enabled any more, so every later `Get` on the same future blocks forever. -/
theorem asyncTask_single_get (value : Int) (sched : List Action) (s : State)
    (hrun : run value init sched = some s) :
    s.gets.length ≤ 1 ∧ (∀ r ∈ s.gets, r = outcome value) ∧
    (s.gets.length = 1 → ∀ a, step value s a = none) := by
  have h : Inv value s := future_inv_run sched (Or.inl rfl) hrun
  rcases h with rfl | rfl | rfl
  · simp [init]
  · simp
  · refine ⟨by simp, by simp, fun _ a => ?_⟩
    cases a <;> simp [step]

/-- Witness of C9 (amended) on `asyncTask(5)`. -/
theorem asyncTask_single_get_witness :
    run 5 init [.task, .getResult] = some gotState ∧ gotState.gets.length ≤ 1 ∧
    step 5 gotState .getResult = none :=
  have hrun : run 5 init [.task, .getResult] = some gotState := by decide
  have h := asyncTask_single_get 5 [.task, .getResult] gotState hrun
  ⟨hrun, h.1, h.2.2 rfl .getResult⟩

end Future

namespace Cancellation

/-- C10, as stated, fails: with two jobs buffered and `done` closed, the `select` of
`cancellableWorker` may take the `jobs` case, which receives job 1 after `done` was
closed. -/
theorem receive_after_done :
    run 5 (init [1, 2]) [.closeDone] = some cancelledState ∧
    cancelledState.doneClosed = true ∧
    step 5 cancelledState .selectJobs = some pulledState ∧
    pulledState.jobs = [2] ∧ pulledState.pc = .send 1 := by
  decide

/-- C10, amended: once `done` is closed, at every `select` of `cancellableWorker` the
`done` case is ready and taking it returns without touching `jobs`; if `jobs` holds no
item the `jobs` case receives nothing (it is not ready, or `jobs` is closed and the worker
returns); if `jobs` holds an item the `jobs` case is ready as well and receives it; an
invocation in flight finishes by sending its result when `results` has room. -/
theorem cancellableWorker_after_done (resultsCap : Nat) (s : State)
    (hdone : s.doneClosed = true) :
    (s.pc = .select →
      step resultsCap s .selectDone = some { s with pc := .returned } ∧
      (s.jobs = [] → ∀ t, step resultsCap s .selectJobs = some t →
        t.pc = .returned ∧ t.jobs = [] ∧ s.jobsClosed = true) ∧
      (∀ job rest, s.jobs = job :: rest →
        step resultsCap s .selectJobs = some { s with jobs := rest, pc := .send job })) ∧
    (∀ job, s.pc = .send job → s.results.length < resultsCap →
      step resultsCap s .send
        = some { s with results := s.results ++ [mulInt job 3], pc := .select }) ∧
    (∀ a t, step resultsCap s a = some t → t.doneClosed = true) := by
  refine ⟨fun hpc => ⟨?_, ?_, ?_⟩, ?_, ?_⟩
  · simp [step, hpc, hdone]
  · intro hj t ht
    cases hcl : s.jobsClosed with
    | false => simp [step, hpc, hj, hcl] at ht
    | true =>
      simp [step, hpc, hj, hcl] at ht
      subst ht
      simp [hj]
  · intro job rest hj
    simp [step, hpc, hj]
  · intro job hpc hlt
    simp [step, hpc, hlt]
  · intro a t ht
    cases a <;> simp only [step] at ht <;> (repeat' split at ht) <;>
      first
        | (simp at ht; done)
        | (simp only [Option.some.injEq] at ht; subst ht; exact hdone)

/-- Witness of C10 (amended) at a worker with two jobs buffered and `done` closed. -/
theorem cancellableWorker_after_done_witness :
    cancelledState.doneClosed = true ∧
    step 5 cancelledState .selectDone = some { cancelledState with pc := .returned } ∧
    step 5 cancelledState .selectJobs = some pulledState :=
  have h := cancellableWorker_after_done 5 cancelledState rfl
  ⟨rfl, (h.1 rfl).1, (h.1 rfl).2.2 1 [2] rfl⟩

end Cancellation

namespace Cancellation

/-- C11, as stated, fails: the send on `results` (line 166) is a plain send outside any
`select`.  With `results` of capacity 1 full and nobody reading it, a worker that holds a
job stays blocked after `done` is closed: none of its own actions is enabled, before or
after the caller also closes `jobs`. -/
theorem blocked_on_results_after_done :
    run 1 (init [1, 2]) blockedSchedule = some blockedState ∧
    blockedState.doneClosed = true ∧
    workerActions.map (step 1 blockedState) = [none, none, none] ∧
    workerActions.map (step 1 { blockedState with jobsClosed := true }) = [none, none, none] ∧
    step 1 blockedState .closeJobs = some { blockedState with jobsClosed := true } ∧
    step 1 blockedState .closeDone = none := by
  decide

/-- C11, amended: only the receive from `jobs` races against `done`.  Once `done` is
closed a worker at its `select` always has an enabled step (the `done` case), so it never
stays blocked there; a worker that holds a job is at a plain send on `results`, where
neither case of the `select` is offered and the worker can move exactly when `results`
has room. -/
theorem cancellableWorker_blocking (resultsCap : Nat) (s : State)
    (hdone : s.doneClosed = true) :
    (s.pc = .select → (step resultsCap s .selectDone).isSome = true) ∧
    (∀ job, s.pc = .send job →
      step resultsCap s .selectDone = none ∧ step resultsCap s .selectJobs = none ∧
      ((step resultsCap s .send).isSome = true ↔ s.results.length < resultsCap)) := by
  refine ⟨fun hpc => by simp [step, hpc, hdone], fun job hpc => ⟨?_, ?_, ?_⟩⟩
  · simp [step, hpc]
  · simp [step, hpc]
  · by_cases hlt : s.results.length < resultsCap <;> simp [step, hpc, hlt]

/-- Witness of C11 (amended) at the worker blocked on a full `results`. -/
theorem cancellableWorker_blocking_witness :
    blockedState.doneClosed = true ∧
    step 1 blockedState .selectDone = none ∧ step 1 blockedState .selectJobs = none ∧
    ((step 1 blockedState .send).isSome = true ↔ blockedState.results.length < 1) :=
  have h := (cancellableWorker_blocking 1 blockedState rfl).2 2 rfl
  ⟨rfl, h.1, h.2.1, h.2.2⟩

end Cancellation

namespace Calculator

theorem remInt_eq_zero_iff (a b : Int) : remInt a b = 0 ↔ b ∣ a :=
  ⟨Int.dvd_of_tmod_eq_zero, Int.tmod_eq_zero_of_dvd⟩

/-- C14: `Divide(a, b)` returns an error if and only if `b == 0`: then it returns
`(0, non-nil error)` for every `a`, and otherwise `(a / b, nil)`; the `float64`
comparison and division are parameters of the model. -/
theorem divide_error_iff {F : Type} (ops : Float64Ops F) (a b : F) :
    ((Divide ops a b).2 ≠ none ↔ ops.isZero b = true) ∧
    (ops.isZero b = true → Divide ops a b = (ops.zero, some "division by zero")) ∧
    (ops.isZero b = false → Divide ops a b = (ops.div a b, none)) := by
  cases hb : ops.isZero b <;> simp [Divide, hb]

/-- With exact arithmetic `Divide(15, 3) = (5, nil)` and `Divide(10, 0)` is an error. -/
theorem divide_examples :
    Divide ratOps 15 3 = (5, none) ∧ Divide ratOps 10 0 = (0, some "division by zero") := by
  constructor
  · have h : ratOps.isZero 3 = false := by simp [ratOps]
    rw [(divide_error_iff ratOps 15 3).2.2 h]
    norm_num [ratOps]
  · have h : ratOps.isZero 0 = true := by simp [ratOps]
    rw [(divide_error_iff ratOps 10 0).2.1 h]
    rfl

/-- C17: for every `int` `n`, negative values and zero included, `IsEven(n)` is true if
and only if `n` is divisible by 2; `IsEven(-2)` and `IsEven(0)` are true, `IsEven(-3)` is
false. -/
theorem isEven_iff (n : Int) :
    (IsEven n = true ↔ 2 ∣ n) ∧
    IsEven (-2) = true ∧ IsEven 0 = true ∧ IsEven (-3) = false ∧ IsEven 3 = false := by
  refine ⟨?_, by decide, by decide, by decide, by decide⟩
  simp only [IsEven, beq_iff_eq]
  exact remInt_eq_zero_iff n 2

end Calculator

namespace Calculator

theorem wrapInt_lt (x : Int) : wrapInt x < 2 ^ 63 := by
  unfold wrapInt
  have := Int.emod_lt_of_pos (x + 2 ^ 63) (show (0 : Int) < 2 ^ 64 by norm_num)
  omega

theorem wrapInt_ge (x : Int) : -(2 ^ 63) ≤ wrapInt x := by
  unfold wrapInt
  have := Int.emod_nonneg (x + 2 ^ 63) (show (2 : Int) ^ 64 ≠ 0 by norm_num)
  omega

theorem wrapInt_mul_left (a b : Int) : wrapInt (wrapInt a * b) = wrapInt (a * b) := by
  have h : wrapInt a = a - 2 ^ 64 * ((a + 2 ^ 63) / 2 ^ 64) := by
    unfold wrapInt
    rw [Int.emod_def]
    ring
  have e : wrapInt a * b + 2 ^ 63 = (a * b + 2 ^ 63) + 2 ^ 64 * (-((a + 2 ^ 63) / 2 ^ 64) * b) := by
    rw [h]; ring
  unfold wrapInt at *
  rw [e, Int.add_mul_emod_self_left]

/-- The loop of `Factorial` computes the wrapped factorial when the counter cannot wrap. -/
theorem factorialLoop_spec (n : Int) (hn : n < maxInt) :
    ∀ (fuel : Nat) (k : Nat), 1 ≤ k → (k : Int) ≤ n → (n - k).toNat < fuel →
      factorialLoop n fuel (k + 1) (wrapInt (k.factorial : Int))
        = some (wrapInt ((n.toNat).factorial : Int)) := by
  intro fuel
  induction fuel with
  | zero => intro k _ _ hf; omega
  | succ fuel ih =>
    intro k hk hkn hf
    unfold maxInt at hn
    by_cases hlt : (k : Int) + 1 ≤ n
    · have hadd : addInt ((k : Int) + 1) 1 = ((k + 1 : Nat) : Int) + 1 := by
        unfold addInt
        rw [wrapInt_of_range (by omega) (by omega)]
        push_cast
        ring
      have hmul : mulInt (wrapInt (k.factorial : Int)) ((k : Int) + 1)
          = wrapInt (((k + 1).factorial : Nat) : Int) := by
        unfold mulInt
        rw [wrapInt_mul_left, Nat.factorial_succ]
        push_cast
        ring_nf
      simp only [factorialLoop, hlt, if_true, hadd, hmul]
      exact ih (k + 1) (by omega) (by push_cast; omega) (by push_cast; omega)
    · have hk' : n = k := by omega
      have : ¬ ((k : Int) + 1 ≤ n) := hlt
      simp only [factorialLoop, this, if_false]
      subst hk'
      simp

/-- With the largest `int` as argument the loop condition `i <= n` holds for every value
of the counter, so the loop of `Factorial` never ends. -/
theorem factorialLoop_maxInt (fuel : Nat) :
    ∀ i result : Int, i ≤ maxInt → factorialLoop maxInt fuel i result = none := by
  induction fuel with
  | zero => intro i result _; rfl
  | succ fuel ih =>
    intro i result hi
    simp only [factorialLoop, hi, if_true]
    apply ih
    have := wrapInt_lt (i + 1)
    unfold addInt maxInt
    omega

/-- The part of C15 that holds: for every `int` `n` below the largest one, `Factorial(n)`
returns `(0, non-nil error)` if `n < 0` and otherwise, once the fuel covers the `n`
iterations, `(n!, nil)` with `n!` reduced to 64 bits, which is `n!` itself for `n <= 20`. -/
theorem factorial_spec (n : Int) (hlo : -(2 ^ 63) ≤ n) (hn : n < maxInt) (fuel : Nat)
    (hf : n.toNat ≤ fuel) :
    (n < 0 → Factorial fuel n = some (0, some "factorial not defined for negative numbers")) ∧
    (0 ≤ n → Factorial fuel n = some (wrapInt ((n.toNat).factorial : Int), none)) ∧
    (0 ≤ n → n ≤ 20 → Factorial fuel n = some (((n.toNat).factorial : Int), none)) := by
  have hpos : 0 ≤ n → Factorial fuel n = some (wrapInt ((n.toNat).factorial : Int), none) := by
    intro h0
    have hneg : ¬ n < 0 := by omega
    by_cases h01 : n = 0 ∨ n = 1
    · rcases h01 with h | h <;> subst h <;> simp [Factorial] <;> decide
    · have h2 : 2 ≤ n := by omega
      have := factorialLoop_spec n hn fuel 1 (Nat.le_refl 1) (by omega) (by omega)
      simp only [Nat.factorial_one, Nat.cast_one] at this
      have e : wrapInt (1 : Int) = 1 := by decide
      rw [e] at this
      norm_num at this
      simp only [Factorial, hneg, h01, if_false, this, Option.map_some']
  refine ⟨fun h => by simp [Factorial, h], hpos, fun h0 h20 => ?_⟩
  rw [hpos h0]
  have hle : (n.toNat).factorial ≤ (20 : Nat).factorial :=
    Nat.factorial_le (by omega)
  have h20f : ((20 : Nat).factorial : Int) < 2 ^ 63 := by decide
  have hc : ((n.toNat).factorial : Int) ≤ ((20 : Nat).factorial : Int) := by exact_mod_cast hle
  rw [wrapInt_of_range (by have := Int.natCast_nonneg (n.toNat).factorial; omega) (by omega)]

/-- Witness of `factorial_spec`: `Factorial(5) = 120`. -/
theorem factorial_spec_witness :
    Factorial 5 5 = some (120, none) ∧ Factorial 3 3 = some (6, none) ∧
    Factorial 0 0 = some (1, none) ∧ Factorial 0 1 = some (1, none) ∧
    Factorial 0 (-1) = some (0, some "factorial not defined for negative numbers") :=
  ⟨(factorial_spec 5 (by decide) (by decide) 5 (by decide)).2.2 (by decide) (by decide),
    by decide, by decide, by decide, by decide⟩

/-- C15 fails at the largest `int`: the counter `i` wraps around instead of exceeding
`n = 9223372036854775807`, so `Factorial` returns for no amount of fuel. -/
theorem factorial_maxInt_diverges :
    ¬ ∃ fuel : Nat, (Factorial fuel 9223372036854775807).isSome = true := by
  rintro ⟨fuel, h⟩
  have hloop := factorialLoop_maxInt fuel 2 1 (by decide)
  have e : (9223372036854775807 : Int) = maxInt := by decide
  rw [e] at h
  have h1 : ¬ maxInt < 0 := by decide
  have h2 : ¬ (maxInt = 0 ∨ maxInt = 1) := by decide
  simp [Factorial, h1, h2, hloop] at h

end Calculator

namespace Calculator
/-- For `n > 3` divisible by neither 2 nor 3, the test of the loop from 5 on is the
claim's definition of a prime number. -/
theorem sixk_test_iff (n : Int) (h3 : 3 < n) (h2n : ¬ (2 : Int) ∣ n) (h3n : ¬ (3 : Int) ∣ n) :
    (∀ k : Nat, (5 + 6 * (k : Int)) * (5 + 6 * k) ≤ n →
        ¬ (5 + 6 * (k : Int)) ∣ n ∧ ¬ (5 + 6 * (k : Int) + 2) ∣ n) ↔ IsPrimeNumber n := by
  constructor
  · intro h
    refine ⟨by omega, ?_⟩
    intro d hd1 hdn hdvd
    -- move to the natural numbers and take the least prime factor
    obtain ⟨N, hN⟩ : ∃ N : Nat, n = N := ⟨n.toNat, by omega⟩
    obtain ⟨D, hD⟩ : ∃ D : Nat, d = D := ⟨d.toNat, by omega⟩
    subst hN hD
    have hDN : D ∣ N := Int.natCast_dvd_natCast.1 hdvd
    have hnp : ¬ Nat.Prime N := by
      intro hp
      have := (Nat.dvd_prime hp).1 hDN
      omega
    have hN0 : 0 < N := by omega
    have hpp : Nat.Prime N.minFac := Nat.minFac_prime (by omega)
    have hpd : N.minFac ∣ N := Nat.minFac_dvd N
    have hsq : N.minFac ^ 2 ≤ N := Nat.minFac_sq_le_self hN0 hnp
    set p := N.minFac with hp
    have h2p : ¬ 2 ∣ p := by
      intro hc
      exact h2n (by exact_mod_cast Dvd.dvd.trans hc hpd)
    have h3p : ¬ 3 ∣ p := by
      intro hc
      exact h3n (by exact_mod_cast Dvd.dvd.trans hc hpd)
    have hp2 : 2 ≤ p := hpp.two_le
    have hpdI : (p : Int) ∣ (N : Int) := Int.natCast_dvd_natCast.2 hpd
    have hsqI : (p : Int) * p ≤ N := by
      have : p * p ≤ N := by rw [← sq]; exact hsq
      exact_mod_cast this
    have hmod : p % 6 = 1 ∨ p % 6 = 5 := by omega
    rcases hmod with hm | hm
    · -- p = 6k + 7, tested as (5 + 6k) + 2
      have hp7 : 7 ≤ p := by omega
      have hk := h ((p - 7) / 6)
      have e : (5 : Int) + 6 * (((p - 7) / 6 : Nat) : Int) = (p : Int) - 2 := by
        have : 6 * ((p - 7) / 6) = p - 7 := by omega
        omega
      rw [e] at hk
      have hle : ((p : Int) - 2) * ((p : Int) - 2) ≤ N := by nlinarith
      have := (hk hle).2
      rw [show (p : Int) - 2 + 2 = p by ring] at this
      exact this hpdI
    · -- p = 6k + 5, tested itself
      have hk := h ((p - 5) / 6)
      have e : (5 : Int) + 6 * (((p - 5) / 6 : Nat) : Int) = (p : Int) := by
        have : 6 * ((p - 5) / 6) = p - 5 := by omega
        omega
      rw [e] at hk
      exact (hk hsqI).1 hpdI
  · intro h k hk
    have hk0 : (0 : Int) ≤ k := Int.natCast_nonneg k
    constructor
    · exact h.2 _ (by omega) (by nlinarith)
    · exact h.2 _ (by omega) (by nlinarith)

end Calculator
namespace Calculator

/-- What the loop of `IsPrime` checks from counter `i` on, when the counters before `i`
have found no divisor: as long as `n` is not a prime from `3037000499 ^ 2` on, no product
`i * i` leaves the range of `int`, and the loop returns whether no `5 + 6k` and no
`5 + 6k + 2` with `(5 + 6k)^2 <= n` divides `n`. -/
theorem isPrimeLoop_spec (n : Int) (hn : n < 2 ^ 63) (h3 : 3 < n) (h2n : ¬ (2 : Int) ∣ n)
    (h3n : ¬ (3 : Int) ∣ n) (hex : IsPrimeNumber n → n < 9223372030926249001) :
    ∀ (fuel : Nat) (i : Int), 5 ≤ i → i % 6 = 5 → i ≤ 3037000499 → (n - i).toNat < fuel →
      (∀ k : Nat, 5 + 6 * (k : Int) < i →
        ¬ (5 + 6 * (k : Int)) ∣ n ∧ ¬ (5 + 6 * (k : Int) + 2) ∣ n) →
      ∃ b, isPrimeLoop n fuel i = some b ∧
        (b = true ↔ ∀ k : Nat, (5 + 6 * (k : Int)) * (5 + 6 * k) ≤ n →
          ¬ (5 + 6 * (k : Int)) ∣ n ∧ ¬ (5 + 6 * (k : Int) + 2) ∣ n) := by
  intro fuel
  induction fuel with
  | zero => intro i _ _ _ hf; omega
  | succ fuel ih =>
    intro i hi hmod hmax hf hprev
    have hsq0 : 0 ≤ i * i := by nlinarith
    have hsqB : i * i ≤ 9223372030926249001 := by nlinarith
    have hmul : mulInt i i = i * i := wrapInt_of_range (by omega) (by omega)
    have hadd2 : addInt i 2 = i + 2 := wrapInt_of_range (by omega) (by omega)
    have hadd6 : addInt i 6 = i + 6 := wrapInt_of_range (by omega) (by omega)
    have hi0 : i ≠ 0 := by omega
    have hi2 : i + 2 ≠ 0 := by omega
    -- the counter is `5 + 6 * k0`
    obtain ⟨k0, hk0⟩ : ∃ k0 : Nat, 5 + 6 * (k0 : Int) = i := ⟨((i - 5) / 6).toNat, by omega⟩
    by_cases hsq : i * i ≤ n
    · have hin : 2 * i ≤ n := by nlinarith
      by_cases hd1 : remInt n i = 0
      · refine ⟨false, by simp [isPrimeLoop, hmul, hsq, hi0, hd1], ?_⟩
        simp only [Bool.false_eq_true, false_iff, not_forall]
        refine ⟨k0, by rw [hk0]; exact hsq, ?_⟩
        rw [hk0]
        exact fun hc => hc.1 ((remInt_eq_zero_iff _ _).1 hd1)
      by_cases hd2 : remInt n (i + 2) = 0
      · refine ⟨false, by simp [isPrimeLoop, hmul, hadd2, hsq, hi0, hi2, hd1, hd2], ?_⟩
        simp only [Bool.false_eq_true, false_iff, not_forall]
        refine ⟨k0, by rw [hk0]; exact hsq, ?_⟩
        rw [hk0]
        exact fun hc => hc.2 ((remInt_eq_zero_iff _ _).1 hd2)
      have hnd : ¬ i ∣ n ∧ ¬ (i + 2) ∣ n :=
        ⟨fun h => hd1 ((remInt_eq_zero_iff _ _).2 h), fun h => hd2 ((remInt_eq_zero_iff _ _).2 h)⟩
      have hprev2 : ∀ k : Nat, 5 + 6 * (k : Int) < i + 6 →
          ¬ (5 + 6 * (k : Int)) ∣ n ∧ ¬ (5 + 6 * (k : Int) + 2) ∣ n := by
        intro k hk
        by_cases hlt : 5 + 6 * (k : Int) < i
        · exact hprev k hlt
        · have e : 5 + 6 * (k : Int) = i := by omega
          rw [e]
          exact hnd
      by_cases hnext : i + 6 ≤ 3037000499
      · obtain ⟨b, hb, hiff⟩ := ih (i + 6) (by omega) (by omega) hnext (by omega) hprev2
        exact ⟨b, by simp [isPrimeLoop, hmul, hadd2, hadd6, hsq, hi0, hi2, hd1, hd2, hb], hiff⟩
      · -- the counter is 3037000499: every candidate up to the square root has failed
        exfalso
        have hi9 : i = 3037000499 := by omega
        have hall : ∀ k : Nat, (5 + 6 * (k : Int)) * (5 + 6 * k) ≤ n →
            ¬ (5 + 6 * (k : Int)) ∣ n ∧ ¬ (5 + 6 * (k : Int) + 2) ∣ n := by
          intro k hk
          apply hprev2
          by_contra hge
          have hk0 : (0 : Int) ≤ k := Int.natCast_nonneg k
          have : (3037000505 : Int) * 3037000505 ≤ (5 + 6 * (k : Int)) * (5 + 6 * k) := by
            nlinarith
          omega
        have hprime := (sixk_test_iff n h3 h2n h3n).1 hall
        have := hex hprime
        subst hi9
        omega
    · refine ⟨true, by simp [isPrimeLoop, hmul, hsq], ?_⟩
      simp only [true_iff]
      intro k hk
      apply hprev
      by_contra hge
      have : i * i ≤ (5 + 6 * (k : Int)) * (5 + 6 * k) := by nlinarith
      omega

end Calculator
namespace Calculator

/-- For a prime number `n` from `3037000499 ^ 2` on, the squares of the counters wrap
around, and the loop goes on until a wrapped square exceeds `n`: at the latest at the
counter `2759374635167858507`, whose square is `9223372036854775801` as an `int`.  No
counter before it divides `n`, so the loop returns true. -/
theorem isPrimeLoop_large_prime (n : Int) (hp : IsPrimeNumber n)
    (hlo : 2759374635167858509 < n) (hhi : n < 9223372036854775801) :
    ∀ (fuel : Nat) (i : Int), 5 ≤ i → i % 6 = 5 → i ≤ 2759374635167858507 →
      ((2759374635167858507 - i) / 6).toNat < fuel → isPrimeLoop n fuel i = some true := by
  intro fuel
  induction fuel with
  | zero => intro i _ _ _ hf; omega
  | succ fuel ih =>
    intro i hi hmod hmax hf
    by_cases hsq : mulInt i i ≤ n
    · have hne : i ≠ 2759374635167858507 := by
        rintro rfl
        have : mulInt 2759374635167858507 2759374635167858507 = 9223372036854775801 := by
          decide
        omega
      have hadd2 : addInt i 2 = i + 2 := wrapInt_of_range (by omega) (by omega)
      have hadd6 : addInt i 6 = i + 6 := wrapInt_of_range (by omega) (by omega)
      have hd1 : remInt n i ≠ 0 := fun h =>
        hp.2 i (by omega) (by omega) ((remInt_eq_zero_iff _ _).1 h)
      have hd2 : remInt n (i + 2) ≠ 0 := fun h =>
        hp.2 (i + 2) (by omega) (by omega) ((remInt_eq_zero_iff _ _).1 h)
      rw [isPrimeLoop, if_pos hsq, if_neg (by omega), if_neg hd1, hadd2, if_neg (by omega),
        if_neg hd2, hadd6]
      exact ih (i + 6) (by omega) (by omega) (by omega) (by omega)
    · rw [isPrimeLoop, if_neg hsq]

/-- No `int` from `2 ^ 63 - 7` on is a prime number. -/
theorem not_prime_near_maxInt (n : Int) (hn : n < 2 ^ 63) (hlo : 9223372036854775801 ≤ n) :
    ¬ IsPrimeNumber n := by
  intro hp
  have hcases : n = 9223372036854775801 ∨ n = 9223372036854775802 ∨ n = 9223372036854775803 ∨
      n = 9223372036854775804 ∨ n = 9223372036854775805 ∨ n = 9223372036854775806 ∨
      n = 9223372036854775807 := by omega
  rcases hcases with h | h | h | h | h | h | h <;> subst h
  · exact hp.2 157 (by decide) (by decide) (by decide)
  · exact hp.2 2 (by decide) (by decide) (by decide)
  · exact hp.2 3 (by decide) (by decide) (by decide)
  · exact hp.2 2 (by decide) (by decide) (by decide)
  · exact hp.2 5 (by decide) (by decide) (by decide)
  · exact hp.2 2 (by decide) (by decide) (by decide)
  · exact hp.2 7 (by decide) (by decide) (by decide)

end Calculator
namespace Calculator

/-- C16: for every `int` `n` and fuel of at least `n` loop iterations, `IsPrime(n)` under
the wrapping arithmetic of `int` returns, and it returns true if and only if `n` is a prime
number, i.e. `n >= 2` and no `d` with `1 < d < n` divides `n`; it is false for every
`n <= 1`, negatives included.  The arithmetic of the run is exact unless `n` is a prime
number from `3037000499 ^ 2` on; for such a prime the squares of the counters wrap around
and the loop goes on beyond the square root, until a wrapped square exceeds `n`. -/
theorem isPrime_iff (n : Int) (fuel : Nat) (hn : n < 2 ^ 63) (hf : n.toNat ≤ fuel) :
    ∃ b, IsPrime fuel n = some b ∧ (b = true ↔ IsPrimeNumber n) ∧ (n ≤ 1 → b = false) := by
  by_cases h1 : n ≤ 1
  · refine ⟨false, by simp [IsPrime, h1], ?_, fun _ => rfl⟩
    simp only [Bool.false_eq_true, false_iff]
    intro h
    have := h.1
    omega
  by_cases h3 : n ≤ 3
  · refine ⟨true, by simp [IsPrime, h1, h3], ?_, fun h => absurd h h1⟩
    simp only [true_iff]
    refine ⟨by omega, ?_⟩
    intro d hd1 hdn hdvd
    have hd : d = 2 := by omega
    have hn : n = 3 := by omega
    subst hd hn
    omega
  by_cases hdiv : remInt n 2 = 0 ∨ remInt n 3 = 0
  · refine ⟨false, by simp [IsPrime, h1, h3, hdiv], ?_, fun h => absurd h h1⟩
    simp only [Bool.false_eq_true, false_iff]
    intro h
    rcases hdiv with hd | hd
    · exact h.2 2 (by omega) (by omega) ((remInt_eq_zero_iff _ _).1 hd)
    · exact h.2 3 (by omega) (by omega) ((remInt_eq_zero_iff _ _).1 hd)
  · have h2n : ¬ (2 : Int) ∣ n := fun h => hdiv (Or.inl ((remInt_eq_zero_iff _ _).2 h))
    have h3n : ¬ (3 : Int) ∣ n := fun h => hdiv (Or.inr ((remInt_eq_zero_iff _ _).2 h))
    by_cases hbig : IsPrimeNumber n ∧ 9223372030926249001 ≤ n
    · -- a prime number beyond the exact range
      have hhi : n < 9223372036854775801 := by
        by_contra hc
        exact not_prime_near_maxInt n hn (by omega) hbig.1
      have hb := isPrimeLoop_large_prime n hbig.1 (by omega) hhi fuel 5 (by omega) (by omega)
        (by omega) (by omega)
      exact ⟨true, by simp [IsPrime, h1, h3, hdiv, hb], by simp [hbig.1],
        fun h => absurd h h1⟩
    · have hexact : IsPrimeNumber n → n < 9223372030926249001 := by
        intro hp
        by_contra hc
        exact hbig ⟨hp, by omega⟩
      obtain ⟨b, hb, hiff⟩ := isPrimeLoop_spec n hn (by omega) h2n h3n hexact fuel 5 (by omega)
        (by omega) (by omega) (by omega) (by intro k hk; omega)
      refine ⟨b, by simp [IsPrime, h1, h3, hdiv, hb], ?_, fun h => absurd h h1⟩
      rw [hiff]
      exact sixk_test_iff n (by omega) h2n h3n

set_option maxRecDepth 100000 in
/-- Witness of C16 on the values of `TestIsPrime`, and on the largest `int`, which is
divisible by 7. -/
theorem isPrime_iff_witness :
    (∃ b, IsPrime 13 13 = some b ∧ (b = true ↔ IsPrimeNumber 13) ∧ ((13 : Int) ≤ 1 → b = false)) ∧
    (∃ b, IsPrime 9223372036854775807 9223372036854775807 = some b ∧
      (b = true ↔ IsPrimeNumber 9223372036854775807) ∧
      ((9223372036854775807 : Int) ≤ 1 → b = false)) ∧
    IsPrime 13 13 = some true ∧ IsPrime 15 15 = some false ∧ IsPrime 9 9 = some false ∧
    IsPrime 17 17 = some true ∧ IsPrime 0 (-1) = some false ∧ IsPrime 25 25 = some false ∧
    IsPrime 2 9223372036854775807 = some false :=
  ⟨isPrime_iff 13 13 (by decide) (by decide),
    isPrime_iff 9223372036854775807 9223372036854775807 (by decide) (by decide),
    by decide, by decide, by decide, by decide, by decide, by decide, by decide⟩

end Calculator
namespace Calculator

set_option maxRecDepth 100000 in
/-- Beyond `3037000499 ^ 2` the square of the counter wraps around: for the prime
`9223372036854775783` the product `3037000505 * 3037000505` is negative as an `int`, and
the loop goes on past the square root of `n` instead of returning true. -/
theorem isPrimeLoop_wraps (fuel : Nat) :
    mulInt 3037000505 3037000505 = -9223372006339296591 ∧
    isPrimeLoop 9223372036854775783 (fuel + 1) 3037000505
      = isPrimeLoop 9223372036854775783 fuel 3037000511 := by
  refine ⟨by decide, ?_⟩
  have h1 : mulInt 3037000505 3037000505 ≤ 9223372036854775783 := by decide
  have h2 : remInt 9223372036854775783 3037000505 ≠ 0 := by decide
  have h3 : addInt 3037000505 2 = 3037000507 := by decide
  have h4 : remInt 9223372036854775783 3037000507 ≠ 0 := by decide
  have h5 : addInt 3037000505 6 = 3037000511 := by decide
  rw [isPrimeLoop, if_pos h1, if_neg (by decide), if_neg h2, h3, if_neg (by decide),
    if_neg h4, h5]

end Calculator
namespace Calculator

/-- For a prime number `n` from `3037000499 ^ 2` on, no counter up to `3037000499` ends the
loop. -/
theorem isPrimeLoop_counts_up (n : Int) (hn : n < 2 ^ 63) (hp : IsPrimeNumber n)
    (hB : 9223372030926249001 ≤ n) (fuel : Nat) :
    ∀ k : Nat, k ≤ 506166750 →
      isPrimeLoop n (fuel + k) (3037000505 - 6 * (k : Int)) = isPrimeLoop n fuel 3037000505 := by
  intro k
  induction k generalizing fuel with
  | zero => intro _; simp
  | succ k ih =>
    intro hk
    have hi5 : (5 : Int) ≤ 3037000505 - 6 * ((k + 1 : Nat) : Int) := by push_cast; omega
    have himax : 3037000505 - 6 * ((k + 1 : Nat) : Int) ≤ 3037000499 := by push_cast; omega
    generalize hi : 3037000505 - 6 * ((k + 1 : Nat) : Int) = i at hi5 himax
    have hnext : i + 6 = 3037000505 - 6 * (k : Int) := by rw [← hi]; push_cast; ring
    have hsq0 : 0 ≤ i * i := by nlinarith
    have hsqB : i * i ≤ 9223372030926249001 := by nlinarith
    have hmul : mulInt i i = i * i := wrapInt_of_range (by omega) (by omega)
    have hadd2 : addInt i 2 = i + 2 := wrapInt_of_range (by omega) (by omega)
    have hadd6 : addInt i 6 = i + 6 := wrapInt_of_range (by omega) (by omega)
    have hd1 : remInt n i ≠ 0 := fun h =>
      hp.2 i (by omega) (by omega) ((remInt_eq_zero_iff _ _).1 h)
    have hd2 : remInt n (i + 2) ≠ 0 := fun h =>
      hp.2 (i + 2) (by omega) (by omega) ((remInt_eq_zero_iff _ _).1 h)
    have e : fuel + (k + 1) = (fuel + k) + 1 := by omega
    rw [e, isPrimeLoop, hmul, if_pos (by omega), if_neg (by omega), if_neg hd1, hadd2,
      if_neg (by omega), if_neg hd2, hadd6, hnext]
    exact ih fuel (by omega)

/-- The arithmetic of the run is exact for no other `int`: for every prime number `n` from
`3037000499 ^ 2` on, the run reaches the counter `3037000505`, whose square is outside the
range of `int` and wraps around to a negative number. -/
theorem isPrimeLoop_reaches_wrap (n : Int) (hn : n < 2 ^ 63) (hp : IsPrimeNumber n)
    (hB : 9223372030926249001 ≤ n) (fuel : Nat) :
    IsPrime (fuel + 506166750) n = isPrimeLoop n fuel 3037000505 ∧
    mulInt 3037000505 3037000505 = -9223372006339296591 := by
  refine ⟨?_, by decide⟩
  have h2 : remInt n 2 ≠ 0 := fun h => hp.2 2 (by omega) (by omega) ((remInt_eq_zero_iff _ _).1 h)
  have h3 : remInt n 3 ≠ 0 := fun h => hp.2 3 (by omega) (by omega) ((remInt_eq_zero_iff _ _).1 h)
  have h := isPrimeLoop_counts_up n hn hp hB fuel 506166750 (Nat.le_refl _)
  rw [IsPrime, if_neg (by omega), if_neg (by omega), if_neg (by simp [h2, h3]), ← h]
  norm_num

end Calculator

namespace ContextTree

theorem ctx_getElem?_set {tree : List Token} {i : Nat} {t u : Token} (hi : tree[i]? = some t)
    (j : Nat) : (tree.set i u)[j]? = if i = j then some u else tree[j]? := by
  have hlt : i < tree.length := (List.getElem?_eq_some.1 hi).1
  rw [List.getElem?_set]
  by_cases hij : i = j
  · subst hij; simp [hlt]
  · simp [hij]

theorem chain_apply {tree : List Token} (h : Chain tree) (e : Event) : Chain (apply tree e) := by
  cases e with
  | cancel c =>
    simp only [apply]
    split
    · rename_i t ht
      split
      · exact h
      · rename_i hk
        intro i u hu
        rw [ctx_getElem?_set ht] at hu
        by_cases hci : c = i
        · subst hci
          simp only [if_true, Option.some.injEq] at hu
          subst hu
          have := h c t ht
          refine ⟨this.1, fun h0 => ?_, this.2.2⟩
          exact absurd (this.2.1 h0).1 hk
        · simp only [hci, if_false] at hu
          exact h i u hu
    · exact h
  | expire c =>
    simp only [apply]
    split
    · rename_i t ht
      split
      · rename_i hk
        intro i u hu
        rw [ctx_getElem?_set ht] at hu
        by_cases hci : c = i
        · subst hci
          simp only [if_true, Option.some.injEq] at hu
          subst hu
          have := h c t ht
          refine ⟨this.1, fun h0 => ?_, this.2.2⟩
          have hb := (this.2.1 h0).1
          rw [hb] at hk
          exact absurd hk (by decide)
        · simp only [hci, if_false] at hu
          exact h i u hu
      · exact h
    · exact h

theorem chain_applyAll {tree : List Token} (h : Chain tree) (es : List Event) :
    Chain (applyAll tree es) := by
  induction es generalizing tree with
  | nil => exact h
  | cons e rest ih => exact ih (chain_apply h e)

theorem chain_built : Chain chainedContexts ∧ Chain contextHierarchy := by
  constructor
  · intro i t ht
    match i with
    | 0 => simp [chainedContexts] at ht; subst ht; simp
    | 1 => simp [chainedContexts] at ht; subst ht; simp
    | 2 => simp [chainedContexts] at ht; subst ht; simp
    | n + 3 => simp [chainedContexts] at ht
  · intro i t ht
    match i with
    | 0 => simp [contextHierarchy] at ht; subst ht; simp
    | 1 => simp [contextHierarchy] at ht; subst ht; simp
    | 2 => simp [contextHierarchy] at ht; subst ht; simp
    | 3 => simp [contextHierarchy] at ht; subst ht; simp
    | n + 4 => simp [contextHierarchy] at ht

/-- In a chain, a context is done iff it is marked itself or its parent is done. -/
theorem done_succ {tree : List Token} (h : Chain tree) (i : Nat) (t : Token)
    (ht : tree[i + 1]? = some t) :
    done tree (i + 1) = (t.cancelled || t.expired || done tree i) := by
  have hp := (h (i + 1) t ht).1
  simp only [Nat.add_one_ne_zero, if_false, Nat.add_sub_cancel] at hp
  simp only [done, isDone, ht, hp]

theorem done_zero {tree : List Token} (h : Chain tree) : done tree 0 = false := by
  simp only [done, isDone]
  cases ht : tree[0]? with
  | none => rfl
  | some t =>
    have := h 0 t ht
    simp [this.1, (this.2.1 rfl).2.1, (this.2.1 rfl).2.2]

theorem done_mono {tree : List Token} (h : Chain tree) (i : Nat) :
    ∀ d : Nat, i + d < tree.length → done tree i = true → done tree (i + d) = true := by
  intro d
  induction d with
  | zero => intro _ hd; exact hd
  | succ d ih =>
    intro hlt hd
    have hprev := ih (by omega) hd
    rw [← Nat.add_assoc, done_succ h (i + d) _ (List.getElem?_eq_getElem hlt), hprev]
    simp

/-- An event at context `c` leaves every context created before `c` as it was. -/
theorem done_apply_below {tree : List Token} (h : Chain tree) (e : Event) (c : Nat)
    (hc : e = .cancel c ∨ e = .expire c) :
    ∀ j : Nat, j < c → done (apply tree e) j = done tree j := by
  have hget : ∀ j : Nat, j < c → (apply tree e)[j]? = tree[j]? := by
    intro j hj
    have hne : ¬ c = j := by omega
    rcases hc with rfl | rfl
    · simp only [apply]
      split
      · rename_i t ht
        split
        · rfl
        · rw [ctx_getElem?_set ht, if_neg hne]
      · rfl
    · simp only [apply]
      split
      · rename_i t ht
        split
        · rw [ctx_getElem?_set ht, if_neg hne]
        · rfl
      · rfl
  have h2 := chain_apply h e
  intro j
  induction j with
  | zero => intro _; rw [done_zero h, done_zero h2]
  | succ j ih =>
    intro hj
    have hg := hget (j + 1) hj
    cases ht : tree[j + 1]? with
    | none =>
      rw [ht] at hg
      simp only [done, isDone, ht, hg]
    | some t =>
      rw [ht] at hg
      rw [done_succ h j t ht, done_succ h2 j t hg, ih (by omega)]

end ContextTree

namespace ContextTree

theorem length_apply (tree : List Token) (e : Event) : (apply tree e).length = tree.length := by
  cases e with
  | cancel c =>
    simp only [apply]
    split
    · split <;> simp
    · rfl
  | expire c =>
    simp only [apply]
    split
    · split <;> simp
    · rfl

theorem length_applyAll (tree : List Token) (es : List Event) :
    (applyAll tree es).length = tree.length := by
  induction es generalizing tree with
  | nil => rfl
  | cons e rest ih => rw [applyAll, ih, length_apply]

/-- Calling the cancel function of a context below the root, or the elapsing of the
deadline of a `WithTimeout` context, makes that context done. -/
theorem done_apply_self {tree : List Token} (h : Chain tree) (c : Nat) (t : Token)
    (ht : tree[c + 1]? = some t) :
    done (apply tree (.cancel (c + 1))) (c + 1) = true ∧
    (t.kind = .withTimeout → done (apply tree (.expire (c + 1))) (c + 1) = true) := by
  have hroot : t.kind ≠ .background := (h (c + 1) t ht).2.2 (by omega)
  constructor
  · have hg : (apply tree (.cancel (c + 1)))[c + 1]? = some { t with cancelled := true } := by
      simp only [apply, ht, hroot, if_false]
      rw [ctx_getElem?_set ht, if_pos rfl]
    rw [done_succ (chain_apply h _) c _ hg]
    simp
  · intro hk
    have hg : (apply tree (.expire (c + 1)))[c + 1]? = some { t with expired := true } := by
      simp only [apply, ht, hk, if_true]
      rw [ctx_getElem?_set ht, if_pos rfl]
    rw [done_succ (chain_apply h _) c _ hg]
    simp

/-- C13: in the context trees built by `chainedContexts` and `contextHierarchy`, after any
sequence of cancellations and timeouts: calling the cancel function of a context
(`childCancel`, `requestCancel`) leaves the done state of its parent and of every context
created before it unchanged, while a context that is done makes every context derived
from it done, and cancelling a context below the root makes it and all its descendants
done; the root is never done. -/
theorem cancellation_strictly_downward (tree : List Token)
    (h : tree = chainedContexts ∨ tree = contextHierarchy) (es : List Event) :
    (∀ c j : Nat, j < c →
      done (apply (applyAll tree es) (.cancel c)) j = done (applyAll tree es) j) ∧
    (∀ i j : Nat, i ≤ j → j < tree.length →
      done (applyAll tree es) i = true → done (applyAll tree es) j = true) ∧
    (∀ c j : Nat, 1 ≤ c → c ≤ j → j < tree.length →
      done (apply (applyAll tree es) (.cancel c)) j = true) ∧
    done (applyAll tree es) 0 = false := by
  have hch : Chain tree := by
    rcases h with rfl | rfl
    · exact chain_built.1
    · exact chain_built.2
  have hc := chain_applyAll hch es
  have hlen := length_applyAll tree es
  refine ⟨?_, ?_, ?_, done_zero hc⟩
  · intro c j hj
    exact done_apply_below hc (.cancel c) c (Or.inl rfl) j hj
  · intro i j hij hj hd
    obtain ⟨d, rfl⟩ := Nat.exists_eq_add_of_le hij
    exact done_mono hc i d (by omega) hd
  · intro c j hc1 hcj hj
    obtain ⟨c, rfl⟩ := Nat.exists_eq_add_of_le hc1
    obtain ⟨d, rfl⟩ := Nat.exists_eq_add_of_le hcj
    have hclt : c + 1 < (applyAll tree es).length := by omega
    have hself := (done_apply_self hc c _ (List.getElem?_eq_getElem hclt)).1
    have e : 1 + c = c + 1 := Nat.add_comm 1 c
    rw [e] at hj ⊢
    exact done_mono (chain_apply hc _) (c + 1) d (by rw [length_apply]; omega) hself

/-- Witness of C13 on the tree of `chainedContexts`: `childCancel()` (line 149) makes
`childCtx` done and leaves `parentCtx` not done; the timeout of `parentCtx` makes
`childCtx` done. -/
theorem cancellation_strictly_downward_witness :
    done (apply chainedContexts (.cancel 2)) 1 = done chainedContexts 1 ∧
    done (apply chainedContexts (.cancel 2)) 1 = false ∧
    done (apply chainedContexts (.cancel 2)) 2 = true ∧
    done (applyAll chainedContexts [.expire 1]) 1 = true ∧
    done (applyAll chainedContexts [.expire 1]) 2 = true :=
  have h := cancellation_strictly_downward chainedContexts (Or.inl rfl) []
  have h2 := cancellation_strictly_downward chainedContexts (Or.inl rfl) [.expire 1]
  ⟨h.1 2 1 (by decide), by decide, h.2.2.1 2 2 (by decide) (by decide) (by decide),
    by decide, h2.2.1 1 2 (by decide) (by decide) (by decide)⟩

/-- On the tree of `contextHierarchy`: `requestCancel()` (line 235) makes `requestCtx`
and `dbCtx` done and leaves `serviceCtx` not done; the timeout of `serviceCtx` makes all
three done. -/
theorem contextHierarchy_example :
    (List.range 4).map (done (apply contextHierarchy (.cancel 2))) = [false, false, true, true] ∧
    (List.range 4).map (done (apply contextHierarchy (.expire 1))) = [false, true, true, true] ∧
    (List.range 4).map (done (apply contextHierarchy (.cancel 3))) = [false, false, false, true] := by
  decide

end ContextTree

namespace RateLimiter

end RateLimiter

namespace SelectFanIn

theorem selectFanIn_inv_step {s t : State} {a : Action} (h : Inv s) (hs : step s a = some t) :
    Inv t := by
  obtain ⟨ho, h1, h2, h3⟩ := h
  cases a with
  | select1 =>
    simp only [step] at hs
    split at hs
    · rename_i hpc
      cases hc : selectCase s.ch1 with
      | none => simp [hc] at hs
      | some r =>
        simp only [hc, Option.map_some', Option.some.injEq] at hs
        subst hs
        unfold selectCase at hc
        split at hc
        · simp at hc
        · rename_i hnil
          split at hc
          · simp only [Option.some.injEq] at hc
            subst hc
            exact ⟨ho, by simp, by simp, fun _ => Or.inl (by simpa using hnil)⟩
          · split at hc
            · simp only [Option.some.injEq] at hc
              subst hc
              exact ⟨ho, by simp, by simp, fun hne => absurd rfl hne⟩
            · simp at hc
    · simp at hs
  | select2 =>
    simp only [step] at hs
    split at hs
    · rename_i hpc
      cases hc : selectCase s.ch2 with
      | none => simp [hc] at hs
      | some r =>
        simp only [hc, Option.map_some', Option.some.injEq] at hs
        subst hs
        unfold selectCase at hc
        split at hc
        · simp at hc
        · rename_i hnil
          split at hc
          · simp only [Option.some.injEq] at hc
            subst hc
            exact ⟨ho, by simp, by simp, fun _ => Or.inr (by simpa using hnil)⟩
          · split at hc
            · simp only [Option.some.injEq] at hc
              subst hc
              exact ⟨ho, by simp, by simp, fun hne => absurd rfl hne⟩
            · simp at hc
    · simp at hs
  | goroutine =>
    simp only [step] at hs
    split at hs
    · rename_i msg hpc
      simp only [Option.some.injEq] at hs
      subst hs
      exact ⟨ho, by simp, by simp, fun _ => h3 (by simp [hpc])⟩
    · rename_i hpc
      have hnn := h3 (by simp [hpc])
      split at hs
      · rename_i hboth
        simp only [Bool.and_eq_true] at hboth
        rcases hnn with hn | hn
        · rw [hboth.1] at hn; exact absurd hn (by simp)
        · rw [hboth.2] at hn; exact absurd hn (by simp)
      · simp only [Option.some.injEq] at hs
        subst hs
        exact ⟨ho, by simp, by simp, fun hne => absurd rfl hne⟩
    · rename_i hpc
      exact absurd hpc h1
    · simp at hs
  | produce1 =>
    simp only [step] at hs
    cases hc : produce s.ch1 with
    | none => simp [hc] at hs
    | some c =>
      simp only [hc, Option.map_some', Option.some.injEq] at hs
      subst hs
      have : c.isNil = s.ch1.isNil := by
        unfold produce at hc
        split at hc
        · simp at hc
        · split at hc
          · simp only [Option.some.injEq] at hc; subst hc; rfl
          · simp at hc
      exact ⟨ho, h1, h2, fun hne => by simpa [this] using h3 hne⟩
  | produce2 =>
    simp only [step] at hs
    cases hc : produce s.ch2 with
    | none => simp [hc] at hs
    | some c =>
      simp only [hc, Option.map_some', Option.some.injEq] at hs
      subst hs
      have : c.isNil = s.ch2.isNil := by
        unfold produce at hc
        split at hc
        · simp at hc
        · split at hc
          · simp only [Option.some.injEq] at hc; subst hc; rfl
          · simp at hc
      exact ⟨ho, h1, h2, fun hne => by simpa [this] using h3 hne⟩
  | close1 =>
    simp only [step] at hs
    cases hc : closeInput s.ch1 with
    | none => simp [hc] at hs
    | some c =>
      simp only [hc, Option.map_some', Option.some.injEq] at hs
      subst hs
      have : c.isNil = s.ch1.isNil := by
        unfold closeInput at hc
        split at hc
        · simp at hc
        · split at hc
          · simp only [Option.some.injEq] at hc; subst hc; rfl
          · simp at hc
      exact ⟨ho, h1, h2, fun hne => by simpa [this] using h3 hne⟩
  | close2 =>
    simp only [step] at hs
    cases hc : closeInput s.ch2 with
    | none => simp [hc] at hs
    | some c =>
      simp only [hc, Option.map_some', Option.some.injEq] at hs
      subst hs
      have : c.isNil = s.ch2.isNil := by
        unfold closeInput at hc
        split at hc
        · simp at hc
        · split at hc
          · simp only [Option.some.injEq] at hc; subst hc; rfl
          · simp at hc
      exact ⟨ho, h1, h2, fun hne => by simpa [this] using h3 hne⟩

theorem selectFanIn_inv_run (sched : List Action) :
    ∀ s t : State, Inv s → run s sched = some t → Inv t := by
  induction sched with
  | nil => intro s t h hs; simp [run] at hs; subst hs; exact h
  | cons a rest ih =>
    intro s t h hs
    simp only [run] at hs
    cases hst : step s a with
    | none => simp [hst] at hs
    | some u =>
      simp only [hst, Option.some_bind] at hs
      exact ih u t (selectFanIn_inv_step h hst) hs

/-- For all inputs and every schedule, the merging goroutine never leaves its loop and
the output channel is never closed: the exit test of line 117 is reached only after a
message has been forwarded, when the channel it came from is not `nil`. -/
theorem selectFanIn_never_closes (c1 c2 : Input) (sched : List Action) (t : State)
    (hrun : run (init c1 c2) sched = some t) :
    t.outClosed = false ∧ t.pc ≠ .closeOut ∧ t.pc ≠ .exited := by
  have h := selectFanIn_inv_run sched (init c1 c2) t
    ⟨rfl, by simp [init], by simp [init], fun hne => absurd rfl hne⟩ hrun
  exact ⟨h.1, h.2.1, h.2.2.1⟩

/-- C18 fails on the inputs of `main`: after every message of both closed inputs has been
forwarded exactly once, the goroutine is back at its `select` with both variables `nil`;
no action is enabled, the output channel is not closed, and ranging over
`fanIn(ch1, ch2)` does not terminate. -/
theorem fanIn_both_closed_deadlocks :
    run mainInit mainSchedule = some stuckState ∧
    stuckState.out = ["Hello from ch1", "Hello from ch2", "Another from ch1"] ∧
    stuckState.ch1.isNil = true ∧ stuckState.ch2.isNil = true ∧
    stuckState.outClosed = false ∧
    allActions.map (step stuckState) = [none, none, none, none, none, none, none] := by
  decide

end SelectFanIn

namespace TreesGraphs

/-- C19 fails on the graph of `main`: `AddEdge` stores every edge in both directions, so
the search from vertex 0 walks the edges 5->0 and 4->0 backwards; `TopologicalSort`
returns `[0, 5, 2, 3, 1, 4]`, a permutation of `0..5` in which 0 comes before 5 and before
4, and 1 before 4, although the edges 5->0, 4->0 and 4->1 were added. -/
theorem topologicalSort_main_not_topological :
    lookup mainDag.AdjList 0 = [5, 4] ∧ lookup mainDag.AdjList 5 = [2, 0] ∧
    TopologicalSort 6 mainDag = some [0, 5, 2, 3, 1, 4] ∧
    mainEdges.map (fun e => appearsBefore [0, 5, 2, 3, 1, 4] e.1 e.2)
      = [true, false, false, false, true, true] := by
  decide

/-- The smallest case: one edge 1->0 on two vertices is sorted as `[0, 1]`. -/
theorem topologicalSort_single_edge :
    TopologicalSort 2 (AddEdge (NewGraph 2) 1 0) = some [0, 1] := by
  decide

end TreesGraphs

namespace Sorting

theorem getAt_eq_some {arr : List Int} {i x : Int} :
    getAt arr i = some x ↔ 0 ≤ i ∧ arr[i.toNat]? = some x := by
  unfold getAt
  by_cases h : 0 ≤ i <;> simp [h]

theorem getAt_lt {arr : List Int} {i x : Int} (h : getAt arr i = some x) :
    0 ≤ i ∧ i < arr.length := by
  obtain ⟨h0, h1⟩ := getAt_eq_some.1 h
  have := (List.getElem?_eq_some.1 h1).1
  omega

theorem getAt_isSome {arr : List Int} {i : Int} (h0 : 0 ≤ i) (h1 : i < arr.length) :
    ∃ x, getAt arr i = some x := by
  have hlt : i.toNat < arr.length := by omega
  exact ⟨arr[i.toNat], getAt_eq_some.2 ⟨h0, List.getElem?_eq_getElem hlt⟩⟩

/-- The left scan stops at or before a sentinel that is not below the pivot. -/
theorem scanLeft_spec (arr : List Int) (pivot : Int) (s : Int) (xs : Int)
    (hs : getAt arr s = some xs) (hxs : ¬ xs < pivot) :
    ∀ (fuel : Nat) (left : Int), 0 ≤ left → left ≤ s → (s - left).toNat < fuel →
      ∃ l1, scanLeft arr pivot fuel left = some l1 ∧ left ≤ l1 ∧ l1 ≤ s ∧
        (∃ x, getAt arr l1 = some x ∧ pivot ≤ x) ∧
        ∀ (k x : Int), left ≤ k → k < l1 → getAt arr k = some x → x < pivot := by
  intro fuel
  induction fuel with
  | zero => intro left _ _ hf; omega
  | succ fuel ih =>
    intro left h0 hle hf
    have hsr := getAt_lt hs
    obtain ⟨x, hx⟩ := getAt_isSome h0 (by omega : left < arr.length)
    by_cases hlt : x < pivot
    · have hne : left ≠ s := by
        intro e
        rw [e, hs] at hx
        simp only [Option.some.injEq] at hx
        rw [hx] at hxs
        exact hxs hlt
      obtain ⟨l1, hl1, hge, hls, hstop, hall⟩ := ih (left + 1) (by omega) (by omega) (by omega)
      refine ⟨l1, by simp [scanLeft, hx, hlt, hl1], by omega, hls, hstop, ?_⟩
      intro k y hk hkl hy
      by_cases hkk : k = left
      · rw [hkk, hx] at hy
        simp only [Option.some.injEq] at hy
        rw [← hy]; exact hlt
      · exact hall k y (by omega) hkl hy
    · refine ⟨left, by simp [scanLeft, hx, hlt], le_refl _, hle, ⟨x, hx, by omega⟩, ?_⟩
      intro k y hk hkl _
      omega

/-- The right scan stops at or after a sentinel that is not above the pivot. -/
theorem scanRight_spec (arr : List Int) (pivot : Int) (s : Int) (xs : Int)
    (hs : getAt arr s = some xs) (hxs : ¬ xs > pivot) :
    ∀ (fuel : Nat) (right : Int), right < arr.length → s ≤ right → (right - s).toNat < fuel →
      ∃ r1, scanRight arr pivot fuel right = some r1 ∧ r1 ≤ right ∧ s ≤ r1 ∧
        (∃ x, getAt arr r1 = some x ∧ x ≤ pivot) ∧
        ∀ (k x : Int), r1 < k → k ≤ right → getAt arr k = some x → pivot < x := by
  intro fuel
  induction fuel with
  | zero => intro right _ _ hf; omega
  | succ fuel ih =>
    intro right hr hle hf
    have hsr := getAt_lt hs
    obtain ⟨x, hx⟩ := getAt_isSome (by omega : 0 ≤ right) hr
    by_cases hgt : x > pivot
    · have hne : right ≠ s := by
        intro e
        rw [e, hs] at hx
        simp only [Option.some.injEq] at hx
        rw [hx] at hxs
        exact hxs hgt
      obtain ⟨r1, hr1, hge, hls, hstop, hall⟩ := ih (right - 1) (by omega) (by omega) (by omega)
      refine ⟨r1, by simp [scanRight, hx, hgt, hr1], by omega, hls, hstop, ?_⟩
      intro k y hk hkl hy
      by_cases hkk : k = right
      · rw [hkk, hx] at hy
        simp only [Option.some.injEq] at hy
        rw [← hy]; exact hgt
      · exact hall k y hk (by omega) hy
    · refine ⟨right, by simp [scanRight, hx, hgt], le_refl _, hle, ⟨x, hx, by omega⟩, ?_⟩
      intro k y hk hkl _
      omega


/-- Exchanging two elements of a list gives a permutation of it. -/
theorem set_set_perm (l : List Int) (i j : Nat) (x y : Int) (hi : l[i]? = some x)
    (hj : l[j]? = some y) : ((l.set i y).set j x).Perm l := by
  rw [List.perm_iff_count]
  intro a
  have hlt : i < l.length := (List.getElem?_eq_some.1 hi).1
  have hj2 : (l.set i y)[j]? = some y := by
    rw [List.getElem?_set]
    by_cases hij : i = j
    · subst hij; simp [hlt]
    · simp [hij, hj]
  have h1 := filter_length_set (fun b : Int => b == a) l i x y hi
  have h2 := filter_length_set (fun b : Int => b == a) (l.set i y) j y x hj2
  simp only [List.count, List.countP_eq_length_filter]
  simp only at h1 h2
  omega

theorem getAt_set (arr : List Int) (i : Nat) (y : Int) (hi : i < arr.length) (k : Int) :
    getAt (arr.set i y) k = if k = (i : Int) then some y else getAt arr k := by
  unfold getAt
  by_cases hk : 0 ≤ k
  · simp only [hk, if_true, List.getElem?_set]
    by_cases hki : k = (i : Int)
    · subst hki
      simp [hi]
    · have hik : ¬ i = k.toNat := by omega
      simp [hik, hki]
  · have : ¬ k = (i : Int) := by omega
    simp [hk, this]

/-- What the exchange of lines 90 (13-benchmarks) and 154 (07) does. -/
theorem swap_spec (arr : List Int) (l r x y : Int) (hl : getAt arr l = some x)
    (hr : getAt arr r = some y) :
    ∃ arr1, swap arr l r = some arr1 ∧ arr1.length = arr.length ∧ arr1.Perm arr ∧
      getAt arr1 l = some y ∧ getAt arr1 r = some x ∧
      ∀ k : Int, k ≠ l → k ≠ r → getAt arr1 k = getAt arr k := by
  have hlb := getAt_lt hl
  have hrb := getAt_lt hr
  have hl' := (getAt_eq_some.1 hl).2
  have hr' := (getAt_eq_some.1 hr).2
  have hln : l.toNat < arr.length := by omega
  have hrn : r.toNat < (arr.set l.toNat y).length := by simp; omega
  have hlI : (l.toNat : Int) = l := by omega
  have hrI : (r.toNat : Int) = r := by omega
  refine ⟨(arr.set l.toNat y).set r.toNat x, by simp [swap, hl, hr], by simp,
    set_set_perm arr _ _ x y hl' hr', ?_, ?_, ?_⟩
  · rw [getAt_set _ _ _ hrn, getAt_set _ _ _ hln, hrI, hlI]
    by_cases hlr : l = r
    · subst hlr
      rw [hl] at hr
      simp [hr]
    · simp [hlr]
  · rw [getAt_set _ _ _ hrn, hrI]
    simp
  · intro k hkl hkr
    rw [getAt_set _ _ _ hrn, getAt_set _ _ _ hln, hrI, hlI]
    simp [hkl, hkr]


/-- While `left <= right`, each scan has a sentinel inside the slice: the pivot itself
before the first exchange, afterwards the elements just exchanged past the indices. -/
theorem sentinels {arr0 arr : List Int} {pivot left right : Int}
    (h : PartInv arr0 pivot arr left right) (hlr : left ≤ right) :
    ∃ s xs t xt, getAt arr s = some xs ∧ pivot ≤ xs ∧ left ≤ s ∧
      getAt arr t = some xt ∧ xt ≤ pivot ∧ t ≤ right ∧
      ((1 ≤ left ∧ right ≤ (arr.length : Int) - 2) ∨ s ≤ t) := by
  rcases h.moved with ⟨hl, hr, m, hm⟩ | ⟨hl, hr⟩
  · have hmb := getAt_lt hm
    exact ⟨m, pivot, m, pivot, hm, le_refl _, by omega, hm, le_refl _, by omega,
      Or.inr (le_refl _)⟩
  · have hrg := h.right_ge
    have hll := h.left_le
    have h1 : right + 1 < (arr.length : Int) := by omega
    have h2 : left - 1 < (arr.length : Int) := by omega
    obtain ⟨xs, hxs⟩ := @getAt_isSome arr (right + 1) (by omega) h1
    obtain ⟨xt, hxt⟩ := @getAt_isSome arr (left - 1) (by omega) h2
    exact ⟨right + 1, xs, left - 1, xt, hxs, h.ge (right + 1) xs (by omega) hxs, by omega,
      hxt, h.le (left - 1) xt (by omega) hxt, by omega, Or.inl ⟨hl, hr⟩⟩

/-- The partition loop ends, within the slice, with `right < left`, both indices moved
and the invariant kept. -/
theorem partitionLoop_spec (arr0 : List Int) (pivot : Int) (hn : 2 ≤ arr0.length) :
    ∀ (fuel : Nat) (arr : List Int) (left right : Int),
      PartInv arr0 pivot arr left right → (right + 2 - left).toNat < fuel →
      ∃ arr1 l r, partitionLoop pivot fuel arr left right = some (arr1, l, r) ∧
        PartInv arr0 pivot arr1 l r ∧ r < l ∧ 1 ≤ l ∧ r ≤ (arr1.length : Int) - 2 := by
  intro fuel
  induction fuel with
  | zero => intro arr left right _ hf; omega
  | succ fuel ih =>
    intro arr left right h hf
    have hlen : arr.length = arr0.length := h.perm.length_eq
    by_cases hlr : left ≤ right
    · obtain ⟨s, xs, t, xt, hs, hxs, hls, ht, hxt, htr, hst⟩ := sentinels h hlr
      have hsb := getAt_lt hs
      have htb := getAt_lt ht
      have hl0 := h.left_nonneg
      have hrl := h.right_lt
      obtain ⟨l1, hl1, hll1, hl1s, ⟨x, hx, hxp⟩, hbelow⟩ :=
        scanLeft_spec arr pivot s xs hs (by omega) (arr.length + 1) left hl0 hls (by omega)
      obtain ⟨r1, hr1, hr1r, htr1, ⟨y, hy, hyp⟩, habove⟩ :=
        scanRight_spec arr pivot t xt ht (by omega) (arr.length + 1) right hrl htr (by omega)
      have hxb := getAt_lt hx
      have hyb := getAt_lt hy
      by_cases hsw : l1 ≤ r1
      · obtain ⟨arr1, hsw1, hlen1, hperm1, hgl, hgr, hother⟩ := swap_spec arr l1 r1 x y hx hy
        have hinv : PartInv arr0 pivot arr1 (l1 + 1) (r1 - 1) := by
          refine ⟨hperm1.trans h.perm, ?_, ?_, by omega, by omega, by omega, by omega,
            Or.inr ⟨by omega, by omega⟩⟩
          · intro k z hk hz
            by_cases hkl : k = l1
            · rw [hkl, hgl] at hz
              simp only [Option.some.injEq] at hz
              omega
            · have hkr : k ≠ r1 := by omega
              rw [hother k hkl hkr] at hz
              by_cases hkleft : k < left
              · exact h.le k z hkleft hz
              · have := hbelow k z (by omega) (by omega) hz
                omega
          · intro k z hk hz
            by_cases hkr : k = r1
            · rw [hkr, hgr] at hz
              simp only [Option.some.injEq] at hz
              omega
            · have hkl : k ≠ l1 := by omega
              rw [hother k hkl hkr] at hz
              by_cases hkright : right < k
              · exact h.ge k z hkright hz
              · have := habove k z (by omega) (by omega) hz
                omega
        obtain ⟨arr2, l, r, hres, hinv2, hrl2, hl2, hr2⟩ :=
          ih arr1 (l1 + 1) (r1 - 1) hinv (by omega)
        exact ⟨arr2, l, r, by simp [partitionLoop, hlr, hl1, hr1, hsw, hsw1, hres], hinv2,
          hrl2, hl2, hr2⟩
      · have hmoved : 1 ≤ left ∧ right ≤ (arr.length : Int) - 2 := by
          rcases hst with hm | hm
          · exact hm
          · omega
        have hinv : PartInv arr0 pivot arr l1 r1 := by
          refine ⟨h.perm, ?_, ?_, by omega, by omega, by omega, by omega,
            Or.inr ⟨by omega, by omega⟩⟩
          · intro k z hk hz
            by_cases hkleft : k < left
            · exact h.le k z hkleft hz
            · have := hbelow k z (by omega) hk hz
              omega
          · intro k z hk hz
            by_cases hkright : right < k
            · exact h.ge k z hkright hz
            · have := habove k z hk (by omega) hz
              omega
        obtain ⟨arr2, l, r, hres, hinv2, hrl2, hl2, hr2⟩ := ih arr l1 r1 hinv (by omega)
        exact ⟨arr2, l, r, by simp [partitionLoop, hlr, hl1, hr1, hsw, hres], hinv2, hrl2,
          hl2, hr2⟩
    · have hmoved : 1 ≤ left ∧ right ≤ (arr.length : Int) - 2 := by
        rcases h.moved with ⟨hl, hr, _⟩ | hm
        · omega
        · exact hm
      exact ⟨arr, left, right, by simp [partitionLoop, hlr], h, by omega, hmoved.1, hmoved.2⟩


theorem getAt_natCast (arr : List Int) (n : Nat) : getAt arr (n : Int) = arr[n]? := by
  simp [getAt]

theorem le_of_mem_take {arr : List Int} {pivot left : Int} (h : AllLE arr pivot left)
    {a : Nat} (ha : (a : Int) ≤ left) {x : Int} (hx : x ∈ arr.take a) : x ≤ pivot := by
  obtain ⟨n, hn⟩ := List.mem_iff_getElem?.1 hx
  rw [List.getElem?_take] at hn
  by_cases hna : n < a
  · simp only [hna, if_true] at hn
    exact h n x (by omega) (by rw [getAt_natCast]; exact hn)
  · simp [hna] at hn

theorem ge_of_mem_drop {arr : List Int} {pivot right : Int} (h : AllGE arr pivot right)
    {b : Nat} (hb : right < (b : Int)) {x : Int} (hx : x ∈ arr.drop b) : pivot ≤ x := by
  obtain ⟨n, hn⟩ := List.mem_iff_getElem?.1 hx
  rw [List.getElem?_drop] at hn
  exact h ((b + n : Nat) : Int) x (by push_cast; omega) (by rw [getAt_natCast]; exact hn)

/-- The two recursive calls sort the slice, given that the loop left it partitioned and
that the recursive call sorts every shorter slice. -/
theorem sortParts_spec (sort : List Int → Option (List Int)) (arr : List Int)
    (pivot left right : Int) (hle : AllLE arr pivot left) (hge : AllGE arr pivot right)
    (hrl : right < left) (hr0 : -1 ≤ right) (hl1 : 1 ≤ left) (hln : left ≤ arr.length)
    (hrn : right ≤ (arr.length : Int) - 2)
    (hsort : ∀ xs : List Int, xs.length < arr.length →
      ∃ out, sort xs = some out ∧ out.Sorted (· ≤ ·) ∧ out.Perm xs) :
    ∃ out, sortParts sort arr left right = some out ∧ out.Sorted (· ≤ ·) ∧ out.Perm arr := by
  obtain ⟨a, ha⟩ : ∃ a : Nat, right + 1 = a := ⟨(right + 1).toNat, by omega⟩
  obtain ⟨b, hb⟩ : ∃ b : Nat, left = b := ⟨left.toNat, by omega⟩
  have hab : a ≤ b := by omega
  have hbn : b ≤ arr.length := by omega
  have han : a < arr.length := by omega
  have hb1 : 1 ≤ b := by omega
  obtain ⟨s1, hs1, hsorted1, hperm1⟩ := hsort (arr.take a) (by simp; omega)
  have hs1len : s1.length = a := by
    rw [hperm1.length_eq]; simp; omega
  have hdrop : (s1 ++ arr.drop a).drop b = arr.drop b := by
    rw [List.drop_append_eq_append_drop, List.drop_eq_nil_of_le (by omega), List.nil_append,
      List.drop_drop, hs1len]
    congr 1
    omega
  have htake : (s1 ++ arr.drop a).take b = s1 ++ (arr.drop a).take (b - a) := by
    rw [List.take_append_eq_append_take, List.take_of_length_le (by omega), hs1len]
  obtain ⟨s2, hs2, hsorted2, hperm2⟩ := hsort (arr.drop b) (by simp; omega)
  have hlen2 : (s1 ++ arr.drop a).length = arr.length := by
    simp [hs1len]; omega
  refine ⟨s1 ++ (arr.drop a).take (b - a) ++ s2, ?_, ?_, ?_⟩
  · have c1 : ¬ (right + 1 < 0 ∨ (arr.length : Int) < right + 1) := by omega
    have c2 : ¬ (left < 0 ∨ ((s1 ++ arr.drop a).length : Int) < left) := by
      rw [hlen2]; omega
    have ea : (right + 1).toNat = a := by omega
    have eb : left.toNat = b := by omega
    simp only [sortParts, c1, if_false, ea, hs1, c2, eb, hdrop, hs2, htake]
  · -- sortedness: everything in the first part is at most the pivot, the middle is the
    -- pivot, everything in the last part is at least the pivot
    have hfirst : ∀ x ∈ s1, x ≤ pivot := fun x hx =>
      le_of_mem_take hle (by omega : (a : Int) ≤ left) (hperm1.subset hx)
    have hlast : ∀ x ∈ s2, pivot ≤ x := fun x hx =>
      ge_of_mem_drop hge (by omega : right < (b : Int)) (hperm2.subset hx)
    have hmid : ∀ x ∈ (arr.drop a).take (b - a), x = pivot := by
      intro x hx
      obtain ⟨n, hn⟩ := List.mem_iff_getElem?.1 hx
      rw [List.getElem?_take] at hn
      by_cases hna : n < b - a
      · simp only [hna, if_true, List.getElem?_drop] at hn
        have hg : getAt arr ((a + n : Nat) : Int) = some x := by
          rw [getAt_natCast]; exact hn
        have h1 := hle _ x (by push_cast; omega) hg
        have h2 := hge _ x (by push_cast; omega) hg
        omega
      · simp [hna] at hn
    unfold List.Sorted at *
    rw [List.pairwise_append, List.pairwise_append]
    refine ⟨⟨hsorted1, ?_, ?_⟩, hsorted2, ?_⟩
    · rw [List.pairwise_iff_forall_sublist]
      intro x y hxy
      have hx := hmid x (hxy.subset (by simp))
      have hy := hmid y (hxy.subset (by simp))
      omega
    · intro x hx y hy
      have := hfirst x hx
      have := hmid y hy
      omega
    · intro x hx y hy
      have := hlast y hy
      rcases List.mem_append.1 hx with hx | hx
      · have := hfirst x hx
        omega
      · have := hmid x hx
        omega
  · have hsplit : arr = arr.take a ++ ((arr.drop a).take (b - a) ++ arr.drop b) := by
      have e1 : arr.drop b = (arr.drop a).drop (b - a) := by
        rw [List.drop_drop]; congr 1; omega
      rw [e1, List.take_append_drop, List.take_append_drop]
    rw [List.append_assoc]
    conv_rhs => rw [hsplit]
    exact hperm1.append (List.Perm.append_left _ hperm2)


/-- The state at the head of the first iteration of the partition loop. -/
theorem partInv_init (arr : List Int) (pivot : Int)
    (hp : getAt arr ((arr.length : Int) / 2) = some pivot) :
    PartInv arr pivot arr 0 ((arr.length : Int) - 1) := by
  refine ⟨List.Perm.refl _, ?_, ?_, le_refl _, by omega, by omega, by omega,
    Or.inl ⟨rfl, rfl, _, hp⟩⟩
  · intro k x hk hx
    have := getAt_lt hx
    omega
  · intro k x hk hx
    have := getAt_lt hx
    omega

theorem sorted_of_length_lt_two {arr : List Int} (h : arr.length < 2) :
    arr.Sorted (· ≤ ·) := by
  match arr, h with
  | [], _ => exact List.sorted_nil
  | [a], _ => exact List.sorted_singleton a
  | _ :: _ :: _, h => exact absurd h (by simp)

/-- One level of either quicksort: the pivot read, the partition loop and the two
recursive calls sort the slice, if `sort` sorts every shorter slice. -/
theorem quickSort_level (sort : List Int → Option (List Int)) (arr : List Int)
    (hn : 2 ≤ arr.length)
    (hsort : ∀ xs : List Int, xs.length < arr.length →
      ∃ out, sort xs = some out ∧ out.Sorted (· ≤ ·) ∧ out.Perm xs) :
    ∃ pivot arr1 left right out,
      getAt arr ((arr.length : Int) / 2) = some pivot ∧
      partitionLoop pivot (arr.length + 2) arr 0 ((arr.length : Int) - 1)
        = some (arr1, left, right) ∧
      sortParts sort arr1 left right = some out ∧ out.Sorted (· ≤ ·) ∧ out.Perm arr := by
  obtain ⟨pivot, hp⟩ := @getAt_isSome arr ((arr.length : Int) / 2)
    (by omega) (by omega)
  obtain ⟨arr1, l, r, hloop, hinv, hrl, hl1, hr2⟩ :=
    partitionLoop_spec arr pivot hn (arr.length + 2) arr 0 ((arr.length : Int) - 1)
      (partInv_init arr pivot hp) (by omega)
  have hlen : arr1.length = arr.length := hinv.perm.length_eq
  obtain ⟨out, hout, hsorted, hperm⟩ :=
    sortParts_spec sort arr1 pivot l r hinv.le hinv.ge hrl hinv.right_ge hl1 hinv.left_le hr2
      (fun xs hxs => hsort xs (by omega))
  exact ⟨pivot, arr1, l, r, out, hp, hloop, hout, hsorted, hperm.trans hinv.perm⟩

theorem benchQuickSort_spec :
    ∀ (fuel : Nat) (arr : List Int), arr.length ≤ fuel →
      ∃ out, QuickSortAux fuel arr = some out ∧ out.Sorted (· ≤ ·) ∧ out.Perm arr := by
  intro fuel
  induction fuel with
  | zero =>
    intro arr h
    have h2 : arr.length < 2 := by omega
    exact ⟨arr, by simp [QuickSortAux, h2], sorted_of_length_lt_two h2, List.Perm.refl _⟩
  | succ fuel ih =>
    intro arr h
    by_cases h2 : arr.length < 2
    · exact ⟨arr, by simp [QuickSortAux, h2], sorted_of_length_lt_two h2, List.Perm.refl _⟩
    · obtain ⟨pivot, arr1, l, r, out, hp, hloop, hout, hsorted, hperm⟩ :=
        quickSort_level (QuickSortAux fuel) arr (by omega) (fun xs hxs => ih xs (by omega))
      exact ⟨out, by simp [QuickSortAux, h2, hp, hloop, hout], hsorted, hperm⟩

theorem sortingQuickSort_spec :
    ∀ (fuel : Nat) (arr : List Int), arr.length ≤ fuel →
      ∃ out, quickSortAux fuel arr = some out ∧ out.Sorted (· ≤ ·) ∧ out.Perm arr := by
  intro fuel
  induction fuel with
  | zero =>
    intro arr h
    have h1 : arr.length ≤ 1 := by omega
    exact ⟨arr, by simp [quickSortAux, h1], sorted_of_length_lt_two (by omega),
      List.Perm.refl _⟩
  | succ fuel ih =>
    intro arr h
    by_cases h1 : arr.length ≤ 1
    · exact ⟨arr, by simp [quickSortAux, h1], sorted_of_length_lt_two (by omega),
        List.Perm.refl _⟩
    · obtain ⟨pivot, arr1, l, r, out, hp, hloop, hout, hsorted, hperm⟩ :=
        quickSort_level (quickSortAux fuel) arr (by omega) (fun xs hxs => ih xs (by omega))
      exact ⟨out, by simp [quickSortAux, h1, hp, hloop, hout], hsorted, hperm⟩

/-- `isSorted` returns true exactly on the slices in non-decreasing order. -/
theorem isSorted_iff (arr : List Int) : isSorted arr = true ↔ arr.Sorted (· ≤ ·) := by
  induction arr with
  | nil => simp [isSorted]
  | cons a rest ih =>
    cases rest with
    | nil => simp [isSorted]
    | cons b rest2 =>
      by_cases hab : a > b
      · simp only [isSorted, hab, if_true, Bool.false_eq_true, false_iff]
        intro hs
        have := List.rel_of_sorted_cons hs b (by simp)
        omega
      · simp only [isSorted, hab, if_false, ih]
        constructor
        · intro hs
          exact List.Sorted.cons (show a ≤ b by omega) hs
        · intro hs
          exact hs.of_cons

/-- C20: for every `int` slice `arr`, `QuickSort(arr)` of 13-benchmarks and `quickSort(arr)`
of 07-sorting-searching return without an index or slice-bound panic, and afterwards the
slice is in non-decreasing order (`isSorted` returns true) and is a permutation of its
original contents; both leave the same slice. -/
theorem quickSort_sorts (arr : List Int) :
    (∃ out, QuickSort arr = some out ∧ out.Sorted (· ≤ ·) ∧ isSorted out = true ∧
      out.Perm arr) ∧
    (∃ out, quickSort arr = some out ∧ out.Sorted (· ≤ ·) ∧ isSorted out = true ∧
      out.Perm arr) ∧
    QuickSort arr = quickSort arr := by
  obtain ⟨o1, h1, hs1, hp1⟩ := benchQuickSort_spec arr.length arr (Nat.le_refl _)
  obtain ⟨o2, h2, hs2, hp2⟩ := sortingQuickSort_spec arr.length arr (Nat.le_refl _)
  refine ⟨⟨o1, h1, hs1, (isSorted_iff o1).2 hs1, hp1⟩,
    ⟨o2, h2, hs2, (isSorted_iff o2).2 hs2, hp2⟩, ?_⟩
  unfold QuickSort quickSort
  rw [h1, h2]
  congr 1
  exact List.eq_of_perm_of_sorted (hp1.trans hp2.symm) hs1 hs2

/-- The cases the claim names: the empty slice, one element, duplicates. -/
theorem quickSort_examples :
    QuickSort [] = some [] ∧ QuickSort [7] = some [7] ∧
    QuickSort [3, 1, 3, 2, 3, 1, 1] = some [1, 1, 1, 2, 3, 3, 3] ∧
    quickSort [5, 2, 4, 6, 1, 3] = some [1, 2, 3, 4, 5, 6] ∧
    isSorted [1, 1, 1, 2, 3, 3, 3] = true ∧ isSorted [2, 1] = false := by
  decide

end Sorting

namespace Sorting

theorem stableMerge_nil_right (left : List Int) : stableMerge left [] = left := by
  cases left <;> simp [stableMerge]

theorem stableMerge_perm (left right : List Int) :
    (stableMerge left right).Perm (left ++ right) := by
  induction left, right using stableMerge.induct with
  | case1 right => simp [stableMerge]
  | case2 a left => simp [stableMerge]
  | case3 a left b right hab ih =>
    simp only [stableMerge, hab, if_true]
    exact ih.cons a
  | case4 a left b right hab ih =>
    simp only [stableMerge, hab, if_false]
    refine (ih.cons b).trans ?_
    have := @List.perm_middle _ b (a :: left) right
    exact this.symm

theorem stableMerge_length (left right : List Int) :
    (stableMerge left right).length = left.length + right.length := by
  simpa using (stableMerge_perm left right).length_eq

theorem stableMerge_sorted (left right : List Int) (hl : left.Sorted (· ≤ ·))
    (hr : right.Sorted (· ≤ ·)) : (stableMerge left right).Sorted (· ≤ ·) := by
  induction left, right using stableMerge.induct with
  | case1 right => simpa [stableMerge] using hr
  | case2 a left => simpa [stableMerge] using hl
  | case3 a left b right hab ih =>
    simp only [stableMerge, hab, if_true]
    rw [List.sorted_cons] at hl hr ⊢
    refine ⟨?_, ih hl.2 (List.sorted_cons.2 hr)⟩
    intro x hx
    have hx2 := (stableMerge_perm left (b :: right)).subset hx
    simp only [List.mem_append, List.mem_cons] at hx2
    rcases hx2 with h | h | h
    · exact hl.1 x h
    · omega
    · have := hr.1 x h
      omega
  | case4 a left b right hab ih =>
    simp only [stableMerge, hab, if_false]
    rw [List.sorted_cons] at hr ⊢
    refine ⟨?_, ih hl hr.2⟩
    intro x hx
    have hx2 := (stableMerge_perm (a :: left) right).subset hx
    simp only [List.mem_append, List.mem_cons] at hx2
    rw [List.sorted_cons] at hl
    rcases hx2 with (h | h) | h
    · omega
    · have := hl.1 x h
      omega
    · exact hr.1 x h

/-- The loop of `merge` started at the indices `i`, `j` appends the merge of `left[i:]` and
`right[j:]` to `result`. -/
theorem mergeLoop_spec (left right : List Int) (fuel i j : Nat) (result : List Int)
    (hf : (left.length - i) + (right.length - j) < fuel) :
    mergeLoop left right fuel i j result
      = some (result ++ stableMerge (left.drop i) (right.drop j)) := by
  induction fuel generalizing i j result with
  | zero => omega
  | succ fuel ih =>
    unfold mergeLoop
    by_cases hc : i < left.length ∧ j < right.length
    · obtain ⟨hi, hj⟩ := hc
      have e1 : left.drop i = left[i] :: left.drop (i + 1) := List.drop_eq_getElem_cons hi
      have e2 : right.drop j = right[j] :: right.drop (j + 1) := List.drop_eq_getElem_cons hj
      rw [if_pos ⟨hi, hj⟩, List.getElem?_eq_getElem hi, List.getElem?_eq_getElem hj]
      simp only []
      by_cases hab : left[i] ≤ right[j]
      · have e : stableMerge (left.drop i) (right.drop j)
            = left[i] :: stableMerge (left.drop (i + 1)) (right.drop j) := by
          rw [e1, e2]
          simp only [stableMerge, hab, if_true]
        rw [if_pos hab, ih (i + 1) j _ (by omega), e]
        simp
      · have e : stableMerge (left.drop i) (right.drop j)
            = right[j] :: stableMerge (left.drop i) (right.drop (j + 1)) := by
          rw [e1, e2]
          simp only [stableMerge, hab, if_false]
        rw [if_neg hab, ih i (j + 1) _ (by omega), e]
        simp
    · rw [if_neg hc]
      by_cases hi : i < left.length
      · have hj : right.length ≤ j := by
          by_contra h
          exact hc ⟨hi, by omega⟩
        rw [List.drop_eq_nil_of_le hj, stableMerge_nil_right]
        simp
      · rw [List.drop_eq_nil_of_le (by omega : left.length ≤ i)]
        simp [stableMerge]

theorem merge_eq (left right : List Int) : merge left right = some (stableMerge left right) := by
  unfold merge
  rw [mergeLoop_spec left right _ 0 0 [] (by omega)]
  simp

theorem mergeSortAux_spec (fuel : Nat) (arr : List Int) (hf : arr.length ≤ fuel) :
    ∃ out, mergeSortAux fuel arr = some out ∧ out.Sorted (· ≤ ·) ∧ out.Perm arr := by
  induction fuel generalizing arr with
  | zero =>
    have h0 : arr = [] := List.length_eq_zero.1 (by omega)
    subst h0
    exact ⟨[], by simp [mergeSortAux], List.sorted_nil, List.Perm.refl _⟩
  | succ fuel ih =>
    by_cases h1 : arr.length ≤ 1
    · refine ⟨arr, by simp [mergeSortAux, h1], ?_, List.Perm.refl _⟩
      match arr, h1 with
      | [], _ => exact List.sorted_nil
      | [a], _ => exact List.sorted_singleton a
    · obtain ⟨l, hl, hls, hlp⟩ := ih (arr.take (arr.length / 2))
        (by rw [List.length_take]; omega)
      obtain ⟨r, hr, hrs, hrp⟩ := ih (arr.drop (arr.length / 2))
        (by rw [List.length_drop]; omega)
      refine ⟨stableMerge l r, ?_, stableMerge_sorted l r hls hrs, ?_⟩
      · simp only [mergeSortAux, h1, if_false, hl, hr, merge_eq]
      · refine (stableMerge_perm l r).trans ?_
        have := hlp.append hrp
        rwa [List.take_append_drop] at this

/-- C21: for every `int` slice `arr`, `mergeSort(arr)` returns a slice in non-decreasing
order (`isSorted` returns true on it) that is a permutation of `arr`; and for all slices
`left`, `right`, `merge(left, right)` returns the merge that takes the smaller head first
and the head of `left` on a tie, of length `len(left) + len(right)`, a permutation of the
two inputs together, in non-decreasing order when both inputs are. -/
theorem mergeSort_sorts (arr left right : List Int) :
    (∃ out, mergeSort arr = some out ∧ out.Sorted (· ≤ ·) ∧ isSorted out = true ∧
      out.Perm arr) ∧
    (∃ out, merge left right = some out ∧ out = stableMerge left right ∧
      out.length = left.length + right.length ∧ out.Perm (left ++ right) ∧
      (left.Sorted (· ≤ ·) → right.Sorted (· ≤ ·) → out.Sorted (· ≤ ·))) := by
  obtain ⟨out, h, hs, hp⟩ := mergeSortAux_spec arr.length arr (Nat.le_refl _)
  exact ⟨⟨out, h, hs, (isSorted_iff out).2 hs, hp⟩,
    ⟨_, merge_eq left right, rfl, stableMerge_length left right, stableMerge_perm left right,
      stableMerge_sorted left right⟩⟩

/-- The slices of `main` and a tie between the two inputs of `merge`. -/
theorem mergeSort_examples :
    mergeSort [64, 34, 25, 12, 22, 11, 90] = some [11, 12, 22, 25, 34, 64, 90] ∧
    mergeSort [] = some [] ∧ mergeSort [3, 1, 3, 1] = some [1, 1, 3, 3] ∧
    merge [1, 4, 4] [2, 4, 5] = some [1, 2, 4, 4, 4, 5] := by
  decide

end Sorting
namespace Sorting

theorem getAt_mem {arr : List Int} {i v : Int} (h : getAt arr i = some v) : v ∈ arr := by
  unfold getAt at h
  split at h
  · exact List.mem_iff_getElem?.2 ⟨_, h⟩
  · simp at h

/-- The loop of `BinarySearch` on a sorted slice: with everything left of `left` below the
target and everything right of `right` above it, the loop returns an index of the target,
or `-1` when the target does not occur. -/
theorem binarySearchLoop_spec (arr : List Int) (target : Int) (hs : arr.Sorted (· ≤ ·))
    (fuel : Nat) (left right : Int) (h0 : 0 ≤ left) (hr : right < arr.length)
    (hf : right - left + 1 < fuel) (hf0 : 0 < fuel)
    (hlo : ∀ k : Nat, (k : Int) < left → ∀ h : k < arr.length, arr[k] < target)
    (hhi : ∀ k : Nat, right < (k : Int) → ∀ h : k < arr.length, target < arr[k]) :
    ∃ r, binarySearchLoop arr target fuel left right = some r ∧
      ((r = -1 ∧ target ∉ arr) ∨
        (0 ≤ r ∧ r < arr.length ∧ getAt arr r = some target)) := by
  have hp : ∀ (i j : Nat) (hi : i < arr.length) (hj : j < arr.length), i < j →
      arr[i] ≤ arr[j] := List.pairwise_iff_getElem.1 hs
  induction fuel generalizing left right with
  | zero => omega
  | succ fuel ih =>
    unfold binarySearchLoop
    by_cases hc : left ≤ right
    · rw [if_pos hc]
      simp only []
      have hm0 : 0 ≤ left + (right - left) / 2 := by omega
      have hm1 : (left + (right - left) / 2).toNat < arr.length := by omega
      have hget : getAt arr (left + (right - left) / 2)
          = some arr[(left + (right - left) / 2).toNat] := by
        simp [getAt, hm0, List.getElem?_eq_getElem hm1]
      rw [hget]
      simp only []
      by_cases heq : arr[(left + (right - left) / 2).toNat] = target
      · rw [if_pos heq]
        exact ⟨_, rfl, Or.inr ⟨hm0, by omega, by rw [hget, heq]⟩⟩
      · rw [if_neg heq]
        by_cases hlt : arr[(left + (right - left) / 2).toNat] < target
        · rw [if_pos hlt]
          refine ih _ right (by omega) hr (by omega) (by omega) ?_ hhi
          intro k hk h
          by_cases hkm : k = (left + (right - left) / 2).toNat
          · subst hkm
            exact hlt
          · have := hp k _ h hm1 (by omega)
            omega
        · rw [if_neg hlt]
          refine ih left _ h0 (by omega) (by omega) (by omega) hlo ?_
          intro k hk h
          by_cases hkm : k = (left + (right - left) / 2).toNat
          · subst hkm
            omega
          · have := hp _ k hm1 h (by omega)
            omega
    · rw [if_neg hc]
      refine ⟨-1, rfl, Or.inl ⟨rfl, ?_⟩⟩
      intro hmem
      obtain ⟨k, hk, hkv⟩ := List.getElem_of_mem hmem
      by_cases hkl : (k : Int) < left
      · have := hlo k hkl hk
        omega
      · have := hhi k (by omega) hk
        omega

/-- C22: for every `int` slice `arr` in non-decreasing order and every `target`,
`BinarySearch(arr, target)` of 13-benchmarks returns (no read is out of range); when the
target occurs in `arr` the result is an index `i` with `0 <= i < len(arr)` and
`arr[i] = target`, when it does not occur (the empty slice included) the result is `-1`;
`binarySearch` of 07-sorting-searching returns the same. -/
theorem binarySearch_finds (arr : List Int) (target : Int) (hs : arr.Sorted (· ≤ ·)) :
    ∃ r, BinarySearch arr target = some r ∧ binarySearch arr target = some r ∧
      (target ∈ arr → 0 ≤ r ∧ r < arr.length ∧ getAt arr r = some target) ∧
      (target ∉ arr → r = -1) := by
  obtain ⟨r, hres, h⟩ := binarySearchLoop_spec arr target hs (arr.length + 1) 0
    ((arr.length : Int) - 1) (by omega) (by omega) (by push_cast; omega) (by omega)
    (fun k hk => by omega) (fun k hk h => by omega)
  refine ⟨r, hres, hres, ?_, ?_⟩
  · intro hmem
    rcases h with ⟨_, hn⟩ | h
    · exact absurd hmem hn
    · exact h
  · intro hn
    rcases h with ⟨h1, _⟩ | ⟨_, _, hg⟩
    · exact h1
    · exact absurd (getAt_mem hg) hn

/-- Witness of C22 on the slice of `main` (13-benchmarks lines 261-267), with a target that
occurs, one that does not, and the empty slice. -/
theorem binarySearch_finds_witness :
    (∃ r, BinarySearch [1, 3, 5, 7, 9, 11, 13, 15] 7 = some r ∧
      binarySearch [1, 3, 5, 7, 9, 11, 13, 15] 7 = some r ∧
      ((7 : Int) ∈ [1, 3, 5, 7, 9, 11, 13, 15] →
        0 ≤ r ∧ r < ([1, 3, 5, 7, 9, 11, 13, 15] : List Int).length ∧
        getAt [1, 3, 5, 7, 9, 11, 13, 15] r = some 7) ∧
      ((7 : Int) ∉ [1, 3, 5, 7, 9, 11, 13, 15] → r = -1)) ∧
    BinarySearch [1, 3, 5, 7, 9, 11, 13, 15] 7 = some 3 ∧
    BinarySearch [1, 3, 5, 7, 9, 11, 13, 15] 8 = some (-1) ∧
    BinarySearch [] 4 = some (-1) ∧ binarySearch [2, 2, 2] 2 = some 1 :=
  ⟨binarySearch_finds [1, 3, 5, 7, 9, 11, 13, 15] 7 (by decide), by decide, by decide,
    by decide, by decide⟩

end Sorting

namespace TreesGraphs

theorem values_Insert (t : TreeNode) (val : Int) :
    (t.Insert val).values.Perm (val :: t.values) := by
  induction t with
  | nil => simp [TreeNode.Insert, TreeNode.values]
  | node v left right ihl ihr =>
    unfold TreeNode.Insert
    split
    · simp only [TreeNode.values]
      refine ((ihl.append_right _).cons v).trans ?_
      exact List.Perm.swap _ _ _
    · simp only [TreeNode.values]
      refine ((ihr.append_left _).cons v).trans ?_
      refine (List.Perm.cons v List.perm_middle).trans ?_
      exact List.Perm.swap _ _ _

theorem isBST_Insert (t : TreeNode) (val : Int) (h : IsBST t) : IsBST (t.Insert val) := by
  induction t with
  | nil => simp [TreeNode.Insert, IsBST, TreeNode.values]
  | node v left right ihl ihr =>
    obtain ⟨h1, h2, h3, h4⟩ := h
    unfold TreeNode.Insert
    split
    · next hlt =>
      refine ⟨?_, h2, ihl h3, h4⟩
      intro x hx
      have := (values_Insert left val).subset hx
      rcases List.mem_cons.1 this with h | h
      · omega
      · exact h1 x h
    · next hlt =>
      refine ⟨h1, ?_, h3, ihr h4⟩
      intro x hx
      have := (values_Insert right val).subset hx
      rcases List.mem_cons.1 this with h | h
      · omega
      · exact h2 x h

theorem isBST_insertAll (values : List Int) (t : TreeNode) (h : IsBST t) :
    IsBST (insertAll t values) := by
  induction values generalizing t with
  | nil => exact h
  | cons v rest ih => exact ih _ (isBST_Insert t v h)

theorem values_insertAll (values : List Int) (t : TreeNode) :
    (insertAll t values).values.Perm (t.values ++ values) := by
  induction values generalizing t with
  | nil => simp [insertAll]
  | cons v rest ih =>
    refine (ih (t.Insert v)).trans ?_
    refine ((values_Insert t v).append_right rest).trans ?_
    simpa using (List.perm_middle).symm

theorem inorder_append (t : TreeNode) (result : List Int) :
    inorder t result = result ++ inorder t [] := by
  induction t generalizing result with
  | nil => simp [inorder]
  | node v left right ihl ihr =>
    simp only [inorder]
    rw [ihr, ihl, ihr (inorder left [] ++ [v])]
    simp

theorem inorder_perm (t : TreeNode) : (InOrderTraversal t).Perm t.values := by
  unfold InOrderTraversal
  induction t with
  | nil => simp [inorder, TreeNode.values]
  | node v left right ihl ihr =>
    simp only [inorder, TreeNode.values, List.nil_append]
    rw [inorder_append right, inorder_append left]
    simp only [List.nil_append, List.append_assoc, List.singleton_append]
    refine (List.perm_middle).trans ?_
    exact (ihl.append ihr).cons v

theorem inorder_sorted (t : TreeNode) (h : IsBST t) : (InOrderTraversal t).Sorted (· ≤ ·) := by
  unfold InOrderTraversal
  induction t with
  | nil => simp [inorder]
  | node v left right ihl ihr =>
    obtain ⟨h1, h2, h3, h4⟩ := h
    simp only [inorder, List.nil_append]
    rw [inorder_append right, inorder_append left]
    simp only [List.nil_append, List.append_assoc, List.singleton_append]
    refine List.pairwise_append.2 ⟨ihl h3, ?_, ?_⟩
    · refine List.sorted_cons.2 ⟨?_, ihr h4⟩
      intro x hx
      exact h2 x ((inorder_perm right).subset hx)
    · intro a ha b hb
      have ha2 := h1 a ((inorder_perm left).subset ha)
      rcases List.mem_cons.1 hb with hb | hb
      · omega
      · have := h2 b ((inorder_perm right).subset hb)
        omega

/-- C30: starting from the nil tree, after inserting any finite sequence of ints with
`TreeNode.Insert` the tree has the binary-search-tree ordering (every value in a left
subtree is below the node, every value in a right subtree is at least it), and
`InOrderTraversal` returns the inserted values in non-decreasing order, as a permutation
of the inserted sequence. -/
theorem insert_keeps_bst (values : List Int) :
    IsBST (insertAll .nil values) ∧
    (InOrderTraversal (insertAll .nil values)).Sorted (· ≤ ·) ∧
    (InOrderTraversal (insertAll .nil values)).Perm values := by
  have hb : IsBST (insertAll .nil values) := isBST_insertAll values .nil trivial
  refine ⟨hb, inorder_sorted _ hb, ?_⟩
  refine (inorder_perm _).trans ?_
  simpa [TreeNode.values] using values_insertAll values .nil

/-- The tree of `main` (lines 510-517), with a repeated value added. -/
theorem insert_main_example :
    InOrderTraversal (insertAll .nil [8, 3, 10, 1, 6, 14, 4, 7, 13])
      = [1, 3, 4, 6, 7, 8, 10, 13, 14] ∧
    InOrderTraversal (insertAll .nil [2, 1, 2, 1]) = [1, 1, 2, 2] ∧
    insertAll .nil [2, 1, 2] = .node 2 (.node 1 .nil .nil) (.node 2 .nil .nil) := by
  decide

end TreesGraphs
namespace LinkedLists

theorem digit_step (s : Int) (h0 : 0 ≤ s) (h1 : s ≤ 19) :
    0 ≤ quoInt s 10 ∧ quoInt s 10 ≤ 1 ∧ 0 ≤ Calculator.remInt s 10 ∧
      Calculator.remInt s 10 ≤ 9 ∧ Calculator.remInt s 10 + 10 * quoInt s 10 = s := by
  unfold quoInt Calculator.remInt
  rw [Int.tdiv_eq_ediv h0 (by omega), Int.tmod_eq_emod h0 (by omega)]
  omega

theorem addInt_small (a b : Int) (ha0 : 0 ≤ a) (ha : a ≤ 10) (hb0 : 0 ≤ b) (hb : b ≤ 9) :
    Calculator.addInt a b = a + b := by
  unfold Calculator.addInt
  exact wrapInt_of_range (by omega) (by omega)

/-- The loop of `AddTwoNumbers` on chains of digits with a carry of 0 or 1: it appends to
`result` a chain of digits that stands for the two numbers and the carry together. -/
theorem addLoop_spec (fuel : Nat) (l1 l2 : List Int) (carry : Int) (result : List Int)
    (h1 : AllDigits l1) (h2 : AllDigits l2) (hc0 : 0 ≤ carry) (hc1 : carry ≤ 1)
    (hf : l1.length + l2.length + 2 ≤ fuel) :
    ∃ rest, addLoop fuel l1 l2 carry result = some (result ++ rest) ∧ AllDigits rest ∧
      digitsValue rest = digitsValue l1 + digitsValue l2 + carry := by
  induction fuel generalizing l1 l2 carry result with
  | zero => omega
  | succ fuel ih =>
    have key : ∀ (s : Int) (t1 t2 : List Int), 0 ≤ s → s ≤ 19 → AllDigits t1 →
        AllDigits t2 → t1.length + t2.length + 2 ≤ fuel →
        s + 10 * (digitsValue t1 + digitsValue t2)
          = digitsValue l1 + digitsValue l2 + carry →
        ∃ rest, addLoop fuel t1 t2 (quoInt s 10) (result ++ [Calculator.remInt s 10])
            = some (result ++ rest) ∧ AllDigits rest ∧
          digitsValue rest = digitsValue l1 + digitsValue l2 + carry := by
      intro s t1 t2 hs0 hs1 ht1 ht2 hlen hval
      obtain ⟨hq0, hq1, hr0, hr1, hqr⟩ := digit_step s hs0 hs1
      obtain ⟨rest, hrest, hdig, hv⟩ := ih t1 t2 (quoInt s 10)
        (result ++ [Calculator.remInt s 10]) ht1 ht2 hq0 hq1 hlen
      refine ⟨Calculator.remInt s 10 :: rest, by simp [hrest], ?_, ?_⟩
      · intro d hd
        rcases List.mem_cons.1 hd with h | h
        · subst h
          exact ⟨hr0, hr1⟩
        · exact hdig d h
      · simp only [digitsValue, hv]
        omega
    match l1, l2, h1, h2, hf with
    | [], [], _, _, _ =>
      by_cases hc : carry > 0
      · have hc' : carry = 1 := by omega
        subst hc'
        obtain ⟨hq0, hq1, hr0, hr1, hqr⟩ := digit_step 1 (by omega) (by omega)
        have hq : quoInt 1 10 = 0 := by decide
        have hr : Calculator.remInt 1 10 = 1 := by decide
        match fuel, hf with
        | fuel2 + 1, _ =>
          refine ⟨[1], by simp [addLoop, hq, hr], ?_, by simp [digitsValue]⟩
          intro d hd
          simp at hd
          omega
      · refine ⟨[], by simp [addLoop, hc], by intro d hd; simp at hd, ?_⟩
        simp only [digitsValue]
        omega
    | a :: t1, [], h1, _, hf =>
      have ha := h1 a (by simp)
      have ht1 : AllDigits t1 := fun d hd => h1 d (by simp [hd])
      have := key (carry + a) t1 [] (by omega) (by omega) ht1 (by intro d hd; simp at hd)
        (by simp at hf ⊢; omega) (by simp only [digitsValue]; omega)
      simpa [addLoop, addInt_small carry a hc0 (by omega) ha.1 ha.2] using this
    | [], b :: t2, _, h2, hf =>
      have hb := h2 b (by simp)
      have ht2 : AllDigits t2 := fun d hd => h2 d (by simp [hd])
      have := key (carry + b) [] t2 (by omega) (by omega) (by intro d hd; simp at hd) ht2
        (by simp at hf ⊢; omega) (by simp only [digitsValue]; omega)
      simpa [addLoop, addInt_small carry b hc0 (by omega) hb.1 hb.2] using this
    | a :: t1, b :: t2, h1, h2, hf =>
      have ha := h1 a (by simp)
      have hb := h2 b (by simp)
      have ht1 : AllDigits t1 := fun d hd => h1 d (by simp [hd])
      have ht2 : AllDigits t2 := fun d hd => h2 d (by simp [hd])
      have := key (carry + a + b) t1 t2 (by omega) (by omega) ht1 ht2
        (by simp at hf ⊢; omega) (by simp only [digitsValue]; omega)
      simpa [addLoop, addInt_small carry a hc0 (by omega) ha.1 ha.2,
        addInt_small (carry + a) b (by omega) (by omega) hb.1 hb.2] using this

/-- C27: for all chains `l1`, `l2` of decimal digits, least-significant digit first,
`AddTwoNumbers(l1, l2)` returns (within `len(l1) + len(l2) + 2` loop iterations) a chain of
decimal digits whose value, the sum of `d_i * 10^i`, is `value(l1) + value(l2)`. -/
theorem addTwoNumbers_value (fuel : Nat) (l1 l2 : List Int) (h1 : AllDigits l1)
    (h2 : AllDigits l2) (hf : l1.length + l2.length + 2 ≤ fuel) :
    ∃ out, AddTwoNumbers fuel l1 l2 = some out ∧ AllDigits out ∧
      digitsValue out = digitsValue l1 + digitsValue l2 := by
  obtain ⟨rest, hrest, hdig, hv⟩ := addLoop_spec fuel l1 l2 0 [] h1 h2 (by omega) (by omega) hf
  exact ⟨rest, by simpa [AddTwoNumbers] using hrest, hdig, by simpa using hv⟩

set_option maxRecDepth 4000 in
/-- Witness of C27 on the chains of `main` (lines 497-508): `342 + 465 = 807`; and a sum
with a final carry, `99 + 1 = 100`. -/
theorem addTwoNumbers_value_witness :
    (∃ out, AddTwoNumbers 8 [2, 4, 3] [5, 6, 4] = some out ∧ AllDigits out ∧
      digitsValue out = digitsValue [2, 4, 3] + digitsValue [5, 6, 4]) ∧
    AddTwoNumbers 8 [2, 4, 3] [5, 6, 4] = some [7, 0, 8] ∧
    digitsValue [2, 4, 3] = 342 ∧ digitsValue [5, 6, 4] = 465 ∧ digitsValue [7, 0, 8] = 807 ∧
    AddTwoNumbers 5 [9, 9] [1] = some [0, 0, 1] ∧ AddTwoNumbers 2 [] [] = some [] :=
  ⟨addTwoNumbers_value 8 [2, 4, 3] [5, 6, 4] (by decide) (by decide) (by decide),
    by decide, by decide, by decide, by decide, by decide, by decide⟩

end LinkedLists
namespace LinkedLists

theorem advanceFast_within (len : Nat) (n : Int) (hn : n ≤ len) (fuel : Nat) (i : Int)
    (fast : Nat) (hfast : (fast : Int) = i) (hi : i ≤ n + 1) (hf : n + 1 - i < fuel) :
    advanceFast len n fuel i fast = some (some (n + 1).toNat) := by
  induction fuel generalizing i fast with
  | zero => omega
  | succ fuel ih =>
    unfold advanceFast
    by_cases hc : i ≤ n
    · rw [if_pos hc, if_neg (by omega)]
      exact ih (i + 1) (fast + 1) (by omega) (by omega) (by omega)
    · rw [if_neg hc]
      congr 2
      omega

theorem advanceFast_beyond (len : Nat) (n : Int) (hn : (len : Int) < n) (fuel : Nat) (i : Int)
    (fast : Nat) (hfast : (fast : Int) = i) (hi : i ≤ len + 1) (hf : (len : Int) + 1 - i < fuel) :
    advanceFast len n fuel i fast = some none := by
  induction fuel generalizing i fast with
  | zero => omega
  | succ fuel ih =>
    unfold advanceFast
    rw [if_pos (by omega)]
    by_cases hc : fast = len + 1
    · rw [if_pos hc]
    · rw [if_neg hc]
      exact ih (i + 1) (fast + 1) (by omega) (by omega) (by omega)

theorem advanceBoth_spec (len fuel fast slow : Nat) (hfast : fast ≤ len + 1)
    (hslow : slow ≤ fast) (hf : len + 1 - fast < fuel) :
    advanceBoth len fuel fast slow = some (slow + (len + 1 - fast)) := by
  induction fuel generalizing fast slow with
  | zero => omega
  | succ fuel ih =>
    unfold advanceBoth
    by_cases hc : fast ≠ len + 1
    · rw [if_pos hc, if_neg (by omega), ih (fast + 1) (slow + 1) (by omega) (by omega) (by omega)]
      congr 1
      omega
    · rw [if_neg hc]
      congr 1
      omega

/-- C28: for every chain of length `L` and every `n`: if `1 <= n <= L`,
`RemoveNthFromEnd(head, n)` returns the chain with exactly the element at 0-based position
`L - n` removed and all others in order (the head for `n = L`); if `n > L` it returns the
chain unchanged. -/
theorem removeNthFromEnd_spec (head : List Int) (n : Int) :
    (1 ≤ n → n ≤ head.length →
      RemoveNthFromEnd head n = some (head.eraseIdx (head.length - n.toNat))) ∧
    ((head.length : Int) < n → RemoveNthFromEnd head n = some head) := by
  constructor
  · intro h1 h2
    unfold RemoveNthFromEnd
    rw [advanceFast_within head.length n h2 (head.length + 3) 0 0 rfl (by omega)
      (by push_cast; omega)]
    simp only []
    rw [advanceBoth_spec head.length (head.length + 3) (n + 1).toNat 0 (by omega) (by omega)
      (by omega)]
    simp only []
    have e : 0 + (head.length + 1 - (n + 1).toNat) = head.length - n.toNat := by omega
    rw [e, if_pos (by omega)]
    simp
  · intro h
    unfold RemoveNthFromEnd
    rw [advanceFast_beyond head.length n h (head.length + 3) 0 0 rfl (by omega)
      (by push_cast; omega)]

/-- The chain of `main` (lines 486-494) and the cases the claim names: `n = L` removes the
head, `n > L` changes nothing. -/
theorem removeNthFromEnd_examples :
    RemoveNthFromEnd [1, 2, 3, 4, 5] 2 = some [1, 2, 3, 5] ∧
    RemoveNthFromEnd [1, 2, 3, 4, 5] 5 = some [2, 3, 4, 5] ∧
    RemoveNthFromEnd [1, 2, 3, 4, 5] 6 = some [1, 2, 3, 4, 5] ∧
    RemoveNthFromEnd [1, 2, 3, 4, 5] 9223372036854775807 = some [1, 2, 3, 4, 5] ∧
    RemoveNthFromEnd [7] 1 = some [] ∧ RemoveNthFromEnd [] 1 = some [] ∧
    RemoveNthFromEnd [1, 2] 0 = none := by
  decide

end LinkedLists

namespace Benchmarks

theorem fibValue_step (n : Int) (h : ¬ n ≤ 1) :
    fibValue n = Calculator.addInt (fibValue (n - 1)) (fibValue (n - 2)) := by
  obtain ⟨k, hk⟩ : ∃ k : Nat, n = (k : Int) + 2 := ⟨(n - 2).toNat, by omega⟩
  subst hk
  have e0 : ((k : Int) + 2).toNat = k + 2 := by omega
  simp only [fibValue, h, if_false, e0, fibInt]
  have e1 : (k : Int) + 2 - 1 = ((k + 1 : Nat) : Int) := by push_cast; omega
  have e2 : (k : Int) + 2 - 2 = (k : Int) := by omega
  rw [e1, e2]
  congr 1
  · match k with
    | 0 => simp [fibInt]
    | j + 1 =>
      have : ¬ (((j + 1 + 1 : Nat) : Int) ≤ 1) := by push_cast; omega
      simp only [this, if_false, Int.toNat_ofNat]
  · match k with
    | 0 => simp [fibInt]
    | 1 => simp [fibInt]
    | j + 2 =>
      have : ¬ (((j + 2 : Nat) : Int) ≤ 1) := by push_cast; omega
      simp only [this, if_false, Int.toNat_ofNat]

/-- `FibonacciRecursive` returns the value of the claim once the depth allows `n` calls. -/
theorem fibonacciRecursive_spec (fuel : Nat) (n : Int) (hf : n < fuel) (hf0 : 0 < fuel) :
    FibonacciRecursive fuel n = some (fibValue n) := by
  induction fuel generalizing n with
  | zero => omega
  | succ fuel ih =>
    unfold FibonacciRecursive
    by_cases h : n ≤ 1
    · simp [h, fibValue]
    · rw [if_neg h, ih (n - 1) (by omega) (by omega), ih (n - 2) (by omega) (by omega)]
      simp only []
      rw [fibValue_step n h]

/-- The loop of `FibonacciIterative` below the largest `int`: from `a = F(i-2)`,
`b = F(i-1)` it returns `F(n)`. -/
theorem fibLoop_spec (n : Int) (hn : n < Calculator.maxInt) (fuel : Nat) (i : Int)
    (hi2 : 2 ≤ i) (hi : i ≤ n + 1) (hf : n + 1 - i < fuel) :
    fibLoop n fuel i (fibValue (i - 2)) (fibValue (i - 1)) = some (fibValue n) := by
  induction fuel generalizing i with
  | zero => omega
  | succ fuel ih =>
    unfold fibLoop
    by_cases h : i ≤ n
    · have e : Calculator.addInt i 1 = i + 1 := by
        unfold Calculator.addInt
        unfold Calculator.maxInt at hn
        exact wrapInt_of_range (by omega) (by omega)
      rw [if_pos h, e]
      have := ih (i + 1) (by omega) (by omega) (by omega)
      have e1 : i + 1 - 2 = i - 1 := by omega
      have e2 : i + 1 - 1 = i := by omega
      rw [e1, e2, fibValue_step i (by omega)] at this
      have ec : Calculator.addInt (fibValue (i - 2)) (fibValue (i - 1))
          = Calculator.addInt (fibValue (i - 1)) (fibValue (i - 2)) := by
        unfold Calculator.addInt
        rw [Int.add_comm]
      rw [ec]
      exact this
    · rw [if_neg h]
      have : i - 1 = n := by omega
      rw [this]

theorem fibonacciIterative_spec (fuel : Nat) (n : Int) (hn : n < Calculator.maxInt)
    (hf : n < fuel) : FibonacciIterative fuel n = some (fibValue n) := by
  unfold FibonacciIterative
  by_cases h : n ≤ 1
  · simp [h, fibValue]
  · rw [if_neg h]
    have := fibLoop_spec n hn fuel 2 (by omega) (by omega) (by omega)
    simpa [fibValue] using this

/-- The closure `fib` on a sound map returns the value of the claim and a sound map. -/
theorem fib_spec (fuel : Nat) (x : Int) (memo : List (Int × Int)) (hm : MemoOk memo)
    (hf : x < fuel) (hf0 : 0 < fuel) :
    ∃ memo2, fib fuel x memo = some (fibValue x, memo2) ∧ MemoOk memo2 := by
  induction fuel generalizing x memo with
  | zero => omega
  | succ fuel ih =>
    unfold fib
    by_cases h : x ≤ 1
    · exact ⟨memo, by simp [h, fibValue], hm⟩
    · rw [if_neg h]
      cases hl : memo.lookup x with
      | some val =>
        simp only []
        rw [hm x val hl]
        exact ⟨memo, rfl, hm⟩
      | none =>
        simp only []
        obtain ⟨m1, h1, hm1⟩ := ih (x - 1) memo hm (by omega) (by omega)
        obtain ⟨m2, h2, hm2⟩ := ih (x - 2) m1 hm1 (by omega) (by omega)
        rw [h1]
        simp only []
        rw [h2]
        simp only []
        refine ⟨_, by rw [fibValue_step x h], ?_⟩
        intro k v hk
        rw [List.lookup_cons] at hk
        by_cases hkx : k = x
        · subst hkx
          simp at hk
          rw [← hk, fibValue_step k h]
        · have : (k == x) = false := by simpa using hkx
          rw [this] at hk
          exact hm2 k v hk

theorem fibonacciMemoized_spec (fuel : Nat) (n : Int) (hf : n < fuel) (hf0 : 0 < fuel) :
    FibonacciMemoized fuel n = some (fibValue n) := by
  obtain ⟨m, h, _⟩ := fib_spec fuel n [] (by intro k v hk; simp at hk) hf hf0
  simp [FibonacciMemoized, h]

/-- Below the largest `int` the claim of C24 holds: for every `n < 9223372036854775807`
and fuel above `n`, `FibonacciRecursive`, `FibonacciIterative` and `FibonacciMemoized`
return the same value, `n` itself when `n <= 1` and `F(n)` under `int` arithmetic
otherwise. -/
theorem fibonacci_agree (fuel : Nat) (n : Int) (hn : n < Calculator.maxInt) (hf : n < fuel)
    (hf0 : 0 < fuel) :
    FibonacciRecursive fuel n = some (fibValue n) ∧
    FibonacciIterative fuel n = some (fibValue n) ∧
    FibonacciMemoized fuel n = some (fibValue n) ∧
    (n ≤ 1 → fibValue n = n) ∧ (1 < n → fibValue n = fibInt n.toNat) :=
  ⟨fibonacciRecursive_spec fuel n hf hf0, fibonacciIterative_spec fuel n hn hf,
    fibonacciMemoized_spec fuel n hf hf0, fun h => by simp [fibValue, h],
    fun h => by simp [fibValue, h]⟩

/-- The calls of `main` (lines 228-234) and of the benchmarks, `n = 20`. -/
theorem fibonacci_agree_witness :
    FibonacciRecursive 21 20 = some (fibValue 20) ∧
    FibonacciIterative 21 20 = some 6765 ∧ FibonacciMemoized 21 20 = some 6765 ∧
    FibonacciIterative 1 (-3) = some (-3) ∧ fibValue 20 = 6765 :=
  ⟨(fibonacci_agree 21 20 (by decide) (by decide) (by decide)).1, by decide, by decide,
    by decide, by decide⟩

theorem fibLoop_maxInt (fuel : Nat) (i a b : Int) (hi : i ≤ Calculator.maxInt) :
    fibLoop Calculator.maxInt fuel i a b = none := by
  induction fuel generalizing i a b with
  | zero => rfl
  | succ fuel ih =>
    unfold fibLoop
    rw [if_pos hi]
    apply ih
    unfold Calculator.addInt wrapInt Calculator.maxInt
    omega

/-- C24 fails at the largest `int`: the counter `i` of `FibonacciIterative` wraps around
instead of exceeding `n = 9223372036854775807`, so the call returns for no amount of
fuel. -/
theorem fibonacciIterative_maxInt_diverges :
    ¬ ∃ fuel : Nat, (FibonacciIterative fuel 9223372036854775807).isSome = true := by
  rintro ⟨fuel, h⟩
  have hloop := fibLoop_maxInt fuel 2 0 1 (by decide)
  have hm : Calculator.maxInt = 9223372036854775807 := by decide
  rw [hm] at hloop
  simp [FibonacciIterative, hloop] at h

end Benchmarks
namespace Benchmarks

theorem addInt_cast (a b : Nat) (h : a + b < 2 ^ 63) :
    Calculator.addInt (a : Int) (b : Int) = ((a + b : Nat) : Int) := by
  unfold Calculator.addInt
  rw [wrapInt_of_range (by omega) (by omega)]
  push_cast
  rfl

theorem mulInt_cast (a b : Nat) (h : a * b < 2 ^ 63) :
    mulInt (a : Int) (b : Int) = ((a * b : Nat) : Int) := by
  unfold mulInt
  have h2 : ((a * b : Nat) : Int) < 2 ^ 63 := by exact_mod_cast h
  rw [← Int.natCast_mul]
  exact wrapInt_of_range (by omega) h2

/-- Below `squareLimit` a counter whose predecessor has its square within `k` has its own
square within `int`. -/
theorem square_in_range (k m : Nat) (hk : k < 3037000499 * 3037000499)
    (hmk : (m - 1) * (m - 1) ≤ k) : m ≤ 3037000499 ∧ m * m < 2 ^ 63 := by
  have h1 : m - 1 < 3037000499 := by
    by_contra h
    have := Nat.mul_self_le_mul_self (Nat.le_of_not_lt h)
    omega
  have h2 : m ≤ 3037000499 := by omega
  have := Nat.mul_self_le_mul_self h2
  exact ⟨h2, by omega⟩

theorem prime_of_no_small_divisor (k m : Nat) (hk : 2 ≤ k) (hm : k < m * m)
    (h : ∀ d, 2 ≤ d → d < m → ¬ d ∣ k) : k.Prime := by
  by_contra hp
  have h1 := Nat.minFac_sq_le_self (by omega : 0 < k) hp
  have h2 := (Nat.minFac_prime (by omega : k ≠ 1)).two_le
  have h3 : k.minFac < m := by
    by_contra hge
    have := Nat.mul_self_le_mul_self (Nat.le_of_not_lt hge)
    rw [sq] at h1
    omega
  exact h _ h2 h3 (Nat.minFac_dvd k)

/-- The inner loop of `TrialDivision` for `2 <= i < squareLimit`: `isPrime` ends as true
exactly when `i` is a prime number. -/
theorem trialInner_spec (k : Nat) (hk2 : 2 ≤ k) (hkB : k < 3037000499 * 3037000499)
    (fuel m : Nat) (hm2 : 2 ≤ m) (hmk : (m - 1) * (m - 1) ≤ k) (hf : k + 2 - m < fuel)
    (hprev : ∀ d, 2 ≤ d → d < m → ¬ d ∣ k) :
    trialInner (k : Int) fuel (m : Int) = some (decide k.Prime) := by
  induction fuel generalizing m with
  | zero => omega
  | succ fuel ih =>
    obtain ⟨hmB, hmm⟩ := square_in_range k m hkB hmk
    unfold trialInner
    rw [mulInt_cast m m hmm]
    by_cases hc : ((m * m : Nat) : Int) ≤ (k : Int)
    · have hc2 : m * m ≤ k := by exact_mod_cast hc
      have hmlt : m < k := by
        have : m * 2 ≤ m * m := Nat.mul_le_mul_left m hm2
        omega
      rw [if_pos hc, if_neg (by omega)]
      by_cases hr : Calculator.remInt (k : Int) (m : Int) = 0
      · rw [if_pos hr]
        have hd : m ∣ k := by
          have := (Calculator.remInt_eq_zero_iff _ _).1 hr
          exact_mod_cast this
        have hnp : ¬ k.Prime := by
          intro hp
          rcases (Nat.dvd_prime hp).1 hd with h | h <;> omega
        simp [hnp]
      · rw [if_neg hr]
        have hnd : ¬ m ∣ k := by
          intro hd
          apply hr
          rw [Calculator.remInt_eq_zero_iff]
          exact_mod_cast hd
        have e : Calculator.addInt (m : Int) 1 = ((m + 1 : Nat) : Int) := by
          have := addInt_cast m 1 (by omega)
          simpa using this
        rw [e]
        refine ih (m + 1) (by omega) (by simpa using hc2) (by omega) ?_
        intro d hd2 hdm
        by_cases hdm2 : d = m
        · subst hdm2
          exact hnd
        · exact hprev d hd2 (by omega)
    · rw [if_neg hc]
      have hc2 : k < m * m := by
        by_contra h
        exact hc (by exact_mod_cast Nat.le_of_not_lt h)
      simp [prime_of_no_small_divisor k m hk2 hc2 hprev]

theorem primesUpTo_succ (k : Nat) :
    primesUpTo (k + 1)
      = primesUpTo k ++ (if (k + 1).Prime then [((k + 1 : Nat) : Int)] else []) := by
  unfold primesUpTo
  rw [List.range_succ, List.filter_append, List.map_append]
  congr 1
  by_cases hp : (k + 1).Prime <;> simp [hp]

/-- The outer loop of `TrialDivision` for `n < squareLimit`: from the primes below `i` it
returns the primes up to `n`. -/
theorem trialLoop_spec (n : Nat) (hnB : n < 3037000499 * 3037000499) (inner : Nat)
    (hin : n + 1 ≤ inner) (fuel i : Nat) (hi2 : 2 ≤ i) (hi : i ≤ n + 1)
    (hf : n + 1 - i < fuel) :
    trialLoop (n : Int) inner fuel (i : Int) (primesUpTo (i - 1))
      = some (primesUpTo n) := by
  induction fuel generalizing i with
  | zero => omega
  | succ fuel ih =>
    unfold trialLoop
    by_cases hc : (i : Int) ≤ (n : Int)
    · have hc2 : i ≤ n := by exact_mod_cast hc
      have hinner := trialInner_spec i hi2 (by omega) inner 2 (by omega) (by omega) (by omega)
        (fun d h1 h2 => by omega)
      rw [Nat.cast_ofNat] at hinner
      rw [if_pos hc, hinner]
      simp only []
      have e : Calculator.addInt (i : Int) 1 = ((i + 1 : Nat) : Int) := by
        have := addInt_cast i 1 (by omega)
        simpa using this
      rw [e]
      have := ih (i + 1) (by omega) (by omega) (by omega)
      have e2 : i + 1 - 1 = (i - 1) + 1 := by omega
      rw [e2, primesUpTo_succ] at this
      have e3 : i - 1 + 1 = i := by omega
      rw [e3] at this
      have key : (if decide i.Prime = true then primesUpTo (i - 1) ++ [(i : Int)]
          else primesUpTo (i - 1))
          = primesUpTo (i - 1) ++ (if i.Prime then [((i : Nat) : Int)] else []) := by
        by_cases hp : i.Prime <;> simp [hp]
      rw [key]
      exact this
    · rw [if_neg hc]
      have : i = n + 1 := by
        have : ¬ i ≤ n := fun h => hc (by exact_mod_cast h)
        omega
      subst this
      simp

theorem trialDivision_spec (n fuel : Nat) (hn : 1 ≤ n) (hnB : n < 3037000499 * 3037000499)
    (hf : n + 1 ≤ fuel) : TrialDivision fuel (n : Int) = some (primesUpTo n) := by
  unfold TrialDivision
  have := trialLoop_spec n hnB fuel hf fuel 2 (by omega) (by omega) (by omega)
  have e : primesUpTo (2 - 1) = [] := by decide
  rw [e, Nat.cast_ofNat] at this
  exact this

end Benchmarks
namespace Benchmarks

theorem unmarked_self (i : Nat) (hi : 2 ≤ i) : Unmarked i i ↔ i.Prime := by
  constructor
  · rintro ⟨_, h | h⟩
    · exact h
    · have := Nat.minFac_le (by omega : 0 < i)
      exact Nat.prime_def_minFac.2 ⟨hi, by omega⟩
  · intro h
    exact ⟨hi, Or.inl h⟩

theorem unmarked_two (k : Nat) : Unmarked 2 k ↔ 2 ≤ k := by
  constructor
  · exact fun h => h.1
  · intro h
    exact ⟨h, Or.inr (Nat.minFac_prime (by omega)).two_le⟩

theorem unmarked_succ_prime (i k : Nat) (hp : i.Prime) :
    Unmarked (i + 1) k ↔ Unmarked i k ∧ ¬ (i ∣ k ∧ i * i ≤ k) := by
  have hi2 := hp.two_le
  constructor
  · rintro ⟨hk, h⟩
    refine ⟨⟨hk, h.imp id (fun h => by omega)⟩, ?_⟩
    rintro ⟨hd, hsq⟩
    rcases h with h | h
    · rcases (Nat.dvd_prime h).1 hd with h1 | h1
      · omega
      · subst h1
        have : i * 2 ≤ i * i := Nat.mul_le_mul_left i hi2
        omega
    · have := Nat.minFac_le_of_dvd hi2 hd
      omega
  · rintro ⟨⟨hk, h⟩, hn⟩
    refine ⟨hk, ?_⟩
    rcases h with h | h
    · exact Or.inl h
    · by_cases hkp : k.Prime
      · exact Or.inl hkp
      · right
        by_contra hlt
        have heq : k.minFac = i := by omega
        have hsq := Nat.minFac_sq_le_self (by omega : 0 < k) hkp
        rw [sq, heq] at hsq
        exact hn ⟨heq ▸ Nat.minFac_dvd k, hsq⟩

theorem unmarked_succ_composite (i k : Nat) (hp : ¬ i.Prime) :
    Unmarked (i + 1) k ↔ Unmarked i k := by
  constructor
  · rintro ⟨hk, h⟩
    exact ⟨hk, h.imp id (fun h => by omega)⟩
  · rintro ⟨hk, h⟩
    refine ⟨hk, h.imp id (fun h => ?_)⟩
    have hne : k.minFac ≠ i := by
      intro heq
      exact hp (heq ▸ Nat.minFac_prime (by omega))
    omega

theorem unmarked_final (i k : Nat) (hk : k < i * i) : Unmarked i k ↔ k.Prime := by
  constructor
  · rintro ⟨hk2, h | h⟩
    · exact h
    · by_contra hp
      have hsq := Nat.minFac_sq_le_self (by omega : 0 < k) hp
      have := Nat.mul_self_le_mul_self h
      rw [sq] at hsq
      omega
  · intro h
    exact ⟨h.two_le, Or.inl h⟩

/-- The inner loop of the sieve below `squareLimit`: it crosses off the multiples of `i`
from `i * i` on and nothing else. -/
theorem crossOff_spec (n i : Nat) (hi2 : 2 ≤ i) (hiB : i ≤ 3037000499)
    (hn : n < 3037000499 * 3037000499) (fuel j : Nat) (hj : i ∣ j) (hj2 : i * i ≤ j) (hjn : j ≤ n + i)
    (hf : n + i - j < fuel) (primes : List Bool) (hinv : CrossInv n i j primes) :
    ∃ primes2, crossOff (n : Int) (i : Int) fuel (j : Int) primes = some primes2 ∧
      primes2.length = n + 1 ∧
      ∀ k, k ≤ n → primes2[k]? = some (decide (Unmarked i k ∧ ¬ (i ∣ k ∧ i * i ≤ k))) := by
  induction fuel generalizing j primes with
  | zero => omega
  | succ fuel ih =>
    obtain ⟨hlen, hval⟩ := hinv
    unfold crossOff
    by_cases hc : (j : Int) ≤ (n : Int)
    · have hc2 : j ≤ n := by exact_mod_cast hc
      have hw : writeAt primes (j : Int) false = some (primes.set j false) := by
        unfold writeAt
        rw [if_pos ⟨by omega, by omega⟩]
        simp
      rw [if_pos hc, hw]
      simp only []
      rw [addInt_cast j i (by omega)]
      refine ih (j + i) (Dvd.dvd.add hj (dvd_refl i)) (by omega) (by omega) (by omega) _
        ⟨by simp [hlen], ?_⟩
      intro k hk
      rw [List.getElem?_set]
      by_cases hjk : j = k
      · subst hjk
        rw [if_pos rfl]
        have hlt : j < primes.length := by omega
        simp only [hlt, if_true, Option.some.injEq]
        symm
        rw [decide_eq_false_iff_not]
        rintro ⟨hu, hno⟩
        exact hno ⟨hj, hj2, by omega⟩
      · rw [if_neg hjk, hval k hk]
        congr 1
        rw [decide_eq_decide]
        have hiff : (i ∣ k ∧ i * i ≤ k ∧ k < j + i) ↔ (i ∣ k ∧ i * i ≤ k ∧ k < j) := by
          constructor
          · rintro ⟨h1, h2, h3⟩
            refine ⟨h1, h2, ?_⟩
            by_contra hge
            obtain ⟨a, ha⟩ := hj
            obtain ⟨b, hb⟩ := h1
            subst ha hb
            have hab : a < b := by
              by_contra h
              have := Nat.mul_le_mul_left i (Nat.le_of_not_lt h)
              omega
            have := Nat.mul_le_mul_left i (Nat.succ_le_of_lt hab)
            rw [Nat.mul_succ] at this
            omega
          · rintro ⟨h1, h2, h3⟩
            exact ⟨h1, h2, by omega⟩
        rw [hiff]
    · rw [if_neg hc]
      have hc2 : n < j := by
        by_contra h
        exact hc (by exact_mod_cast Nat.le_of_not_lt h)
      refine ⟨primes, rfl, hlen, ?_⟩
      intro k hk
      rw [hval k hk]
      congr 1
      rw [decide_eq_decide]
      have hiff : (i ∣ k ∧ i * i ≤ k ∧ k < j) ↔ (i ∣ k ∧ i * i ≤ k) :=
        ⟨fun h => ⟨h.1, h.2.1⟩, fun h => ⟨h.1, h.2, by omega⟩⟩
      rw [hiff]

end Benchmarks
namespace Benchmarks

/-- The outer loop of the sieve below `squareLimit`: from a table that holds the survivors
of the counters below `i` it leaves the table of the prime numbers. -/
theorem sieveLoop_spec (n : Nat) (hn : n < 3037000499 * 3037000499) (inner : Nat)
    (hin : n + 1 ≤ inner) (fuel i : Nat) (hi2 : 2 ≤ i) (hik : (i - 1) * (i - 1) ≤ n)
    (hf : n + 2 - i < fuel) (primes : List Bool) (hinv : SieveInv n i primes) :
    ∃ primes2, sieveLoop (n : Int) inner fuel (i : Int) primes = some primes2 ∧
      primes2.length = n + 1 ∧ ∀ k, k ≤ n → primes2[k]? = some (decide k.Prime) := by
  induction fuel generalizing i primes with
  | zero =>
    have : i - 1 ≤ (i - 1) * (i - 1) := Nat.le_mul_self _
    omega
  | succ fuel ih =>
    obtain ⟨hlen, hval⟩ := hinv
    obtain ⟨hiB, hii⟩ := square_in_range n i hn hik
    have hile : i - 1 ≤ (i - 1) * (i - 1) := Nat.le_mul_self _
    have e1 : Calculator.addInt (i : Int) 1 = ((i + 1 : Nat) : Int) := by
      have := addInt_cast i 1 (by omega)
      simpa using this
    unfold sieveLoop
    rw [mulInt_cast i i hii]
    by_cases hc : ((i * i : Nat) : Int) ≤ (n : Int)
    · have hc2 : i * i ≤ n := by exact_mod_cast hc
      have hin2 : i ≤ n := by
        have : i ≤ i * i := Nat.le_mul_self _
        omega
      have hread : readAt primes (i : Int) = some (decide i.Prime) := by
        unfold readAt
        rw [if_pos (by omega)]
        simp only [Int.toNat_ofNat]
        rw [hval i hin2]
        rw [decide_eq_decide.2 (unmarked_self i hi2)]
      rw [if_pos hc, hread, e1]
      by_cases hp : i.Prime
      · simp only [hp, decide_True]
        obtain ⟨p2, hcross, hlen2, hval2⟩ := crossOff_spec n i hi2 hiB hn inner (i * i)
          (Dvd.intro _ rfl) (Nat.le_refl _) (by omega)
          (by
            have : i * 2 ≤ i * i := Nat.mul_le_mul_left i hi2
            omega)
          primes
          ⟨hlen, fun k hk => by
            rw [hval k hk, decide_eq_decide.2
              (⟨fun h => ⟨h, fun h2 => by omega⟩, fun h => h.1⟩ :
                Unmarked i k ↔ Unmarked i k ∧ ¬ (i ∣ k ∧ i * i ≤ k ∧ k < i * i))]⟩
        rw [hcross]
        simp only []
        refine ih (i + 1) (by omega) (by simpa using hc2) (by omega) p2 ⟨hlen2, ?_⟩
        intro k hk
        rw [hval2 k hk]
        rw [decide_eq_decide.2 ((unmarked_succ_prime i k hp).symm)]
      · simp only [hp, decide_False]
        refine ih (i + 1) (by omega) (by simpa using hc2) (by omega) primes ⟨hlen, ?_⟩
        intro k hk
        rw [hval k hk]
        rw [decide_eq_decide.2 ((unmarked_succ_composite i k hp).symm)]
    · rw [if_neg hc]
      have hc2 : n < i * i := by
        by_contra h
        exact hc (by exact_mod_cast Nat.le_of_not_lt h)
      refine ⟨primes, rfl, hlen, ?_⟩
      intro k hk
      rw [hval k hk]
      rw [decide_eq_decide.2 (unmarked_final i k (by omega))]

theorem primesBelow_succ (m : Nat) :
    ((List.range (m + 1)).filter Nat.Prime).map Int.ofNat
      = ((List.range m).filter Nat.Prime).map Int.ofNat
        ++ (if m.Prime then [(m : Int)] else []) := by
  rw [List.range_succ, List.filter_append, List.map_append]
  congr 1
  by_cases hp : m.Prime <;> simp [hp]

/-- The last loop of the sieve on a table of the prime numbers: from the primes below `m`
and the rest of the table it leaves the primes below the length of the table. -/
theorem collectFrom_spec (rest : List Bool) (m : Nat)
    (h : ∀ idx, idx < rest.length → rest[idx]? = some (decide (m + idx).Prime)) :
    collectFrom rest (m : Int) (((List.range m).filter Nat.Prime).map Int.ofNat)
      = ((List.range (m + rest.length)).filter Nat.Prime).map Int.ofNat := by
  induction rest generalizing m with
  | nil => simp [collectFrom]
  | cons b rest ih =>
    have hb : b = decide m.Prime := by
      have := h 0 (by simp)
      simpa using this
    have hrest : ∀ idx, idx < rest.length →
        rest[idx]? = some (decide (m + 1 + idx).Prime) := by
      intro idx hidx
      have := h (idx + 1) (by simp; omega)
      have e : m + (idx + 1) = m + 1 + idx := by omega
      rw [e] at this
      simpa using this
    have := ih (m + 1) hrest
    rw [primesBelow_succ] at this
    unfold collectFrom
    have e1 : (m : Int) + 1 = ((m + 1 : Nat) : Int) := by push_cast; rfl
    have e2 : m + (b :: rest).length = m + 1 + rest.length := by simp; omega
    rw [e1, e2, ← this, hb]
    by_cases hp : m.Prime <;> simp [hp]

theorem sieve_spec (avail : Int) (n fuel : Nat) (hn1 : 1 ≤ n)
    (hmax : ((n + 1 : Nat) : Int) ≤ maxAlloc) (havail : ((n + 1 : Nat) : Int) ≤ avail)
    (hf : n + 1 ≤ fuel) : SieveOfEratosthenes avail fuel (n : Int) = some (primesUpTo n) := by
  have hn : n < 3037000499 * 3037000499 := by
    unfold maxAlloc at hmax
    omega
  have hmk : makeReturns avail 1 ((n + 1 : Nat) : Int) = true := by
    unfold makeReturns
    rw [mul_one]
    exact decide_eq_true ⟨by omega, hmax, havail⟩
  have e1 : Calculator.addInt (n : Int) 1 = ((n + 1 : Nat) : Int) := by
    have := addInt_cast n 1 (by omega)
    simpa using this
  have hw0 : writeAt (List.replicate (n + 1) true) 0 false
      = some ((List.replicate (n + 1) true).set 0 false) := by
    unfold writeAt
    rw [if_pos ⟨by omega, by simp⟩]
    simp
  have hw1 : writeAt ((List.replicate (n + 1) true).set 0 false) 1 false
      = some (((List.replicate (n + 1) true).set 0 false).set 1 false) := by
    unfold writeAt
    rw [if_pos ⟨by omega, by simp; omega⟩]
    simp
  have hinv : SieveInv n 2 (((List.replicate (n + 1) true).set 0 false).set 1 false) := by
    refine ⟨by simp, ?_⟩
    intro k hk
    rw [List.getElem?_set, List.getElem?_set]
    have hu := unmarked_two k
    by_cases h1 : 1 = k
    · subst h1
      have : ¬ Unmarked 2 1 := by rw [unmarked_two]; omega
      simp [this]
      omega
    · rw [if_neg h1]
      by_cases h0 : 0 = k
      · subst h0
        have : ¬ Unmarked 2 0 := by rw [unmarked_two]; omega
        simp [this]
      · rw [if_neg h0]
        have : Unmarked 2 k := by rw [unmarked_two]; omega
        simp only [this, decide_True]
        rw [List.getElem?_replicate, if_pos (by omega)]
  obtain ⟨p2, hloop, hlen2, hval2⟩ := sieveLoop_spec n hn fuel hf fuel 2 (by omega) (by omega)
    (by omega) _ hinv
  rw [Nat.cast_ofNat] at hloop
  have hcol : collectFrom p2 0 [] = primesUpTo n := by
    have := collectFrom_spec p2 0 (fun idx hidx => by
      rw [hval2 idx (by omega)]
      simp)
    simp only [List.range_zero, List.filter_nil, List.map_nil, Nat.cast_zero, Nat.zero_add]
      at this
    rw [this, hlen2]
    rfl
  unfold SieveOfEratosthenes
  simp only [e1]
  rw [if_pos hmk, Int.toNat_ofNat, hw0]
  simp only []
  rw [hw1]
  simp only []
  rw [hloop]
  simp only [Option.map_some', hcol]

end Benchmarks
namespace Benchmarks

theorem mem_primesUpTo (n p : Nat) : (p : Int) ∈ primesUpTo n ↔ p.Prime ∧ p ≤ n := by
  unfold primesUpTo
  simp only [List.mem_map, List.mem_filter, List.mem_range, decide_eq_true_eq]
  constructor
  · rintro ⟨q, ⟨hq, hp⟩, he⟩
    have : q = p := Int.ofNat.inj he
    subst this
    exact ⟨hp, by omega⟩
  · rintro ⟨hp, hle⟩
    exact ⟨p, ⟨by omega, hp⟩, rfl⟩

theorem primesUpTo_sorted (n : Nat) : (primesUpTo n).Sorted (· < ·) := by
  unfold primesUpTo
  have h1 : (List.range (n + 1)).Sorted (· < ·) := List.sorted_lt_range _
  have h2 : ((List.range (n + 1)).filter Nat.Prime).Sorted (· < ·) := h1.filter _
  exact List.Pairwise.map Int.ofNat (fun a b hab => Int.ofNat_lt.2 hab) h2

/-- C23 as amended: for every `n >= 1` for which `make` returns the table of `n + 1`
booleans, that is `n + 1` bytes are within the limit `2 ^ 48` of the runtime on one
allocation and within the memory `avail` of the machine, and fuel above `n`,
`SieveOfEratosthenes(n)` and `TrialDivision(n)` return the same slice, the one that holds
exactly the prime numbers `p` with `2 <= p <= n`, in ascending order. -/
theorem primes_agree (avail n : Int) (fuel : Nat) (hn1 : 1 ≤ n) (hmax : n + 1 ≤ 2 ^ 48)
    (havail : n + 1 ≤ avail) (hf : n + 1 ≤ fuel) :
    SieveOfEratosthenes avail fuel n = some (primesUpTo n.toNat) ∧
    TrialDivision fuel n = some (primesUpTo n.toNat) ∧
    (∀ p : Nat, (p : Int) ∈ primesUpTo n.toNat ↔ p.Prime ∧ (p : Int) ≤ n) ∧
    (primesUpTo n.toNat).Sorted (· < ·) := by
  obtain ⟨k, hk⟩ : ∃ k : Nat, n = (k : Int) := ⟨n.toNat, by omega⟩
  subst hk
  have hkB : k < 3037000499 * 3037000499 := by omega
  simp only [Int.toNat_ofNat]
  refine ⟨sieve_spec avail k fuel (by omega) (by unfold maxAlloc; push_cast; omega)
      (by push_cast; omega) (by omega),
    trialDivision_spec k fuel (by omega) hkB (by omega), ?_, primesUpTo_sorted k⟩
  intro p
  rw [mem_primesUpTo]
  constructor
  · rintro ⟨h1, h2⟩
    exact ⟨h1, by exact_mod_cast h2⟩
  · rintro ⟨h1, h2⟩
    exact ⟨h1, by exact_mod_cast h2⟩

/-- Witness of C23 as amended on the call of `main` (lines 269-277), `limit = 100`, with a
table of 101 bytes. -/
theorem primes_agree_witness :
    SieveOfEratosthenes 101 101 100 = some (primesUpTo (100 : Int).toNat) ∧
    TrialDivision 101 100 = some (primesUpTo (100 : Int).toNat) ∧
    (∀ p : Nat, (p : Int) ∈ primesUpTo (100 : Int).toNat ↔ p.Prime ∧ (p : Int) ≤ 100) ∧
    (primesUpTo (100 : Int).toNat).Sorted (· < ·) :=
  primes_agree 101 100 101 (by decide) (by decide) (by decide) (by decide)

set_option maxRecDepth 100000 in
/-- The two functions evaluated: the primes up to 30, no prime up to 1, and no table of 31
booleans in 30 bytes. -/
theorem primes_examples :
    SieveOfEratosthenes 1000 31 30 = some [2, 3, 5, 7, 11, 13, 17, 19, 23, 29] ∧
    TrialDivision 31 30 = some [2, 3, 5, 7, 11, 13, 17, 19, 23, 29] ∧
    SieveOfEratosthenes 1000 2 1 = some [] ∧ TrialDivision 2 1 = some [] ∧
    SieveOfEratosthenes 30 31 30 = none ∧
    primesUpTo 1 = [] := by
  decide

theorem trialLoop_maxInt (inner fuel : Nat) (i : Int) (primes : List Int)
    (hi : i ≤ Calculator.maxInt) :
    trialLoop Calculator.maxInt inner fuel i primes = none := by
  induction fuel generalizing i primes with
  | zero => rfl
  | succ fuel ih =>
    unfold trialLoop
    rw [if_pos hi]
    cases trialInner i inner 2 with
    | none => rfl
    | some isPrime =>
      simp only []
      apply ih
      unfold Calculator.addInt wrapInt Calculator.maxInt
      omega

/-- C23 fails at `n = 281474976710656 = 2 ^ 48`: the table of `n + 1` booleans of
`SieveOfEratosthenes` is beyond the limit of the runtime on one allocation, `make` panics
and the call returns no slice, whatever the memory of the machine and the fuel.  At the
largest `int`, `n = 9223372036854775807`, the length `n + 1` wraps around to a negative
number, where `make` panics as well, and the counter `i` of `TrialDivision` wraps around
instead of exceeding `n`, so that neither call returns a slice. -/
theorem sieve_table_out_of_range :
    (¬ ∃ (avail : Int) (fuel : Nat),
      (SieveOfEratosthenes avail fuel 281474976710656).isSome = true) ∧
    (¬ ∃ (avail : Int) (fuel : Nat),
      (SieveOfEratosthenes avail fuel 9223372036854775807).isSome = true) ∧
    (¬ ∃ fuel : Nat, (TrialDivision fuel 9223372036854775807).isSome = true) := by
  refine ⟨?_, ?_, ?_⟩
  · rintro ⟨avail, fuel, h⟩
    have e : Calculator.addInt 281474976710656 1 = 281474976710657 := by decide
    have hm : makeReturns avail 1 281474976710657 = false := by
      unfold makeReturns maxAlloc
      exact decide_eq_false (by omega)
    simp [SieveOfEratosthenes, e, hm] at h
  · rintro ⟨avail, fuel, h⟩
    have e : Calculator.addInt 9223372036854775807 1 = -9223372036854775808 := by decide
    have hm : makeReturns avail 1 (-9223372036854775808) = false := by
      unfold makeReturns
      exact decide_eq_false (by omega)
    simp [SieveOfEratosthenes, e, hm] at h
  · rintro ⟨fuel, h⟩
    have hloop := trialLoop_maxInt fuel fuel 2 [] (by decide)
    have hm : Calculator.maxInt = 9223372036854775807 := by decide
    rw [hm] at hloop
    simp [TrialDivision, hloop] at h

end Benchmarks

namespace RecursionDP

theorem sum_nonneg_of_pos (coins chosen : List Int) (hpos : ∀ c ∈ coins, 0 < c)
    (hin : ∀ c ∈ chosen, c ∈ coins) : (chosen.length : Int) ≤ chosen.sum := by
  induction chosen with
  | nil => simp
  | cons c rest ih =>
    have h1 := hpos c (hin c (by simp))
    have h2 := ih (fun x hx => hin x (by simp [hx]))
    simp only [List.length_cons, List.sum_cons]
    push_cast
    omega

/-- With positive denominations, `k` coins make at least the amount `k`. -/
theorem canMake_le (coins : List Int) (hpos : ∀ c ∈ coins, 0 < c) (a : Int) (k : Nat)
    (h : CanMake coins a k) : (k : Int) ≤ a := by
  obtain ⟨chosen, hin, hsum, hlen⟩ := h
  have := sum_nonneg_of_pos coins chosen hpos hin
  omega

theorem canMake_zero (coins : List Int) : CanMake coins 0 0 := ⟨[], by simp, rfl, rfl⟩

theorem canMake_cons (coins : List Int) (c a : Int) (k : Nat) (hc : c ∈ coins)
    (h : CanMake coins (a - c) k) : CanMake coins a (k + 1) := by
  obtain ⟨chosen, hin, hsum, hlen⟩ := h
  refine ⟨c :: chosen, ?_, ?_, by simp [hlen]⟩
  · intro x hx
    rcases List.mem_cons.1 hx with h | h
    · exact h ▸ hc
    · exact hin x h
  · simp only [List.sum_cons, hsum]
    omega

/-- Coins that make a positive amount: one of them is a denomination `c <= a`, the others
make `a - c`. -/
theorem canMake_split (coins : List Int) (hpos : ∀ c ∈ coins, 0 < c) (a : Int) (ha : 0 < a)
    (k : Nat) (h : CanMake coins a k) :
    ∃ c j, c ∈ coins ∧ c ≤ a ∧ k = j + 1 ∧ CanMake coins (a - c) j := by
  obtain ⟨chosen, hin, hsum, hlen⟩ := h
  match chosen, hin, hsum, hlen with
  | [], _, hsum, _ => simp at hsum; omega
  | c :: rest, hin, hsum, hlen =>
    have hrest : ∀ x ∈ rest, x ∈ coins := fun x hx => hin x (by simp [hx])
    have h0 := sum_nonneg_of_pos coins rest hpos hrest
    simp only [List.sum_cons] at hsum
    refine ⟨c, rest.length, hin c (by simp), by omega, by simp at hlen; omega,
      ⟨rest, hrest, by omega, rfl⟩⟩

theorem getAt_natCast_eq (dp : List Int) (a : Nat) : Sorting.getAt dp (a : Int) = dp[a]? := by
  simp [Sorting.getAt]

theorem setAt_natCast (dp : List Int) (a : Nat) (v : Int) (h : a < dp.length) :
    setAt dp (a : Int) v = some (dp.set a v) := by
  unfold setAt
  rw [if_pos ⟨by omega, by omega⟩]
  simp

/-- The loop over the coins for the amount `i`: from an entry that is right for the coins
`done` it leaves the entry right for all coins, and no other entry changes. -/
theorem coinLoop_spec (coins : List Int) (hpos : ∀ c ∈ coins, 0 < c) (amount i : Nat)
    (hA : (amount : Int) + 2 < 2 ^ 63) (hi1 : 1 ≤ i) (hiA : i ≤ amount)
    (rest done : List Int) (hsplit : coins = done ++ rest) (dp : List Int) (cur : Int)
    (hlen : dp.length = amount + 1)
    (hlow : ∀ a, a < i → ∃ v, dp[a]? = some v ∧ Best coins amount a v)
    (hcur : dp[i]? = some cur) (hpart : EntryInv coins done amount i cur) :
    ∃ dp2 cur2, coinLoop (i : Int) rest dp = some dp2 ∧ dp2.length = amount + 1 ∧
      (∀ a, a ≠ i → dp2[a]? = dp[a]?) ∧ dp2[i]? = some cur2 ∧
      EntryInv coins coins amount i cur2 := by
  induction rest generalizing done dp cur with
  | nil =>
    rw [List.append_nil] at hsplit
    subst hsplit
    exact ⟨dp, cur, rfl, hlen, fun _ _ => rfl, hcur, hpart⟩
  | cons coin rest ih =>
    have hcoin : coin ∈ coins := by rw [hsplit]; simp
    have hcpos := hpos coin hcoin
    have hsplit2 : coins = (done ++ [coin]) ++ rest := by rw [hsplit]; simp
    unfold coinLoop
    by_cases hc : coin ≤ (i : Int)
    · rw [if_pos hc]
      obtain ⟨j, hj⟩ : ∃ j : Nat, (i : Int) - coin = (j : Int) := ⟨((i : Int) - coin).toNat, by omega⟩
      have hji : j < i := by omega
      obtain ⟨prev, hprev, hbest⟩ := hlow j hji
      have hsub : subInt (i : Int) coin = (j : Int) := by
        unfold subInt
        rw [hj]
        exact wrapInt_of_range (by omega) (by omega)
      have hprevb : 0 ≤ prev ∧ prev ≤ amount + 1 := by
        rcases hbest with ⟨h1, _⟩ | ⟨h1, h2, _, _⟩ <;> omega
      have hadd : Calculator.addInt prev 1 = prev + 1 := by
        unfold Calculator.addInt
        exact wrapInt_of_range (by omega) (by omega)
      rw [getAt_natCast_eq, hcur, hsub, getAt_natCast_eq, hprev]
      simp only []
      rw [setAt_natCast dp i _ (by omega), hadd]
      simp only []
      have hcurb : cur ≤ amount + 1 := by
        rcases hpart.1 with h | ⟨_, h, _⟩ <;> omega
      have hpart2 : EntryInv coins (done ++ [coin]) amount i (min cur (prev + 1)) := by
        unfold min
        constructor
        · by_cases hlt : cur < prev + 1
          · rw [if_pos hlt]
            exact hpart.1
          · rw [if_neg hlt]
            rcases hbest with ⟨h1, _⟩ | ⟨h1, h2, h3, _⟩
            · left
              omega
            · right
              refine ⟨by omega, by omega, ?_⟩
              have := canMake_cons coins coin i prev.toNat hcoin (by rw [hj]; exact h3)
              have e : (prev + 1).toNat = prev.toNat + 1 := by omega
              rw [e]
              exact this
        · intro c hcm hci k hk
          have hmin : (if cur < prev + 1 then cur else prev + 1) ≤ cur
              ∧ (if cur < prev + 1 then cur else prev + 1) ≤ prev + 1 := by
            by_cases hlt : cur < prev + 1
            · rw [if_pos hlt]; omega
            · rw [if_neg hlt]; omega
          rcases List.mem_append.1 hcm with h | h
          · have := hpart.2 c h hci k hk
            omega
          · have hcc : c = coin := by simpa using h
            subst hcc
            rw [hj] at hk
            rcases hbest with ⟨_, h2⟩ | ⟨_, _, _, h4⟩
            · exact absurd hk (h2 k)
            · have := h4 k hk
              omega
      obtain ⟨dp2, cur2, h1, h2, h3, h4, h5⟩ := ih (done ++ [coin]) hsplit2
        (dp.set i (min cur (prev + 1))) (min cur (prev + 1)) (by simp [hlen])
        (fun a ha => by
          rw [List.getElem?_set_ne (by omega)]
          exact hlow a ha)
        (by rw [List.getElem?_set]; simp [show i < dp.length by omega]) hpart2
      refine ⟨dp2, cur2, h1, h2, fun a ha => ?_, h4, h5⟩
      rw [h3 a ha, List.getElem?_set_ne (fun h => ha h.symm)]
    · rw [if_neg hc]
      refine ih (done ++ [coin]) hsplit2 dp cur hlen hlow hcur ⟨hpart.1, ?_⟩
      intro c hcm hci k hk
      rcases List.mem_append.1 hcm with h | h
      · exact hpart.2 c h hci k hk
      · have hcc : c = coin := by simpa using h
        subst hcc
        exact absurd hci hc

/-- An entry that is right for all coins is the entry of the table. -/
theorem best_of_entryInv (coins : List Int) (hpos : ∀ c ∈ coins, 0 < c) (amount i : Nat)
    (hi1 : 1 ≤ i) (hiA : i ≤ amount) (cur : Int) (h : EntryInv coins coins amount i cur) :
    Best coins amount i cur := by
  obtain ⟨h1, h2⟩ := h
  have hmin : ∀ k, CanMake coins i k → cur ≤ k := by
    intro k hk
    obtain ⟨c, j, hc, hci, hkj, hj⟩ := canMake_split coins hpos i (by omega) k hk
    have := h2 c hc hci j hj
    omega
  rcases h1 with h1 | ⟨h0, hle, hmake⟩
  · left
    refine ⟨h1, fun k hk => ?_⟩
    have := hmin k hk
    have := canMake_le coins hpos i k hk
    omega
  · right
    exact ⟨h0, hle, hmake, hmin⟩

/-- The loop over the amounts: it fills the table with the entries of all amounts. -/
theorem amountLoop_spec (coins : List Int) (hpos : ∀ c ∈ coins, 0 < c) (amount : Nat)
    (hA : (amount : Int) + 2 < 2 ^ 63) (fuel i : Nat) (hi1 : 1 ≤ i) (hiA : i ≤ amount + 1)
    (hf : amount + 1 - i < fuel) (dp : List Int) (hinv : TableInv coins amount i dp) :
    ∃ dp2, amountLoop coins (amount : Int) fuel (i : Int) dp = some dp2 ∧
      TableInv coins amount (amount + 1) dp2 := by
  induction fuel generalizing i dp with
  | zero => omega
  | succ fuel ih =>
    obtain ⟨hlen, hlow, hhigh⟩ := hinv
    unfold amountLoop
    by_cases hc : (i : Int) ≤ (amount : Int)
    · have hc2 : i ≤ amount := by exact_mod_cast hc
      rw [if_pos hc]
      obtain ⟨dp2, cur2, hloop, hlen2, hsame, hcur2, hpart2⟩ := coinLoop_spec coins hpos amount i
        hA hi1 hc2 coins [] rfl dp ((amount : Int) + 1) hlen
        (fun a ha => hlow a ha (by omega)) (hhigh i (Nat.le_refl _) hc2)
        ⟨Or.inl rfl, fun c hcm => by simp at hcm⟩
      rw [hloop]
      simp only []
      have e : Calculator.addInt (i : Int) 1 = ((i + 1 : Nat) : Int) := by
        unfold Calculator.addInt
        rw [wrapInt_of_range (by omega) (by omega)]
        push_cast
        rfl
      rw [e]
      refine ih (i + 1) (by omega) (by omega) (by omega) dp2 ⟨hlen2, ?_, ?_⟩
      · intro a ha haA
        by_cases hai : a = i
        · subst hai
          exact ⟨cur2, hcur2, best_of_entryInv coins hpos amount a hi1 hc2 cur2 hpart2⟩
        · rw [hsame a hai]
          exact hlow a (by omega) haA
      · intro a ha haA
        rw [hsame a (by omega)]
        exact hhigh a (by omega) haA
    · rw [if_neg hc]
      have : i = amount + 1 := by
        have : ¬ i ≤ amount := fun h => hc (by exact_mod_cast h)
        omega
      subst this
      exact ⟨dp, rfl, hlen, hlow, hhigh⟩

end RecursionDP
namespace RecursionDP

/-- C26 as amended: for every list `coins` of positive denominations and every
`amount >= 0` that is 0 or for which `make` returns the table of `amount + 1` ints, that
is `8 * (amount + 1)` bytes are within the limit `2 ^ 48` of the runtime on one allocation
and within the memory `avail` of the machine, `coinChange(coins, amount)` returns (with
fuel above `amount`) the minimum number of coins, each denomination usable any number of
times, whose values sum to `amount`, and `-1` exactly when no coins sum to `amount`. -/
theorem coinChange_min (avail : Int) (fuel : Nat) (coins : List Int) (amount : Int)
    (hpos : ∀ c ∈ coins, 0 < c) (h0 : 0 ≤ amount)
    (hmax : amount ≠ 0 → 8 * (amount + 1) ≤ 2 ^ 48)
    (havail : amount ≠ 0 → 8 * (amount + 1) ≤ avail) (hf : amount + 1 ≤ fuel) :
    ∃ r, coinChange avail fuel coins amount = some r ∧
      ((r = -1 ∧ ∀ k, ¬ CanMake coins amount k) ∨
        (0 ≤ r ∧ CanMake coins amount r.toNat ∧ ∀ k, CanMake coins amount k → r ≤ k)) := by
  obtain ⟨A, hAeq⟩ : ∃ A : Nat, amount = (A : Int) := ⟨amount.toNat, by omega⟩
  subst hAeq
  unfold coinChange
  by_cases hz : (A : Int) = 0
  · rw [if_pos hz]
    refine ⟨0, rfl, Or.inr ⟨by omega, ?_, fun k _ => by omega⟩⟩
    rw [hz]
    exact canMake_zero coins
  · rw [if_neg hz]
    have hmax2 := hmax hz
    have havail2 := havail hz
    have hA : (A : Int) + 2 < 2 ^ 63 := by omega
    have e : Calculator.addInt (A : Int) 1 = ((A + 1 : Nat) : Int) := by
      unfold Calculator.addInt
      rw [wrapInt_of_range (by omega) (by omega)]
      push_cast
      rfl
    have hmk : makeReturns avail 8 ((A + 1 : Nat) : Int) = true := by
      unfold makeReturns maxAlloc
      exact decide_eq_true ⟨by omega, by push_cast; omega, by push_cast; omega⟩
    simp only [e]
    rw [if_pos hmk, Int.toNat_ofNat]
    have hset := setAt_natCast (List.replicate (A + 1) ((A + 1 : Nat) : Int)) 0 0 (by simp)
    rw [Nat.cast_zero] at hset
    rw [hset]
    simp only []
    have hinv : TableInv coins A 1 ((List.replicate (A + 1) ((A + 1 : Nat) : Int)).set 0 0) := by
      refine ⟨by simp, ?_, ?_⟩
      · intro a ha _
        have ha0 : a = 0 := by omega
        subst ha0
        refine ⟨0, by simp, Or.inr ⟨by omega, by simp, ?_, fun k _ => by omega⟩⟩
        simpa using canMake_zero coins
      · intro a ha haA
        rw [List.getElem?_set_ne (by omega), List.getElem?_replicate, if_pos (by omega)]
        push_cast
        rfl
    obtain ⟨dp, hloop, hlen, hlow, _⟩ := amountLoop_spec coins hpos A hA fuel 1 (by omega)
      (by omega) (by omega) _ hinv
    rw [Nat.cast_one] at hloop
    rw [hloop]
    simp only []
    obtain ⟨v, hv, hbest⟩ := hlow A (by omega) (Nat.le_refl _)
    rw [getAt_natCast_eq, hv]
    simp only []
    rcases hbest with ⟨h1, h2⟩ | ⟨h1, h2, h3, h4⟩
    · exact ⟨-1, by rw [if_pos (by omega)], Or.inl ⟨rfl, h2⟩⟩
    · exact ⟨v, by rw [if_neg (by omega)], Or.inr ⟨h1, h3, h4⟩⟩

set_option maxRecDepth 100000 in
/-- Witness of C26 as amended on the call of `main` (lines 337-341),
`coinChange([1, 2, 5], 11) = 3` with a table of 96 bytes, with the amount 0 and an amount
that cannot be made. -/
theorem coinChange_min_witness :
    (∃ r, coinChange 96 12 [1, 2, 5] 11 = some r ∧
      ((r = -1 ∧ ∀ k, ¬ CanMake [1, 2, 5] 11 k) ∨
        (0 ≤ r ∧ CanMake [1, 2, 5] 11 r.toNat ∧ ∀ k, CanMake [1, 2, 5] 11 k → r ≤ k))) ∧
    coinChange 96 12 [1, 2, 5] 11 = some 3 ∧ coinChange 0 0 [1, 2, 5] 0 = some 0 ∧
    coinChange 32 4 [2] 3 = some (-1) ∧ coinChange 95 12 [1, 2, 5] 11 = none :=
  ⟨coinChange_min 96 12 [1, 2, 5] 11 (by decide) (by decide) (fun _ => by decide)
      (fun _ => by decide) (by decide),
    by decide, by decide, by decide, by decide⟩

/-- C26 fails at `amount = 35184372088832 = 2 ^ 45` with one coin of denomination 1: the
table of `amount + 1` ints takes `2 ^ 48 + 8` bytes, beyond the limit of the runtime on
one allocation, so `make` panics and the call returns nothing, whatever the memory of the
machine and the fuel, where the claim gives `35184372088832` coins.  At the largest `int`
the length `amount + 1` wraps around to a negative number and `make` panics as well. -/
theorem coinChange_table_out_of_range :
    (¬ ∃ (avail : Int) (fuel : Nat),
      (coinChange avail fuel [1] 35184372088832).isSome = true) ∧
    (¬ ∃ (avail : Int) (fuel : Nat),
      (coinChange avail fuel [1] 9223372036854775807).isSome = true) := by
  constructor
  · rintro ⟨avail, fuel, h⟩
    have e : Calculator.addInt 35184372088832 1 = 35184372088833 := by decide
    have hm : makeReturns avail 8 35184372088833 = false := by
      unfold makeReturns maxAlloc
      exact decide_eq_false (by omega)
    simp [coinChange, e, hm] at h
  · rintro ⟨avail, fuel, h⟩
    have e : Calculator.addInt 9223372036854775807 1 = -9223372036854775808 := by decide
    have hm : makeReturns avail 8 (-9223372036854775808) = false := by
      unfold makeReturns
      exact decide_eq_false (by omega)
    simp [coinChange, e, hm] at h

end RecursionDP

namespace Benchmarks

theorem getElem?_at_length {α : Type} (pre : List α) (a : α) (rest : List α) :
    (pre ++ a :: rest)[pre.length]? = some a := by
  induction pre with
  | nil => simp
  | cons x xs ih => simpa using ih

theorem set_at_length {α : Type} (pre : List α) (a b : α) (rest : List α) :
    (pre ++ a :: rest).set pre.length b = pre ++ b :: rest := by
  induction pre with
  | nil => rfl
  | cons x xs ih => simp [ih]

/-- A list of length at least two is its first element, a middle and its last element. -/
theorem ends_of_length_ge_two {α : Type} (mid : List α) (h : 2 ≤ mid.length) :
    ∃ a m b, mid = a :: (m ++ [b]) := by
  match mid, h with
  | a :: rest, h =>
    have hne : rest ≠ [] := by
      intro h0
      subst h0
      simp at h
    refine ⟨a, rest.dropLast, rest.getLast hne, ?_⟩
    rw [List.dropLast_append_getLast hne]

/-- The loop of `IsPalindromeSlow` between the indices that bound `mid` reverses `mid` and
leaves the rest of the slice as it is. -/
theorem reverseLoop_spec (n : Nat) :
    ∀ (mid pre post : List Nat) (fuel : Nat), mid.length = n → n + 1 ≤ fuel →
      reverseLoop fuel (pre ++ mid ++ post) (pre.length : Int)
          ((pre.length : Int) + (mid.length : Int) - 1)
        = some (pre ++ mid.reverse ++ post) := by
  induction n using Nat.strong_induction_on with
  | _ n ih =>
    intro mid pre post fuel hn hf
    match fuel, hf with
    | fuel + 1, hf =>
      unfold reverseLoop
      by_cases h2 : 2 ≤ mid.length
      · obtain ⟨a, m, b, hmid⟩ := ends_of_length_ge_two mid h2
        subst hmid
        have hlt : (pre.length : Int)
            < (pre.length : Int) + ((a :: (m ++ [b])).length : Int) - 1 := by
          simp
          omega
        rw [if_pos hlt]
        have ej : (pre.length : Int) + ((a :: (m ++ [b])).length : Int) - 1
            = ((pre ++ a :: m).length : Nat) := by
          simp
          omega
        have el : pre ++ a :: (m ++ [b]) ++ post = (pre ++ a :: m) ++ b :: post := by simp
        have hi : runeAt (pre ++ a :: (m ++ [b]) ++ post) (pre.length : Int) = some a := by
          unfold runeAt
          rw [if_pos (by omega), Int.toNat_ofNat, List.append_assoc]
          exact getElem?_at_length pre a _
        have hj : runeAt (pre ++ a :: (m ++ [b]) ++ post) ((pre ++ a :: m).length : Nat)
            = some b := by
          unfold runeAt
          rw [if_pos (by omega), Int.toNat_ofNat, el]
          exact getElem?_at_length _ b post
        rw [ej, hi, hj]
        simp only [Int.toNat_ofNat]
        have eset : ((pre ++ a :: (m ++ [b]) ++ post).set pre.length b).set
            (pre ++ a :: m).length a = (pre ++ [b]) ++ m ++ (a :: post) := by
          have e0 : pre ++ a :: (m ++ [b]) ++ post = pre ++ a :: (m ++ b :: post) := by simp
          rw [e0, set_at_length]
          have : pre ++ b :: (m ++ b :: post) = (pre ++ b :: m) ++ b :: post := by simp
          rw [this]
          have e2 : (pre ++ a :: m).length = (pre ++ b :: m).length := by simp
          rw [e2, set_at_length]
          simp
        rw [eset]
        have := ih m.length (by simp at hn; omega) m (pre ++ [b]) (a :: post) fuel rfl
          (by simp at hn; omega)
        have e3 : ((pre ++ [b]).length : Int) = (pre.length : Int) + 1 := by simp
        have e4 : (((pre ++ a :: m).length : Nat) : Int) - 1
            = ((pre ++ [b]).length : Int) + (m.length : Int) - 1 := by
          simp
          omega
        rw [← e3, e4, this]
        simp
      · have hge : ¬ ((pre.length : Int) < (pre.length : Int) + (mid.length : Int) - 1) := by
          omega
        rw [if_neg hge]
        match mid, h2 with
        | [], _ => simp
        | [x], _ => simp
        | _ :: _ :: _, h2 => simp at h2

/-- The loop of `IsPalindromeFast` between the indices that bound `mid` returns whether
`mid` is its own reverse. -/
theorem compareLoop_spec (n : Nat) :
    ∀ (mid pre post : List Nat) (fuel : Nat), mid.length = n → n + 1 ≤ fuel →
      compareLoop (pre ++ mid ++ post) fuel (pre.length : Int)
          ((pre.length : Int) + (mid.length : Int) - 1)
        = some (decide (mid = mid.reverse)) := by
  induction n using Nat.strong_induction_on with
  | _ n ih =>
    intro mid pre post fuel hn hf
    match fuel, hf with
    | fuel + 1, hf =>
      unfold compareLoop
      by_cases h2 : 2 ≤ mid.length
      · obtain ⟨a, m, b, hmid⟩ := ends_of_length_ge_two mid h2
        subst hmid
        have hlt : (pre.length : Int)
            < (pre.length : Int) + ((a :: (m ++ [b])).length : Int) - 1 := by
          simp
          omega
        rw [if_pos hlt]
        have ej : (pre.length : Int) + ((a :: (m ++ [b])).length : Int) - 1
            = ((pre ++ a :: m).length : Nat) := by
          simp
          omega
        have el : pre ++ a :: (m ++ [b]) ++ post = (pre ++ a :: m) ++ b :: post := by simp
        have hi : runeAt (pre ++ a :: (m ++ [b]) ++ post) (pre.length : Int) = some a := by
          unfold runeAt
          rw [if_pos (by omega), Int.toNat_ofNat, List.append_assoc]
          exact getElem?_at_length pre a _
        have hj : runeAt (pre ++ a :: (m ++ [b]) ++ post) ((pre ++ a :: m).length : Nat)
            = some b := by
          unfold runeAt
          rw [if_pos (by omega), Int.toNat_ofNat, el]
          exact getElem?_at_length _ b post
        rw [ej, hi, hj]
        simp only []
        by_cases hab : a = b
        · subst hab
          rw [if_neg (by simp)]
          have := ih m.length (by simp at hn; omega) m (pre ++ [a]) (a :: post) fuel rfl
            (by simp at hn; omega)
          have e3 : ((pre ++ [a]).length : Int) = (pre.length : Int) + 1 := by simp
          have e4 : (((pre ++ a :: m).length : Nat) : Int) - 1
              = ((pre ++ [a]).length : Int) + (m.length : Int) - 1 := by
            simp
            omega
          have e5 : pre ++ a :: (m ++ [a]) ++ post = pre ++ [a] ++ m ++ a :: post := by simp
          rw [← e3, e4, e5, this]
          congr 1
          rw [decide_eq_decide]
          simp
        · rw [if_pos hab]
          congr 1
          symm
          rw [decide_eq_false_iff_not]
          intro h
          simp at h
          exact hab h.1
      · have hge : ¬ ((pre.length : Int) < (pre.length : Int) + (mid.length : Int) - 1) := by
          omega
        rw [if_neg hge]
        match mid, h2 with
        | [], _ => simp
        | [x], _ => simp
        | _ :: _ :: _, h2 => simp at h2

/-- For every string `s`: `IsPalindromeFast(s)` returns whether the runes of `s` read the
same in both directions, and `IsPalindromeSlow(s)` returns whether the reversed runes,
converted back to a string, are the bytes of `s`. -/
theorem palindrome_loops (s : List (Fin 256)) :
    IsPalindromeFast s = some (decide (runesOf s = (runesOf s).reverse)) ∧
    IsPalindromeSlow s = some (decide (stringOf (runesOf s).reverse = s)) := by
  constructor
  · have := compareLoop_spec (runesOf s).length (runesOf s) [] [] ((runesOf s).length + 1) rfl
      (Nat.le_refl _)
    simpa [IsPalindromeFast] using this
  · have := reverseLoop_spec (runesOf s).length (runesOf s) [] [] ((runesOf s).length + 1) rfl
      (Nat.le_refl _)
    simp only [List.nil_append, List.append_nil, List.length_nil, Nat.cast_zero,
      Int.zero_add] at this
    simp [IsPalindromeSlow, this]

/-- C25 fails on the one-byte string `"\xff"`, which is not valid UTF-8: its runes are the
single rune `0xFFFD`, so `IsPalindromeFast` returns true, as for every one-rune string;
`IsPalindromeSlow` converts that rune back to the three bytes `"\xef\xbf\xbd"`, which are
not the bytes of the string, and returns false. -/
theorem isPalindromeSlow_invalid_utf8 :
    IsPalindromeSlow [0xff] = some false ∧ IsPalindromeFast [0xff] = some true ∧
    runesOf [0xff] = [0xFFFD] ∧ stringOf [0xFFFD] = [0xEF, 0xBF, 0xBD] := by
  decide

/-- The call of `main` (lines 286-293) on the cleaned text, and a text that is no
palindrome. -/
theorem palindrome_examples :
    IsPalindromeSlow (ascii "amanaplanacanalpanama") = some true ∧
    IsPalindromeFast (ascii "amanaplanacanalpanama") = some true ∧
    IsPalindromeSlow (ascii "abca") = some false ∧
    IsPalindromeFast (ascii "abca") = some false ∧
    IsPalindromeSlow [0xc3, 0xa9, 0x41, 0xc3, 0xa9] = some true ∧
    IsPalindromeFast [0xc3, 0xa9, 0x41, 0xc3, 0xa9] = some true ∧
    IsPalindromeSlow [] = some true ∧ IsPalindromeFast [] = some true := by
  decide

end Benchmarks
namespace Benchmarks

theorem byte_inj (u v : Nat) (hu : u < 256) (hv : v < 256) (h : byte u = byte v) : u = v := by
  unfold byte at h
  have := Fin.mk.inj h
  omega

theorem isCont_iff (b : Fin 256) : isCont b = true ↔ 0x80 ≤ b.val ∧ b.val ≤ 0xBF := by
  simp [isCont]

/-- Every rune that `[]rune(s)` decodes is a Unicode scalar value. -/
theorem decoderune_scalar (s : List (Fin 256)) : IsScalar (decoderune s).1 := by
  have hfffd : IsScalar 0xFFFD := by unfold IsScalar; omega
  unfold decoderune
  split
  · exact hfffd
  · next b0 rest =>
    have h0 := b0.isLt
    split
    · unfold IsScalar
      simp only []
      omega
    · split
      · split
        · next b1 _ =>
          have h1 := b1.isLt
          split
          · simp only []
            split
            · unfold IsScalar
              simp only []
              omega
            · exact hfffd
          · exact hfffd
        · exact hfffd
      · split
        · split
          · next b1 b2 _ =>
            have h1 := b1.isLt
            have h2 := b2.isLt
            split
            · simp only []
              split
              · next hr =>
                unfold IsScalar
                simp only []
                omega
              · exact hfffd
            · exact hfffd
          · exact hfffd
        · split
          · split
            · next b1 b2 b3 _ =>
              split
              · simp only []
                split
                · next hr =>
                  unfold IsScalar
                  simp only []
                  omega
                · exact hfffd
              · exact hfffd
            · exact hfffd
          · exact hfffd

theorem toRunes_scalar (fuel : Nat) (s : List (Fin 256)) :
    ∀ r ∈ toRunes fuel s, IsScalar r := by
  induction fuel generalizing s with
  | zero => simp [toRunes]
  | succ fuel ih =>
    match s with
    | [] => simp [toRunes]
    | b0 :: rest =>
      intro r hr
      simp only [toRunes, List.mem_cons] at hr
      rcases hr with h | h
      · rw [h]
        exact decoderune_scalar _
      · exact ih _ r h

theorem encoderune_ne_nil (r : Nat) : encoderune r ≠ [] := by
  unfold encoderune
  split_ifs <;> simp

/-- The UTF-8 encoding of the scalar values is prefix-free. -/
theorem encoderune_cancel (a b : Nat) (ha : IsScalar a) (hb : IsScalar b)
    (x y : List (Fin 256)) (h : encoderune a ++ x = encoderune b ++ y) : a = b ∧ x = y := by
  have key : a = b := by
    unfold IsScalar at ha hb
    unfold encoderune at h
    split_ifs at h <;>
      simp only [List.cons_append, List.nil_append, List.cons.injEq] at h <;>
      first
      | omega
      | (have h1 := byte_inj _ _ (by omega) (by omega) h.1
         omega)
      | (have h1 := byte_inj _ _ (by omega) (by omega) h.1
         have h2 := byte_inj _ _ (by omega) (by omega) h.2.1
         omega)
      | (have h1 := byte_inj _ _ (by omega) (by omega) h.1
         have h2 := byte_inj _ _ (by omega) (by omega) h.2.1
         have h3 := byte_inj _ _ (by omega) (by omega) h.2.2.1
         omega)
      | (have h1 := byte_inj _ _ (by omega) (by omega) h.1
         have h2 := byte_inj _ _ (by omega) (by omega) h.2.1
         have h3 := byte_inj _ _ (by omega) (by omega) h.2.2.1
         have h4 := byte_inj _ _ (by omega) (by omega) h.2.2.2.1
         omega)
  subst key
  exact ⟨rfl, List.append_cancel_left h⟩

/-- The conversion `string(runes)` is injective on slices of scalar values. -/
theorem stringOf_injective (l1 l2 : List Nat) (h1 : ∀ r ∈ l1, IsScalar r)
    (h2 : ∀ r ∈ l2, IsScalar r) (h : stringOf l1 = stringOf l2) : l1 = l2 := by
  induction l1 generalizing l2 with
  | nil =>
    match l2 with
    | [] => rfl
    | b :: rest =>
      simp only [stringOf, List.map_nil, List.flatten_nil, List.map_cons, List.flatten_cons] at h
      have := encoderune_ne_nil b
      cases hb : encoderune b with
      | nil => exact absurd hb this
      | cons _ _ => rw [hb] at h; simp at h
  | cons a rest ih =>
    match l2 with
    | [] =>
      simp only [stringOf, List.map_nil, List.flatten_nil, List.map_cons, List.flatten_cons] at h
      have := encoderune_ne_nil a
      cases ha : encoderune a with
      | nil => exact absurd ha this
      | cons _ _ => rw [ha] at h; simp at h
    | b :: rest2 =>
      simp only [stringOf, List.map_cons, List.flatten_cons] at h
      obtain ⟨hab, hrest⟩ := encoderune_cancel a b (h1 a (by simp)) (h2 b (by simp)) _ _ h
      subst hab
      rw [ih rest2 (fun r hr => h1 r (by simp [hr])) (fun r hr => h2 r (by simp [hr])) hrest]

/-- On valid UTF-8 the claim of C25 holds: for every string `s` that the conversion to
runes and back leaves unchanged, `IsPalindromeSlow(s)` and `IsPalindromeFast(s)` return the
same value, true exactly when the runes of `s` read the same in both directions. -/
theorem palindrome_agree_valid (s : List (Fin 256)) (hv : stringOf (runesOf s) = s) :
    IsPalindromeSlow s = IsPalindromeFast s ∧
    (IsPalindromeFast s = some true ↔ runesOf s = (runesOf s).reverse) := by
  obtain ⟨hfast, hslow⟩ := palindrome_loops s
  have hsc : ∀ r ∈ runesOf s, IsScalar r := toRunes_scalar _ s
  have hiff : stringOf (runesOf s).reverse = s ↔ runesOf s = (runesOf s).reverse := by
    constructor
    · intro h
      have := stringOf_injective _ _ (fun r hr => hsc r (List.mem_reverse.1 hr)) hsc
        (h.trans hv.symm)
      exact this.symm
    · intro h
      rw [← h, hv]
  refine ⟨?_, ?_⟩
  · rw [hfast, hslow, decide_eq_decide.2 hiff]
  · rw [hfast]
    simp

/-- Witness of `palindrome_agree_valid` on the bytes of "é" followed by "Aé". -/
theorem palindrome_agree_valid_witness :
    IsPalindromeSlow [0xc3, 0xa9, 0x41, 0xc3, 0xa9] = IsPalindromeFast [0xc3, 0xa9, 0x41, 0xc3, 0xa9] ∧
    (IsPalindromeFast [0xc3, 0xa9, 0x41, 0xc3, 0xa9] = some true ↔
      runesOf [0xc3, 0xa9, 0x41, 0xc3, 0xa9] = (runesOf [0xc3, 0xa9, 0x41, 0xc3, 0xa9]).reverse) :=
  palindrome_agree_valid [0xc3, 0xa9, 0x41, 0xc3, 0xa9] (by decide)

end Benchmarks

namespace TreesGraphs

theorem mem_allNeighbours (g : Graph) (u w : Int) (h : Adj g u w) : w ∈ allNeighbours g := by
  unfold Adj at h
  unfold allNeighbours
  generalize g.AdjList = m at h
  induction m with
  | nil => simp [lookup] at h
  | cons kv rest ih =>
    obtain ⟨k, v⟩ := kv
    simp only [lookup] at h
    simp only [List.map_cons, List.flatten_cons, List.mem_append]
    by_cases hk : k = u
    · rw [if_pos hk] at h
      exact Or.inl h
    · rw [if_neg hk] at h
      exact Or.inr (ih h)

theorem scan_cons_unvisited (finish u w : Int) (rest : List Int) (st : BfsState)
    (h : st.visited w = false) :
    scan finish u (w :: rest) st
      = if w = finish then visit finish u w st else scan finish u rest (visit finish u w st) := by
  simp only [scan, h, if_true, visit]
  by_cases hw : w = finish
  · simp [hw]
  · simp [hw]

theorem scan_cons_visited (finish u w : Int) (rest : List Int) (st : BfsState)
    (h : st.visited w = true) :
    scan finish u (w :: rest) st = scan finish u rest st := by
  simp [scan, h]

/-- Visiting a vertex lowers the number of unvisited entries by one. -/
theorem unvisited_visit (g : Graph) (finish u w : Int) (st : BfsState)
    (hw : st.visited w = false) (hadj : Adj g u w) :
    unvisited g (visit finish u w st) + 1 = unvisited g st := by
  unfold unvisited
  have hmem : w ∈ (allNeighbours g).toFinset.filter (fun v => st.visited v = false) := by
    simp [mem_allNeighbours g u w hadj, hw]
  have heq : (allNeighbours g).toFinset.filter (fun v => (visit finish u w st).visited v = false)
      = ((allNeighbours g).toFinset.filter (fun v => st.visited v = false)).erase w := by
    ext v
    simp only [visit, Finset.mem_filter, Finset.mem_erase, List.mem_toFinset]
    by_cases hv : v = w
    · subst hv
      simp
    · simp [Function.update_noteq hv, hv]
  rw [heq, Finset.card_erase_of_mem hmem]
  have := Finset.card_pos.2 ⟨w, hmem⟩
  omega

/-- Visiting an unvisited neighbour of `u` keeps the invariant, with the neighbour one edge
further than `u`. -/
theorem scanInv_visit (g : Graph) (start finish u : Int) (C : Nat) (d : Int → Nat)
    (st : BfsState) (hneg : ∀ v w, Adj g v w → w ≠ -1) (w : Int) (hw : st.visited w = false)
    (hadj : Adj g u w) (h : ScanInv g start finish u C d st) :
    ScanInv g start finish u C (Function.update d w (d u + 1)) (visit finish u w st) := by
  have hvis : ∀ v, st.visited v = true → v ≠ w := fun v hv e => by
    rw [e, hw] at hv
    exact absurd hv (by simp)
  have hwu : u ≠ w := hvis u h.u_vis
  have hws : start ≠ w := hvis start h.start_vis
  have hun := unvisited_visit g finish u w st hw hadj
  have hvw : (visit finish u w st).visited w = true := by simp [visit]
  have hpw : (visit finish u w st).parent w = u := by simp [visit]
  have hdw : Function.update d w (d u + 1) w = d u + 1 := by simp
  have hvo : ∀ v, v ≠ w → (visit finish u w st).visited v = st.visited v := fun v hv => by
    simp [visit, Function.update_noteq hv]
  have hpo : ∀ v, v ≠ w → (visit finish u w st).parent v = st.parent v := fun v hv => by
    simp [visit, Function.update_noteq hv]
  have hdo : ∀ v, v ≠ w → Function.update d w (d u + 1) v = d v := fun v hv => by
    simp [Function.update_noteq hv]
  have hq : (visit finish u w st).queue = st.queue ++ [w] := rfl
  have hf : (visit finish u w st).found = if w = finish then true else st.found := rfl
  have hvis2 : ∀ v, (visit finish u w st).visited v = true → v = w ∨ st.visited v = true := by
    intro v hv
    by_cases e : v = w
    · exact Or.inl e
    · right
      rw [hvo v e] at hv
      exact hv
  generalize Function.update d w (d u + 1) = d2 at hdw hdo ⊢
  generalize visit finish u w st = st2 at hun hvw hpw hvo hpo hq hf hvis2 ⊢
  refine
    { start_vis := by rw [hvo _ hws]; exact h.start_vis
      start_d := by rw [hdo _ hws]; exact h.start_d
      start_parent := by rw [hpo _ hws]; exact h.start_parent
      no_neg := by
        have : (-1 : Int) ≠ w := fun e => hneg u w hadj e.symm
        rw [hvo _ this]
        exact h.no_neg
      par := ?_
      queue_vis := ?_
      queue_lo := ?_
      all_hi := ?_
      sorted := ?_
      u_vis := by rw [hvo _ hwu]; exact h.u_vis
      proc := ?_
      found_iff := ?_
      budget := ?_ }
  · intro v hv hvs
    rcases hvis2 v hv with e | hold
    · subst e
      rw [hpw, hvo _ hwu, hdw, hdo _ hwu]
      exact ⟨h.u_vis, hadj, rfl⟩
    · have hvw2 := hvis v hold
      obtain ⟨h1, h2, h3⟩ := h.par v hold hvs
      rw [hpo _ hvw2, hvo _ (hvis _ h1), hdo _ hvw2, hdo _ (hvis _ h1)]
      exact ⟨h1, h2, h3⟩
  · intro v hv
    rw [hq, List.mem_append, List.mem_singleton] at hv
    rcases hv with hv | hv
    · have := h.queue_vis v hv
      rw [hvo _ (hvis v this)]
      exact this
    · rw [hv]
      exact hvw
  · intro v hv
    rw [hq, List.mem_append, List.mem_singleton] at hv
    rw [hdo _ hwu]
    rcases hv with hv | hv
    · rw [hdo _ (hvis v (h.queue_vis v hv))]
      exact h.queue_lo v hv
    · rw [hv, hdw]
      omega
  · intro v hv
    rw [hdo _ hwu]
    rcases hvis2 v hv with e | hold
    · rw [e, hdw]
    · rw [hdo _ (hvis v hold)]
      exact h.all_hi v hold
  · rw [hq, List.pairwise_append]
    refine ⟨?_, List.pairwise_singleton _ _, ?_⟩
    · refine h.sorted.imp_of_mem ?_
      intro a b ha hb hab
      rw [hdo _ (hvis a (h.queue_vis a ha)), hdo _ (hvis b (h.queue_vis b hb))]
      exact hab
    · intro a ha b hb
      rw [List.mem_singleton] at hb
      have hav := h.queue_vis a ha
      rw [hb, hdo _ (hvis a hav), hdw]
      exact h.all_hi a hav
  · intro v hv hvq hvu x hx
    rw [hq, List.mem_append, List.mem_singleton, not_or] at hvq
    rcases hvis2 v hv with e | hold
    · exact absurd e hvq.2
    · obtain ⟨h1, h2⟩ := h.proc v hold hvq.1 hvu x hx
      rw [hvo _ (hvis x h1), hdo _ (hvis x h1), hdo _ (hvis v hold)]
      exact ⟨h1, h2⟩
  · rw [hf]
    by_cases hwf : w = finish
    · rw [if_pos hwf, ← hwf, hvw]
    · have : finish ≠ w := fun e => hwf e.symm
      rw [if_neg hwf, hvo _ this]
      exact h.found_iff
  · intro v hv
    rcases hvis2 v hv with e | hold
    · have := h.budget u h.u_vis
      rw [e, hdw]
      omega
    · have := h.budget v hold
      rw [hdo _ (hvis v hold)]
      omega

end TreesGraphs
namespace TreesGraphs

theorem visit_visited_mono (finish u w : Int) (st : BfsState) (x : Int)
    (h : st.visited x = true) : (visit finish u w st).visited x = true := by
  by_cases e : x = w
  · subst e
    simp [visit]
  · simp [visit, Function.update_noteq e, h]

/-- The loop over the neighbours of `u` keeps the invariant, visits every neighbour unless
it finds `finish`, and moves every vertex it visits from the unvisited entries to the
queue. -/
theorem scan_spec (g : Graph) (start finish u : Int) (C : Nat)
    (hneg : ∀ v w, Adj g v w → w ≠ -1) (rest : List Int) :
    ∀ (st : BfsState) (d : Int → Nat), ScanInv g start finish u C d st → st.found = false →
      (∀ w ∈ rest, Adj g u w) →
      ∃ d2, ScanInv g start finish u C d2 (scan finish u rest st) ∧
        (∀ x, st.visited x = true → (scan finish u rest st).visited x = true) ∧
        ((scan finish u rest st).found = true ∨
          ∀ w ∈ rest, (scan finish u rest st).visited w = true) ∧
        unvisited g (scan finish u rest st) + (scan finish u rest st).queue.length
          = unvisited g st + st.queue.length := by
  induction rest with
  | nil =>
    intro st d h _ _
    exact ⟨d, h, fun _ hx => hx, Or.inr (fun w hw => by simp at hw), rfl⟩
  | cons w rest ih =>
    intro st d h hnf hadj
    have hw := hadj w (by simp)
    have hrest : ∀ x ∈ rest, Adj g u x := fun x hx => hadj x (by simp [hx])
    cases hv : st.visited w with
    | true =>
      rw [scan_cons_visited finish u w rest st hv]
      obtain ⟨d2, h2, hmono, hdone, hmeas⟩ := ih st d h hnf hrest
      refine ⟨d2, h2, hmono, hdone.imp id (fun hall x hx => ?_), hmeas⟩
      rcases List.mem_cons.1 hx with e | e
      · rw [e]
        exact hmono w hv
      · exact hall x e
    | false =>
      rw [scan_cons_unvisited finish u w rest st hv]
      have hinv := scanInv_visit g start finish u C d st hneg w hv hw h
      have hun := unvisited_visit g finish u w st hv hw
      have hql : (visit finish u w st).queue.length = st.queue.length + 1 := by simp [visit]
      by_cases hwf : w = finish
      · rw [if_pos hwf]
        refine ⟨_, hinv, fun x hx => visit_visited_mono finish u w st x hx,
          Or.inl (by simp [visit, hwf]), by omega⟩
      · rw [if_neg hwf]
        have hnf2 : (visit finish u w st).found = false := by simp [visit, hwf, hnf]
        obtain ⟨d2, h2, hmono, hdone, hmeas⟩ := ih _ _ hinv hnf2 hrest
        refine ⟨d2, h2, fun x hx => hmono x (visit_visited_mono finish u w st x hx),
          hdone.imp id (fun hall x hx => ?_), by omega⟩
        rcases List.mem_cons.1 hx with e | e
        · rw [e]
          exact hmono w (by simp [visit])
        · exact hall x e

/-- Taking the first vertex `v` off the queue starts the visit of its neighbours. -/
theorem scanInv_pop (g : Graph) (start finish u : Int) (C : Nat) (d : Int → Nat)
    (st : BfsState) (v : Int) (rest : List Int) (hq : st.queue = v :: rest)
    (h : ScanInv g start finish u C d st)
    (hu : u ∈ st.queue ∨ ∀ w, Adj g u w → st.visited w = true) :
    ScanInv g start finish v C d { st with queue := rest } := by
  have hvq : v ∈ st.queue := by rw [hq]; simp
  have hsub : ∀ x ∈ rest, x ∈ st.queue := fun x hx => by rw [hq]; simp [hx]
  have huv : d u ≤ d v := h.queue_lo v hvq
  have hsorted := h.sorted
  rw [hq, List.pairwise_cons] at hsorted
  refine
    { start_vis := h.start_vis
      start_d := h.start_d
      start_parent := h.start_parent
      no_neg := h.no_neg
      par := h.par
      queue_vis := fun x hx => h.queue_vis x (hsub x hx)
      queue_lo := fun x hx => hsorted.1 x hx
      all_hi := fun x hx => by
        have := h.all_hi x hx
        omega
      sorted := hsorted.2
      u_vis := h.queue_vis v hvq
      proc := ?_
      found_iff := h.found_iff
      budget := h.budget }
  intro x hx hxr hxv w hw
  have hxq : x ∉ st.queue := by
    rw [hq]
    simp only [List.mem_cons, not_or]
    exact ⟨hxv, hxr⟩
  by_cases hxu : x = u
  · subst hxu
    rcases hu with hu | hu
    · exact absurd hu hxq
    · have hwv := hu w hw
      exact ⟨hwv, h.all_hi w hwv⟩
  · exact h.proc x hx hxq hxu w hw

/-- The search loop returns once the fuel exceeds the number of unvisited entries plus
the length of the queue; it ends with `finish` found or with the queue empty and the
neighbours of all visited vertices visited. -/
theorem bfsLoop_spec (g : Graph) (start finish : Int) (C : Nat)
    (hneg : ∀ v w, Adj g v w → w ≠ -1) (fuel : Nat) :
    ∀ (st : BfsState) (d : Int → Nat) (u : Int), ScanInv g start finish u C d st →
      (st.found = true ∨ u ∈ st.queue ∨ ∀ w, Adj g u w → st.visited w = true) →
      unvisited g st + st.queue.length < fuel →
      ∃ st2 d2 u2, bfsLoop g finish fuel st = some st2 ∧ ScanInv g start finish u2 C d2 st2 ∧
        (st2.found = true ∨ (st2.queue = [] ∧ ∀ w, Adj g u2 w → st2.visited w = true)) := by
  induction fuel with
  | zero => intro st d u _ _ hf; omega
  | succ fuel ih =>
    intro st d u h hu hf
    unfold bfsLoop
    cases hq : st.queue with
    | nil =>
      simp only []
      by_cases hfound : st.found = true
      · exact ⟨st, d, u, rfl, h, Or.inl hfound⟩
      · refine ⟨st, d, u, rfl, h, Or.inr ⟨hq, ?_⟩⟩
        rcases hu with hu | hu | hu
        · exact absurd hu hfound
        · rw [hq] at hu
          simp at hu
        · exact hu
    | cons v rest =>
      simp only []
      by_cases hfound : st.found = true
      · rw [if_neg (by simp [hfound])]
        exact ⟨st, d, u, rfl, h, Or.inl hfound⟩
      · have hnf : st.found = false := by simpa using hfound
        rw [if_pos hnf]
        have hu2 : u ∈ st.queue ∨ ∀ w, Adj g u w → st.visited w = true := by
          rcases hu with hu | hu
          · exact absurd hu hfound
          · exact hu
        have hpop := scanInv_pop g start finish u C d st v rest hq h hu2
        obtain ⟨d2, h2, hmono, hdone, hmeas⟩ := scan_spec g start finish v C hneg
          (lookup g.AdjList v) { st with queue := rest } d hpop hnf (fun w hw => hw)
        have hun : unvisited g { st with queue := rest } = unvisited g st := rfl
        have hlen : st.queue.length = rest.length + 1 := by rw [hq]; simp
        simp only [hun] at hmeas
        refine ih _ d2 v h2 ?_ (by omega)
        rcases hdone with hd | hd
        · exact Or.inl hd
        · exact Or.inr (Or.inr (fun w hw => hd w hw))

end TreesGraphs
namespace TreesGraphs

/-- The loop that rebuilds the path, started at a visited vertex `v` that `parent` reaches
by `n` edges: it prepends the recorded path from `start` to `v`. -/
theorem buildPath_spec (g : Graph) (start finish u : Int) (C : Nat) (d : Int → Nat)
    (st : BfsState) (h : ScanInv g start finish u C d st) (n : Nat) :
    ∀ (v : Int) (acc : List Int) (fuel : Nat), st.visited v = true → d v = n → n + 2 ≤ fuel →
      ∃ p, buildPath st.parent fuel v acc = some (p ++ acc) ∧ p.head? = some start ∧
        p.getLast? = some v ∧ p.Chain' (Adj g) ∧ p.length = n + 1 := by
  induction n with
  | zero =>
    intro v acc fuel hv hd hf
    have hvs : v = start := by
      by_contra hne
      have := (h.par v hv hne).2.2
      omega
    subst hvs
    have hne : v ≠ -1 := fun e => by
      have := h.no_neg
      rw [← e, hv] at this
      exact absurd this (by simp)
    match fuel, hf with
    | fuel + 2, _ =>
      refine ⟨[v], ?_, rfl, rfl, List.chain'_singleton _, rfl⟩
      simp [buildPath, hne, h.start_parent]
  | succ n ih =>
    intro v acc fuel hv hd hf
    have hvs : v ≠ start := fun e => by
      rw [e, h.start_d] at hd
      omega
    have hne : v ≠ -1 := fun e => by
      have := h.no_neg
      rw [← e, hv] at this
      exact absurd this (by simp)
    obtain ⟨hpv, hadj, hdp⟩ := h.par v hv hvs
    match fuel, hf with
    | fuel + 1, hf =>
      obtain ⟨p, hp, hhead, hlast, hchain, hlen⟩ := ih (st.parent v) (v :: acc) fuel hpv
        (by omega) (by omega)
      have hpne : p ≠ [] := fun e => by
        rw [e] at hlen
        simp at hlen
      refine ⟨p ++ [v], ?_, ?_, List.getLast?_concat p, ?_, by simp [hlen]⟩
      · simp only [buildPath, ne_eq, hne, not_false_eq_true, if_true, hp]
        simp
      · rw [List.head?_append_of_ne_nil _ hpne]
        exact hhead
      · rw [List.chain'_append]
        refine ⟨hchain, List.chain'_singleton _, ?_⟩
        intro x hx y hy
        rw [hlast] at hx
        simp only [List.head?_cons, Option.mem_def, Option.some.injEq] at hx hy
        rw [← hx, ← hy]
        exact hadj

/-- A walk of `k` edges from `start` ends in a visited vertex at most `k` edges from
`start`, or passes a visited vertex, fewer than `k` edges from `start`, that has a
neighbour not yet visited. -/
theorem walk_frontier (g : Graph) (visited : Int → Bool) (d : Int → Nat) (start : Int)
    (hs : visited start = true) (hd : d start = 0) (q : List Int) :
    ∀ w, (q ++ [w]).Chain' (Adj g) → (q ++ [w]).head? = some start →
      (visited w = true ∧ d w ≤ q.length) ∨
      (∃ x, visited x = true ∧ ¬ (∀ y, Adj g x y → visited y = true ∧ d y ≤ d x + 1) ∧
        d x < q.length) := by
  induction q using List.reverseRecOn with
  | nil =>
    intro w _ hhead
    simp only [List.nil_append, List.head?_cons, Option.some.injEq] at hhead
    subst hhead
    exact Or.inl ⟨hs, by omega⟩
  | append_singleton q w2 ih =>
    intro w hchain hhead
    rw [List.chain'_append] at hchain
    obtain ⟨hc1, _, hc3⟩ := hchain
    have hadj : Adj g w2 w := hc3 w2 (by simp) w (by simp)
    rw [List.head?_append_of_ne_nil _ (by simp)] at hhead
    have hlen : (q ++ [w2]).length = q.length + 1 := by simp
    rcases ih w2 hc1 hhead with ⟨hv, hdw⟩ | ⟨x, hx, hnc, hdx⟩
    · by_cases hcl : ∀ y, Adj g w2 y → visited y = true ∧ d y ≤ d w2 + 1
      · obtain ⟨h1, h2⟩ := hcl w hadj
        exact Or.inl ⟨h1, by omega⟩
      · exact Or.inr ⟨w2, hv, hcl, by omega⟩
    · exact Or.inr ⟨x, hx, hnc, by omega⟩

theorem scanInv_init (g : Graph) (start finish : Int) (hse : start ≠ finish)
    (hs : start ≠ -1) :
    ScanInv g start finish start (allNeighbours g).toFinset.card (fun _ => 0)
      (bfsInit start) := by
  have hvis : ∀ v, (bfsInit start).visited v = true → v = start := by
    intro v hv
    by_contra hne
    simp [bfsInit, Function.update_noteq hne] at hv
  refine
    { start_vis := by simp [bfsInit]
      start_d := rfl
      start_parent := by simp [bfsInit]
      no_neg := by
        have : (-1 : Int) ≠ start := fun e => hs e.symm
        simp [bfsInit, Function.update_noteq this]
      par := fun v hv hne => absurd (hvis v hv) hne
      queue_vis := fun v hv => by
        have : v = start := by simpa [bfsInit] using hv
        subst this
        simp [bfsInit]
      queue_lo := fun v _ => Nat.le_refl _
      all_hi := fun v _ => by omega
      sorted := by simp [bfsInit]
      u_vis := by simp [bfsInit]
      proc := fun v hv hq _ => by
        have := hvis v hv
        subst this
        simp [bfsInit] at hq
      found_iff := by
        have : finish ≠ start := fun e => hse e.symm
        simp [bfsInit, Function.update_noteq this]
      budget := fun v _ => by
        have : unvisited g (bfsInit start) ≤ (allNeighbours g).toFinset.card :=
          Finset.card_filter_le _ _
        omega }

end TreesGraphs
namespace TreesGraphs

/-- C29 as amended: for every graph in which `-1` is not a vertex (`start` is not `-1` and
no adjacency list holds `-1`) and all vertices `start != end`, with fuel above the number
of entries of the adjacency lists: if `end` is reachable from `start`, `ShortestPath`
returns a path that begins with `start`, ends with `end`, has every consecutive pair
adjacent in `AdjList` and has no more vertices, hence no more edges, than any path from
`start` to `end`; if `end` is not reachable it returns nil. -/
theorem shortestPath_spec (fuel : Nat) (g : Graph) (start finish : Int)
    (hse : start ≠ finish) (hs : start ≠ -1) (hno : (-1 : Int) ∉ allNeighbours g)
    (hf : (allNeighbours g).length + 2 ≤ fuel) :
    ((∃ q, IsPath g start finish q) →
      ∃ path, ShortestPath fuel g start finish = some path ∧ IsPath g start finish path ∧
        ∀ q, IsPath g start finish q → path.length ≤ q.length) ∧
    ((¬ ∃ q, IsPath g start finish q) → ShortestPath fuel g start finish = some []) := by
  have hneg : ∀ v w, Adj g v w → w ≠ -1 := fun v w hvw e =>
    hno (e ▸ mem_allNeighbours g v w hvw)
  have hinit := scanInv_init g start finish hse hs
  have hC : (allNeighbours g).toFinset.card ≤ (allNeighbours g).length :=
    List.toFinset_card_le _
  have hU : unvisited g (bfsInit start) ≤ (allNeighbours g).toFinset.card :=
    Finset.card_filter_le _ _
  have hql : (bfsInit start).queue.length = 1 := rfl
  obtain ⟨st, d, u, hloop, hinv, hend⟩ := bfsLoop_spec g start finish _ hneg fuel
    (bfsInit start) (fun _ => 0) start hinit (Or.inr (Or.inl (by simp [bfsInit])))
    (by omega)
  have hwalk : ∀ q, IsPath g start finish q →
      (st.visited finish = true ∧ d finish + 1 ≤ q.length) ∨
      (∃ x, st.visited x = true ∧ ¬ (∀ y, Adj g x y → st.visited y = true ∧ d y ≤ d x + 1) ∧
        d x + 1 < q.length) := by
    rintro q ⟨hhead, hlast, hchain⟩
    obtain ⟨q2, hq2⟩ := List.getLast?_eq_some_iff.1 hlast
    subst hq2
    have := walk_frontier g st.visited d start hinv.start_vis hinv.start_d q2 finish hchain
      hhead
    rcases this with ⟨h1, h2⟩ | ⟨x, h1, h2, h3⟩
    · exact Or.inl ⟨h1, by simp; omega⟩
    · exact Or.inr ⟨x, h1, h2, by simp; omega⟩
  unfold ShortestPath
  rw [hloop]
  simp only []
  by_cases hfound : st.found = true
  · have hvf : st.visited finish = true := hinv.found_iff.1 hfound
    rw [if_neg (by simp [hfound])]
    have hdf := hinv.budget finish hvf
    obtain ⟨p, hp, hhead, hlast, hchain, hlen⟩ := buildPath_spec g start finish u _ d st hinv
      (d finish) finish [] fuel hvf rfl (by omega)
    rw [List.append_nil] at hp
    have hpath : IsPath g start finish p := ⟨hhead, hlast, hchain⟩
    refine ⟨fun _ => ⟨p, hp, hpath, ?_⟩, fun hnone => absurd ⟨p, hpath⟩ hnone⟩
    intro q hq
    rcases hwalk q hq with ⟨_, h2⟩ | ⟨x, hx, hnc, hdx⟩
    · omega
    · have hux : d u ≤ d x := by
        by_cases hxq : x ∈ st.queue
        · exact hinv.queue_lo x hxq
        · by_cases hxu : x = u
          · rw [hxu]
          · exact absurd (hinv.proc x hx hxq hxu) hnc
      have := hinv.all_hi finish hvf
      omega
  · have hnf : st.found = false := by simpa using hfound
    rw [if_pos hnf]
    obtain ⟨hempty, hclosed⟩ : st.queue = [] ∧ ∀ w, Adj g u w → st.visited w = true := by
      rcases hend with h | h
      · exact absurd h hfound
      · exact h
    have hnone : ¬ ∃ q, IsPath g start finish q := by
      rintro ⟨q, hq⟩
      rcases hwalk q hq with ⟨h1, _⟩ | ⟨x, hx, hnc, _⟩
      · exact hfound (hinv.found_iff.2 h1)
      · apply hnc
        by_cases hxu : x = u
        · intro y hy
          rw [hxu] at hy
          have hvy := hclosed y hy
          have := hinv.all_hi y hvy
          rw [hxu]
          exact ⟨hvy, this⟩
        · exact hinv.proc x hx (by rw [hempty]; simp) hxu
    exact ⟨fun h => absurd h hnone, fun _ => rfl⟩

/-- Witness of C29 as amended on the graph of `main` (lines 542-554) and its call
`ShortestPath(0, 5)`; vertex 7 is not reachable. -/
theorem shortestPath_spec_witness :
    (((∃ q, IsPath mainGraph 0 5 q) →
      ∃ path, ShortestPath 16 mainGraph 0 5 = some path ∧ IsPath mainGraph 0 5 path ∧
        ∀ q, IsPath mainGraph 0 5 q → path.length ≤ q.length) ∧
    ((¬ ∃ q, IsPath mainGraph 0 5 q) → ShortestPath 16 mainGraph 0 5 = some [])) ∧
    ShortestPath 16 mainGraph 0 5 = some [0, 1, 3, 5] ∧
    IsPath mainGraph 0 5 [0, 1, 3, 5] ∧ ShortestPath 16 mainGraph 0 7 = some [] :=
  ⟨shortestPath_spec 16 mainGraph 0 5 (by decide) (by decide) (by decide) (by decide),
    by decide, ⟨rfl, rfl, by simp only [List.chain'_cons, List.chain'_singleton, Adj]; decide⟩,
    by decide⟩

/-- C29 fails on a graph that has the vertex `-1`, built with
`AddEdge(0, -1)` and `AddEdge(-1, 2)`: vertex 2 is reachable from vertex 0 by the path
`0, -1, 2`, and `ShortestPath(0, 2)` returns `[2]`, which does not begin with `start`: the
loop that rebuilds the path takes the vertex `-1` for the parent of `start`. -/
theorem shortestPath_minus_one_vertex :
    IsPath minusOneGraph 0 2 [0, -1, 2] ∧ ShortestPath 6 minusOneGraph 0 2 = some [2] ∧
    ¬ IsPath minusOneGraph 0 2 [2] := by
  refine ⟨⟨rfl, rfl, ?_⟩, by decide, fun h => ?_⟩
  · simp only [List.chain'_cons, List.chain'_singleton, Adj]
    decide
  · have := h.1
    simp at this

end TreesGraphs


namespace BoundedParallelism

theorem bp_eventsOf_append (log : List (Nat × WorkerPc)) (i j : Nat) (pc : WorkerPc) :
    eventsOf (log ++ [(i, pc)]) j = eventsOf log j ++ (if i = j then [pc] else []) := by
  unfold eventsOf
  by_cases h : i = j <;> simp [List.filter_append, h]

theorem bp_acquires_append (log : List (Nat × WorkerPc)) (i : Nat) (pc : WorkerPc) :
    acquires (log ++ [(i, pc)]) = acquires log + (if pc = .acquire then 1 else 0) := by
  unfold acquires
  by_cases h : pc = .acquire <;> simp [List.filter_append, h]

theorem bp_releases_append (log : List (Nat × WorkerPc)) (i : Nat) (pc : WorkerPc) :
    releases (log ++ [(i, pc)]) = releases log + (if pc = .release then 1 else 0) := by
  unfold releases
  by_cases h : pc = .release <;> simp [List.filter_append, h]

/-- The workers past the acquire are those that hold a slot and those past the release. -/
theorem bp_acquired_split (l : List Worker) :
    (l.filter (fun w => w.pc.holdsSlot)).length + (l.filter (fun w => w.pc.released)).length
      = (l.filter (fun w => w.pc.acquired)).length := by
  induction l with
  | nil => rfl
  | cons w rest ih =>
    have h1 : w.pc.holdsSlot = true → w.pc.acquired = true ∧ w.pc.released = false := by
      cases w.pc <;> simp [WorkerPc.holdsSlot, WorkerPc.acquired, WorkerPc.released]
    have h2 : w.pc.released = true → w.pc.acquired = true ∧ w.pc.holdsSlot = false := by
      cases w.pc <;> simp [WorkerPc.holdsSlot, WorkerPc.acquired, WorkerPc.released]
    have h3 : w.pc.acquired = true → w.pc.holdsSlot = true ∨ w.pc.released = true := by
      cases w.pc <;> simp [WorkerPc.holdsSlot, WorkerPc.acquired, WorkerPc.released]
    simp only [List.filter_cons]
    cases ha : w.pc.holdsSlot <;> cases hb : w.pc.released <;> cases hc : w.pc.acquired <;>
      rw [ha, hb, hc] at h1 h2 h3 <;>
      first
      | exact absurd (h1 rfl).1 (by decide)
      | exact absurd (h1 rfl).2 (by decide)
      | exact absurd (h2 rfl).1 (by decide)
      | exact absurd (h3 rfl) (by decide)
      | (simp only [if_true, if_false, Bool.false_eq_true, List.length_cons]; omega)

theorem bp_logInv_init : LogInv init [] :=
  { hist := fun i => by simp [eventsOf, init]
    acq := rfl
    rel := rfl }

theorem bp_logInv_same (s : State) {t : State} {log : List (Nat × WorkerPc)}
    (hw : t.workers = s.workers) (h : LogInv s log) : LogInv t log :=
  { hist := fun i => by rw [hw]; exact h.hist i
    acq := by rw [hw]; exact h.acq
    rel := by rw [hw]; exact h.rel }

/-- Starting a worker adds no statement to the log. -/
theorem bp_logInv_spawn (s : State) {t : State} {log : List (Nat × WorkerPc)} (index : Nat)
    (value : Int) (hw : t.workers = s.workers ++ [⟨index, value, .acquire⟩])
    (h : LogInv s log) : LogInv t log := by
  refine
    { hist := fun i => ?_
      acq := by rw [hw, h.acq]; simp [List.filter_append, WorkerPc.acquired]
      rel := by rw [hw, h.rel]; simp [List.filter_append, WorkerPc.released] }
  rw [hw, h.hist i]
  by_cases hi : i < s.workers.length
  · rw [List.getElem?_append_left hi]
  · rw [List.getElem?_eq_none (by omega)]
    by_cases hi2 : i = s.workers.length
    · subst hi2
      simp [WorkerPc.history]
    · rw [List.getElem?_eq_none (by simp; omega)]

/-- A statement of worker `i` extends the log by that statement. -/
theorem bp_logInv_setPc (s : State) {t : State} {log : List (Nat × WorkerPc)} (i : Nat) (w : Worker)
    (next : WorkerPc) (hi : s.workers[i]? = some w)
    (hw : t.workers = s.workers.set i { w with pc := next })
    (hh : next.history = w.pc.history ++ [w.pc])
    (ha : (if next.acquired then 1 else 0)
      = (if w.pc.acquired then 1 else 0) + (if w.pc = .acquire then 1 else 0))
    (hr : (if next.released then 1 else 0)
      = (if w.pc.released then 1 else 0) + (if w.pc = .release then 1 else 0))
    (h : LogInv s log) : LogInv t (log ++ [(i, w.pc)]) := by
  have hlt : i < s.workers.length := by
    by_contra hge
    rw [List.getElem?_eq_none (by omega)] at hi
    simp at hi
  refine { hist := fun j => ?_, acq := ?_, rel := ?_ }
  · rw [bp_eventsOf_append, h.hist j, hw, List.getElem?_set]
    by_cases hij : i = j
    · subst hij
      simp [hi, hlt, hh]
    · simp [hij]
  · have := filter_length_set (fun w : Worker => w.pc.acquired) s.workers i w
      { w with pc := next } hi
    simp only [] at this
    rw [bp_acquires_append, h.acq, hw]
    omega
  · have := filter_length_set (fun w : Worker => w.pc.released) s.workers i w
      { w with pc := next } hi
    simp only [] at this
    rw [bp_releases_append, h.rel, hw]
    omega

theorem bp_logInv_step {jobs : List Int} {maxWorkers : Nat} {s t : State} {a : Action}
    {log : List (Nat × WorkerPc)} (h : LogInv s log) (hs : step jobs maxWorkers s a = some t) :
    LogInv t (log ++ eventOf s a) := by
  cases a with
  | main =>
    simp only [eventOf, List.append_nil]
    simp only [step, stepMain] at hs
    split at hs
    · split at hs
      · simp only [Option.some.injEq] at hs
        subst hs
        exact bp_logInv_spawn s _ _ rfl h
      · simp only [Option.some.injEq] at hs
        subst hs
        exact bp_logInv_same s rfl h
    · simp only [Option.some.injEq] at hs
      subst hs
      exact bp_logInv_same s rfl h
    · simp only [Option.some.injEq] at hs
      subst hs
      exact bp_logInv_same s rfl h
    · split at hs
      · simp only [Option.some.injEq] at hs
        subst hs
        exact bp_logInv_same s rfl h
      · split at hs
        · simp only [Option.some.injEq] at hs
          subst hs
          exact bp_logInv_same s rfl h
        · simp at hs
    · simp at hs
  | closer =>
    simp only [eventOf, List.append_nil]
    simp only [step, stepCloser] at hs
    split at hs
    · split at hs
      · simp only [Option.some.injEq] at hs
        subst hs
        exact bp_logInv_same s rfl h
      · simp at hs
    · simp only [Option.some.injEq] at hs
      subst hs
      exact bp_logInv_same s rfl h
    · simp at hs
    · simp at hs
  | worker i =>
    simp only [step, stepWorker] at hs
    cases hi : s.workers[i]? with
    | none => simp [hi] at hs
    | some w =>
      simp only [hi] at hs
      simp only [eventOf, hi]
      cases hpc : w.pc with
      | acquire =>
        simp only [hpc] at hs
        split at hs
        · simp only [Option.some.injEq] at hs
          subst hs
          rw [← hpc]
          exact bp_logInv_setPc s i w .process hi rfl (by simp [hpc, WorkerPc.history])
            (by simp [hpc, WorkerPc.acquired]) (by simp [hpc, WorkerPc.released]) h
        · simp at hs
      | process =>
        simp only [hpc] at hs
        split at hs
        · simp only [Option.some.injEq] at hs
          subst hs
          rw [← hpc]
          exact bp_logInv_setPc s i w .release hi rfl (by simp [hpc, WorkerPc.history])
            (by simp [hpc, WorkerPc.acquired]) (by simp [hpc, WorkerPc.released]) h
        · simp at hs
      | release =>
        simp only [hpc] at hs
        split at hs
        · simp only [Option.some.injEq] at hs
          subst hs
          rw [← hpc]
          exact bp_logInv_setPc s i w .wgDone hi rfl (by simp [hpc, WorkerPc.history])
            (by simp [hpc, WorkerPc.acquired]) (by simp [hpc, WorkerPc.released]) h
        · simp at hs
      | wgDone =>
        simp only [hpc] at hs
        split at hs
        · simp only [Option.some.injEq] at hs
          subst hs
          rw [← hpc]
          exact bp_logInv_setPc s i w .exited hi rfl (by simp [hpc, WorkerPc.history])
            (by simp [hpc, WorkerPc.acquired]) (by simp [hpc, WorkerPc.released]) h
        · simp at hs
      | exited => simp [hpc] at hs

/-- The logging run visits the states of `run`, and its log agrees with the workers. -/
theorem bp_logInv_run {jobs : List Int} {maxWorkers : Nat} (sched : List Action)
    {s t : State} {log log2 : List (Nat × WorkerPc)} (h : LogInv s log)
    (hs : runLog jobs maxWorkers s log sched = some (t, log2)) :
    run jobs maxWorkers s sched = some t ∧ LogInv t log2 := by
  induction sched generalizing s log with
  | nil =>
    simp only [runLog, Option.some.injEq, Prod.mk.injEq] at hs
    obtain ⟨h1, h2⟩ := hs
    subst h1 h2
    exact ⟨rfl, h⟩
  | cons a rest ih =>
    simp only [runLog] at hs
    cases hst : step jobs maxWorkers s a with
    | none => simp [hst] at hs
    | some u =>
      simp only [hst, Option.some_bind] at hs
      obtain ⟨h1, h2⟩ := ih (bp_logInv_step h hst) hs
      exact ⟨by simp only [run, hst, Option.some_bind, h1], h2⟩

/-- Every run has a logging run. -/
theorem bp_runLog_of_run {jobs : List Int} {maxWorkers : Nat} (sched : List Action)
    {s t : State} (log : List (Nat × WorkerPc)) (hs : run jobs maxWorkers s sched = some t) :
    ∃ log2, runLog jobs maxWorkers s log sched = some (t, log2) := by
  induction sched generalizing s log with
  | nil =>
    simp only [run, Option.some.injEq] at hs
    subst hs
    exact ⟨log, rfl⟩
  | cons a rest ih =>
    simp only [run] at hs
    cases hst : step jobs maxWorkers s a with
    | none => simp [hst] at hs
    | some u =>
      simp only [hst, Option.some_bind] at hs
      obtain ⟨log2, h2⟩ := ih (log ++ eventOf s a) hs
      exact ⟨log2, by simp only [runLog, hst, Option.some_bind, h2]⟩

theorem bp_history_isPrefix (pc : WorkerPc) :
    pc.history <+: [WorkerPc.acquire, .process, .release, .wgDone] := by
  cases pc
  · exact ⟨_, rfl⟩
  · exact ⟨[.process, .release, .wgDone], rfl⟩
  · exact ⟨[.release, .wgDone], rfl⟩
  · exact ⟨[.wgDone], rfl⟩
  · exact ⟨[], rfl⟩

/-- C31: in every run of `boundedParallelism`, for every number of jobs and every
`maxWorkers`: the statements of each worker are a beginning of "acquire the slot, process
the job, release the slot, signal completion", so a worker releases only a slot it has
acquired, releases at most once and releases before it signals completion; the semaphore
holds the acquired slots that are not yet released; and when `boundedParallelism` has
returned every worker has run all four statements in that order, the number of releases
equals the number of acquires equals `len(jobs)`, and the semaphore holds zero slots.  For
`maxWorkers >= 1` every run can be continued to the return. -/
theorem semaphore_released (jobs : List Int) (maxWorkers : Nat) (sched : List Action)
    (s : State) (log : List (Nat × WorkerPc))
    (hrun : runLog jobs maxWorkers init [] sched = some (s, log)) :
    run jobs maxWorkers init sched = some s ∧
    (∀ i, eventsOf log i <+: [WorkerPc.acquire, .process, .release, .wgDone]) ∧
    acquires log ≤ jobs.length ∧
    s.held + releases log = acquires log ∧
    (s.main = .returned →
      (∀ i, i < jobs.length →
        eventsOf log i = [WorkerPc.acquire, .process, .release, .wgDone]) ∧
      acquires log = jobs.length ∧ releases log = jobs.length ∧ s.held = 0) ∧
    (1 ≤ maxWorkers →
      ∃ rest t log2, runLog jobs maxWorkers s log rest = some (t, log2) ∧
        t.main = .returned) := by
  obtain ⟨hr, hl⟩ := bp_logInv_run sched bp_logInv_init hrun
  have h := bp_inv_reachable hr
  have hsplit := bp_acquired_split s.workers
  have hheld : s.held + releases log = acquires log := by
    rw [h.held_eq, hl.rel, hl.acq]
    exact hsplit
  have hacq : acquires log ≤ jobs.length := by
    rw [hl.acq]
    exact Nat.le_trans (List.length_filter_le _ _) h.len_le
  refine ⟨hr, ?_, hacq, hheld, ?_, ?_⟩
  · intro i
    rw [hl.hist i]
    cases s.workers[i]? with
    | none => exact ⟨_, rfl⟩
    | some w => exact bp_history_isPrefix w.pc
  · intro hret
    have hall : ∀ w ∈ s.workers, w.pc = .exited :=
      h.closer_done (Or.inr (h.closed_iff.1 (h.ret hret).2))
    have hlen : s.workers.length = jobs.length := by
      apply h.main_rest
      intro k hk
      rw [hret] at hk
      exact absurd hk (by simp)
    have hA : acquires log = jobs.length := by
      rw [hl.acq, List.filter_eq_self.2 (fun w hw => by rw [hall w hw]; rfl), hlen]
    have hR : releases log = jobs.length := by
      rw [hl.rel, List.filter_eq_self.2 (fun w hw => by rw [hall w hw]; rfl), hlen]
    refine ⟨?_, hA, hR, by omega⟩
    intro i hi
    have hlt : i < s.workers.length := by omega
    rw [hl.hist i, List.getElem?_eq_getElem hlt]
    have := hall _ (List.getElem_mem hlt)
    simp only [Option.map_some', Option.getD_some, this]
    rfl
  · intro hK
    obtain ⟨rest, t, hrest, ht⟩ := bp_exists_return hK (measure jobs s) s (Nat.le_refl _) h
    obtain ⟨log2, hlog2⟩ := bp_runLog_of_run rest log hrest
    exact ⟨rest, t, log2, hlog2, ht⟩

/-- Witness of C31 on the run `demoSchedule` of `boundedParallelism([10,20,30,40,50], 2)`:
five acquires, five releases, no slot held at the return, and worker 2, the last to
finish, has released before it signals completion. -/
theorem semaphore_released_witness :
    runLog [10, 20, 30, 40, 50] 2 init [] demoSchedule = some (demoFinal, demoLog) ∧
    eventsOf demoLog 2 = [WorkerPc.acquire, .process, .release, .wgDone] ∧
    acquires demoLog = 5 ∧ releases demoLog = 5 ∧ demoFinal.held = 0 :=
  have hrun : runLog [10, 20, 30, 40, 50] 2 init [] demoSchedule = some (demoFinal, demoLog) := by
    decide
  have h := (semaphore_released [10, 20, 30, 40, 50] 2 demoSchedule demoFinal demoLog
    hrun).2.2.2.2.1 rfl
  ⟨hrun, h.1 2 (by decide), h.2.1, h.2.2.1, h.2.2.2⟩

/-- A run in which slots are held: after `fullSchedule` two slots are acquired, none is
released, and the semaphore holds two. -/
theorem semaphore_held_example :
    (runLog [10, 20, 30] 2 init [] fullSchedule).map Prod.snd
      = some [(2, .acquire), (0, .acquire)] ∧
    fullState.held = 2 := by
  decide

end BoundedParallelism

end GoStudyPlan
